import Mathlib

/-!
# plar/aof : the AOF scanner and validating state machine

A shallow embedding of `src/aof/lex.go` and `src/aof/parser.go`.

Modelling conventions.

* The input is the sequence of runes `bufio.Reader.ReadRune` delivers, followed by
  the way the read ends (`io.EOF` or another read error).
* The scanner goroutine and the validator goroutine exchange tokens over an
  unbuffered channel; the token order is the scanner's emission order, so the
  validator is modelled as consuming the list of tokens the scanner emits.  Once
  the scanner has returned nothing sends on the channel any more: a further
  `nextToken` never returns (no `Quit`), which the model records as `blocked`.
* The events sent on `p.events` are collected, in order, in the field `events`: the
  stream a consumer sees that takes every event and never calls `Quit`.
* `Parse rd e n` is the validator after `n` iterations of the loop of
  `AOFParser.Parse`; state `none` is Go's `nil`, where the loop has ended.
* Go's `int` is the 64-bit signed integer; the one arithmetic operation on values
  (`v.val + p.curDelta`) wraps accordingly.  The line counters cannot overflow on
  any input that fits in memory and are kept as unbounded integers.
-/

namespace aof

/-! ## lex.go -/

inductive tokenType where
  | tokenError
  | tokenSpace
  | tokenNumber
  | tokenString
  | tokenEOL
  | tokenEOF
  | tokenQuit
  deriving DecidableEq, Repr

open tokenType

/-- Go method `tokenType.String`. -/
def tokenType.String : tokenType → String
  | tokenError => "tokenError"
  | tokenSpace => "tokenSpace"
  | tokenNumber => "tokenNumber"
  | tokenString => "tokenString"
  | tokenEOL => "tokenEOL"
  | tokenEOF => "tokenEOF"
  | _ => "tokenUnknow"

structure token where
  typ : tokenType
  val : String
  deriving DecidableEq, Repr

/-- Outcome of `strconv.ParseInt` / `strconv.ParseUint`: `err == nil`, `ErrSyntax`
or `ErrRange`. -/
inductive NumError where
  | ok
  | ErrSyntax
  | ErrRange
  deriving DecidableEq, Repr

/-- The digit loop of the standard library's `strconv.ParseUint` for base 10; `n` is
the `uint64` accumulator, `maxVal = 1<<bitSize - 1`.  A byte that is not a decimal
digit is a syntax error. -/
def ParseUintLoop (maxVal : Nat) : List Char → Nat → Nat × NumError
  | [], n => (n, NumError.ok)
  | c :: cs, n =>
    if c.isDigit then
      let d := c.toNat - '0'.toNat
      if n ≥ (2 ^ 64 - 1) / 10 + 1 then (maxVal, NumError.ErrRange)
      else
        let n10 := n * 10
        let n1 := (n10 + d) % 2 ^ 64
        if n1 < n10 ∨ n1 > maxVal then (maxVal, NumError.ErrRange)
        else ParseUintLoop maxVal cs n1
    else (0, NumError.ErrSyntax)

/-- Standard library `strconv.ParseUint(s, 10, bitSize)`. -/
def ParseUint (s : List Char) (bitSize : Nat) : Nat × NumError :=
  if s = [] then (0, NumError.ErrSyntax)
  else ParseUintLoop (2 ^ bitSize - 1) s 0

/-- Standard library `strconv.ParseInt(s, 10, bitSize)`: an optional sign, then
`ParseUint`; a syntax error yields 0, a range error the nearest bound. -/
def ParseInt (s : String) (bitSize : Nat) : Int × NumError :=
  match s.data with
  | [] => (0, NumError.ErrSyntax)
  | c :: cs =>
    let neg := c == '-'
    let s1 := if c == '+' ∨ c == '-' then cs else c :: cs
    let r := ParseUint s1 bitSize
    if r.2 = NumError.ErrSyntax then (0, NumError.ErrSyntax)
    else
      let cutoff : Nat := 2 ^ (bitSize - 1)
      if ¬ neg ∧ r.1 ≥ cutoff then (((cutoff - 1 : Nat) : Int), NumError.ErrRange)
      else if neg ∧ r.1 > cutoff then (-(cutoff : Int), NumError.ErrRange)
      else (if neg then -(r.1 : Int) else (r.1 : Int), NumError.ok)

def isSpace (r : Char) : Bool := r == ' ' || r == '\t'

def isEOL (r : Char) : Bool := r == '\n' || r == '\r'

/-- How `ReadRune` fails once the runes are used up: `io.EOF` or another error. -/
inductive readEnd where
  | EOF
  | failure
  deriving DecidableEq, Repr

/-- Go method `lexer.error`: `tokenEOF` for `io.EOF`, `tokenError` otherwise. -/
def lexer.error (e : readEnd) : List token :=
  match e with
  | readEnd.EOF => [⟨tokenEOF, ""⟩]
  | readEnd.failure => [⟨tokenError, ""⟩]

/-- Go method `lexer.emitValue`. -/
def lexer.emitValue (val : String) : List token :=
  if (ParseInt val 64).2 = NumError.ok then [⟨tokenNumber, val⟩] else [⟨tokenString, val⟩]

inductive stateFunc where
  | lexSpace
  | lexEOL
  | lexString
  deriving DecidableEq, Repr

/-- Result of one call of a scanner state function: the tokens it emitted, the
runes left in the reader and the state it returned (`none` is Go's `nil`). -/
structure lexResult where
  out : List token
  rest : List Char
  next : Option stateFunc

/-- State function `lexSpace`; the second argument is the local `spaces`. -/
def lexSpace (e : readEnd) : List Char → Nat → lexResult
  | [], spaces =>
    ⟨(if spaces > 0 then [⟨tokenSpace, ""⟩] else []) ++ lexer.error e, [], none⟩
  | r :: rs, spaces =>
    if isSpace r then lexSpace e rs (spaces + 1)
    else ⟨(if spaces > 0 then [⟨tokenSpace, ""⟩] else []), r :: rs, some stateFunc.lexString⟩

/-- State function `lexEOL`; the second argument collects the tokens emitted so far
in this call. -/
def lexEOL (e : readEnd) : List Char → List token → lexResult
  | [], acc => ⟨acc ++ lexer.error e, [], none⟩
  | r :: rs, acc =>
    if isEOL r then
      if r == '\n' then lexEOL e rs (acc ++ [⟨tokenEOL, ""⟩]) else lexEOL e rs acc
    else ⟨acc, r :: rs, some stateFunc.lexString⟩

/-- State function `lexString`; the second argument is the local `buf`. -/
def lexString (e : readEnd) : List Char → List Char → lexResult
  | [], buf =>
    ⟨(if buf.length > 0 then lexer.emitValue (String.mk buf) else []) ++ lexer.error e, [], none⟩
  | r :: rs, buf =>
    if !isSpace r && !isEOL r then lexString e rs (buf ++ [r])
    else
      ⟨(if buf.length > 0 then lexer.emitValue (String.mk buf) else []), r :: rs,
        some (if isSpace r then stateFunc.lexSpace else stateFunc.lexEOL)⟩

def stateFunc.call (e : readEnd) (s : stateFunc) (rd : List Char) : lexResult :=
  match s with
  | stateFunc.lexSpace => aof.lexSpace e rd 0
  | stateFunc.lexEOL => aof.lexEOL e rd []
  | stateFunc.lexString => aof.lexString e rd []

/-- The loop of Go method `lexer.run`, bounded by a number of state-function calls. -/
def lexer.runLoop (e : readEnd) : Nat → Option stateFunc → List Char → List token
  | _, none, _ => []
  | 0, some _, _ => []
  | n + 1, some s, rd =>
    let r := s.call e rd
    r.out ++ lexer.runLoop e n r.next r.rest

/-- Go method `lexer.run`: all the tokens the scanner emits.  A call of `lexSpace`
or `lexEOL` consumes at least one rune and `lexString` is always followed by one of
them, so `2 * length + 2` calls reach `nil`. -/
def lexer.run (rd : List Char) (e : readEnd) : List token :=
  lexer.runLoop e (2 * rd.length + 2) (some stateFunc.lexString) rd

/-! ## parser.go -/

/-- Go type `EventType`: an `int` used as a set of bit flags (`1 << iota`). -/
abbrev EventType := Nat

def EventError : EventType := 1 <<< 0
def EventHeader : EventType := 1 <<< 1
def EventCreate : EventType := 1 <<< 2
def EventDelete : EventType := 1 <<< 3
def EventModify : EventType := 1 <<< 4
def EventSet : EventType := 1 <<< 5
def EventCompleted : EventType := 1 <<< 6
def EventQuit : EventType := 1 <<< 7
def EventFinal : EventType := 1 <<< 8

structure Event where
  Typ : EventType
  Key : String
  Value : Int
  Deleted : Bool
  deriving DecidableEq, Repr

structure value where
  val : Int
  deleted : Bool
  deriving DecidableEq, Repr

inductive parserStateFunc where
  | aofHeaderTotal
  | aofHeader
  | aofBodyEvent
  | aofBodyKey
  | aofBodyValue
  | aofBodyModifyOperator
  | aofEmitBodyEvent
  | aofBodyNextLine
  deriving DecidableEq, Repr

/-- Go struct `AOFParser`.  `toks` stands for `lex` (the tokens the scanner has yet
to hand over), `events` for the channel `events` (everything sent on it so far);
`blocked` records that the goroutine waits for a token that never comes.  Go maps
are functions into `Option`. -/
structure AOFParser where
  toks : List token
  events : List Event
  blocked : Bool
  err : Option String
  headerTotal : Int
  headers : String → Option Int
  values : String → Option value
  curHeaderLine : Int
  curBodyLine : Int
  lastValidLine : Int
  curEvent : EventType
  curKey : String
  curDelta : Int
  curValue : Int

/-- Go map assignment `m[k] = v`. -/
def mapSet {α : Type} (m : String → Option α) (k : String) (v : α) : String → Option α :=
  fun k1 => if k1 = k then some v else m k1

/-- Go expression `p.headers[k]` (zero value for a missing key). -/
def headerOf (m : String → Option Int) (k : String) : Int := (m k).getD 0

/-- Go expression `p.values[k]` (zero value for a missing key). -/
def valueOf (m : String → Option value) (k : String) : value := (m k).getD ⟨0, false⟩

/-- Conversion to Go's 64-bit `int` with wrap-around. -/
def wrapInt (x : Int) : Int := (x + 2 ^ 63) % 2 ^ 64 - 2 ^ 63

/-- Go `fmt` verb `%d`. -/
def fmtInt (i : Int) : String := toString i

/-- Go `fmt` verb `%v` on a `[]tokenType`. -/
def fmtTokenTypes (l : List tokenType) : String :=
  "[" ++ " ".intercalate (l.map tokenType.String) ++ "]"

/-- One rune of `strings.ToUpper`: ASCII letters, and the two non-ASCII runes whose
upper case is an ASCII letter (U+0131 and U+017F).  Every other rune is left as it
is: the validator only compares the result with ASCII keywords, and no other rune
maps to an ASCII letter. -/
def toUpperRune (c : Char) : Char :=
  if c = Char.ofNat 0x131 then 'I'
  else if c = Char.ofNat 0x17F then 'S'
  else c.toUpper

/-- Standard library `strings.ToUpper`, as far as the validator observes it. -/
def ToUpper (s : String) : String := String.mk (s.data.map toUpperRune)

/-- Go function `NewAOFParser`, with the scanner's tokens in place of the reader. -/
def NewAOFParser (toks : List token) : AOFParser :=
  { toks := toks, events := [], blocked := false, err := none, headerTotal := 0,
    headers := fun _ => none, values := fun _ => none, curHeaderLine := 0,
    curBodyLine := 0, lastValidLine := 0, curEvent := 0, curKey := "", curDelta := 0,
    curValue := 0 }

def newEvent (typ : EventType) : Event := ⟨typ, "", 0, false⟩

/-- Go method `AOFParser.emit` (the consumer takes every event). -/
def AOFParser.emit (p : AOFParser) (event : Event) : AOFParser :=
  { p with events := p.events ++ [event] }

/-- The text Go method `AOFParser.error` stores in `p.err`: the line prefix
(`p.curHeaderLine+p.curBodyLine+1`) followed by the formatted message. -/
def AOFParser.errorText (p : AOFParser) (msg : String) : String :=
  "ERROR at line " ++ fmtInt (p.curHeaderLine + p.curBodyLine + 1) ++ ": " ++ msg

/-- Go method `AOFParser.error`; `msg` is `fmt.Sprintf(format, args...)`. -/
def AOFParser.error (p : AOFParser) (msg : String) : AOFParser :=
  let p1 := { p with err := some (p.errorText msg) }
  p1.emit ⟨EventError, p1.curKey, p1.curValue, (valueOf p1.values p1.curKey).deleted⟩

/-- The loop of Go method `AOFParser.nextNonSpace` over the scanner's tokens; `none`
when the tokens run out before a non-space one (the receive blocks). -/
def nextNonSpaceLoop : List token → Option (token × List token)
  | [] => none
  | t :: ts => if t.typ ≠ tokenSpace then some (t, ts) else nextNonSpaceLoop ts

def AOFParser.nextNonSpace (p : AOFParser) : Option (token × AOFParser) :=
  match nextNonSpaceLoop p.toks with
  | none => none
  | some (t, ts) => some (t, { p with toks := ts })

def AOFParser.unexpected (p : AOFParser) (actual : tokenType) (expected : List tokenType) :
    AOFParser :=
  match expected with
  | [e] => p.error ("Unexpected token: " ++ actual.String ++ ", expected " ++ e.String)
  | _ =>
    p.error ("Unexpected token: " ++ actual.String ++ ", expected one of " ++
      fmtTokenTypes expected)

def AOFParser.expect (p : AOFParser) (typ : tokenType) : Option (token × AOFParser) :=
  match p.nextNonSpace with
  | none => none
  | some (t, p1) => some (t, if t.typ ≠ typ then p1.unexpected t.typ [typ] else p1)

def AOFParser.expectOneOf (p : AOFParser) (expectedValues : List tokenType) :
    Option (token × AOFParser) :=
  match p.nextNonSpace with
  | none => none
  | some (t, p1) =>
    some (t, if t.typ ∈ expectedValues then p1 else p1.unexpected t.typ expectedValues)

/-- The goroutine waits for ever: no further state function runs. -/
def AOFParser.block (p : AOFParser) : AOFParser × Option parserStateFunc :=
  ({ p with blocked := true }, none)

def aofHeaderTotal (p : AOFParser) : AOFParser × Option parserStateFunc :=
  match p.expect tokenNumber with
  | none => p.block
  | some (tok, p1) =>
    if tok.typ ≠ tokenNumber then (p1, none)
    else
      let p2 := { p1 with headerTotal := (ParseInt tok.val 64).1 }
      if p2.headerTotal ≤ (0 : Int) then (p2.emit (newEvent EventCompleted), none)
      else
        match p2.expect tokenEOL with
        | none => p2.block
        | some (_, p3) => ({ p3 with curHeaderLine := p3.curHeaderLine + 1 }, some .aofHeader)

/-- The `for` loop of `aofHeader`; the first argument is the number of iterations
still to run.  The flag is false when the loop body returned `nil`. -/
def aofHeaderLoop : Nat → AOFParser → AOFParser × Bool
  | 0, p => (p, true)
  | n + 1, p =>
    match p.expectOneOf [tokenString, tokenNumber] with
    | none => (p.block.1, false)
    | some (key, p1) =>
      if key.typ ≠ tokenString ∧ key.typ ≠ tokenNumber then (p1, false)
      else
        match p1.expect tokenNumber with
        | none => (p1.block.1, false)
        | some (rawLastLine, p2) =>
          if rawLastLine.typ ≠ tokenNumber then (p2, false)
          else
            let lastLine := (ParseInt rawLastLine.val 32).1
            let p3 := { p2 with headers := mapSet p2.headers key.val lastLine }
            let p4 := { p3 with
              lastValidLine := if lastLine > p3.lastValidLine then lastLine else p3.lastValidLine }
            match p4.expect tokenEOL with
            | none => (p4.block.1, false)
            | some (_, p5) => aofHeaderLoop n { p5 with curHeaderLine := p5.curHeaderLine + 1 }

def aofHeader (p : AOFParser) : AOFParser × Option parserStateFunc :=
  match aofHeaderLoop p.headerTotal.toNat p with
  | (p1, false) => (p1, none)
  | (p1, true) => (p1.emit (newEvent EventHeader), some .aofBodyEvent)

def aofBodyEvent (p : AOFParser) : AOFParser × Option parserStateFunc :=
  match p.expect tokenString with
  | none => p.block
  | some (rawEvent, p1) =>
    if rawEvent.typ ≠ tokenString then (p1, none)
    else
      let action := ToUpper rawEvent.val
      if action = "CREATE" then ({ p1 with curEvent := EventCreate }, some .aofBodyKey)
      else if action = "DELETE" then ({ p1 with curEvent := EventDelete }, some .aofBodyKey)
      else if action = "MODIFY" then ({ p1 with curEvent := EventModify }, some .aofBodyKey)
      else if action = "SET" then ({ p1 with curEvent := EventSet }, some .aofBodyKey)
      else (p1.error ("Unknown action: " ++ rawEvent.val), none)

def aofBodyKey (p : AOFParser) : AOFParser × Option parserStateFunc :=
  match p.expectOneOf [tokenString, tokenNumber] with
  | none => p.block
  | some (rawKey, p1) =>
    if rawKey.typ ≠ tokenString ∧ rawKey.typ ≠ tokenNumber then (p1, none)
    else
      let p2 := { p1 with curKey := rawKey.val }
      if p2.curEvent = EventCreate ∨ p2.curEvent = EventSet then (p2, some .aofBodyValue)
      else if p2.curEvent = EventModify then (p2, some .aofBodyModifyOperator)
      else (p2, some .aofEmitBodyEvent)

def aofBodyValue (p : AOFParser) : AOFParser × Option parserStateFunc :=
  match p.expect tokenNumber with
  | none => p.block
  | some (rawValue, p1) =>
    if rawValue.typ ≠ tokenNumber then (p1, none)
    else ({ p1 with curValue := (ParseInt rawValue.val 64).1 }, some .aofEmitBodyEvent)

/-- Go `strings.HasPrefix(s, c)` for a one-character prefix. -/
def HasPrefix (s : String) (c : Char) : Bool := s.data.head? == some c

def aofBodyModifyOperator (p : AOFParser) : AOFParser × Option parserStateFunc :=
  match p.expect tokenNumber with
  | none => p.block
  | some (rawDelta, p1) =>
    if rawDelta.typ ≠ tokenNumber then (p1, none)
    else if !HasPrefix rawDelta.val '+' && !HasPrefix rawDelta.val '-' then
      (p1.error ("Unknown MODIFY operator: " ++ rawDelta.val), none)
    else ({ p1 with curDelta := (ParseInt rawDelta.val 64).1 }, some .aofEmitBodyEvent)

/-- The `switch p.curEvent` of `aofEmitBodyEvent`: the updated validator, or the
message of the error the case reports. -/
def aofApplyEvent (p : AOFParser) : Except String AOFParser :=
  if p.curEvent = EventCreate then
    match p.values p.curKey with
    | some v =>
      if !v.deleted then
        Except.error ("Key '" ++ p.curKey ++ "' has already been created")
      else Except.ok { p with values := mapSet p.values p.curKey ⟨p.curValue, false⟩ }
    | none => Except.ok { p with values := mapSet p.values p.curKey ⟨p.curValue, false⟩ }
  else if p.curEvent = EventSet then
    match p.values p.curKey with
    | none => Except.error ("Key '" ++ p.curKey ++ "' was not created")
    | some _ => Except.ok { p with values := mapSet p.values p.curKey ⟨p.curValue, false⟩ }
  else if p.curEvent = EventModify then
    match p.values p.curKey with
    | none => Except.error ("Key '" ++ p.curKey ++ "' was not created")
    | some v =>
      Except.ok { p with values := mapSet p.values p.curKey ⟨wrapInt (v.val + p.curDelta), v.deleted⟩ }
  else if p.curEvent = EventDelete then
    match p.values p.curKey with
    | none => Except.error ("Key '" ++ p.curKey ++ "' was not created")
    | some v =>
      if v.deleted then Except.error ("Key '" ++ p.curKey ++ "' has been deleted")
      else Except.ok { p with values := mapSet p.values p.curKey ⟨v.val, true⟩ }
  else Except.ok p

def aofEmitBodyEvent (p : AOFParser) : AOFParser × Option parserStateFunc :=
  match p.headers p.curKey with
  | none => (p.error ("Key '" ++ p.curKey ++ "' was not defined in the header"), none)
  | some _ =>
    match aofApplyEvent p with
    | Except.error msg => (p.error msg, none)
    | Except.ok p1 =>
      let eventType :=
        if headerOf p1.headers p1.curKey = p1.curBodyLine then p1.curEvent ||| EventFinal
        else p1.curEvent
      (p1.emit ⟨eventType, p1.curKey, (valueOf p1.values p1.curKey).val,
        (valueOf p1.values p1.curKey).deleted⟩, some .aofBodyNextLine)

def aofBodyNextLine (p : AOFParser) : AOFParser × Option parserStateFunc :=
  let p1 := { p with curBodyLine := p.curBodyLine + 1 }
  if p1.curBodyLine ≤ p1.lastValidLine then
    match p1.expectOneOf [tokenEOL, tokenEOF] with
    | none => p1.block
    | some (t, p2) =>
      if t.typ = tokenEOF ∧ p2.curBodyLine < p2.lastValidLine then
        (p2.error ("Unexpected EOF, expected at least " ++
          fmtInt (p2.lastValidLine - p2.curBodyLine + 1) ++ " line(s)"), none)
      else if t.typ = tokenEOL then (p2, some .aofBodyEvent)
      else (p2.emit (newEvent EventCompleted), none)
  else (p1.emit (newEvent EventCompleted), none)

/-- Call of a validator state function. -/
def parserStateFunc.call (s : parserStateFunc) (p : AOFParser) :
    AOFParser × Option parserStateFunc :=
  match s with
  | parserStateFunc.aofHeaderTotal => aof.aofHeaderTotal p
  | parserStateFunc.aofHeader => aof.aofHeader p
  | parserStateFunc.aofBodyEvent => aof.aofBodyEvent p
  | parserStateFunc.aofBodyKey => aof.aofBodyKey p
  | parserStateFunc.aofBodyValue => aof.aofBodyValue p
  | parserStateFunc.aofBodyModifyOperator => aof.aofBodyModifyOperator p
  | parserStateFunc.aofEmitBodyEvent => aof.aofEmitBodyEvent p
  | parserStateFunc.aofBodyNextLine => aof.aofBodyNextLine p

/-- One iteration of the loop of Go method `AOFParser.Parse`
(`p.state = p.state(p)`); nothing happens once `p.state` is `nil`. -/
def parseStep (c : AOFParser × Option parserStateFunc) : AOFParser × Option parserStateFunc :=
  match c.2 with
  | none => c
  | some s => s.call c.1

/-- The validator after `n` iterations of the loop of `AOFParser.Parse`. -/
def parseSteps : Nat → AOFParser × Option parserStateFunc → AOFParser × Option parserStateFunc
  | 0, c => c
  | n + 1, c => parseStep (parseSteps n c)

/-- The validator started on an input: `NewAOFParser(rd)` with `p.state = aofHeaderTotal`. -/
def start (rd : List Char) (e : readEnd) : AOFParser × Option parserStateFunc :=
  (NewAOFParser (lexer.run rd e), some .aofHeaderTotal)

/-- Go method `AOFParser.Parse` run for `n` iterations of its loop on an input. -/
def Parse (rd : List Char) (e : readEnd) (n : Nat) : AOFParser × Option parserStateFunc :=
  parseSteps n (start rd e)

/-! ## Reading the event stream

The consumer side (`Event.String`, `main.go`) tests the flag with
`e.Type & EventFinal == EventFinal` and the kind with `e.Type & ^EventFinal`. -/

/-- Go expression `t & ^m` on non-negative values: `t` with the bits of `m` cleared. -/
def andNot (t m : EventType) : EventType := t ^^^ (t &&& m)

/-- Go test `(e.Type & EventFinal) == EventFinal`. -/
def Event.isFinal (ev : Event) : Bool := ev.Typ &&& EventFinal == EventFinal

/-- Go expression `e.Type & ^EventFinal`. -/
def Event.kind (ev : Event) : EventType := andNot ev.Typ EventFinal

/-- A mutation event: its kind is `EventCreate`, `EventSet`, `EventModify` or
`EventDelete` (the cases of the consumer's `switch`). -/
def Event.isMutation (ev : Event) : Bool :=
  ev.kind == EventCreate || ev.kind == EventSet || ev.kind == EventModify ||
    ev.kind == EventDelete

/-- The mutation events of an event stream, in order. -/
def mutations (evs : List Event) : List Event := evs.filter Event.isMutation

/-- Every mutation event of the stream carries the final flag exactly when the
header value of its key is the number of mutation events before it. -/
def finalOK (hdr : String → Option Int) (evs : List Event) : Prop :=
  ∀ pre ev post, evs = pre ++ ev :: post → ev.isMutation = true →
    (ev.isFinal = true ↔ headerOf hdr ev.Key = ((mutations pre).length : Int))

/-- The fields of the validator a token-reading helper leaves alone, the one thing it
may add to the event stream (an `EventError`), and the tokens it leaves: some of those
it found. -/
structure Ext (p q : AOFParser) : Prop where
  headerTotal : q.headerTotal = p.headerTotal
  headers : q.headers = p.headers
  values : q.values = p.values
  curHeaderLine : q.curHeaderLine = p.curHeaderLine
  curBodyLine : q.curBodyLine = p.curBodyLine
  lastValidLine : q.lastValidLine = p.lastValidLine
  curEvent : q.curEvent = p.curEvent
  curKey : q.curKey = p.curKey
  curDelta : q.curDelta = p.curDelta
  curValue : q.curValue = p.curValue
  events : q.events = p.events ∨ ∃ ev, ev.Typ = EventError ∧ q.events = p.events ++ [ev]
  toks : ∀ t ∈ q.toks, t ∈ p.toks

/-- A `tokenNumber` token carries a text `strconv.ParseInt` accepts. -/
def numberOK (t : token) : Prop := t.typ = tokenNumber → (ParseInt t.val 64).2 = NumError.ok

/-- The four kinds a body line can set `curEvent` to. -/
def isAction (t : EventType) : Prop :=
  t = EventCreate ∨ t = EventDelete ∨ t = EventModify ∨ t = EventSet

/-- What holds of the stream and the tables whatever the state. -/
structure Sound (p : AOFParser) : Prop where
  fin : finalOK p.headers p.events
  declared : ∀ k, p.values k ≠ none → p.headers k ≠ none

/-- What holds while the header is read: no mutation event yet, no body line yet,
no key created yet. -/
structure InHeader (p : AOFParser) : Prop where
  events : ∀ ev ∈ p.events, ev.isMutation = false
  curBodyLine : p.curBodyLine = 0
  values : ∀ k, p.values k = none

/-- Invariant of the loop of `AOFParser.Parse`, by state. -/
def Inv (c : AOFParser × Option parserStateFunc) : Prop :=
  match c.2 with
  | some .aofHeaderTotal | some .aofHeader => InHeader c.1
  | some .aofBodyEvent =>
    Sound c.1 ∧ ((mutations c.1.events).length : Int) = c.1.curBodyLine
  | some .aofBodyNextLine =>
    Sound c.1 ∧ ((mutations c.1.events).length : Int) = c.1.curBodyLine + 1
  | some _ =>
    Sound c.1 ∧ ((mutations c.1.events).length : Int) = c.1.curBodyLine ∧ isAction c.1.curEvent
  | none => Sound c.1

/-- What a successful `switch` of `aofEmitBodyEvent` changes: only the entry of
`curKey` in the value table. -/
structure Applied (p q : AOFParser) : Prop where
  headers : q.headers = p.headers
  events : q.events = p.events
  curKey : q.curKey = p.curKey
  curBodyLine : q.curBodyLine = p.curBodyLine
  curEvent : q.curEvent = p.curEvent
  values : ∀ k, k ≠ p.curKey → q.values k = p.values k

/-- The second stream is the first one followed by events that are not mutation
events. -/
def AddsOther (evs evs1 : List Event) : Prop :=
  ∃ added, evs1 = evs ++ added ∧ ∀ ev ∈ added, ev.isMutation = false

/-- The final-flagged mutation events of a key in a stream, in order. -/
def finalEvents (evs : List Event) (k : String) : List Event :=
  evs.filter (fun ev => ev.isMutation && ev.isFinal && ev.Key == k)

/-- A log whose header promises that line 1 is the last mutation of `b`, while both
body lines mutate `a`. -/
def brokenPromiseLog : List Char := "2\na 0\nb 1\nCREATE a 1\nSET a 2\n".data

/-- A log with two keys, each mutated once. -/
def twoKeysLog : List Char := "2\na 0\nb 1\nCREATE a 1\nCREATE b 2\n".data

/-- A log that creates `k` twice. -/
def createTwiceLog : List Char := "1\nk 5\nCREATE k 1\nCREATE k 2\n".data

/-- A log that creates, deletes and re-creates `keyX` (from the test suite). -/
def recreateLog : List Char :=
  "1\nkeyX 2\nCREATE keyX 1\nDELETE keyX\nCREATE keyX 1000\n".data

/-- A log whose first body line modifies a key that was never created (from the
test suite). -/
def modifyFirstLog : List Char := "1\nkeyX 0\nMODIFY keyX +2\n".data

/-- Create, delete, then `MODIFY` the deleted key (from the test suite). -/
def modifyDeletedLog : List Char :=
  "1\nkeyX 2\nCREATE keyX 1\nDELETE keyX\nMODIFY keyX +1\n".data

/-- Create, delete, then `SET` the deleted key (from the test suite). -/
def setDeletedLog : List Char :=
  "1\nkeyX 2\nCREATE keyX 1\nDELETE keyX\nSET keyX +1\n".data

/-- Create, delete, then delete again (from the test suite). -/
def deleteTwiceLog : List Char :=
  "1\nkeyX 2\nCREATE keyX 1\nDELETE keyX\nDELETE keyX\n".data

/-- A `MODIFY` whose operand has no sign (from the test suite). -/
def unsignedModifyLog : List Char := "1\nkeyX 0\nMODIFY keyX 2\n".data

/-- The log of the last case of `TestParser`. -/
def fiveKeysLog : List Char :=
  ("5\nkey1 1\nkey2 2\nkey3 3\nkey4 6\nkey5 10\n" ++
    "CREATE  key1 1000\nMODIFY  key1 +1\nCREATE  key2 2000\nCREATE  key3 3000\n" ++
    "CREATE  key4 4000\nSET     key4 4500\nDELETE  key4\nCREATE key5 5000\n" ++
    "MODIFY  key5 +1\nMODIFY  key5 +1\nMODIFY  key5 -1\n").data

/-- The number a string of decimal digits denotes, continuing from `n`. -/
def digitsValue : List Char → Nat → Nat
  | [], n => n
  | c :: cs, n => digitsValue cs (n * 10 + (c.toNat - '0'.toNat))

/-- The integer a signed decimal numeral denotes: an optional leading `+` or `-`
followed by one or more decimal digits; `none` for any other text. -/
def integerValue (s : String) : Option Int :=
  match s.data with
  | [] => none
  | c :: cs =>
    let body := if c = '+' ∨ c = '-' then cs else c :: cs
    if body ≠ [] ∧ body.all Char.isDigit = true then
      some (if c = '-' then -(digitsValue body 0 : Int) else (digitsValue body 0 : Int))
    else none

/-! ## The scanner as one pass over the runes -/

/-- Where the scanner stands between two runes: in `lexString` with the text
buffered so far, in `lexSpace` with the spaces counted so far, or in `lexEOL`. -/
inductive mode where
  | str (buf : List Char)
  | spc (spaces : Nat)
  | eol

/-- The tokens `lexer.run` emits, computed in one pass over the runes (the three
state functions unrolled into a single recursion); `lexer_run_eq_scan` proves it
equal to `lexer.run`. -/
def scan (e : readEnd) : List Char → mode → List token
  | [], mode.str buf =>
    (if buf.length > 0 then lexer.emitValue (String.mk buf) else []) ++ lexer.error e
  | [], mode.spc n => (if n > 0 then [⟨tokenSpace, ""⟩] else []) ++ lexer.error e
  | [], mode.eol => lexer.error e
  | c :: cs, mode.str buf =>
    if !isSpace c && !isEOL c then scan e cs (mode.str (buf ++ [c]))
    else
      (if buf.length > 0 then lexer.emitValue (String.mk buf) else []) ++
        (if isSpace c then scan e cs (mode.spc 1)
          else (if c == '\n' then [⟨tokenEOL, ""⟩] else []) ++ scan e cs mode.eol)
  | c :: cs, mode.spc n =>
    if isSpace c then scan e cs (mode.spc (n + 1))
    else
      (if n > 0 then [⟨tokenSpace, ""⟩] else []) ++
        (if isEOL c then (if c == '\n' then [⟨tokenEOL, ""⟩] else []) ++ scan e cs mode.eol
          else scan e cs (mode.str [c]))
  | c :: cs, mode.eol =>
    if isEOL c then (if c == '\n' then [⟨tokenEOL, ""⟩] else []) ++ scan e cs mode.eol
    else if isSpace c then scan e cs (mode.spc 1)
    else scan e cs (mode.str [c])

/-- The number of `tokenEOL` tokens in a token sequence. -/
def countEOL (toks : List token) : Nat := toks.countP (fun t => t.typ == tokenEOL)

/-- A character that ends a text run: space, tab, carriage return or line feed. -/
def isSeparator (c : Char) : Bool := c == ' ' || c == '\t' || c == '\r' || c == '\n'

/-- The maximal runs of characters that are not separators, in order; the second
argument is the run being read. -/
def textRuns : List Char → List Char → List (List Char)
  | [], cur => if cur = [] then [] else [cur]
  | c :: cs, cur =>
    if isSeparator c then (if cur = [] then [] else [cur]) ++ textRuns cs []
    else textRuns cs (cur ++ [c])

/-- The text is a base-10 signed 64-bit integer: an optional leading `+` or `-`
followed by digits, with a value within the int64 range. -/
def isInt64Numeral (s : String) : Bool :=
  match integerValue s with
  | some v => decide (-(2 : Int) ^ 63 ≤ v ∧ v ≤ 2 ^ 63 - 1)
  | none => false

/-- The token a text run is to become: `tokenNumber` if the run is a signed 64-bit
numeral, `tokenString` otherwise, with the run as its value. -/
def textToken (run : List Char) : token :=
  ⟨if isInt64Numeral (String.mk run) = true then tokenNumber else tokenString, String.mk run⟩

/-- The text tokens (`tokenNumber`, `tokenString`) of a token sequence, in order. -/
def textTokens (toks : List token) : List token :=
  toks.filter (fun t => t.typ == tokenNumber || t.typ == tokenString)

/-- The text buffered in a mode (none outside `lexString`). -/
def mode.buffer : mode → List Char
  | mode.str buf => buf
  | mode.spc _ => []
  | mode.eol => []

/-- The second stream is the first one followed by error events only. -/
def AddsErrors (evs evs1 : List Event) : Prop :=
  ∃ added, evs1 = evs ++ added ∧ ∀ ev ∈ added, ev.Typ = EventError

/-- What the four states that read a body line (`aofBodyEvent`, `aofBodyKey`,
`aofBodyValue`, `aofBodyModifyOperator`) leave alone: the header data, the value
table and the counters; they only take tokens from the front and may add error
events. -/
structure BodyFrame (p q : AOFParser) : Prop where
  headerTotal : q.headerTotal = p.headerTotal
  headers : q.headers = p.headers
  values : q.values = p.values
  curHeaderLine : q.curHeaderLine = p.curHeaderLine
  curBodyLine : q.curBodyLine = p.curBodyLine
  lastValidLine : q.lastValidLine = p.lastValidLine
  events : AddsErrors p.events q.events
  suffix : q.toks <:+ p.toks

/-- No `Completed` event has been emitted. -/
def NoEnd (p : AOFParser) : Prop := ∀ ev ∈ p.events, ev.Typ ≠ EventCompleted

/-- Every mutation event of the stream is for a key of the header table. -/
def Declared (p : AOFParser) : Prop :=
  ∀ ev ∈ p.events, ev.isMutation = true → p.headers ev.Key ≠ none

/-- The counter `lastValidLine` is not negative and not below any value of the header
table. -/
def Bound (p : AOFParser) : Prop :=
  0 ≤ p.lastValidLine ∧ ∀ k v, p.headers k = some v → v ≤ p.lastValidLine

/-- What holds while the body is read: nothing has ended the run, the count was
positive, and the body-line counter has not passed `lastValidLine`. -/
def InBody (p : AOFParser) : Prop :=
  NoEnd p ∧ 0 < p.headerTotal ∧ 0 ≤ p.curBodyLine ∧ p.curBodyLine ≤ p.lastValidLine

/-- The ways a run started on the tokens `toks0` can be over: the count was not
positive; no `Completed` was emitted; an error event was emitted; the body lines
`0 .. lastValidLine` were all read; or the `tokenEOF` token was taken. -/
def Halted (toks0 : List token) (p : AOFParser) : Prop :=
  p.headerTotal ≤ 0 ∨ NoEnd p ∨ (∃ ev ∈ p.events, ev.Typ = EventError) ∨
    ((mutations p.events).length : Int) = p.lastValidLine + 1 ∨
    ∃ pre t, toks0 = pre ++ t :: p.toks ∧ t.typ = tokenEOF

/-- Second invariant of the loop of `AOFParser.Parse`, by state, for a run started on
the tokens `toks0`. -/
def PhaseInv (toks0 : List token) (c : AOFParser × Option parserStateFunc) : Prop :=
  Declared c.1 ∧ Bound c.1 ∧ c.1.toks <:+ toks0 ∧
    match c.2 with
    | some .aofHeaderTotal => NoEnd c.1
    | some .aofHeader => NoEnd c.1 ∧ 0 < c.1.headerTotal
    | some _ => InBody c.1
    | none => Halted toks0 c.1

/-- A log of `TestParser`: one key with header value 0 and one body line. -/
def firstLineFinalLog : List Char := "1\n1234 0\nCREATE 1234 1000\n".data

/-- A log of `TestParser`: the body line names a key the header does not declare. -/
def undeclaredKeyLog : List Char := "1\nkey1 1\nCREATE KeyUnknown 1000\n".data

/-- The log of a case of `TestParser` (`keyX 10`, one body line), here with a line
terminator after the body line. -/
def shortBodyLog : List Char := "1\nkeyX 10\nCREATE keyX 1\n".data

/-- The log of a case of `TestParser` as it stands there: no line terminator after the
one body line. -/
def shortBodyNoEOLLog : List Char := "1\nkeyX 10\nCREATE keyX 1".data

/-- A body line as the specification describes it: an action, a key and, but for
`Delete`, an integer operand. -/
inductive bodyLine where
  | Create (key : String) (operand : Int)
  | Set (key : String) (operand : Int)
  | Modify (key : String) (delta : Int)
  | Delete (key : String)
  deriving DecidableEq, Repr

def bodyLine.key : bodyLine → String
  | bodyLine.Create k _ => k
  | bodyLine.Set k _ => k
  | bodyLine.Modify k _ => k
  | bodyLine.Delete k => k

/-- The kind of the mutation event a body line produces. -/
def bodyLine.kind : bodyLine → EventType
  | bodyLine.Create _ _ => EventCreate
  | bodyLine.Set _ _ => EventSet
  | bodyLine.Modify _ _ => EventModify
  | bodyLine.Delete _ => EventDelete

/-- The key table after a body line, in the specification's words: Create and Set
store the operand with `deleted = false`, Modify stores the previous value plus the
delta (64-bit addition) and leaves the flag as it is, Delete keeps the previous value
and sets `deleted = true`. -/
def applyLine (tbl : String → Option value) : bodyLine → String → Option value
  | bodyLine.Create k v => mapSet tbl k ⟨v, false⟩
  | bodyLine.Set k v => mapSet tbl k ⟨v, false⟩
  | bodyLine.Modify k d => mapSet tbl k ⟨wrapInt ((valueOf tbl k).val + d), (valueOf tbl k).deleted⟩
  | bodyLine.Delete k => mapSet tbl k ⟨(valueOf tbl k).val, true⟩

/-- The left fold of the body lines over a key table. -/
def foldLines (tbl : String → Option value) (ls : List bodyLine) : String → Option value :=
  ls.foldl applyLine tbl

/-- The steps of the left fold: for each body line its kind, its key, and the state of
that key in the table right after the line. -/
def stepsOf (tbl : String → Option value) : List bodyLine → List (EventType × String × value)
  | [] => []
  | l :: ls => (l.kind, l.key, valueOf (applyLine tbl l) l.key) :: stepsOf (applyLine tbl l) ls

/-- What a mutation event carries: kind, key, and value with deleted flag. -/
def Event.step (ev : Event) : EventType × String × value :=
  (ev.kind, ev.Key, ⟨ev.Value, ev.Deleted⟩)

/-- The body line held in the registers `curEvent`, `curKey`, `curValue` and
`curDelta`, which is what `aofEmitBodyEvent` applies. -/
def AOFParser.curLine (p : AOFParser) : bodyLine :=
  if p.curEvent = EventCreate then bodyLine.Create p.curKey p.curValue
  else if p.curEvent = EventSet then bodyLine.Set p.curKey p.curValue
  else if p.curEvent = EventModify then bodyLine.Modify p.curKey p.curDelta
  else bodyLine.Delete p.curKey

/-- The body lines applied in the first `n` iterations of the loop of `Parse`: one for
every call of `aofEmitBodyEvent` that went on to `aofBodyNextLine`. -/
def linesApplied (rd : List Char) (e : readEnd) : Nat → List bodyLine
  | 0 => []
  | n + 1 =>
    if (Parse rd e n).2 = some .aofEmitBodyEvent ∧ (Parse rd e (n + 1)).2 = some .aofBodyNextLine
    then linesApplied rd e n ++ [(Parse rd e n).1.curLine]
    else linesApplied rd e n

/-- A token sequence without its `tokenSpace` tokens. -/
def dropSpaces (toks : List token) : List token := toks.filter (fun t => t.typ != tokenSpace)

/-- The validator with the `tokenSpace` tokens taken out of the tokens it has yet to
read. -/
def AOFParser.noSpaces (p : AOFParser) : AOFParser := { p with toks := dropSpaces p.toks }

/-- The text token `lexString` emits for its buffer when a separator or the end of the
input comes (`if len(buf) > 0 { l.emitValue(buf) }`). -/
def flushText (buf : List Char) : List token :=
  if buf.length > 0 then lexer.emitValue (String.mk buf) else []

/-- The token a line-end character gives: `tokenEOL` for a line feed, none for a
carriage return. -/
def lineEnd (c : Char) : List token := if c == '\n' then [⟨tokenEOL, ""⟩] else []

/-- The input without its carriage returns. -/
def dropCR (rd : List Char) : List Char := rd.filter (fun c => c != '\r')

/-- No run of carriage returns stands between two text characters; `prevText` says
that the last character before that is not a carriage return is a text character, and
`crSeen` that a carriage return came after it. -/
def crSafe : List Char → Bool → Bool → Bool
  | [], _, _ => true
  | c :: cs, prevText, crSeen =>
    if c = '\r' then crSafe cs prevText true
    else if isSeparator c then crSafe cs false false
    else !(prevText && crSeen) && crSafe cs true false

/-- A log with a carriage return inside the operand of its body line. -/
def crInsideLog : List Char := "1\nk 0\nCREATE k 1\r2\n".data

/-- A log with the line terminator `\r\n` and a carriage return next to a space. -/
def crlfLog : List Char := "1\r\nk 0\r\nCREATE \rk 1\r\n".data

/-- The value of `l.state` after at most `n` iterations of the loop of Go method
`lexer.run` (`none` is Go's `nil`: the loop is over). -/
def lexer.stateAfter (e : readEnd) : Nat → Option stateFunc → List Char → Option stateFunc
  | _, none, _ => none
  | 0, some s, _ => some s
  | n + 1, some s, rd =>
    let r := s.call e rd
    lexer.stateAfter e n r.next r.rest

/-- The contents of the buffer of `lexString` when the input ends: the characters
after the last separator. -/
def bufferAtEnd : List Char → List Char → List Char
  | [], buf => buf
  | c :: cs, buf => if isSeparator c then bufferAtEnd cs [] else bufferAtEnd cs (buf ++ [c])

/-- The assignments `p.headers[key.val] = int(lastLine)` the loop of `aofHeader`
executes, in order (key and value of every header line it reads). -/
def headerDeclsLoop : Nat → AOFParser → List (String × Int)
  | 0, _ => []
  | n + 1, p =>
    match p.expectOneOf [tokenString, tokenNumber] with
    | none => []
    | some (key, p1) =>
      if key.typ ≠ tokenString ∧ key.typ ≠ tokenNumber then []
      else
        match p1.expect tokenNumber with
        | none => []
        | some (rawLastLine, p2) =>
          if rawLastLine.typ ≠ tokenNumber then []
          else
            let lastLine := (ParseInt rawLastLine.val 32).1
            let p3 := { p2 with headers := mapSet p2.headers key.val lastLine }
            let p4 := { p3 with
              lastValidLine := if lastLine > p3.lastValidLine then lastLine else p3.lastValidLine }
            (key.val, lastLine) ::
              match p4.expect tokenEOL with
              | none => []
              | some (_, p5) => headerDeclsLoop n { p5 with curHeaderLine := p5.curHeaderLine + 1 }

/-- The header lines the validator reads on an input: key and value of each. -/
def headerDecls (rd : List Char) (e : readEnd) : List (String × Int) :=
  headerDeclsLoop (Parse rd e 1).1.headerTotal.toNat (Parse rd e 1).1

/-- The largest value of a list of header lines, and at least `m`. -/
def maxLine (m : Int) (decls : List (String × Int)) : Int :=
  decls.foldl (fun acc d => if d.2 > acc then d.2 else acc) m

/-- The header mapping a list of header lines gives: a key declared twice keeps its
later declaration. -/
def headerTable (h : String → Option Int) (decls : List (String × Int)) : String → Option Int :=
  decls.foldl (fun acc d => mapSet acc d.1 d.2) h

/-- A log whose header declares the key `a` twice. -/
def declaredTwiceLog : List Char := "2\na 5\na 1\nCREATE a 7\n".data

/-! ## Cancellation: the hand-offs as `select` statements

The scanner and the validator hand tokens and events over on unbuffered channels, and
every hand-off is a `select` with the channel `quit` as its other case (`l.quit` and
`p.quit` are one channel).  By the Go specification a receive on a closed channel can
always proceed and yields the zero value, a send on a closed channel and the `close`
of a closed channel cause a run-time panic, a send or receive on an open unbuffered
channel can proceed when the other side is ready, and `select` takes one of the cases
that can proceed, whichever, and blocks when there is none. -/

/-- Which of the channels `quit`, `l.tokens` and `p.events` are closed. -/
structure channels where
  quit : Bool
  tokens : Bool
  events : Bool
  deriving DecidableEq, Repr

/-- What a call that waits on the channels can come to: it returns `a` and leaves the
channels as `c`, it panics, or it blocks. -/
inductive result (α : Type) where
  | returns (a : α) (c : channels)
  | panics
  | blocks
  deriving DecidableEq, Repr

/-- Go statement `select`: the outcomes of the cases that can proceed (a case that
cannot is `none`), or `blocks` when there is none. -/
def selectOf {α : Type} (cases : List (Option (result α))) : List (result α) :=
  match cases.filterMap id with
  | [] => [result.blocks]
  | l => l

/-- Go method `lexer.emit`; `receiver` says that `nextToken` is waiting on
`l.tokens`.  The value returned says whether the token was handed over. -/
def lexer.emit (c : channels) (receiver : Bool) : List (result Bool) :=
  selectOf
    [if c.tokens then some result.panics
      else if receiver then some (result.returns true c) else none,
     if c.quit then some (result.returns false c) else none]

/-- Go method `lexer.nextToken`; `sender` is the token `lexer.emit` is waiting to hand
over, if it is.  The zero value of `token` has the type `tokenError`. -/
def lexer.nextToken (c : channels) (sender : Option token) : List (result token) :=
  selectOf
    [if c.quit then
        some (if c.tokens then result.panics
          else result.returns ⟨tokenQuit, ""⟩ { c with tokens := true })
      else none,
     match sender with
      | some t => some (result.returns t c)
      | none => if c.tokens then some (result.returns ⟨tokenError, ""⟩ c) else none]

/-- Go method `AOFParser.emit` as the `select` it is (`AOFParser.emit` above is its
effect when the consumer takes the event); `receiver` says that `NextEvent` is waiting
on `p.events`.  The value returned says whether the event was handed over. -/
def AOFParser.emitSelect (c : channels) (receiver : Bool) : List (result Bool) :=
  selectOf
    [if c.events then some result.panics
      else if receiver then some (result.returns true c) else none,
     if c.quit then
        some (if c.events then result.panics else result.returns false { c with events := true })
      else none]

/-- Go method `AOFParser.NextEvent`; `sender` is the event `AOFParser.emit` is waiting
to hand over, if it is.  The zero value of `Event` has the type 0, which is no event
type. -/
def AOFParser.NextEvent (c : channels) (sender : Option Event) : List (result Event) :=
  selectOf
    [match sender with
      | some ev => some (result.returns ev c)
      | none => if c.events then some (result.returns ⟨0, "", 0, false⟩ c) else none,
     if c.quit then
        some (if c.events then result.panics
          else result.returns (newEvent EventQuit) { c with events := true })
      else none]

/-- Go method `AOFParser.Quit`: `close(p.quit)`. -/
def AOFParser.Quit (c : channels) : result Unit :=
  if c.quit then result.panics else result.returns () { c with quit := true }

/-- The number of error events in a stream. -/
def errorCount (evs : List Event) : Nat := evs.countP (fun ev => ev.Typ == EventError)

/-- The tokens read so far hold as many `tokenEOL` tokens as the two line counters
say. -/
def Consumed (toks0 : List token) (p : AOFParser) : Prop :=
  ∃ before, toks0 = before ++ p.toks ∧ (countEOL before : Int) = p.curHeaderLine + p.curBodyLine

/-- The same, the token read last set apart: it is no `tokenEOL`, so it stands on the
line the counters give. -/
def ConsumedLine (toks0 : List token) (p : AOFParser) : Prop :=
  ∃ before t, toks0 = before ++ t :: p.toks ∧ t.typ ≠ tokenEOL ∧ t.typ ≠ tokenSpace ∧
    (countEOL before : Int) = p.curHeaderLine + p.curBodyLine

/-- Third invariant of the loop of `AOFParser.Parse`, for a run started on the tokens
`toks0` and as long as no error event was emitted: the line counters count the
`tokenEOL` tokens read. -/
def LineInv (toks0 : List token) (c : AOFParser × Option parserStateFunc) : Prop :=
  match c.2 with
  | some .aofEmitBodyEvent => ConsumedLine toks0 c.1
  | some _ => Consumed toks0 c.1
  | none => True

/-- The stored error message carries the line number `k + 1 + d`, where `k` is the
number of `tokenEOL` tokens before the token read last. -/
def ErrorAt (toks0 : List token) (d : Int) (q : AOFParser) : Prop :=
  ∃ before t msg, toks0 = before ++ t :: q.toks ∧ t.typ ≠ tokenSpace ∧
    q.err = some ("ERROR at line " ++ fmtInt ((countEOL before : Int) + 1 + d) ++ ": " ++ msg)

/-- What a call of a state function, made on `p` where `inv` holds and giving `r`,
does to the line numbers: it emits no error event and keeps the invariant, or it emits
one, ends the run and stores a message with the line number the tokens give. -/
def LineStep (toks0 : List token) (d : Int) (inv : Prop) (p : AOFParser)
    (r : AOFParser × Option parserStateFunc) : Prop :=
  errorCount p.events ≤ errorCount r.1.events ∧
    (inv →
      (errorCount r.1.events = errorCount p.events → LineInv toks0 r) ∧
        (errorCount r.1.events = errorCount p.events + 1 → r.2 = none → r.1.blocked = false →
          ErrorAt toks0 d r.1))

/-- What a state function that reads one token of a body line comes to: it blocks, it
reports an error on the token and ends the run, or it takes the token, which is no
`tokenEOL`, and goes on. -/
def ReadStep (p : AOFParser) (r : AOFParser × Option parserStateFunc) : Prop :=
  (nextNonSpaceLoop p.toks = none ∧ r = p.block) ∨
    ∃ t ts, nextNonSpaceLoop p.toks = some (t, ts) ∧
      ((∃ msg, r = (({ p with toks := ts } : AOFParser).error msg, none)) ∨
        (r.1.toks = ts ∧ r.1.events = p.events ∧ r.1.curHeaderLine = p.curHeaderLine ∧
          r.1.curBodyLine = p.curBodyLine ∧ t.typ ≠ tokenEOL ∧ r.2 ≠ none))

/-- The tokens `before` are what the scanner, started in mode `m`, emits on a prefix
of the input `rd` that is all it gets (then `tokenEOF`). -/
def ScannedBefore (rd : List Char) (m : mode) (before : List token) : Prop :=
  ∃ rd1 rd2, rd = rd1 ++ rd2 ∧ scan readEnd.EOF rd1 m = before ++ [⟨tokenEOF, ""⟩]

/-- A log whose first body line has a further text after its operand. -/
def trailingTextLog : List Char := "1\nk 1\nCREATE k 1 junk\n".data

/-! ## Lemmas -/

theorem mutations_append (l1 l2 : List Event) :
    mutations (l1 ++ l2) = mutations l1 ++ mutations l2 := by
  simp [mutations]

theorem isMutation_error (ev : Event) (h : ev.Typ = EventError) : ev.isMutation = false := by
  simp only [Event.isMutation, Event.kind, h]; decide

theorem isMutation_newEvent_header : (newEvent EventHeader).isMutation = false := by decide

theorem isMutation_newEvent_completed : (newEvent EventCompleted).isMutation = false := by decide

theorem isAction_flags (t : EventType) (h : isAction t) (k : String) (v : Int) (d : Bool) :
    (Event.mk t k v d).isMutation = true ∧ (Event.mk (t ||| EventFinal) k v d).isMutation = true ∧
      (Event.mk t k v d).isFinal = false ∧ (Event.mk (t ||| EventFinal) k v d).isFinal = true := by
  rcases h with h | h | h | h <;> subst h <;>
    simp only [Event.isMutation, Event.isFinal, Event.kind] <;> decide

theorem mutations_of_none (evs : List Event) (h : ∀ ev ∈ evs, ev.isMutation = false) :
    mutations evs = [] := by
  simp only [mutations, List.filter_eq_nil_iff]
  intro a ha; simp [h a ha]

theorem finalOK_of_none (hdr : String → Option Int) (evs : List Event)
    (h : ∀ ev ∈ evs, ev.isMutation = false) : finalOK hdr evs := by
  intro pre ev post hsplit hmut
  have : ev ∈ evs := by rw [hsplit]; simp
  rw [h ev this] at hmut; cases hmut

theorem split_concat {α : Type} (evs pre post : List α) (e ev : α)
    (h : evs ++ [e] = pre ++ ev :: post) :
    (post = [] ∧ pre = evs ∧ ev = e) ∨ ∃ post1, post = post1 ++ [e] ∧ evs = pre ++ ev :: post1 := by
  rcases List.eq_nil_or_concat post with hp | ⟨post1, x, hp⟩
  · subst hp
    have := List.append_inj' h rfl
    left; exact ⟨rfl, this.1.symm, by simpa using this.2.symm⟩
  · subst hp
    right
    have h2 : evs ++ [e] = (pre ++ ev :: post1) ++ [x] := by simpa using h
    have := List.append_inj' h2 rfl
    refine ⟨post1, ?_, this.1⟩
    have hx : e = x := by simpa using this.2
    simp [hx]

theorem finalOK_append (hdr : String → Option Int) (evs : List Event) (e : Event)
    (h : finalOK hdr evs)
    (he : e.isMutation = true →
      (e.isFinal = true ↔ headerOf hdr e.Key = ((mutations evs).length : Int))) :
    finalOK hdr (evs ++ [e]) := by
  intro pre ev post hsplit hmut
  rcases split_concat evs pre post e ev hsplit with ⟨_, hpre, hev⟩ | ⟨post1, _, hevs⟩
  · subst hpre; subst hev; exact he hmut
  · exact h pre ev post1 hevs hmut

theorem finalOK_append_other (hdr : String → Option Int) (evs : List Event) (e : Event)
    (h : finalOK hdr evs) (he : e.isMutation = false) : finalOK hdr (evs ++ [e]) :=
  finalOK_append hdr evs e h (fun hm => by rw [he] at hm; cases hm)

theorem ext_self (p : AOFParser) : Ext p p :=
  ⟨Eq.refl _, Eq.refl _, Eq.refl _, Eq.refl _, Eq.refl _, Eq.refl _, Eq.refl _, Eq.refl _,
    Eq.refl _, Eq.refl _, Or.inl (Eq.refl _), fun _ h => h⟩

theorem ext_error (p : AOFParser) (msg : String) : Ext p (p.error msg) :=
  ⟨rfl, rfl, rfl, rfl, rfl, rfl, rfl, rfl, rfl, rfl, Or.inr ⟨_, rfl, rfl⟩, fun _ h => h⟩

theorem nextNonSpaceLoop_mem : ∀ (l : List token) (t : token) (r : List token),
    nextNonSpaceLoop l = some (t, r) → t ∈ l ∧ ∀ x ∈ r, x ∈ l := by
  intro l
  induction l with
  | nil => intro t r h; cases h
  | cons a l ih =>
    intro t r h
    unfold nextNonSpaceLoop at h
    split at h
    · simp only [Option.some.injEq, Prod.mk.injEq] at h
      obtain ⟨h1, h2⟩ := h
      subst h1; subst h2
      exact ⟨List.mem_cons_self _ _, fun x hx => List.mem_cons_of_mem _ hx⟩
    · obtain ⟨h1, h2⟩ := ih t r h
      exact ⟨List.mem_cons_of_mem _ h1, fun x hx => List.mem_cons_of_mem _ (h2 x hx)⟩

theorem ext_unexpected (p : AOFParser) (a : tokenType) (l : List tokenType) :
    Ext p (p.unexpected a l) := by
  unfold AOFParser.unexpected
  split <;> exact ext_error _ _

theorem ext_toks (p : AOFParser) (ts : List token) (h : ∀ t ∈ ts, t ∈ p.toks) :
    Ext p { p with toks := ts } :=
  ⟨rfl, rfl, rfl, rfl, rfl, rfl, rfl, rfl, rfl, rfl, Or.inl rfl, h⟩

theorem ext_nextNonSpace {p q : AOFParser} {t : token} (h : p.nextNonSpace = some (t, q)) :
    Ext p q := by
  unfold AOFParser.nextNonSpace at h
  split at h
  · cases h
  · rename_i t1 ts hl
    cases h; exact ext_toks _ _ (nextNonSpaceLoop_mem _ _ _ hl).2

theorem ext_expect {p q : AOFParser} {typ : tokenType} {t : token}
    (h : p.expect typ = some (t, q)) : Ext p q := by
  unfold AOFParser.expect at h
  split at h
  · cases h
  · rename_i t1 p1 hn
    have h1 := ext_nextNonSpace hn
    simp only [Option.some.injEq, Prod.mk.injEq] at h
    obtain ⟨_, hq⟩ := h
    subst hq
    split
    · have h2 := ext_unexpected p1 t1.typ [typ]
      exact ⟨h2.headerTotal.trans h1.headerTotal, h2.headers.trans h1.headers,
        h2.values.trans h1.values, h2.curHeaderLine.trans h1.curHeaderLine,
        h2.curBodyLine.trans h1.curBodyLine, h2.lastValidLine.trans h1.lastValidLine,
        h2.curEvent.trans h1.curEvent, h2.curKey.trans h1.curKey, h2.curDelta.trans h1.curDelta,
        h2.curValue.trans h1.curValue, by
          rcases h1.events with he | ⟨ev, _, he⟩
          · rw [← he]; exact h2.events
          · unfold AOFParser.nextNonSpace at hn
            split at hn
            · cases hn
            · cases hn; simp at he, fun t ht => h1.toks t (h2.toks t ht)⟩
    · exact h1

theorem ext_expectOneOf {p q : AOFParser} {l : List tokenType} {t : token}
    (h : p.expectOneOf l = some (t, q)) : Ext p q := by
  unfold AOFParser.expectOneOf at h
  split at h
  · cases h
  · rename_i t1 p1 hn
    have h1 := ext_nextNonSpace hn
    have hev : p1.events = p.events := by
      unfold AOFParser.nextNonSpace at hn
      split at hn
      · cases hn
      · cases hn; rfl
    simp only [Option.some.injEq, Prod.mk.injEq] at h
    obtain ⟨_, hq⟩ := h
    subst hq
    split
    · exact h1
    · have h2 := ext_unexpected p1 t1.typ l
      exact ⟨h2.headerTotal.trans h1.headerTotal, h2.headers.trans h1.headers,
        h2.values.trans h1.values, h2.curHeaderLine.trans h1.curHeaderLine,
        h2.curBodyLine.trans h1.curBodyLine, h2.lastValidLine.trans h1.lastValidLine,
        h2.curEvent.trans h1.curEvent, h2.curKey.trans h1.curKey, h2.curDelta.trans h1.curDelta,
        h2.curValue.trans h1.curValue, by rw [← hev]; exact h2.events,
        fun t ht => h1.toks t (h2.toks t ht)⟩

theorem Ext.muts {p q : AOFParser} (h : Ext p q) :
    mutations q.events = mutations p.events := by
  rcases h.events with he | ⟨ev, hev, he⟩
  · rw [he]
  · rw [he, mutations_append]
    have : aof.mutations [ev] = [] := by
      simp [mutations, isMutation_error ev hev]
    rw [this, List.append_nil]

theorem Ext.none {p q : AOFParser} (h : Ext p q) (hn : ∀ ev ∈ p.events, ev.isMutation = false) :
    ∀ ev ∈ q.events, ev.isMutation = false := by
  rcases h.events with he | ⟨ev, hev, he⟩
  · rw [he]; exact hn
  · rw [he]
    intro a ha
    rcases List.mem_append.1 ha with ha | ha
    · exact hn a ha
    · simp only [List.mem_singleton] at ha
      subst ha; exact isMutation_error _ hev

theorem Ext.keepsSound {p q : AOFParser} (h : Ext p q) (hs : Sound p) : Sound q := by
  constructor
  · rw [h.headers]
    rcases h.events with he | ⟨ev, hev, he⟩
    · rw [he]; exact hs.fin
    · rw [he]; exact finalOK_append_other _ _ _ hs.fin (isMutation_error _ hev)
  · rw [h.headers, h.values]; exact hs.declared

theorem sound_emit_other {p : AOFParser} (hs : Sound p) (e : Event)
    (he : e.isMutation = false) : Sound (p.emit e) :=
  ⟨finalOK_append_other _ _ _ hs.fin he, hs.declared⟩

theorem sound_of_none {p : AOFParser} (hn : ∀ ev ∈ p.events, ev.isMutation = false)
    (hv : ∀ k, p.values k = none) : Sound p :=
  ⟨finalOK_of_none _ _ hn, fun k hk => absurd (hv k) hk⟩

theorem Ext.inHeader {p q : AOFParser} (h : Ext p q) (hp : InHeader p) : InHeader q :=
  ⟨h.none hp.events, by rw [h.curBodyLine]; exact hp.curBodyLine, by
    rw [h.values]; exact hp.values⟩

theorem InHeader.isSound {p : AOFParser} (hp : InHeader p) : Sound p :=
  sound_of_none hp.events hp.values

theorem InHeader.congrH {p q : AOFParser} (hp : InHeader p) (he : q.events = p.events)
    (hb : q.curBodyLine = p.curBodyLine) (hv : q.values = p.values) : InHeader q :=
  ⟨by rw [he]; exact hp.events, by rw [hb]; exact hp.curBodyLine, by rw [hv]; exact hp.values⟩

theorem Sound.congrS {p q : AOFParser} (hp : Sound p) (he : q.events = p.events)
    (hh : q.headers = p.headers) (hv : q.values = p.values) : Sound q :=
  ⟨by rw [he, hh]; exact hp.fin, by rw [hh, hv]; exact hp.declared⟩

theorem inv_halt {p : AOFParser} (hp : Sound p) : Inv (p, none) := hp

theorem inv_block {p : AOFParser} (hp : Sound p) : Inv p.block :=
  hp.congrS rfl rfl rfl

theorem inv_aofHeaderTotal (p : AOFParser) (h : Inv (p, some .aofHeaderTotal)) :
    Inv (aofHeaderTotal p) := by
  have hp : InHeader p := h
  unfold aofHeaderTotal
  split
  · exact inv_block hp.isSound
  · rename_i tok p1 he
    have h1 := (ext_expect he).inHeader hp
    split
    · exact inv_halt h1.isSound
    · dsimp only
      split
      · refine inv_halt (sound_emit_other ?_ _ isMutation_newEvent_completed)
        exact h1.isSound.congrS rfl rfl rfl
      · split
        · exact inv_block (h1.isSound.congrS rfl rfl rfl)
        · rename_i t3 p3 he3
          have h3 : InHeader p3 := (ext_expect he3).inHeader (h1.congrH rfl rfl rfl)
          exact (h3.congrH rfl rfl rfl :
            InHeader { p3 with curHeaderLine := p3.curHeaderLine + 1 })

theorem inHeader_aofHeaderLoop (n : Nat) : ∀ (p : AOFParser), InHeader p →
    InHeader (aofHeaderLoop n p).1 := by
  induction n with
  | zero => intro p hp; exact hp
  | succ n ih =>
    intro p hp
    unfold aofHeaderLoop
    split
    · exact hp.congrH rfl rfl rfl
    · rename_i key p1 he1
      have h1 := (ext_expectOneOf he1).inHeader hp
      split
      · exact h1
      · split
        · exact h1.congrH rfl rfl rfl
        · rename_i raw p2 he2
          have h2 := (ext_expect he2).inHeader h1
          split
          · exact h2
          · dsimp only
            split
            · exact h2.congrH rfl rfl rfl
            · rename_i t5 p5 he5
              have h5 := (ext_expect he5).inHeader (h2.congrH rfl rfl rfl)
              exact ih _ (h5.congrH rfl rfl rfl)

theorem inv_aofHeader (p : AOFParser) (h : Inv (p, some .aofHeader)) : Inv (aofHeader p) := by
  have hp : InHeader p := h
  have hl := inHeader_aofHeaderLoop p.headerTotal.toNat p hp
  unfold aofHeader
  split
  · rename_i p1 heq
    rw [heq] at hl
    exact inv_halt hl.isSound
  · rename_i p1 heq
    rw [heq] at hl
    refine ⟨sound_emit_other hl.isSound _ isMutation_newEvent_header, ?_⟩
    show ((mutations (p1.events ++ [newEvent EventHeader])).length : Int) = p1.curBodyLine
    rw [mutations_append, mutations_of_none _ hl.events, hl.curBodyLine]
    rfl

theorem Ext.count {p q : AOFParser} (h : Ext p q) (d : Int)
    (hc : ((mutations p.events).length : Int) = p.curBodyLine + d) :
    ((mutations q.events).length : Int) = q.curBodyLine + d := by
  rw [h.muts, h.curBodyLine]; exact hc

theorem inv_aofBodyEvent (p : AOFParser) (h : Inv (p, some .aofBodyEvent)) :
    Inv (aofBodyEvent p) := by
  have h0 : Sound p ∧ ((mutations p.events).length : Int) = p.curBodyLine := h
  obtain ⟨hs, hc⟩ := h0
  unfold aofBodyEvent
  split
  · exact inv_block hs
  · rename_i raw p1 he
    have hx := ext_expect he
    have hs1 := hx.keepsSound hs
    have hc1 : ((mutations p1.events).length : Int) = p1.curBodyLine := by
      simpa using hx.count 0 (by simpa using hc)
    split
    · exact inv_halt hs1
    · dsimp only
      split
      · exact ⟨hs1.congrS rfl rfl rfl, hc1, Or.inl rfl⟩
      · split
        · exact ⟨hs1.congrS rfl rfl rfl, hc1, Or.inr (Or.inl rfl)⟩
        · split
          · exact ⟨hs1.congrS rfl rfl rfl, hc1, Or.inr (Or.inr (Or.inl rfl))⟩
          · split
            · exact ⟨hs1.congrS rfl rfl rfl, hc1, Or.inr (Or.inr (Or.inr rfl))⟩
            · exact inv_halt ((ext_error _ _).keepsSound hs1)

theorem inv_aofBodyKey (p : AOFParser) (h : Inv (p, some .aofBodyKey)) :
    Inv (aofBodyKey p) := by
  have h0 : Sound p ∧ ((mutations p.events).length : Int) = p.curBodyLine ∧
    isAction p.curEvent := h
  obtain ⟨hs, hc, ha⟩ := h0
  unfold aofBodyKey
  split
  · exact inv_block hs
  · rename_i raw p1 he
    have hx := ext_expectOneOf he
    have hs1 := hx.keepsSound hs
    have hc1 : ((mutations p1.events).length : Int) = p1.curBodyLine := by
      simpa using hx.count 0 (by simpa using hc)
    have ha1 : isAction p1.curEvent := by rw [hx.curEvent]; exact ha
    split
    · exact inv_halt hs1
    · dsimp only
      split
      · exact ⟨hs1.congrS rfl rfl rfl, hc1, ha1⟩
      · split
        · exact ⟨hs1.congrS rfl rfl rfl, hc1, ha1⟩
        · exact ⟨hs1.congrS rfl rfl rfl, hc1, ha1⟩

theorem inv_aofBodyValue (p : AOFParser) (h : Inv (p, some .aofBodyValue)) :
    Inv (aofBodyValue p) := by
  have h0 : Sound p ∧ ((mutations p.events).length : Int) = p.curBodyLine ∧
    isAction p.curEvent := h
  obtain ⟨hs, hc, ha⟩ := h0
  unfold aofBodyValue
  split
  · exact inv_block hs
  · rename_i raw p1 he
    have hx := ext_expect he
    have hs1 := hx.keepsSound hs
    have hc1 : ((mutations p1.events).length : Int) = p1.curBodyLine := by
      simpa using hx.count 0 (by simpa using hc)
    have ha1 : isAction p1.curEvent := by rw [hx.curEvent]; exact ha
    split
    · exact inv_halt hs1
    · exact ⟨hs1.congrS rfl rfl rfl, hc1, ha1⟩

theorem inv_aofBodyModifyOperator (p : AOFParser) (h : Inv (p, some .aofBodyModifyOperator)) :
    Inv (aofBodyModifyOperator p) := by
  have h0 : Sound p ∧ ((mutations p.events).length : Int) = p.curBodyLine ∧
    isAction p.curEvent := h
  obtain ⟨hs, hc, ha⟩ := h0
  unfold aofBodyModifyOperator
  split
  · exact inv_block hs
  · rename_i raw p1 he
    have hx := ext_expect he
    have hs1 := hx.keepsSound hs
    have hc1 : ((mutations p1.events).length : Int) = p1.curBodyLine := by
      simpa using hx.count 0 (by simpa using hc)
    have ha1 : isAction p1.curEvent := by rw [hx.curEvent]; exact ha
    split
    · exact inv_halt hs1
    · split
      · exact inv_halt ((ext_error _ _).keepsSound hs1)
      · exact ⟨hs1.congrS rfl rfl rfl, hc1, ha1⟩

theorem applied_set (p : AOFParser) (v : value) :
    Applied p { p with values := mapSet p.values p.curKey v } :=
  ⟨rfl, rfl, rfl, rfl, rfl, fun k hk => by simp [mapSet, hk]⟩

theorem aofApplyEvent_ok {p q : AOFParser} (h : aofApplyEvent p = Except.ok q) :
    Applied p q := by
  unfold aofApplyEvent at h
  repeat' split at h
  all_goals cases h
  all_goals first
    | exact applied_set _ _
    | exact ⟨rfl, rfl, rfl, rfl, rfl, fun _ _ => rfl⟩

theorem inv_aofEmitBodyEvent (p : AOFParser) (h : Inv (p, some .aofEmitBodyEvent)) :
    Inv (aofEmitBodyEvent p) := by
  have h0 : Sound p ∧ ((mutations p.events).length : Int) = p.curBodyLine ∧
    isAction p.curEvent := h
  obtain ⟨hs, hc, ha⟩ := h0
  unfold aofEmitBodyEvent
  split
  · exact inv_halt ((ext_error _ _).keepsSound hs)
  · rename_i w hdecl
    split
    · exact inv_halt ((ext_error _ _).keepsSound hs)
    · rename_i q hq
      have hap := aofApplyEvent_ok hq
      have haq : isAction q.curEvent := by rw [hap.curEvent]; exact ha
      have hcq : ((mutations q.events).length : Int) = q.curBodyLine := by
        rw [hap.events, hap.curBodyLine]; exact hc
      dsimp only
      refine ⟨⟨?_, ?_⟩, ?_⟩
      · show finalOK q.headers (q.events ++ [_])
        apply finalOK_append
        · rw [hap.headers, hap.events]; exact hs.fin
        · intro _
          rw [hcq]
          by_cases hf : headerOf q.headers q.curKey = q.curBodyLine
          · rw [if_pos hf]
            simp only [(isAction_flags q.curEvent haq _ _ _).2.2.2, hf]
          · rw [if_neg hf]
            simp only [(isAction_flags q.curEvent haq _ _ _).2.2.1, hf]
            simp
      · intro k hk
        show q.headers k ≠ none
        rw [hap.headers]
        by_cases hkk : k = p.curKey
        · rw [hkk, hdecl]; simp
        · have hk1 : q.values k ≠ none := hk
          rw [hap.values k hkk] at hk1
          exact hs.declared k hk1
      · show ((mutations (q.events ++ [_])).length : Int) = q.curBodyLine + 1
        rw [mutations_append, List.length_append, Nat.cast_add, hcq]
        congr 1
        by_cases hf : headerOf q.headers q.curKey = q.curBodyLine
        · rw [if_pos hf]
          simp [mutations, (isAction_flags q.curEvent haq _ _ _).2.1]
        · rw [if_neg hf]
          simp [mutations, (isAction_flags q.curEvent haq _ _ _).1]

theorem inv_aofBodyNextLine (p : AOFParser) (h : Inv (p, some .aofBodyNextLine)) :
    Inv (aofBodyNextLine p) := by
  have h0 : Sound p ∧ ((mutations p.events).length : Int) = p.curBodyLine + 1 := h
  obtain ⟨hs, hc⟩ := h0
  unfold aofBodyNextLine
  dsimp only
  split
  · split
    · exact inv_block (hs.congrS rfl rfl rfl)
    · rename_i t p2 he
      have hx := ext_expectOneOf he
      have hs2 : Sound p2 := hx.keepsSound (hs.congrS rfl rfl rfl)
      split
      · exact inv_halt ((ext_error _ _).keepsSound hs2)
      · split
        · refine ⟨hs2, ?_⟩
          show ((mutations p2.events).length : Int) = p2.curBodyLine
          rw [hx.muts, hx.curBodyLine]; exact hc
        · exact inv_halt (sound_emit_other hs2 _ isMutation_newEvent_completed)
  · refine inv_halt (sound_emit_other ?_ _ isMutation_newEvent_completed)
    exact hs.congrS rfl rfl rfl

theorem inv_parseStep (c : AOFParser × Option parserStateFunc) (h : Inv c) :
    Inv (parseStep c) := by
  obtain ⟨p, st⟩ := c
  cases st with
  | none => exact h
  | some s =>
    cases s with
    | aofHeaderTotal => exact inv_aofHeaderTotal p h
    | aofHeader => exact inv_aofHeader p h
    | aofBodyEvent => exact inv_aofBodyEvent p h
    | aofBodyKey => exact inv_aofBodyKey p h
    | aofBodyValue => exact inv_aofBodyValue p h
    | aofBodyModifyOperator => exact inv_aofBodyModifyOperator p h
    | aofEmitBodyEvent => exact inv_aofEmitBodyEvent p h
    | aofBodyNextLine => exact inv_aofBodyNextLine p h

theorem inv_start (toks : List token) : Inv (NewAOFParser toks, some .aofHeaderTotal) :=
  (⟨fun _ hev => (by cases hev), rfl, fun _ => rfl⟩ : InHeader (NewAOFParser toks))

theorem inv_parseSteps (n : Nat) (c : AOFParser × Option parserStateFunc) (h : Inv c) :
    Inv (parseSteps n c) := by
  induction n with
  | zero => exact h
  | succ n ih => exact inv_parseStep _ ih

theorem inv_Parse (rd : List Char) (e : readEnd) (n : Nat) : Inv (Parse rd e n) :=
  inv_parseSteps n _ (inv_start _)

/-- The invariant gives `Sound` in every state. -/
theorem Inv.givesSound {c : AOFParser × Option parserStateFunc} (h : Inv c) : Sound c.1 := by
  obtain ⟨p, st⟩ := c
  cases st with
  | none => exact h
  | some s =>
    cases s with
    | aofHeaderTotal => exact InHeader.isSound h
    | aofHeader => exact InHeader.isSound h
    | aofBodyEvent => exact (show Sound p ∧ _ from h).1
    | aofBodyKey => exact (show Sound p ∧ _ from h).1
    | aofBodyValue => exact (show Sound p ∧ _ from h).1
    | aofBodyModifyOperator => exact (show Sound p ∧ _ from h).1
    | aofEmitBodyEvent => exact (show Sound p ∧ _ from h).1
    | aofBodyNextLine => exact (show Sound p ∧ _ from h).1

theorem addsOther_self (evs : List Event) : AddsOther evs evs :=
  ⟨[], by simp, fun _ h => by cases h⟩

theorem AddsOther.trans {a b c : List Event} (h1 : AddsOther a b) (h2 : AddsOther b c) :
    AddsOther a c := by
  obtain ⟨x, hx, hxn⟩ := h1
  obtain ⟨y, hy, hyn⟩ := h2
  refine ⟨x ++ y, by rw [hy, hx, List.append_assoc], ?_⟩
  intro ev hev
  rcases List.mem_append.1 hev with h | h
  · exact hxn ev h
  · exact hyn ev h

theorem addsOther_one (evs : List Event) (e : Event) (he : e.isMutation = false) :
    AddsOther evs (evs ++ [e]) :=
  ⟨[e], rfl, fun ev hev => by simp only [List.mem_singleton] at hev; rw [hev]; exact he⟩

theorem Ext.adds {p q : AOFParser} (h : Ext p q) : AddsOther p.events q.events := by
  rcases h.events with he | ⟨ev, hev, he⟩
  · rw [he]; exact addsOther_self _
  · rw [he]; exact addsOther_one _ _ (isMutation_error _ hev)

theorem adds_error (p : AOFParser) (msg : String) : AddsOther p.events (p.error msg).events :=
  (ext_error p msg).adds

theorem adds_aofBodyEvent (p : AOFParser) : AddsOther p.events (aofBodyEvent p).1.events := by
  unfold aofBodyEvent
  split
  · exact addsOther_self _
  · rename_i raw p1 he
    have hx := (ext_expect he).adds
    split
    · exact hx
    · dsimp only
      repeat' split
      all_goals first
        | exact hx
        | exact hx.trans (adds_error _ _)

theorem adds_aofBodyKey (p : AOFParser) : AddsOther p.events (aofBodyKey p).1.events := by
  unfold aofBodyKey
  split
  · exact addsOther_self _
  · rename_i raw p1 he
    have hx := (ext_expectOneOf he).adds
    split
    · exact hx
    · dsimp only
      repeat' split
      all_goals exact hx

theorem adds_aofBodyValue (p : AOFParser) : AddsOther p.events (aofBodyValue p).1.events := by
  unfold aofBodyValue
  split
  · exact addsOther_self _
  · rename_i raw p1 he
    have hx := (ext_expect he).adds
    split
    · exact hx
    · exact hx

theorem adds_aofBodyModifyOperator (p : AOFParser) :
    AddsOther p.events (aofBodyModifyOperator p).1.events := by
  unfold aofBodyModifyOperator
  split
  · exact addsOther_self _
  · rename_i raw p1 he
    have hx := (ext_expect he).adds
    repeat' split
    all_goals first
      | exact hx
      | exact hx.trans (adds_error _ _)

theorem adds_aofBodyNextLine (p : AOFParser) :
    AddsOther p.events (aofBodyNextLine p).1.events := by
  unfold aofBodyNextLine
  dsimp only
  split
  · split
    · exact addsOther_self _
    · rename_i t p2 he
      have hx : AddsOther p.events p2.events := (ext_expectOneOf he).adds
      repeat' split
      all_goals first
        | exact hx
        | exact hx.trans (adds_error _ _)
        | exact hx.trans (addsOther_one _ _ isMutation_newEvent_completed)
  · exact addsOther_one _ _ isMutation_newEvent_completed

/-- The two outcomes of `aofEmitBodyEvent`: an error event and `nil`, or one mutation
event on `curKey`, flagged final exactly when the header value of the key is the
body-line counter, and `aofBodyNextLine`. -/
theorem emits_aofEmitBodyEvent (p : AOFParser) (ha : isAction p.curEvent) :
    ((aofEmitBodyEvent p).2 = none ∧ AddsOther p.events (aofEmitBodyEvent p).1.events) ∨
    ∃ ev, (aofEmitBodyEvent p).1.events = p.events ++ [ev] ∧ ev.isMutation = true ∧
      ev.Key = p.curKey ∧ (aofEmitBodyEvent p).2 = some .aofBodyNextLine ∧
      (ev.isFinal = true ↔ headerOf p.headers p.curKey = p.curBodyLine) := by
  unfold aofEmitBodyEvent
  split
  · exact Or.inl ⟨rfl, adds_error _ _⟩
  · split
    · exact Or.inl ⟨rfl, adds_error _ _⟩
    · rename_i q hq
      have hap := aofApplyEvent_ok hq
      have haq : isAction q.curEvent := by rw [hap.curEvent]; exact ha
      right
      dsimp only
      refine ⟨_, by rw [← hap.events]; rfl, ?_, hap.curKey, rfl, ?_⟩
      · by_cases hf : headerOf q.headers q.curKey = q.curBodyLine
        · rw [if_pos hf]; exact (isAction_flags q.curEvent haq _ _ _).2.1
        · rw [if_neg hf]; exact (isAction_flags q.curEvent haq _ _ _).1
      · rw [← hap.headers, ← hap.curKey, ← hap.curBodyLine]
        by_cases hf : headerOf q.headers q.curKey = q.curBodyLine
        · rw [if_pos hf]
          simp only [(isAction_flags q.curEvent haq _ _ _).2.2.2, hf]
        · rw [if_neg hf]
          simp only [(isAction_flags q.curEvent haq _ _ _).2.2.1, hf]
          simp

theorem inHeader_aofHeaderTotal (p : AOFParser) (hp : InHeader p) :
    InHeader (aofHeaderTotal p).1 := by
  unfold aofHeaderTotal
  split
  · exact hp.congrH rfl rfl rfl
  · rename_i tok p1 he
    have h1 := (ext_expect he).inHeader hp
    split
    · exact h1
    · dsimp only
      split
      · refine ⟨?_, h1.curBodyLine, h1.values⟩
        intro ev hev
        rcases List.mem_append.1 hev with h | h
        · exact h1.events ev h
        · simp only [List.mem_singleton] at h
          rw [h]; exact isMutation_newEvent_completed
      · split
        · exact h1.congrH rfl rfl rfl
        · rename_i t3 p3 he3
          have h3 : InHeader p3 := (ext_expect he3).inHeader (h1.congrH rfl rfl rfl)
          exact h3.congrH rfl rfl rfl

theorem inHeader_aofHeader (p : AOFParser) (hp : InHeader p) : InHeader (aofHeader p).1 := by
  have hl := inHeader_aofHeaderLoop p.headerTotal.toNat p hp
  unfold aofHeader
  split
  · rename_i p1 heq
    rw [heq] at hl
    exact hl
  · rename_i p1 heq
    rw [heq] at hl
    refine ⟨?_, hl.curBodyLine, hl.values⟩
    intro ev hev
    rcases List.mem_append.1 hev with h | h
    · exact hl.events ev h
    · simp only [List.mem_singleton] at h
      rw [h]; exact isMutation_newEvent_header

theorem split_of_addsOther {evs evs1 pre post : List Event} {ev : Event}
    (h : AddsOther evs evs1) (hs : evs1 = pre ++ ev :: post) (hm : ev.isMutation = true) :
    ∃ post1, evs = pre ++ ev :: post1 := by
  obtain ⟨added, ha, hn⟩ := h
  rw [ha] at hs
  rcases List.append_eq_append_iff.1 hs with ⟨a1, h1, h2⟩ | ⟨c1, h1, h2⟩
  · rw [h2] at hn
    have := hn ev (by simp)
    rw [this] at hm; cases hm
  · cases c1 with
    | nil =>
      simp only [List.nil_append] at h2
      rw [← h2] at hn
      have := hn ev (by simp)
      rw [this] at hm; cases hm
    | cons x c2 =>
      simp only [List.cons_append, List.cons.injEq] at h2
      exact ⟨c2, by rw [h1, h2.1]⟩

theorem parseSteps_succ (n : Nat) (c : AOFParser × Option parserStateFunc) :
    parseSteps (n + 1) c = parseStep (parseSteps n c) := rfl

theorem Parse_succ (rd : List Char) (e : readEnd) (n : Nat) :
    Parse rd e (n + 1) = parseStep (Parse rd e n) := rfl

/-- Where a mutation event of the stream was emitted: by a call of `aofEmitBodyEvent`
made when the stream was the part before the event and the body-line counter was
the number of mutation events in it. -/
theorem emitted_at (rd : List Char) (e : readEnd) : ∀ (n : Nat) (pre post : List Event)
    (ev : Event), (Parse rd e n).1.events = pre ++ ev :: post → ev.isMutation = true →
    ∃ m, m < n ∧ (Parse rd e m).2 = some .aofEmitBodyEvent ∧ (Parse rd e m).1.events = pre ∧
      (Parse rd e (m + 1)).1.events = pre ++ [ev] ∧ ev.Key = (Parse rd e m).1.curKey ∧
      (Parse rd e m).1.curBodyLine = ((mutations pre).length : Int) ∧
      (ev.isFinal = true ↔
        headerOf (Parse rd e m).1.headers ev.Key = (Parse rd e m).1.curBodyLine) := by
  intro n
  induction n with
  | zero =>
    intro pre post ev hs _
    have : (Parse rd e 0).1.events = [] := rfl
    rw [this] at hs
    cases pre <;> cases hs
  | succ n ih =>
    intro pre post ev hs hm
    have hinv := inv_Parse rd e n
    by_cases hold : ∃ post1, (Parse rd e n).1.events = pre ++ ev :: post1
    · obtain ⟨post1, hp1⟩ := hold
      obtain ⟨m, hlt, rest⟩ := ih pre post1 ev hp1 hm
      exact ⟨m, Nat.lt_succ_of_lt hlt, rest⟩
    have lift : (∃ post1, (Parse rd e n).1.events = pre ++ ev :: post1) → False := hold
    clear hold
    rw [Parse_succ] at hs
    generalize hc : Parse rd e n = c at hs hinv lift
    obtain ⟨p, st⟩ := c
    cases st with
    | none => exact absurd ⟨post, hs⟩ lift
    | some s =>
      cases s with
      | aofHeaderTotal =>
        have := (inHeader_aofHeaderTotal p hinv).events ev (by
          show ev ∈ (parseStep (p, some .aofHeaderTotal)).1.events
          rw [hs]; simp)
        rw [this] at hm; cases hm
      | aofHeader =>
        have := (inHeader_aofHeader p hinv).events ev (by
          show ev ∈ (parseStep (p, some .aofHeader)).1.events
          rw [hs]; simp)
        rw [this] at hm; cases hm
      | aofBodyEvent => exact absurd (split_of_addsOther (adds_aofBodyEvent p) hs hm) lift
      | aofBodyKey => exact absurd (split_of_addsOther (adds_aofBodyKey p) hs hm) lift
      | aofBodyValue => exact absurd (split_of_addsOther (adds_aofBodyValue p) hs hm) lift
      | aofBodyModifyOperator =>
        exact absurd (split_of_addsOther (adds_aofBodyModifyOperator p) hs hm) lift
      | aofBodyNextLine => exact absurd (split_of_addsOther (adds_aofBodyNextLine p) hs hm) lift
      | aofEmitBodyEvent =>
        have h0 : Sound p ∧ ((mutations p.events).length : Int) = p.curBodyLine ∧
          isAction p.curEvent := hinv
        rcases emits_aofEmitBodyEvent p h0.2.2 with ⟨_, hadd⟩ | ⟨ev1, hev, _, hkey, _, hfin⟩
        · exact absurd (split_of_addsOther hadd hs hm) lift
        · have hs1 : p.events ++ [ev1] = pre ++ ev :: post := hev.symm.trans hs
          rcases split_concat _ _ _ _ _ hs1 with ⟨_, hpre, hev1⟩ | ⟨post1, _, hevs⟩
          · subst hpre; subst hev1
            refine ⟨n, Nat.lt_succ_self n, ?_, ?_, ?_, ?_, ?_, ?_⟩
            · rw [hc]
            · rw [hc]
            · rw [Parse_succ, hc]; exact hev
            · rw [hc]; exact hkey
            · rw [hc]; exact h0.2.1.symm
            · rw [hc, hkey]; exact hfin
          · exact absurd ⟨post1, hevs⟩ lift

theorem parseSteps_halt (n : Nat) (p : AOFParser) : parseSteps n (p, none) = (p, none) := by
  induction n with
  | zero => rfl
  | succ n ih => rw [parseSteps_succ, ih]; rfl

theorem parseSteps_add (m n : Nat) (c : AOFParser × Option parserStateFunc) :
    parseSteps (n + m) c = parseSteps m (parseSteps n c) := by
  induction m with
  | zero => rfl
  | succ m ih => rw [← Nat.add_assoc, parseSteps_succ, ih, parseSteps_succ]

theorem Parse_add (rd : List Char) (e : readEnd) (n m : Nat) :
    Parse rd e (n + m) = parseSteps m (Parse rd e n) :=
  parseSteps_add m n _

theorem mutations_getElem?_split (evs : List Event) : ∀ (i : Nat) (ev : Event),
    (mutations evs)[i]? = some ev →
    ∃ pre post, evs = pre ++ ev :: post ∧ (mutations pre).length = i ∧ ev.isMutation = true := by
  induction evs with
  | nil => intro i ev h; simp [mutations] at h
  | cons a l ih =>
    intro i ev h
    by_cases ha : a.isMutation = true
    · have hm : mutations (a :: l) = a :: mutations l := by simp [mutations, ha]
      rw [hm] at h
      cases i with
      | zero =>
        simp only [List.getElem?_cons_zero, Option.some.injEq] at h
        subst h
        exact ⟨[], l, rfl, rfl, ha⟩
      | succ j =>
        simp only [List.getElem?_cons_succ] at h
        obtain ⟨pre, post, h1, h2, h3⟩ := ih j ev h
        refine ⟨a :: pre, post, by rw [h1]; rfl, ?_, h3⟩
        have : mutations (a :: pre) = a :: mutations pre := by simp [mutations, ha]
        rw [this, List.length_cons, h2]
    · have hm : mutations (a :: l) = mutations l := by simp [mutations, ha]
      rw [hm] at h
      obtain ⟨pre, post, h1, h2, h3⟩ := ih i ev h
      refine ⟨a :: pre, post, by rw [h1]; rfl, ?_, h3⟩
      have : mutations (a :: pre) = mutations pre := by simp [mutations, ha]
      rw [this, h2]

/-! ### The tokens the validator reads are the scanner's -/

theorem toks_aofHeaderTotal (p : AOFParser) : ∀ t ∈ (aofHeaderTotal p).1.toks, t ∈ p.toks := by
  unfold aofHeaderTotal
  split
  · exact fun _ h => h
  · rename_i tok p1 he
    have hx := (ext_expect he).toks
    split
    · exact hx
    · dsimp only
      split
      · exact hx
      · split
        · exact hx
        · rename_i t3 p3 he3
          have h3 := (ext_expect he3).toks
          exact fun t ht => hx t (h3 t ht)

theorem toks_aofHeaderLoop (n : Nat) : ∀ (p : AOFParser),
    ∀ t ∈ (aofHeaderLoop n p).1.toks, t ∈ p.toks := by
  induction n with
  | zero => intro p t h; exact h
  | succ n ih =>
    intro p
    unfold aofHeaderLoop
    split
    · exact fun _ h => h
    · rename_i key p1 he1
      have h1 := (ext_expectOneOf he1).toks
      split
      · exact h1
      · split
        · exact h1
        · rename_i raw p2 he2
          have h2 := (ext_expect he2).toks
          split
          · exact fun t ht => h1 t (h2 t ht)
          · dsimp only
            split
            · exact fun t ht => h1 t (h2 t ht)
            · rename_i t5 p5 he5
              have h5 := (ext_expect he5).toks
              intro t ht
              have h6 := ih _ t ht
              exact h1 t (h2 t (h5 t h6))

theorem toks_aofHeader (p : AOFParser) : ∀ t ∈ (aofHeader p).1.toks, t ∈ p.toks := by
  have hl := toks_aofHeaderLoop p.headerTotal.toNat p
  unfold aofHeader
  split
  · rename_i p1 heq
    rw [heq] at hl
    exact hl
  · rename_i p1 heq
    rw [heq] at hl
    exact hl

theorem toks_aofBodyEvent (p : AOFParser) : ∀ t ∈ (aofBodyEvent p).1.toks, t ∈ p.toks := by
  unfold aofBodyEvent
  split
  · exact fun _ h => h
  · rename_i raw p1 he
    have hx := (ext_expect he).toks
    split
    · exact hx
    · dsimp only
      repeat' split
      all_goals exact hx

theorem toks_aofBodyKey (p : AOFParser) : ∀ t ∈ (aofBodyKey p).1.toks, t ∈ p.toks := by
  unfold aofBodyKey
  split
  · exact fun _ h => h
  · rename_i raw p1 he
    have hx := (ext_expectOneOf he).toks
    split
    · exact hx
    · dsimp only
      repeat' split
      all_goals exact hx

theorem toks_aofBodyValue (p : AOFParser) : ∀ t ∈ (aofBodyValue p).1.toks, t ∈ p.toks := by
  unfold aofBodyValue
  split
  · exact fun _ h => h
  · rename_i raw p1 he
    have hx := (ext_expect he).toks
    split
    · exact hx
    · exact hx

theorem toks_aofBodyModifyOperator (p : AOFParser) :
    ∀ t ∈ (aofBodyModifyOperator p).1.toks, t ∈ p.toks := by
  unfold aofBodyModifyOperator
  split
  · exact fun _ h => h
  · rename_i raw p1 he
    have hx := (ext_expect he).toks
    repeat' split
    all_goals exact hx

theorem toks_aofEmitBodyEvent (p : AOFParser) :
    ∀ t ∈ (aofEmitBodyEvent p).1.toks, t ∈ p.toks := by
  unfold aofEmitBodyEvent
  split
  · exact fun _ h => h
  · split
    · exact fun _ h => h
    · rename_i q hq
      have hq2 : q.toks = p.toks := by
        unfold aofApplyEvent at hq
        repeat' split at hq
        all_goals cases hq
        all_goals rfl
      intro t ht
      have ht2 : t ∈ q.toks := ht
      rw [hq2] at ht2
      exact ht2

theorem toks_aofBodyNextLine (p : AOFParser) :
    ∀ t ∈ (aofBodyNextLine p).1.toks, t ∈ p.toks := by
  unfold aofBodyNextLine
  dsimp only
  split
  · split
    · exact fun _ h => h
    · rename_i t p2 he
      have hx := (ext_expectOneOf he).toks
      repeat' split
      all_goals exact hx
  · exact fun _ h => h

theorem toks_parseStep (c : AOFParser × Option parserStateFunc) :
    ∀ t ∈ (parseStep c).1.toks, t ∈ c.1.toks := by
  obtain ⟨p, st⟩ := c
  cases st with
  | none => exact fun _ h => h
  | some s =>
    cases s with
    | aofHeaderTotal => exact toks_aofHeaderTotal p
    | aofHeader => exact toks_aofHeader p
    | aofBodyEvent => exact toks_aofBodyEvent p
    | aofBodyKey => exact toks_aofBodyKey p
    | aofBodyValue => exact toks_aofBodyValue p
    | aofBodyModifyOperator => exact toks_aofBodyModifyOperator p
    | aofEmitBodyEvent => exact toks_aofEmitBodyEvent p
    | aofBodyNextLine => exact toks_aofBodyNextLine p

theorem toks_Parse (rd : List Char) (e : readEnd) (n : Nat) :
    ∀ t ∈ (Parse rd e n).1.toks, t ∈ lexer.run rd e := by
  induction n with
  | zero => exact fun _ h => h
  | succ n ih => exact fun t ht => ih t (toks_parseStep _ t ht)

theorem numberOK_error (e : readEnd) : ∀ t ∈ lexer.error e, numberOK t := by
  intro t ht
  cases e <;> simp only [lexer.error, List.mem_singleton] at ht <;> subst ht <;>
    intro h <;> cases h

theorem numberOK_emitValue (val : String) : ∀ t ∈ lexer.emitValue val, numberOK t := by
  intro t ht
  unfold lexer.emitValue at ht
  split at ht
  · rename_i hok
    simp only [List.mem_singleton] at ht
    subst ht
    exact fun _ => hok
  · simp only [List.mem_singleton] at ht
    subst ht
    intro h; cases h

theorem numberOK_space : numberOK ⟨tokenSpace, ""⟩ := fun h => by cases h

theorem numberOK_eol : numberOK ⟨tokenEOL, ""⟩ := fun h => by cases h

theorem numberOK_append {l1 l2 : List token} (h1 : ∀ t ∈ l1, numberOK t)
    (h2 : ∀ t ∈ l2, numberOK t) : ∀ t ∈ l1 ++ l2, numberOK t := by
  intro t ht
  rcases List.mem_append.1 ht with h | h
  · exact h1 t h
  · exact h2 t h

theorem numberOK_spaces (n : Nat) :
    ∀ t ∈ (if n > 0 then [(⟨tokenSpace, ""⟩ : token)] else []), numberOK t := by
  intro t ht
  split at ht
  · simp only [List.mem_singleton] at ht
    subst ht; exact numberOK_space
  · cases ht

theorem numberOK_flush (buf : List Char) :
    ∀ t ∈ (if buf.length > 0 then lexer.emitValue (String.mk buf) else []), numberOK t := by
  intro t ht
  split at ht
  · exact numberOK_emitValue _ t ht
  · cases ht

theorem numberOK_lexSpace (e : readEnd) : ∀ (rd : List Char) (n : Nat),
    ∀ t ∈ (lexSpace e rd n).out, numberOK t := by
  intro rd
  induction rd with
  | nil =>
    intro n
    unfold lexSpace
    exact numberOK_append (numberOK_spaces n) (numberOK_error e)
  | cons r rs ih =>
    intro n
    unfold lexSpace
    split
    · exact ih _
    · exact numberOK_spaces n

theorem numberOK_lexEOL (e : readEnd) : ∀ (rd : List Char) (acc : List token),
    (∀ t ∈ acc, numberOK t) → ∀ t ∈ (lexEOL e rd acc).out, numberOK t := by
  intro rd
  induction rd with
  | nil =>
    intro acc hacc
    unfold lexEOL
    exact numberOK_append hacc (numberOK_error e)
  | cons r rs ih =>
    intro acc hacc
    unfold lexEOL
    split
    · split
      · apply ih
        exact numberOK_append hacc (fun t ht => by
          simp only [List.mem_singleton] at ht
          subst ht; exact numberOK_eol)
      · exact ih _ hacc
    · exact hacc

theorem numberOK_lexString (e : readEnd) : ∀ (rd : List Char) (buf : List Char),
    ∀ t ∈ (lexString e rd buf).out, numberOK t := by
  intro rd
  induction rd with
  | nil =>
    intro buf
    unfold lexString
    exact numberOK_append (numberOK_flush buf) (numberOK_error e)
  | cons r rs ih =>
    intro buf
    unfold lexString
    split
    · exact ih _
    · exact numberOK_flush buf

theorem numberOK_runLoop (e : readEnd) : ∀ (n : Nat) (s : Option stateFunc) (rd : List Char),
    ∀ t ∈ lexer.runLoop e n s rd, numberOK t := by
  intro n
  induction n with
  | zero =>
    intro s rd t ht
    cases s <;> simp [lexer.runLoop] at ht
  | succ n ih =>
    intro s rd
    cases s with
    | none => intro t ht; simp [lexer.runLoop] at ht
    | some s =>
      unfold lexer.runLoop
      dsimp only
      apply numberOK_append
      · cases s
        · exact numberOK_lexSpace e rd 0
        · exact numberOK_lexEOL e rd [] (fun _ h => by cases h)
        · exact numberOK_lexString e rd []
      · exact ih _ _

/-- Every `tokenNumber` the validator can read was classified by `emitValue`, so
`strconv.ParseInt` accepts its text. -/
theorem numberOK_Parse (rd : List Char) (e : readEnd) (n : Nat) :
    ∀ t ∈ (Parse rd e n).1.toks, numberOK t :=
  fun t ht => numberOK_runLoop e _ _ _ t (toks_Parse rd e n t ht)

/-! ### `strconv.ParseInt` and the value of a numeral -/

theorem ParseUintLoop_ok (maxVal : Nat) : ∀ (cs : List Char) (n r : Nat),
    ParseUintLoop maxVal cs n = (r, NumError.ok) →
    cs.all Char.isDigit = true ∧ r = digitsValue cs n := by
  intro cs
  induction cs with
  | nil =>
    intro n r h
    simp only [ParseUintLoop, Prod.mk.injEq, and_true] at h
    exact ⟨rfl, h.symm⟩
  | cons c cs ih =>
    intro n r h
    unfold ParseUintLoop at h
    split at h
    · rename_i hd
      dsimp only at h
      split at h
      · cases h
      · rename_i hcut
        split at h
        · cases h
        · rename_i hov
          obtain ⟨h1, h2⟩ := ih _ r h
          refine ⟨by simp [hd, h1], ?_⟩
          have hd9 : c.toNat - '0'.toNat < 2 ^ 64 := by
            have : c.toNat < 2 ^ 32 := by
              have := c.val.toNat_lt
              simpa [Char.toNat] using this
            have h32 : (2 : Nat) ^ 32 < 2 ^ 64 := by norm_num
            omega
          have hn : (n * 10 + (c.toNat - '0'.toNat)) % 2 ^ 64 = n * 10 + (c.toNat - '0'.toNat) := by
            apply Nat.mod_eq_of_lt
            by_contra hge
            apply hov
            left
            have hlt : n * 10 + (c.toNat - '0'.toNat) < 2 ^ 64 + 2 ^ 64 := by
              have : n * 10 < 2 ^ 64 := by
                have h64 : (2 : Nat) ^ 64 = 18446744073709551616 := by norm_num
                rw [h64]
                have hc : n < (18446744073709551616 - 1) / 10 + 1 := by
                  rw [← h64]; omega
                norm_num at hc
                omega
              omega
            have hmod : (n * 10 + (c.toNat - '0'.toNat)) % 2 ^ 64 =
                n * 10 + (c.toNat - '0'.toNat) - 2 ^ 64 := by
              rw [Nat.mod_eq_sub_mod (Nat.le_of_not_lt hge)]
              exact Nat.mod_eq_of_lt (by omega)
            rw [hmod]
            omega
          rw [h2, digitsValue, hn]
    · cases h

theorem ParseUintLoop_range (maxVal : Nat) : ∀ (cs : List Char) (n r : Nat),
    ParseUintLoop maxVal cs n = (r, NumError.ErrRange) → r = maxVal := by
  intro cs
  induction cs with
  | nil => intro n r h; simp [ParseUintLoop] at h
  | cons c cs ih =>
    intro n r h
    unfold ParseUintLoop at h
    split at h
    · dsimp only at h
      split at h
      · simp only [Prod.mk.injEq, and_true] at h; exact h.symm
      · split at h
        · simp only [Prod.mk.injEq, and_true] at h; exact h.symm
        · exact ih _ r h
    · cases h

/-- When `strconv.ParseInt(s, 10, 64)` reports no error, `s` is a signed decimal
numeral and the result is the integer it denotes. -/
theorem ParseInt_ok (s : String) (h : (ParseInt s 64).2 = NumError.ok) :
    integerValue s = some (ParseInt s 64).1 := by
  unfold ParseInt at h ⊢
  unfold integerValue
  cases hs : s.data with
  | nil => rw [hs] at h; cases h
  | cons c cs =>
    rw [hs] at h
    dsimp only at h ⊢
    have hbody : (if (c == '+') = true ∨ (c == '-') = true then cs else c :: cs) =
        (if c = '+' ∨ c = '-' then cs else c :: cs) := by
      simp only [beq_iff_eq]
    rw [hbody] at h ⊢
    generalize hb : (if c = '+' ∨ c = '-' then cs else c :: cs) = body at h ⊢
    split at h
    · cases h
    · rename_i hsyn
      have hne : body ≠ [] := by
        intro hnil
        apply hsyn
        simp [ParseUint, hnil]
      have hloop : ParseUint body 64 = ParseUintLoop (2 ^ 64 - 1) body 0 := by
        simp [ParseUint, hne]
      have hrok : (ParseUint body 64).2 = NumError.ok := by
        cases hr : (ParseUint body 64).2 with
        | ok => rfl
        | ErrSyntax => exact absurd hr hsyn
        | ErrRange =>
          exfalso
          have hmax : (ParseUint body 64).1 = 2 ^ 64 - 1 := by
            rw [hloop]
            apply ParseUintLoop_range (2 ^ 64 - 1) body 0
            rw [← hloop]
            exact Prod.ext rfl hr
          rw [hmax] at h
          by_cases hneg : (c == '-') = true
          · simp [hneg] at h
          · simp [hneg] at h
      obtain ⟨hdig, hval⟩ := ParseUintLoop_ok (2 ^ 64 - 1) body 0 (ParseUint body 64).1 (by
        rw [← hloop]; exact Prod.ext rfl hrok)
      rw [if_neg hsyn, if_pos ⟨hne, hdig⟩]
      split at h
      · cases h
      · rename_i hA
        split at h
        · cases h
        · rename_i hB
          rw [if_neg hA, if_neg hB]
          by_cases hneg : (c == '-') = true
          · have hc : c = '-' := by simpa using hneg
            simp [hneg, hc, hval]
          · have hc : ¬ c = '-' := by simpa using hneg
            simp [hneg, hc, hval]

/-! ### One body line, state by state -/

theorem aofBodyEvent_create (p : AOFParser) (a : token) (t1 : List token)
    (h1 : nextNonSpaceLoop p.toks = some (a, t1)) (ha : a.typ = tokenString)
    (hu : ToUpper a.val = "CREATE") :
    aofBodyEvent p = ({ p with toks := t1, curEvent := EventCreate }, some .aofBodyKey) := by
  simp [aofBodyEvent, AOFParser.expect, AOFParser.nextNonSpace, h1, ha, hu]

theorem aofBodyEvent_delete (p : AOFParser) (a : token) (t1 : List token)
    (h1 : nextNonSpaceLoop p.toks = some (a, t1)) (ha : a.typ = tokenString)
    (hu : ToUpper a.val = "DELETE") :
    aofBodyEvent p = ({ p with toks := t1, curEvent := EventDelete }, some .aofBodyKey) := by
  simp [aofBodyEvent, AOFParser.expect, AOFParser.nextNonSpace, h1, ha, hu]

theorem aofBodyEvent_modify (p : AOFParser) (a : token) (t1 : List token)
    (h1 : nextNonSpaceLoop p.toks = some (a, t1)) (ha : a.typ = tokenString)
    (hu : ToUpper a.val = "MODIFY") :
    aofBodyEvent p = ({ p with toks := t1, curEvent := EventModify }, some .aofBodyKey) := by
  simp [aofBodyEvent, AOFParser.expect, AOFParser.nextNonSpace, h1, ha, hu]

theorem aofBodyEvent_set (p : AOFParser) (a : token) (t1 : List token)
    (h1 : nextNonSpaceLoop p.toks = some (a, t1)) (ha : a.typ = tokenString)
    (hu : ToUpper a.val = "SET") :
    aofBodyEvent p = ({ p with toks := t1, curEvent := EventSet }, some .aofBodyKey) := by
  simp [aofBodyEvent, AOFParser.expect, AOFParser.nextNonSpace, h1, ha, hu]

theorem aofBodyKey_read (p : AOFParser) (kt : token) (t2 : List token)
    (h2 : nextNonSpaceLoop p.toks = some (kt, t2))
    (hk : kt.typ = tokenString ∨ kt.typ = tokenNumber) :
    aofBodyKey p = ({ p with toks := t2, curKey := kt.val },
      some (if p.curEvent = EventCreate ∨ p.curEvent = EventSet then .aofBodyValue
        else if p.curEvent = EventModify then .aofBodyModifyOperator
        else .aofEmitBodyEvent)) := by
  rcases hk with hk | hk
  all_goals
    simp only [aofBodyKey, AOFParser.expectOneOf, AOFParser.nextNonSpace, h2, hk]
    simp
    split_ifs <;> rfl

theorem aofBodyValue_read (p : AOFParser) (vt : token) (t3 : List token)
    (h3 : nextNonSpaceLoop p.toks = some (vt, t3)) (hv : vt.typ = tokenNumber) :
    aofBodyValue p =
      ({ p with toks := t3, curValue := (ParseInt vt.val 64).1 }, some .aofEmitBodyEvent) := by
  simp [aofBodyValue, AOFParser.expect, AOFParser.nextNonSpace, h3, hv]

theorem aofBodyModifyOperator_signed (p : AOFParser) (vt : token) (t3 : List token)
    (h3 : nextNonSpaceLoop p.toks = some (vt, t3)) (hv : vt.typ = tokenNumber)
    (hs : HasPrefix vt.val '+' = true ∨ HasPrefix vt.val '-' = true) :
    aofBodyModifyOperator p =
      ({ p with toks := t3, curDelta := (ParseInt vt.val 64).1 }, some .aofEmitBodyEvent) := by
  rcases hs with hs | hs <;>
    simp [aofBodyModifyOperator, AOFParser.expect, AOFParser.nextNonSpace, h3, hv, hs]

theorem aofBodyModifyOperator_unsigned (p : AOFParser) (vt : token) (t3 : List token)
    (h3 : nextNonSpaceLoop p.toks = some (vt, t3)) (hv : vt.typ = tokenNumber)
    (hp : HasPrefix vt.val '+' = false) (hm : HasPrefix vt.val '-' = false) :
    aofBodyModifyOperator p =
      (({ p with toks := t3 } : AOFParser).error ("Unknown MODIFY operator: " ++ vt.val), none) := by
  simp [aofBodyModifyOperator, AOFParser.expect, AOFParser.nextNonSpace, h3, hv, hp, hm]

theorem parseStep_some (p : AOFParser) (s : parserStateFunc) :
    parseStep (p, some s) = s.call p := rfl

theorem parseStep_none (p : AOFParser) : parseStep (p, none) = (p, none) := rfl

theorem parseSteps_four (c : AOFParser × Option parserStateFunc) :
    parseSteps 4 c = parseStep (parseStep (parseStep (parseStep c))) := rfl

theorem parseSteps_three (c : AOFParser × Option parserStateFunc) :
    parseSteps 3 c = parseStep (parseStep (parseStep c)) := rfl

theorem line_create (p : AOFParser) (a kt vt : token) (t1 t2 t3 : List token)
    (h1 : nextNonSpaceLoop p.toks = some (a, t1)) (ha : a.typ = tokenString)
    (hu : ToUpper a.val = "CREATE") (h2 : nextNonSpaceLoop t1 = some (kt, t2))
    (hk : kt.typ = tokenString ∨ kt.typ = tokenNumber)
    (h3 : nextNonSpaceLoop t2 = some (vt, t3)) (hv : vt.typ = tokenNumber) :
    parseSteps 3 (p, some .aofBodyEvent) =
      ({ p with toks := t3, curEvent := EventCreate, curKey := kt.val,
                curValue := (ParseInt vt.val 64).1 }, some .aofEmitBodyEvent) := by
  rw [parseSteps_three, parseStep_some]
  simp only [parserStateFunc.call]
  rw [aofBodyEvent_create p a t1 h1 ha hu, parseStep_some]
  simp only [parserStateFunc.call]
  rw [aofBodyKey_read _ kt t2 h2 hk]
  simp only [true_or, if_true]
  rw [parseStep_some]
  simp only [parserStateFunc.call]
  rw [aofBodyValue_read _ vt t3 h3 hv]

theorem line_set (p : AOFParser) (a kt vt : token) (t1 t2 t3 : List token)
    (h1 : nextNonSpaceLoop p.toks = some (a, t1)) (ha : a.typ = tokenString)
    (hu : ToUpper a.val = "SET") (h2 : nextNonSpaceLoop t1 = some (kt, t2))
    (hk : kt.typ = tokenString ∨ kt.typ = tokenNumber)
    (h3 : nextNonSpaceLoop t2 = some (vt, t3)) (hv : vt.typ = tokenNumber) :
    parseSteps 3 (p, some .aofBodyEvent) =
      ({ p with toks := t3, curEvent := EventSet, curKey := kt.val,
                curValue := (ParseInt vt.val 64).1 }, some .aofEmitBodyEvent) := by
  rw [parseSteps_three, parseStep_some]
  simp only [parserStateFunc.call]
  rw [aofBodyEvent_set p a t1 h1 ha hu, parseStep_some]
  simp only [parserStateFunc.call]
  rw [aofBodyKey_read _ kt t2 h2 hk]
  simp only [or_true, if_true]
  rw [parseStep_some]
  simp only [parserStateFunc.call]
  rw [aofBodyValue_read _ vt t3 h3 hv]

theorem line_modify_key (p : AOFParser) (a kt : token) (t1 t2 : List token)
    (h1 : nextNonSpaceLoop p.toks = some (a, t1)) (ha : a.typ = tokenString)
    (hu : ToUpper a.val = "MODIFY") (h2 : nextNonSpaceLoop t1 = some (kt, t2))
    (hk : kt.typ = tokenString ∨ kt.typ = tokenNumber) :
    parseStep (parseStep (p, some .aofBodyEvent)) =
      ({ p with toks := t2, curEvent := EventModify, curKey := kt.val },
        some .aofBodyModifyOperator) := by
  rw [parseStep_some]
  simp only [parserStateFunc.call]
  rw [aofBodyEvent_modify p a t1 h1 ha hu, parseStep_some]
  simp only [parserStateFunc.call]
  rw [aofBodyKey_read _ kt t2 h2 hk]
  have h4 : ¬ (EventModify = EventCreate ∨ EventModify = EventSet) := by decide
  simp only [h4, if_false, if_true]

theorem line_modify (p : AOFParser) (a kt vt : token) (t1 t2 t3 : List token)
    (h1 : nextNonSpaceLoop p.toks = some (a, t1)) (ha : a.typ = tokenString)
    (hu : ToUpper a.val = "MODIFY") (h2 : nextNonSpaceLoop t1 = some (kt, t2))
    (hk : kt.typ = tokenString ∨ kt.typ = tokenNumber)
    (h3 : nextNonSpaceLoop t2 = some (vt, t3)) (hv : vt.typ = tokenNumber)
    (hs : HasPrefix vt.val '+' = true ∨ HasPrefix vt.val '-' = true) :
    parseSteps 3 (p, some .aofBodyEvent) =
      ({ p with toks := t3, curEvent := EventModify, curKey := kt.val,
                curDelta := (ParseInt vt.val 64).1 }, some .aofEmitBodyEvent) := by
  rw [parseSteps_three, line_modify_key p a kt t1 t2 h1 ha hu h2 hk, parseStep_some]
  simp only [parserStateFunc.call]
  rw [aofBodyModifyOperator_signed _ vt t3 h3 hv hs]

theorem line_delete (p : AOFParser) (a kt : token) (t1 t2 : List token)
    (h1 : nextNonSpaceLoop p.toks = some (a, t1)) (ha : a.typ = tokenString)
    (hu : ToUpper a.val = "DELETE") (h2 : nextNonSpaceLoop t1 = some (kt, t2))
    (hk : kt.typ = tokenString ∨ kt.typ = tokenNumber) :
    parseStep (parseStep (p, some .aofBodyEvent)) =
      ({ p with toks := t2, curEvent := EventDelete, curKey := kt.val },
        some .aofEmitBodyEvent) := by
  rw [parseStep_some]
  simp only [parserStateFunc.call]
  rw [aofBodyEvent_delete p a t1 h1 ha hu, parseStep_some]
  simp only [parserStateFunc.call]
  rw [aofBodyKey_read _ kt t2 h2 hk]
  have h4 : ¬ (EventDelete = EventCreate ∨ EventDelete = EventSet) := by decide
  have h5 : ¬ (EventDelete = EventModify) := by decide
  simp only [h4, h5, if_false]

/-! ### `lexer.run` is the one-pass scanner -/

theorem runLoop_succ (e : readEnd) (n : Nat) (s : stateFunc) (rd : List Char) :
    lexer.runLoop e (n + 1) (some s) rd =
      (s.call e rd).out ++ lexer.runLoop e n (s.call e rd).next (s.call e rd).rest := rfl

theorem runLoop_none (e : readEnd) (n : Nat) (rd : List Char) :
    lexer.runLoop e n none rd = [] := by
  cases n <;> rfl

theorem lex_scan (e : readEnd) : ∀ (rd : List Char),
    (∀ buf n, 2 * rd.length ≤ n →
      (lexString e rd buf).out ++
        lexer.runLoop e n (lexString e rd buf).next (lexString e rd buf).rest =
        scan e rd (mode.str buf)) ∧
    (∀ k n, 2 * rd.length + 1 ≤ n →
      (lexSpace e rd k).out ++
        lexer.runLoop e n (lexSpace e rd k).next (lexSpace e rd k).rest =
        scan e rd (mode.spc k)) ∧
    (∀ acc n, 2 * rd.length + 1 ≤ n →
      (lexEOL e rd acc).out ++
        lexer.runLoop e n (lexEOL e rd acc).next (lexEOL e rd acc).rest =
        acc ++ scan e rd mode.eol) := by
  intro rd
  induction rd with
  | nil =>
    refine ⟨?_, ?_, ?_⟩
    · intro buf n _
      simp [lexString, scan, runLoop_none]
    · intro k n _
      simp [lexSpace, scan, runLoop_none]
    · intro acc n _
      simp [lexEOL, scan, runLoop_none]
  | cons c cs ih =>
    obtain ⟨ih1, ih2, ih3⟩ := ih
    have h1 : ∀ buf n, 2 * (c :: cs).length ≤ n →
        (lexString e (c :: cs) buf).out ++
          lexer.runLoop e n (lexString e (c :: cs) buf).next (lexString e (c :: cs) buf).rest =
          scan e (c :: cs) (mode.str buf) := by
      intro buf n hn
      simp only [List.length_cons] at hn
      obtain ⟨m, rfl⟩ : ∃ m, n = m + 1 := ⟨n - 1, by omega⟩
      by_cases ht : (!isSpace c && !isEOL c) = true
      · rw [lexString, if_pos ht, scan, if_pos ht]
        exact ih1 _ _ (by omega)
      · rw [lexString, if_neg ht, scan, if_neg ht]
        dsimp only
        congr 1
        by_cases hs : isSpace c = true
        · rw [if_pos hs, if_pos hs, runLoop_succ]
          have : stateFunc.lexSpace.call e (c :: cs) = lexSpace e cs 1 := by
            simp [stateFunc.call, lexSpace, hs]
          rw [this]
          exact ih2 1 m (by omega)
        · rw [if_neg hs, if_neg hs, runLoop_succ]
          have he : isEOL c = true := by
            cases h1 : isSpace c <;> cases h2 : isEOL c <;> simp_all
          by_cases hn : (c == '\n') = true
          · have : stateFunc.lexEOL.call e (c :: cs) = lexEOL e cs [⟨tokenEOL, ""⟩] := by
              simp [stateFunc.call, lexEOL, he, hn]
            rw [this, if_pos hn]
            exact ih3 _ m (by omega)
          · have : stateFunc.lexEOL.call e (c :: cs) = lexEOL e cs [] := by
              simp [stateFunc.call, lexEOL, he, hn]
            rw [this, if_neg hn]
            exact ih3 _ m (by omega)
    refine ⟨h1, ?_, ?_⟩
    · intro k n hn
      simp only [List.length_cons] at hn
      obtain ⟨m, rfl⟩ : ∃ m, n = m + 1 := ⟨n - 1, by omega⟩
      by_cases hs : isSpace c = true
      · rw [lexSpace, if_pos hs, scan, if_pos hs]
        exact ih2 _ _ (by omega)
      · rw [lexSpace, if_neg hs, scan, if_neg hs]
        dsimp only
        congr 1
        rw [runLoop_succ]
        have hcall : stateFunc.lexString.call e (c :: cs) = lexString e (c :: cs) [] := rfl
        rw [hcall, h1 [] m (by simp only [List.length_cons]; omega), scan]
        by_cases he : isEOL c = true
        · simp [hs, he]
        · simp [hs, he]
    · intro acc n hn
      simp only [List.length_cons] at hn
      obtain ⟨m, rfl⟩ : ∃ m, n = m + 1 := ⟨n - 1, by omega⟩
      by_cases he : isEOL c = true
      · rw [lexEOL, if_pos he, scan, if_pos he]
        by_cases hnl : (c == '\n') = true
        · rw [if_pos hnl, if_pos hnl, ih3 _ _ (by omega), List.append_assoc]
        · rw [if_neg hnl, if_neg hnl, ih3 _ _ (by omega)]
          simp
      · rw [lexEOL, if_neg he, scan, if_neg he]
        dsimp only
        congr 1
        rw [runLoop_succ]
        have hcall : stateFunc.lexString.call e (c :: cs) = lexString e (c :: cs) [] := rfl
        rw [hcall, h1 [] m (by simp only [List.length_cons]; omega), scan]
        by_cases hs : isSpace c = true
        · simp [hs, he]
        · simp [hs, he]

/-- The tokens of `lexer.run` are those of the one-pass scanner started in
`lexString` with an empty buffer. -/
theorem lexer_run_eq_scan (rd : List Char) (e : readEnd) :
    lexer.run rd e = scan e rd (mode.str []) := by
  unfold lexer.run
  rw [runLoop_succ]
  exact (lex_scan e rd).1 [] _ (by omega)

theorem countEOL_append (l1 l2 : List token) :
    countEOL (l1 ++ l2) = countEOL l1 + countEOL l2 := by
  simp [countEOL, List.countP_append]

theorem countEOL_error (e : readEnd) : countEOL (lexer.error e) = 0 := by
  cases e <;> rfl

theorem countEOL_emitValue (val : String) : countEOL (lexer.emitValue val) = 0 := by
  unfold lexer.emitValue
  split <;> rfl

theorem countEOL_flush (buf : List Char) :
    countEOL (if buf.length > 0 then lexer.emitValue (String.mk buf) else []) = 0 := by
  split
  · exact countEOL_emitValue _
  · rfl

theorem countEOL_spaces (n : Nat) :
    countEOL (if n > 0 then [(⟨tokenSpace, ""⟩ : token)] else []) = 0 := by
  split <;> rfl

theorem countEOL_newline (c : Char) :
    countEOL (if (c == '\n') = true then [(⟨tokenEOL, ""⟩ : token)] else []) =
      List.count '\n' [c] := by
  by_cases h : c = '\n'
  · subst h; rfl
  · have h1 : ¬ (c == '\n') = true := by simpa using h
    rw [if_neg h1]
    simp [countEOL, List.count_singleton, h]

theorem count_newline_of_not_eol (c : Char) (h : ¬ isEOL c = true) :
    List.count '\n' [c] = 0 := by
  have : c ≠ '\n' := by
    intro hc; apply h; subst hc; rfl
  simp [List.count_singleton, this]

theorem countEOL_scan (e : readEnd) : ∀ (rd : List Char) (m : mode),
    countEOL (scan e rd m) = rd.count '\n' := by
  intro rd
  induction rd with
  | nil =>
    intro m
    cases m <;>
      simp [scan, countEOL_append, countEOL_error, countEOL_flush, countEOL_spaces]
  | cons c cs ih =>
    intro m
    have hcons : (c :: cs).count '\n' = List.count '\n' [c] + cs.count '\n' := by
      rw [← List.count_append]; rfl
    rw [hcons]
    cases m with
    | str buf =>
      rw [scan]
      by_cases ht : (!isSpace c && !isEOL c) = true
      · rw [if_pos ht, ih]
        have : ¬ isEOL c = true := by
          intro h; simp [h] at ht
        rw [count_newline_of_not_eol c this]; omega
      · rw [if_neg ht, countEOL_append, countEOL_flush]
        by_cases hs : isSpace c = true
        · rw [if_pos hs, ih]
          have : ¬ isEOL c = true := by
            intro h
            simp only [isSpace, isEOL, Bool.or_eq_true, beq_iff_eq] at hs h
            rcases hs with hs | hs <;> rcases h with h | h <;> subst hs <;> cases h
          rw [count_newline_of_not_eol c this]
        · rw [if_neg hs, countEOL_append, ih, countEOL_newline]
          omega
    | spc n =>
      rw [scan]
      by_cases hs : isSpace c = true
      · rw [if_pos hs, ih]
        have : ¬ isEOL c = true := by
          intro h
          simp only [isSpace, isEOL, Bool.or_eq_true, beq_iff_eq] at hs h
          rcases hs with hs | hs <;> rcases h with h | h <;> subst hs <;> cases h
        rw [count_newline_of_not_eol c this]; omega
      · rw [if_neg hs, countEOL_append, countEOL_spaces]
        by_cases he : isEOL c = true
        · rw [if_pos he, countEOL_append, ih, countEOL_newline]
          omega
        · rw [if_neg he, ih, count_newline_of_not_eol c he]
    | eol =>
      rw [scan]
      by_cases he : isEOL c = true
      · rw [if_pos he, countEOL_append, ih, countEOL_newline]
      · rw [if_neg he, count_newline_of_not_eol c he]
        by_cases hs : isSpace c = true
        · rw [if_pos hs, ih]; omega
        · rw [if_neg hs, ih]; omega

/-! ### Which texts `strconv.ParseInt` accepts -/

theorem digitsValue_ge : ∀ (cs : List Char) (n : Nat), n ≤ digitsValue cs n := by
  intro cs
  induction cs with
  | nil => intro n; exact Nat.le_refl _
  | cons c cs ih =>
    intro n
    rw [digitsValue]
    have := ih (n * 10 + (c.toNat - '0'.toNat))
    omega

theorem ParseUintLoop_complete : ∀ (cs : List Char) (n : Nat),
    cs.all Char.isDigit = true → digitsValue cs n < 2 ^ 64 →
    ParseUintLoop (2 ^ 64 - 1) cs n = (digitsValue cs n, NumError.ok) := by
  intro cs
  induction cs with
  | nil => intro n _ _; rfl
  | cons c cs ih =>
    intro n hd hv
    simp only [List.all_cons, Bool.and_eq_true] at hd
    rw [digitsValue] at hv ⊢
    have hge := digitsValue_ge cs (n * 10 + (c.toNat - '0'.toNat))
    have h64 : (2 : Nat) ^ 64 = 18446744073709551616 := by norm_num
    rw [h64] at hv
    have hlt : n * 10 + (c.toNat - '0'.toNat) < 18446744073709551616 := by omega
    unfold ParseUintLoop
    rw [if_pos hd.1]
    dsimp only
    have hcut : ¬ n ≥ (2 ^ 64 - 1) / 10 + 1 := by
      rw [h64]; norm_num; omega
    rw [if_neg hcut]
    have hmod : (n * 10 + (c.toNat - '0'.toNat)) % 2 ^ 64 = n * 10 + (c.toNat - '0'.toNat) := by
      rw [h64]; exact Nat.mod_eq_of_lt hlt
    rw [hmod]
    have hov : ¬ (n * 10 + (c.toNat - '0'.toNat) < n * 10 ∨
        n * 10 + (c.toNat - '0'.toNat) > 2 ^ 64 - 1) := by
      rw [h64]; omega
    rw [if_neg hov]
    exact ih _ hd.2 (by rw [h64]; exact hv)

theorem ParseUintLoop_le (maxVal : Nat) : ∀ (cs : List Char) (n r : Nat), n ≤ maxVal →
    ParseUintLoop maxVal cs n = (r, NumError.ok) → r ≤ maxVal := by
  intro cs
  induction cs with
  | nil =>
    intro n r hn h
    simp only [ParseUintLoop, Prod.mk.injEq, and_true] at h
    omega
  | cons c cs ih =>
    intro n r hn h
    unfold ParseUintLoop at h
    split at h
    · dsimp only at h
      split at h
      · cases h
      · split at h
        · cases h
        · rename_i hov
          exact ih _ r (by omega) h
    · cases h

/-- What the digits denote fits in 64 bits when `ParseUint` accepts them. -/
theorem ParseUint_ok_lt (body : List Char) (r : Nat)
    (h : ParseUintLoop (2 ^ 64 - 1) body 0 = (r, NumError.ok)) : digitsValue body 0 < 2 ^ 64 := by
  have h1 := (ParseUintLoop_ok _ body 0 r h).2
  have h2 := ParseUintLoop_le _ body 0 r (Nat.zero_le _) h
  have h64 : (2 : Nat) ^ 64 = 18446744073709551616 := by norm_num
  rw [h64] at h2 ⊢
  omega

theorem ParseInt_ok_range (s : String) (h : (ParseInt s 64).2 = NumError.ok) :
    -(2 : Int) ^ 63 ≤ (ParseInt s 64).1 ∧ (ParseInt s 64).1 ≤ 2 ^ 63 - 1 := by
  unfold ParseInt at h ⊢
  cases hs : s.data with
  | nil => rw [hs] at h; cases h
  | cons c cs =>
    rw [hs] at h
    dsimp only at h ⊢
    generalize hb : (if (c == '+') = true ∨ (c == '-') = true then cs else c :: cs) = body
      at h ⊢
    split at h
    · cases h
    · rename_i hsyn
      split at h
      · cases h
      · rename_i hA
        split at h
        · cases h
        · rename_i hB
          rw [if_neg hsyn, if_neg hA, if_neg hB]
          have h63 : (2 : Nat) ^ (64 - 1) = 9223372036854775808 := by norm_num
          have h63i : (2 : Int) ^ 63 = 9223372036854775808 := by norm_num
          rw [h63] at hA hB
          rw [h63i]
          by_cases hneg : (c == '-') = true
          · simp only [hneg, true_and, not_lt, gt_iff_lt] at hB
            simp only [hneg, if_true]
            omega
          · simp only [hneg, not_false_eq_true, true_and, not_le, ge_iff_le, Bool.false_eq_true]
              at hA
            simp only [hneg, if_false, Bool.false_eq_true]
            omega

theorem ParseInt_complete (s : String) (v : Int) (hv : integerValue s = some v)
    (hr : -(2 : Int) ^ 63 ≤ v ∧ v ≤ 2 ^ 63 - 1) : (ParseInt s 64).2 = NumError.ok := by
  unfold integerValue at hv
  unfold ParseInt
  cases hs : s.data with
  | nil => rw [hs] at hv; cases hv
  | cons c cs =>
    rw [hs] at hv
    dsimp only at hv ⊢
    have hbody : (if (c == '+') = true ∨ (c == '-') = true then cs else c :: cs) =
        (if c = '+' ∨ c = '-' then cs else c :: cs) := by
      simp only [beq_iff_eq]
    rw [hbody]
    generalize hb : (if c = '+' ∨ c = '-' then cs else c :: cs) = body at hv ⊢
    split at hv
    · rename_i hcond
      obtain ⟨hne, hdig⟩ := hcond
      simp only [Option.some.injEq] at hv
      have h63i : (2 : Int) ^ 63 = 9223372036854775808 := by norm_num
      rw [h63i] at hr
      have hV : digitsValue body 0 ≤ 9223372036854775808 := by
        by_cases hc : c = '-'
        · rw [if_pos hc] at hv; omega
        · rw [if_neg hc] at hv; omega
      have h64 : (2 : Nat) ^ 64 = 18446744073709551616 := by norm_num
      have hloop : ParseUint body 64 = (digitsValue body 0, NumError.ok) := by
        simp only [ParseUint, hne, if_false]
        exact ParseUintLoop_complete body 0 hdig (by rw [h64]; omega)
      rw [hloop]
      have h63 : (2 : Nat) ^ (64 - 1) = 9223372036854775808 := by norm_num
      rw [h63]
      have hsyn : ¬ (NumError.ok = NumError.ErrSyntax) := by decide
      rw [if_neg hsyn]
      by_cases hc : c = '-'
      · have hneg : (c == '-') = true := by simpa using hc
        rw [if_pos hc] at hv
        have hA : ¬ (¬ (c == '-') = true ∧ digitsValue body 0 ≥ 9223372036854775808) := by
          simp [hneg]
        have hB : ¬ ((c == '-') = true ∧ digitsValue body 0 > 9223372036854775808) := by
          simp only [hneg, true_and, not_lt, gt_iff_lt]; omega
        rw [if_neg hA, if_neg hB]
      · have hneg : ¬ (c == '-') = true := by simpa using hc
        rw [if_neg hc] at hv
        have hA : ¬ (¬ (c == '-') = true ∧ digitsValue body 0 ≥ 9223372036854775808) := by
          simp only [hneg, not_false_eq_true, true_and, not_le, ge_iff_le]; omega
        have hB : ¬ ((c == '-') = true ∧ digitsValue body 0 > 9223372036854775808) := by
          simp [hneg]
        rw [if_neg hA, if_neg hB]
    · cases hv

/-- `strconv.ParseInt(s, 10, 64)` succeeds exactly on the signed 64-bit numerals. -/
theorem ParseInt_ok_iff (s : String) :
    (ParseInt s 64).2 = NumError.ok ↔ isInt64Numeral s = true := by
  constructor
  · intro h
    unfold isInt64Numeral
    rw [ParseInt_ok s h]
    simp only [decide_eq_true_eq]
    exact ParseInt_ok_range s h
  · intro h
    unfold isInt64Numeral at h
    cases hv : integerValue s with
    | none => rw [hv] at h; cases h
    | some v =>
      rw [hv] at h
      simp only [decide_eq_true_eq] at h
      exact ParseInt_complete s v hv h

theorem emitValue_eq_textToken (buf : List Char) :
    lexer.emitValue (String.mk buf) = [textToken buf] := by
  unfold lexer.emitValue textToken
  by_cases h : (ParseInt (String.mk buf) 64).2 = NumError.ok
  · rw [if_pos h, if_pos ((ParseInt_ok_iff _).1 h)]
  · rw [if_neg h, if_neg (fun hh => h ((ParseInt_ok_iff _).2 hh))]

/-! ### The text tokens of the scanner -/

theorem textTokens_append (l1 l2 : List token) :
    textTokens (l1 ++ l2) = textTokens l1 ++ textTokens l2 := by
  simp [textTokens]

theorem textTokens_error (e : readEnd) : textTokens (lexer.error e) = [] := by
  cases e <;> rfl

theorem textTokens_spaces (n : Nat) :
    textTokens (if n > 0 then [(⟨tokenSpace, ""⟩ : token)] else []) = [] := by
  split <;> rfl

theorem textTokens_newline (c : Char) :
    textTokens (if (c == '\n') = true then [(⟨tokenEOL, ""⟩ : token)] else []) = [] := by
  split <;> rfl

theorem textTokens_textToken (buf : List Char) : textTokens [textToken buf] = [textToken buf] := by
  unfold textToken
  split <;> rfl

theorem textTokens_flush (buf : List Char) :
    textTokens (if buf.length > 0 then lexer.emitValue (String.mk buf) else []) =
      (if buf = [] then [] else [buf]).map textToken := by
  cases buf with
  | nil => rfl
  | cons a l =>
    have h1 : (a :: l).length > 0 := by simp
    rw [if_pos h1, emitValue_eq_textToken, textTokens_textToken]
    rfl

theorem isSeparator_eq (c : Char) : isSeparator c = (isSpace c || isEOL c) := by
  simp only [isSeparator, isSpace, isEOL]
  cases (c == ' ') <;> cases (c == '\t') <;> cases (c == '\r') <;> cases (c == '\n') <;> rfl

theorem textTokens_scan (e : readEnd) : ∀ (rd : List Char) (m : mode),
    textTokens (scan e rd m) = (textRuns rd m.buffer).map textToken := by
  intro rd
  induction rd with
  | nil =>
    intro m
    cases m with
    | str buf =>
      rw [scan, textTokens_append, textTokens_flush, textTokens_error, List.append_nil]
      rfl
    | spc n =>
      rw [scan, textTokens_append, textTokens_spaces, textTokens_error]
      rfl
    | eol =>
      rw [scan, textTokens_error]
      rfl
  | cons c cs ih =>
    intro m
    have hsep := isSeparator_eq c
    cases m with
    | str buf =>
      rw [scan, textRuns]
      by_cases ht : (!isSpace c && !isEOL c) = true
      · have hns : ¬ isSeparator c = true := by
          rw [hsep]; intro h
          cases h1 : isSpace c <;> cases h2 : isEOL c <;> simp_all
        rw [if_pos ht, ih]
        simp only [mode.buffer, hns, if_false, Bool.false_eq_true]
      · have hs : isSeparator c = true := by
          rw [hsep]
          cases h1 : isSpace c <;> cases h2 : isEOL c <;> simp_all
        rw [if_neg ht, textTokens_append, textTokens_flush]
        simp only [mode.buffer, hs, if_true, List.map_append]
        congr 1
        by_cases hsp : isSpace c = true
        · rw [if_pos hsp, ih]; rfl
        · rw [if_neg hsp, textTokens_append, textTokens_newline, ih]; rfl
    | spc n =>
      rw [scan, textRuns]
      by_cases hsp : isSpace c = true
      · have hs : isSeparator c = true := by rw [hsep, hsp]; rfl
        rw [if_pos hsp, ih]
        simp only [mode.buffer, hs, if_true, List.nil_append]
      · rw [if_neg hsp, textTokens_append, textTokens_spaces, List.nil_append]
        by_cases he : isEOL c = true
        · have hs : isSeparator c = true := by rw [hsep, he]; simp
          rw [if_pos he, textTokens_append, textTokens_newline, ih]
          simp only [mode.buffer, hs, if_true, List.nil_append]
        · have hns : ¬ isSeparator c = true := by
            rw [hsep]; intro h
            cases h1 : isSpace c <;> cases h2 : isEOL c <;> simp_all
          rw [if_neg he, ih]
          simp only [mode.buffer, hns, if_false, List.nil_append, Bool.false_eq_true]
    | eol =>
      rw [scan, textRuns]
      by_cases he : isEOL c = true
      · have hs : isSeparator c = true := by rw [hsep, he]; simp
        rw [if_pos he, textTokens_append, textTokens_newline, ih]
        simp only [mode.buffer, hs, if_true, List.nil_append]
      · rw [if_neg he]
        by_cases hsp : isSpace c = true
        · have hs : isSeparator c = true := by rw [hsep, hsp]; rfl
          rw [if_pos hsp, ih]
          simp only [mode.buffer, hs, if_true, List.nil_append]
        · have hns : ¬ isSeparator c = true := by
            rw [hsep]; intro h
            cases h1 : isSpace c <;> cases h2 : isEOL c <;> simp_all
          rw [if_neg hsp, ih]
          simp only [mode.buffer, hns, if_false, List.nil_append, Bool.false_eq_true]

/-! ### What each state function leaves alone -/

theorem nextNonSpaceLoop_suffix : ∀ (l : List token) (t : token) (r : List token),
    nextNonSpaceLoop l = some (t, r) → r <:+ l := by
  intro l
  induction l with
  | nil => intro t r h; cases h
  | cons a l ih =>
    intro t r h
    unfold nextNonSpaceLoop at h
    split at h
    · simp only [Option.some.injEq, Prod.mk.injEq] at h
      rw [← h.2]
      exact List.suffix_cons _ _
    · exact (ih t r h).trans (List.suffix_cons _ _)

theorem suffix_nextNonSpace {p q : AOFParser} {t : token} (h : p.nextNonSpace = some (t, q)) :
    q.toks <:+ p.toks := by
  unfold AOFParser.nextNonSpace at h
  split at h
  · cases h
  · rename_i t1 ts hl
    cases h
    exact nextNonSpaceLoop_suffix _ _ _ hl

theorem toks_unexpected (p : AOFParser) (a : tokenType) (l : List tokenType) :
    (p.unexpected a l).toks = p.toks := by
  unfold AOFParser.unexpected
  split <;> rfl

theorem suffix_expect {p q : AOFParser} {typ : tokenType} {t : token}
    (h : p.expect typ = some (t, q)) : q.toks <:+ p.toks := by
  unfold AOFParser.expect at h
  split at h
  · cases h
  · rename_i t1 p1 hn
    have h1 := suffix_nextNonSpace hn
    simp only [Option.some.injEq, Prod.mk.injEq] at h
    rw [← h.2]
    split
    · rw [toks_unexpected]; exact h1
    · exact h1

theorem suffix_expectOneOf {p q : AOFParser} {l : List tokenType} {t : token}
    (h : p.expectOneOf l = some (t, q)) : q.toks <:+ p.toks := by
  unfold AOFParser.expectOneOf at h
  split at h
  · cases h
  · rename_i t1 p1 hn
    have h1 := suffix_nextNonSpace hn
    simp only [Option.some.injEq, Prod.mk.injEq] at h
    rw [← h.2]
    split
    · exact h1
    · rw [toks_unexpected]; exact h1

theorem addsErrors_self (evs : List Event) : AddsErrors evs evs :=
  ⟨[], by simp, fun _ h => by cases h⟩

theorem AddsErrors.chain {a b c : List Event} (h1 : AddsErrors a b) (h2 : AddsErrors b c) :
    AddsErrors a c := by
  obtain ⟨x, hx, hxn⟩ := h1
  obtain ⟨y, hy, hyn⟩ := h2
  refine ⟨x ++ y, by rw [hy, hx, List.append_assoc], ?_⟩
  intro ev hev
  rcases List.mem_append.1 hev with h | h
  · exact hxn ev h
  · exact hyn ev h

theorem addsErrors_error (p : AOFParser) (msg : String) :
    AddsErrors p.events (p.error msg).events :=
  ⟨[_], rfl, fun ev hev => by simp only [List.mem_singleton] at hev; rw [hev]⟩

theorem Ext.addsErrors {p q : AOFParser} (h : Ext p q) : AddsErrors p.events q.events := by
  rcases h.events with he | ⟨ev, hev, he⟩
  · rw [he]; exact addsErrors_self _
  · exact ⟨[ev], he, fun x hx => by simp only [List.mem_singleton] at hx; rw [hx]; exact hev⟩

theorem AddsErrors.other {a b : List Event} (h : AddsErrors a b) : AddsOther a b := by
  obtain ⟨x, hx, hxn⟩ := h
  exact ⟨x, hx, fun ev hev => isMutation_error ev (hxn ev hev)⟩

theorem bodyFrame_self (p : AOFParser) : BodyFrame p p :=
  ⟨rfl, rfl, rfl, rfl, rfl, rfl, addsErrors_self _, List.suffix_refl _⟩

theorem bodyFrame_of_ext {p q : AOFParser} (hx : Ext p q) (hs : q.toks <:+ p.toks) :
    BodyFrame p q :=
  ⟨hx.headerTotal, hx.headers, hx.values, hx.curHeaderLine, hx.curBodyLine, hx.lastValidLine,
    hx.addsErrors, hs⟩

/-- A frame survives an update of fields it does not mention. -/
theorem BodyFrame.upd {p q : AOFParser} (h : BodyFrame p q) (r : AOFParser)
    (h1 : r.headerTotal = q.headerTotal) (h2 : r.headers = q.headers)
    (h3 : r.values = q.values) (h4 : r.curHeaderLine = q.curHeaderLine)
    (h5 : r.curBodyLine = q.curBodyLine) (h6 : r.lastValidLine = q.lastValidLine)
    (h7 : r.events = q.events) (h8 : r.toks = q.toks) : BodyFrame p r :=
  ⟨h1.trans h.headerTotal, h2.trans h.headers, h3.trans h.values, h4.trans h.curHeaderLine,
    h5.trans h.curBodyLine, h6.trans h.lastValidLine, by rw [h7]; exact h.events,
    by rw [h8]; exact h.suffix⟩

theorem BodyFrame.err {p q : AOFParser} (h : BodyFrame p q) (msg : String) :
    BodyFrame p (q.error msg) :=
  ⟨h.headerTotal, h.headers, h.values, h.curHeaderLine, h.curBodyLine, h.lastValidLine,
    h.events.chain (addsErrors_error q msg), h.suffix⟩

theorem bodyFrame_aofBodyEvent (p : AOFParser) : BodyFrame p (aofBodyEvent p).1 := by
  unfold aofBodyEvent
  split
  · exact (bodyFrame_self p).upd _ rfl rfl rfl rfl rfl rfl rfl rfl
  · rename_i raw p1 he
    have hx := bodyFrame_of_ext (ext_expect he) (suffix_expect he)
    split
    · exact hx
    · dsimp only
      repeat' split
      all_goals first
        | exact hx.upd _ rfl rfl rfl rfl rfl rfl rfl rfl
        | exact hx.err _

theorem bodyFrame_aofBodyKey (p : AOFParser) : BodyFrame p (aofBodyKey p).1 := by
  unfold aofBodyKey
  split
  · exact (bodyFrame_self p).upd _ rfl rfl rfl rfl rfl rfl rfl rfl
  · rename_i raw p1 he
    have hx := bodyFrame_of_ext (ext_expectOneOf he) (suffix_expectOneOf he)
    split
    · exact hx
    · dsimp only
      repeat' split
      all_goals exact hx.upd _ rfl rfl rfl rfl rfl rfl rfl rfl

theorem bodyFrame_aofBodyValue (p : AOFParser) : BodyFrame p (aofBodyValue p).1 := by
  unfold aofBodyValue
  split
  · exact (bodyFrame_self p).upd _ rfl rfl rfl rfl rfl rfl rfl rfl
  · rename_i raw p1 he
    have hx := bodyFrame_of_ext (ext_expect he) (suffix_expect he)
    split
    · exact hx
    · exact hx.upd _ rfl rfl rfl rfl rfl rfl rfl rfl

theorem bodyFrame_aofBodyModifyOperator (p : AOFParser) :
    BodyFrame p (aofBodyModifyOperator p).1 := by
  unfold aofBodyModifyOperator
  split
  · exact (bodyFrame_self p).upd _ rfl rfl rfl rfl rfl rfl rfl rfl
  · rename_i raw p1 he
    have hx := bodyFrame_of_ext (ext_expect he) (suffix_expect he)
    repeat' split
    all_goals first
      | exact hx
      | exact hx.upd _ rfl rfl rfl rfl rfl rfl rfl rfl
      | exact hx.err _

/-- The state a body-reading state function returns is never a header state. -/
theorem next_aofBodyEvent (p : AOFParser) :
    (aofBodyEvent p).2 = none ∨ (aofBodyEvent p).2 = some .aofBodyKey := by
  unfold aofBodyEvent
  repeat' (first | split | dsimp only)
  all_goals first
    | exact Or.inl rfl
    | exact Or.inr rfl

theorem next_aofBodyKey (p : AOFParser) :
    (aofBodyKey p).2 = none ∨ (aofBodyKey p).2 = some .aofBodyValue ∨
      (aofBodyKey p).2 = some .aofBodyModifyOperator ∨
      (aofBodyKey p).2 = some .aofEmitBodyEvent := by
  unfold aofBodyKey
  repeat' (first | split | dsimp only)
  all_goals first
    | exact Or.inl rfl
    | exact Or.inr (Or.inl rfl)
    | exact Or.inr (Or.inr (Or.inl rfl))
    | exact Or.inr (Or.inr (Or.inr rfl))

theorem next_aofBodyValue (p : AOFParser) :
    (aofBodyValue p).2 = none ∨ (aofBodyValue p).2 = some .aofEmitBodyEvent := by
  unfold aofBodyValue
  repeat' (first | split | dsimp only)
  all_goals first
    | exact Or.inl rfl
    | exact Or.inr rfl

theorem next_aofBodyModifyOperator (p : AOFParser) :
    (aofBodyModifyOperator p).2 = none ∨
      (aofBodyModifyOperator p).2 = some .aofEmitBodyEvent := by
  unfold aofBodyModifyOperator
  repeat' (first | split | dsimp only)
  all_goals first
    | exact Or.inl rfl
    | exact Or.inr rfl

/-! ### The second invariant -/

theorem nextNonSpaceLoop_split : ∀ (l : List token) (t : token) (r : List token),
    nextNonSpaceLoop l = some (t, r) →
    ∃ sp, l = sp ++ t :: r ∧ (∀ s ∈ sp, s.typ = tokenSpace) ∧ t.typ ≠ tokenSpace := by
  intro l
  induction l with
  | nil => intro t r h; cases h
  | cons a l ih =>
    intro t r h
    unfold nextNonSpaceLoop at h
    split at h
    · rename_i hne
      simp only [Option.some.injEq, Prod.mk.injEq] at h
      obtain ⟨rfl, rfl⟩ := h
      exact ⟨[], rfl, (fun _ hs => by cases hs), hne⟩
    · rename_i hsp
      obtain ⟨sp, hl, hsp1, hne⟩ := ih t r h
      refine ⟨a :: sp, by rw [hl]; rfl, ?_, hne⟩
      intro s hs
      rcases List.mem_cons.1 hs with rfl | hs
      · exact not_not.1 hsp
      · exact hsp1 s hs

theorem expect_eq (p : AOFParser) (typ : tokenType) :
    p.expect typ = (nextNonSpaceLoop p.toks).map (fun x =>
      (x.1, if x.1.typ ≠ typ then ({ p with toks := x.2 } : AOFParser).unexpected x.1.typ [typ]
        else { p with toks := x.2 })) := by
  unfold AOFParser.expect AOFParser.nextNonSpace
  cases nextNonSpaceLoop p.toks <;> rfl

theorem expectOneOf_eq (p : AOFParser) (l : List tokenType) :
    p.expectOneOf l = (nextNonSpaceLoop p.toks).map (fun x =>
      (x.1, if x.1.typ ∈ l then { p with toks := x.2 }
        else ({ p with toks := x.2 } : AOFParser).unexpected x.1.typ l)) := by
  unfold AOFParser.expectOneOf AOFParser.nextNonSpace
  cases nextNonSpaceLoop p.toks <;> rfl

/-- The outcomes of `aofBodyNextLine`, one by one. -/
theorem aofBodyNextLine_cases (p : AOFParser) :
    (p.lastValidLine < p.curBodyLine + 1 ∧
      aofBodyNextLine p =
        (({ p with curBodyLine := p.curBodyLine + 1 } : AOFParser).emit (newEvent EventCompleted),
          none)) ∨
    (p.curBodyLine + 1 ≤ p.lastValidLine ∧ nextNonSpaceLoop p.toks = none ∧
      aofBodyNextLine p = ({ p with curBodyLine := p.curBodyLine + 1 } : AOFParser).block) ∨
    ∃ t ts, p.curBodyLine + 1 ≤ p.lastValidLine ∧ nextNonSpaceLoop p.toks = some (t, ts) ∧
      ((t.typ = tokenEOF ∧ p.curBodyLine + 1 < p.lastValidLine ∧
          aofBodyNextLine p =
            (({ p with curBodyLine := p.curBodyLine + 1, toks := ts } : AOFParser).error
              ("Unexpected EOF, expected at least " ++
                fmtInt (p.lastValidLine - (p.curBodyLine + 1) + 1) ++ " line(s)"), none)) ∨
        (t.typ = tokenEOL ∧
          aofBodyNextLine p =
            ({ p with curBodyLine := p.curBodyLine + 1, toks := ts }, some .aofBodyEvent)) ∨
        (t.typ = tokenEOF ∧ p.curBodyLine + 1 = p.lastValidLine ∧
          aofBodyNextLine p =
            (({ p with curBodyLine := p.curBodyLine + 1, toks := ts } : AOFParser).emit
              (newEvent EventCompleted), none)) ∨
        (t.typ ≠ tokenEOL ∧ t.typ ≠ tokenEOF ∧
          aofBodyNextLine p =
            ((({ p with curBodyLine := p.curBodyLine + 1, toks := ts } : AOFParser).unexpected
              t.typ [tokenEOL, tokenEOF]).emit (newEvent EventCompleted), none))) := by
  by_cases hle : p.curBodyLine + 1 ≤ p.lastValidLine
  · right
    cases hn : nextNonSpaceLoop p.toks with
    | none =>
      left
      refine ⟨hle, rfl, ?_⟩
      simp [aofBodyNextLine, hle, expectOneOf_eq, hn]
    | some x =>
      obtain ⟨t, ts⟩ := x
      right
      refine ⟨t, ts, hle, rfl, ?_⟩
      by_cases heol : t.typ = tokenEOL
      · right; left
        refine ⟨heol, ?_⟩
        simp [aofBodyNextLine, hle, expectOneOf_eq, hn, heol]
      · by_cases heof : t.typ = tokenEOF
        · by_cases hlt : p.curBodyLine + 1 < p.lastValidLine
          · left
            refine ⟨heof, hlt, ?_⟩
            simp [aofBodyNextLine, hle, expectOneOf_eq, hn, heof, hlt]
          · right; right; left
            refine ⟨heof, by omega, ?_⟩
            simp [aofBodyNextLine, hle, expectOneOf_eq, hn, heof, hlt]
        · right; right; right
          refine ⟨heol, heof, ?_⟩
          simp [aofBodyNextLine, hle, expectOneOf_eq, hn, heof, heol]
  · left
    refine ⟨by omega, ?_⟩
    simp [aofBodyNextLine, hle]

theorem NoEnd.withErrors {p q : AOFParser} (hp : NoEnd p) (h : AddsErrors p.events q.events) :
    NoEnd q := by
  obtain ⟨added, he, hadd⟩ := h
  intro ev hev
  rw [he] at hev
  rcases List.mem_append.1 hev with h1 | h1
  · exact hp ev h1
  · rw [hadd ev h1]; decide

theorem Declared.withOthers {p q : AOFParser} (hp : Declared p) (h : AddsOther p.events q.events)
    (hh : q.headers = p.headers) : Declared q := by
  obtain ⟨added, he, hadd⟩ := h
  intro ev hev hm
  rw [he] at hev
  rw [hh]
  rcases List.mem_append.1 hev with h1 | h1
  · exact hp ev h1 hm
  · rw [hadd ev h1] at hm; cases hm

theorem Bound.keep {p q : AOFParser} (hp : Bound p) (hh : q.headers = p.headers)
    (hl : q.lastValidLine = p.lastValidLine) : Bound q := by
  unfold Bound
  rw [hh, hl]
  exact hp

theorem unexpected_eq_error (p : AOFParser) (a : tokenType) (l : List tokenType) :
    ∃ msg, p.unexpected a l = p.error msg := by
  unfold AOFParser.unexpected
  split
  · exact ⟨_, rfl⟩
  · exact ⟨_, rfl⟩

theorem isAction_ne_completed (t : EventType) (h : isAction t) :
    t ≠ EventCompleted ∧ t ||| EventFinal ≠ EventCompleted := by
  rcases h with h | h | h | h <;> subst h <;> decide

/-- The four states that read a body line keep the second invariant. -/
theorem phase_body {toks0 : List token} {p q : AOFParser} {st : Option parserStateFunc}
    (hf : BodyFrame p q) (hd : Declared p) (hb : Bound p) (hs : p.toks <:+ toks0)
    (hi : InBody p) (h1 : st ≠ some .aofHeaderTotal) (h2 : st ≠ some .aofHeader) :
    PhaseInv toks0 (q, st) := by
  have hne : NoEnd q := hi.1.withErrors hf.events
  have hiq : InBody q := by
    refine ⟨hne, ?_, ?_, ?_⟩
    · rw [hf.headerTotal]; exact hi.2.1
    · rw [hf.curBodyLine]; exact hi.2.2.1
    · rw [hf.curBodyLine, hf.lastValidLine]; exact hi.2.2.2
  refine ⟨hd.withOthers hf.events.other hf.headers, hb.keep hf.headers hf.lastValidLine,
    hf.suffix.trans hs, ?_⟩
  cases st with
  | none => exact Or.inr (Or.inl hne)
  | some s =>
    cases s
    · exact absurd rfl h1
    · exact absurd rfl h2
    all_goals exact hiq

theorem phase_aofBodyEvent (toks0 : List token) (p : AOFParser)
    (h : PhaseInv toks0 (p, some .aofBodyEvent)) : PhaseInv toks0 (aofBodyEvent p) := by
  obtain ⟨hd, hb, hs, hi⟩ := h
  have h1 : (aofBodyEvent p).2 ≠ some .aofHeaderTotal := by
    rcases next_aofBodyEvent p with h | h <;> rw [h] <;> simp
  have h2 : (aofBodyEvent p).2 ≠ some .aofHeader := by
    rcases next_aofBodyEvent p with h | h <;> rw [h] <;> simp
  exact phase_body (bodyFrame_aofBodyEvent p) hd hb hs hi h1 h2

theorem phase_aofBodyKey (toks0 : List token) (p : AOFParser)
    (h : PhaseInv toks0 (p, some .aofBodyKey)) : PhaseInv toks0 (aofBodyKey p) := by
  obtain ⟨hd, hb, hs, hi⟩ := h
  have h1 : (aofBodyKey p).2 ≠ some .aofHeaderTotal := by
    rcases next_aofBodyKey p with h | h | h | h <;> rw [h] <;> simp
  have h2 : (aofBodyKey p).2 ≠ some .aofHeader := by
    rcases next_aofBodyKey p with h | h | h | h <;> rw [h] <;> simp
  exact phase_body (bodyFrame_aofBodyKey p) hd hb hs hi h1 h2

theorem phase_aofBodyValue (toks0 : List token) (p : AOFParser)
    (h : PhaseInv toks0 (p, some .aofBodyValue)) : PhaseInv toks0 (aofBodyValue p) := by
  obtain ⟨hd, hb, hs, hi⟩ := h
  have h1 : (aofBodyValue p).2 ≠ some .aofHeaderTotal := by
    rcases next_aofBodyValue p with h | h <;> rw [h] <;> simp
  have h2 : (aofBodyValue p).2 ≠ some .aofHeader := by
    rcases next_aofBodyValue p with h | h <;> rw [h] <;> simp
  exact phase_body (bodyFrame_aofBodyValue p) hd hb hs hi h1 h2

theorem phase_aofBodyModifyOperator (toks0 : List token) (p : AOFParser)
    (h : PhaseInv toks0 (p, some .aofBodyModifyOperator)) :
    PhaseInv toks0 (aofBodyModifyOperator p) := by
  obtain ⟨hd, hb, hs, hi⟩ := h
  have h1 : (aofBodyModifyOperator p).2 ≠ some .aofHeaderTotal := by
    rcases next_aofBodyModifyOperator p with h | h <;> rw [h] <;> simp
  have h2 : (aofBodyModifyOperator p).2 ≠ some .aofHeader := by
    rcases next_aofBodyModifyOperator p with h | h <;> rw [h] <;> simp
  exact phase_body (bodyFrame_aofBodyModifyOperator p) hd hb hs hi h1 h2

/-- A successful `switch` of `aofEmitBodyEvent` changes the value table only. -/
theorem aofApplyEvent_keeps {p q : AOFParser} (h : aofApplyEvent p = Except.ok q) :
    q = { p with values := q.values } := by
  unfold aofApplyEvent at h
  repeat' split at h
  all_goals cases h
  all_goals rfl

theorem phase_error (toks0 : List token) (p : AOFParser) (msg : String)
    (hd : Declared p) (hb : Bound p) (hs : p.toks <:+ toks0) :
    PhaseInv toks0 (p.error msg, none) :=
  ⟨hd.withOthers (addsErrors_error p msg).other rfl, hb.keep rfl rfl, hs,
    Or.inr (Or.inr (Or.inl ⟨_, List.mem_append_right _ (List.mem_singleton.2 rfl), rfl⟩))⟩

theorem phase_aofEmitBodyEvent (toks0 : List token) (p : AOFParser)
    (hinv : Inv (p, some .aofEmitBodyEvent))
    (h : PhaseInv toks0 (p, some .aofEmitBodyEvent)) : PhaseInv toks0 (aofEmitBodyEvent p) := by
  obtain ⟨hd, hb, hs, hi⟩ := h
  have ha : isAction p.curEvent :=
    (show Sound p ∧ ((mutations p.events).length : Int) = p.curBodyLine ∧
      isAction p.curEvent from hinv).2.2
  unfold aofEmitBodyEvent
  split
  · exact phase_error toks0 p _ hd hb hs
  · rename_i w hdecl
    split
    · exact phase_error toks0 p _ hd hb hs
    · rename_i q hq
      have hk := aofApplyEvent_keeps hq
      generalize q.values = vals at hk
      subst hk
      refine ⟨?_, hb, hs, ?_, hi.2.1, hi.2.2.1, hi.2.2.2⟩
      · intro ev hev hm
        rcases List.mem_append.1 hev with h1 | h1
        · exact hd ev h1 hm
        · rw [List.mem_singleton.1 h1]
          show p.headers p.curKey ≠ none
          rw [hdecl]
          exact fun hc => by cases hc
      · intro ev hev
        rcases List.mem_append.1 hev with h1 | h1
        · exact hi.1 ev h1
        · rw [List.mem_singleton.1 h1]
          dsimp only
          split
          · exact (isAction_ne_completed _ ha).2
          · exact (isAction_ne_completed _ ha).1

theorem mutations_emit_completed (evs : List Event) :
    mutations (evs ++ [newEvent EventCompleted]) = mutations evs := by
  rw [mutations_append]
  simp [mutations, isMutation_newEvent_completed]

theorem phase_aofBodyNextLine (toks0 : List token) (p : AOFParser)
    (hinv : Inv (p, some .aofBodyNextLine))
    (h : PhaseInv toks0 (p, some .aofBodyNextLine)) : PhaseInv toks0 (aofBodyNextLine p) := by
  obtain ⟨hd, hb, hs, hi⟩ := h
  have hc : ((mutations p.events).length : Int) = p.curBodyLine + 1 :=
    (show Sound p ∧ ((mutations p.events).length : Int) = p.curBodyLine + 1 from hinv).2
  have hi : InBody p := hi
  have hdone : ∀ q : AOFParser, q.events = p.events → q.headers = p.headers →
      Declared (q.emit (newEvent EventCompleted)) := by
    intro q he hh ev hev hm
    rcases List.mem_append.1 hev with h1 | h1
    · rw [he] at h1
      exact (show q.headers ev.Key ≠ none by rw [hh]; exact hd ev h1 hm)
    · rw [List.mem_singleton.1 h1] at hm; cases hm
  rcases aofBodyNextLine_cases p with ⟨hlt, heq⟩ | ⟨hle, hn, heq⟩ | ⟨t, ts, hle, hn, hc4⟩
  · rw [heq]
    refine ⟨hdone _ rfl rfl, hb, hs, Or.inr (Or.inr (Or.inr (Or.inl ?_)))⟩
    show ((mutations (p.events ++ [newEvent EventCompleted])).length : Int) = p.lastValidLine + 1
    rw [mutations_emit_completed, hc]
    have := hi.2.2.2
    omega
  · rw [heq]
    exact ⟨hd, hb, hs, Or.inr (Or.inl hi.1)⟩
  · have hsuf : ts <:+ toks0 := (nextNonSpaceLoop_suffix _ _ _ hn).trans hs
    rcases hc4 with ⟨_, _, heq⟩ | ⟨_, heq⟩ | ⟨heof, _, heq⟩ | ⟨_, _, heq⟩
    · rw [heq]
      exact phase_error toks0 _ _ hd hb hsuf
    · rw [heq]
      exact ⟨hd, hb, hsuf, hi.1, hi.2.1, by show (0 : Int) ≤ p.curBodyLine + 1; have := hi.2.2.1; omega,
        hle⟩
    · rw [heq]
      refine ⟨hdone _ rfl rfl, hb, hsuf, Or.inr (Or.inr (Or.inr (Or.inr ?_)))⟩
      obtain ⟨pre0, hpre0⟩ := hs
      obtain ⟨sp, hsp, _, _⟩ := nextNonSpaceLoop_split _ _ _ hn
      refine ⟨pre0 ++ sp, t, ?_, heof⟩
      show toks0 = pre0 ++ sp ++ t :: ts
      rw [← hpre0, hsp, List.append_assoc]
    · rw [heq]
      obtain ⟨msg, hmsg⟩ := unexpected_eq_error
        ({ p with curBodyLine := p.curBodyLine + 1, toks := ts } : AOFParser) t.typ
        [tokenEOL, tokenEOF]
      rw [hmsg]
      have hmem : ∃ ev ∈ ((({ p with curBodyLine := p.curBodyLine + 1, toks := ts } :
          AOFParser).error msg).emit (newEvent EventCompleted)).events, ev.Typ = EventError :=
        ⟨_, List.mem_append_left _ (List.mem_append_right _ (List.mem_singleton.2 rfl)), rfl⟩
      refine ⟨?_, hb, hsuf, Or.inr (Or.inr (Or.inl hmem))⟩
      intro ev hev hm
      rcases List.mem_append.1 hev with h1 | h1
      · rcases List.mem_append.1 h1 with h2 | h2
        · exact hd ev h2 hm
        · rw [List.mem_singleton.1 h2, isMutation_error _ rfl] at hm; cases hm
      · rw [List.mem_singleton.1 h1] at hm; cases hm

theorem phase_aofHeaderTotal (toks0 : List token) (p : AOFParser)
    (h : PhaseInv toks0 (p, some .aofHeaderTotal)) : PhaseInv toks0 (aofHeaderTotal p) := by
  obtain ⟨hd, hb, hs, hi⟩ := h
  have hi : NoEnd p := hi
  unfold aofHeaderTotal
  split
  · exact ⟨hd, hb, hs, Or.inr (Or.inl hi)⟩
  · rename_i tok p1 he
    have hx := ext_expect he
    have hs1 : p1.toks <:+ toks0 := (suffix_expect he).trans hs
    have hd1 : Declared p1 := hd.withOthers hx.addsErrors.other hx.headers
    have hb1 : Bound p1 := hb.keep hx.headers hx.lastValidLine
    have hn1 : NoEnd p1 := hi.withErrors hx.addsErrors
    split
    · exact ⟨hd1, hb1, hs1, Or.inr (Or.inl hn1)⟩
    · dsimp only
      split
      · rename_i hle
        refine ⟨?_, hb1, hs1, Or.inl hle⟩
        intro ev hev hm
        rcases List.mem_append.1 hev with h1 | h1
        · exact hd1 ev h1 hm
        · rw [List.mem_singleton.1 h1] at hm; cases hm
      · rename_i hpos
        split
        · exact ⟨hd1, hb1, hs1, Or.inr (Or.inl hn1)⟩
        · rename_i x p3 he3
          have hx3 := ext_expect he3
          have hs3 : p3.toks <:+ toks0 := (suffix_expect he3).trans hs1
          refine ⟨hd1.withOthers hx3.addsErrors.other hx3.headers,
            hb1.keep hx3.headers hx3.lastValidLine, hs3, ?_, ?_⟩
          · exact NoEnd.withErrors (p := { p1 with headerTotal := (ParseInt tok.val 64).1 }) hn1
              hx3.addsErrors
          · show 0 < p3.headerTotal
            rw [hx3.headerTotal]
            exact not_le.1 hpos

theorem phase_aofHeaderLoop (toks0 : List token) (n : Nat) : ∀ (p : AOFParser),
    Bound p → p.toks <:+ toks0 → NoEnd p →
    Bound (aofHeaderLoop n p).1 ∧ (aofHeaderLoop n p).1.toks <:+ toks0 ∧
      NoEnd (aofHeaderLoop n p).1 ∧ (aofHeaderLoop n p).1.headerTotal = p.headerTotal := by
  induction n with
  | zero => intro p hb hs hn; exact ⟨hb, hs, hn, rfl⟩
  | succ n ih =>
    intro p hb hs hn
    unfold aofHeaderLoop
    split
    · exact ⟨hb, hs, hn, rfl⟩
    · rename_i key p1 he1
      have hx1 := ext_expectOneOf he1
      have hs1 : p1.toks <:+ toks0 := (suffix_expectOneOf he1).trans hs
      have hb1 : Bound p1 := hb.keep hx1.headers hx1.lastValidLine
      have hn1 : NoEnd p1 := hn.withErrors hx1.addsErrors
      split
      · exact ⟨hb1, hs1, hn1, hx1.headerTotal⟩
      · split
        · exact ⟨hb1, hs1, hn1, hx1.headerTotal⟩
        · rename_i raw p2 he2
          have hx2 := ext_expect he2
          have hs2 : p2.toks <:+ toks0 := (suffix_expect he2).trans hs1
          have hb2 : Bound p2 := hb1.keep hx2.headers hx2.lastValidLine
          have hn2 : NoEnd p2 := hn1.withErrors hx2.addsErrors
          have ht2 : p2.headerTotal = p.headerTotal := hx2.headerTotal.trans hx1.headerTotal
          split
          · exact ⟨hb2, hs2, hn2, ht2⟩
          · dsimp only
            have hb4 : Bound ({ p2 with
                headers := mapSet p2.headers key.val (ParseInt raw.val 32).1,
                lastValidLine := if (ParseInt raw.val 32).1 > p2.lastValidLine
                  then (ParseInt raw.val 32).1 else p2.lastValidLine } : AOFParser) := by
              constructor
              · show (0 : Int) ≤ if (ParseInt raw.val 32).1 > p2.lastValidLine
                  then (ParseInt raw.val 32).1 else p2.lastValidLine
                have := hb2.1
                split <;> omega
              · intro k v hkv
                show v ≤ if (ParseInt raw.val 32).1 > p2.lastValidLine
                  then (ParseInt raw.val 32).1 else p2.lastValidLine
                have hkv1 : mapSet p2.headers key.val (ParseInt raw.val 32).1 k = some v := hkv
                unfold mapSet at hkv1
                split at hkv1
                · cases hkv1
                  split <;> omega
                · have := hb2.2 k v hkv1
                  split <;> omega
            split
            · exact ⟨hb4, hs2, hn2, ht2⟩
            · rename_i x p5 he5
              have hx5 := ext_expect he5
              have hs5 : p5.toks <:+ toks0 := (suffix_expect he5).trans hs2
              have hb5 : Bound p5 := hb4.keep hx5.headers hx5.lastValidLine
              have hn5 : NoEnd p5 := NoEnd.withErrors (p := { p2 with
                headers := mapSet p2.headers key.val (ParseInt raw.val 32).1,
                lastValidLine := if (ParseInt raw.val 32).1 > p2.lastValidLine
                  then (ParseInt raw.val 32).1 else p2.lastValidLine }) hn2 hx5.addsErrors
              have h6 := ih { p5 with curHeaderLine := p5.curHeaderLine + 1 } hb5 hs5 hn5
              exact ⟨h6.1, h6.2.1, h6.2.2.1, h6.2.2.2.trans (hx5.headerTotal.trans ht2)⟩

theorem phase_aofHeader (toks0 : List token) (p : AOFParser)
    (hinv : Inv (p, some .aofHeader))
    (h : PhaseInv toks0 (p, some .aofHeader)) : PhaseInv toks0 (aofHeader p) := by
  obtain ⟨hd, hb, hs, hi⟩ := h
  have hi : NoEnd p ∧ 0 < p.headerTotal := hi
  have hp : InHeader p := hinv
  have hl := inHeader_aofHeaderLoop p.headerTotal.toNat p hp
  obtain ⟨hb1, hs1, hn1, ht1⟩ := phase_aofHeaderLoop toks0 p.headerTotal.toNat p hb hs hi.1
  unfold aofHeader
  split
  · rename_i p1 heq
    rw [heq] at hl hb1 hs1 hn1
    refine ⟨?_, hb1, hs1, Or.inr (Or.inl hn1)⟩
    intro ev hev hm
    rw [hl.events ev hev] at hm
    cases hm
  · rename_i p1 heq
    rw [heq] at hl hb1 hs1 hn1 ht1
    refine ⟨?_, hb1, hs1, ?_, ?_, ?_, ?_⟩
    · intro ev hev hm
      rcases List.mem_append.1 hev with h1 | h1
      · rw [hl.events ev h1] at hm; cases hm
      · rw [List.mem_singleton.1 h1] at hm; cases hm
    · intro ev hev
      rcases List.mem_append.1 hev with h1 | h1
      · exact hn1 ev h1
      · rw [List.mem_singleton.1 h1]; decide
    · show 0 < p1.headerTotal
      rw [ht1]; exact hi.2
    · show (0 : Int) ≤ p1.curBodyLine
      rw [hl.curBodyLine]
    · show p1.curBodyLine ≤ p1.lastValidLine
      rw [hl.curBodyLine]; exact hb1.1

theorem phase_parseStep (toks0 : List token) (c : AOFParser × Option parserStateFunc)
    (hinv : Inv c) (h : PhaseInv toks0 c) : PhaseInv toks0 (parseStep c) := by
  obtain ⟨p, st⟩ := c
  cases st with
  | none => exact h
  | some s =>
    cases s with
    | aofHeaderTotal => exact phase_aofHeaderTotal toks0 p h
    | aofHeader => exact phase_aofHeader toks0 p hinv h
    | aofBodyEvent => exact phase_aofBodyEvent toks0 p h
    | aofBodyKey => exact phase_aofBodyKey toks0 p h
    | aofBodyValue => exact phase_aofBodyValue toks0 p h
    | aofBodyModifyOperator => exact phase_aofBodyModifyOperator toks0 p h
    | aofEmitBodyEvent => exact phase_aofEmitBodyEvent toks0 p hinv h
    | aofBodyNextLine => exact phase_aofBodyNextLine toks0 p hinv h

theorem phase_Parse (rd : List Char) (e : readEnd) (n : Nat) :
    PhaseInv (lexer.run rd e) (Parse rd e n) := by
  induction n with
  | zero =>
    refine ⟨fun ev hev => ?_, ⟨le_refl _, fun k v hkv => ?_⟩, List.suffix_refl _,
      fun ev hev => ?_⟩
    · cases hev
    · cases hkv
    · cases hev
  | succ n ih => exact phase_parseStep _ _ (inv_Parse rd e n) ih

/-! ### The token that ends the scanner's output -/

theorem ends_prepend (e : readEnd) (a l : List token)
    (ha : ∀ t ∈ a, t.typ ≠ tokenEOF ∧ t.typ ≠ tokenError)
    (hl : ∃ body, l = body ++ lexer.error e ∧ ∀ t ∈ body, t.typ ≠ tokenEOF ∧ t.typ ≠ tokenError) :
    ∃ body, a ++ l = body ++ lexer.error e ∧
      ∀ t ∈ body, t.typ ≠ tokenEOF ∧ t.typ ≠ tokenError := by
  obtain ⟨body, hb, hp⟩ := hl
  refine ⟨a ++ body, by rw [hb, List.append_assoc], ?_⟩
  intro t ht
  rcases List.mem_append.1 ht with h | h
  · exact ha t h
  · exact hp t h

theorem ends_error (e : readEnd) :
    ∃ body, lexer.error e = body ++ lexer.error e ∧
      ∀ t ∈ body, t.typ ≠ tokenEOF ∧ t.typ ≠ tokenError :=
  ⟨[], rfl, fun _ h => by cases h⟩

theorem plain_flush (buf : List Char) :
    ∀ t ∈ (if buf.length > 0 then lexer.emitValue (String.mk buf) else []),
      t.typ ≠ tokenEOF ∧ t.typ ≠ tokenError := by
  intro t ht
  split at ht
  · unfold lexer.emitValue at ht
    split at ht <;> rw [List.mem_singleton.1 ht] <;> constructor <;> intro hc <;> cases hc
  · cases ht

theorem plain_spaces (n : Nat) :
    ∀ t ∈ (if n > 0 then [(⟨tokenSpace, ""⟩ : token)] else []),
      t.typ ≠ tokenEOF ∧ t.typ ≠ tokenError := by
  intro t ht
  split at ht
  · rw [List.mem_singleton.1 ht]; exact ⟨by decide, by decide⟩
  · cases ht

theorem plain_newline (c : Char) :
    ∀ t ∈ (if (c == '\n') = true then [(⟨tokenEOL, ""⟩ : token)] else []),
      t.typ ≠ tokenEOF ∧ t.typ ≠ tokenError := by
  intro t ht
  split at ht
  · rw [List.mem_singleton.1 ht]; exact ⟨by decide, by decide⟩
  · cases ht

/-- The scanner's output is a run of space, line-end and text tokens followed by the
one token `lexer.error` emits. -/
theorem scan_ends (e : readEnd) : ∀ (rd : List Char) (m : mode),
    ∃ body, scan e rd m = body ++ lexer.error e ∧
      ∀ t ∈ body, t.typ ≠ tokenEOF ∧ t.typ ≠ tokenError := by
  intro rd
  induction rd with
  | nil =>
    intro m
    cases m with
    | str buf => rw [scan]; exact ends_prepend e _ _ (plain_flush buf) (ends_error e)
    | spc n => rw [scan]; exact ends_prepend e _ _ (plain_spaces n) (ends_error e)
    | eol => rw [scan]; exact ends_error e
  | cons c cs ih =>
    intro m
    cases m with
    | str buf =>
      rw [scan]
      split
      · exact ih _
      · refine ends_prepend e _ _ (plain_flush buf) ?_
        split
        · exact ih _
        · exact ends_prepend e _ _ (plain_newline c) (ih _)
    | spc n =>
      rw [scan]
      split
      · exact ih _
      · refine ends_prepend e _ _ (plain_spaces n) ?_
        split
        · exact ends_prepend e _ _ (plain_newline c) (ih _)
        · exact ih _
    | eol =>
      rw [scan]
      split
      · exact ends_prepend e _ _ (plain_newline c) (ih _)
      · split
        · exact ih _
        · exact ih _

/-- Nothing follows a `tokenEOF` token in the scanner's output. -/
theorem eof_is_last (rd : List Char) (e : readEnd) (pre post : List token) (t : token)
    (h : lexer.run rd e = pre ++ t :: post) (ht : t.typ = tokenEOF) : post = [] := by
  obtain ⟨body, hb, hp⟩ := scan_ends e rd (mode.str [])
  rw [← lexer_run_eq_scan, h] at hb
  obtain ⟨x, hx⟩ : ∃ x, lexer.error e = [x] := by cases e <;> exact ⟨_, rfl⟩
  rw [hx] at hb
  rcases List.append_eq_append_iff.1 hb with ⟨a, h1, h2⟩ | ⟨c, h1, h2⟩
  · cases a with
    | nil => simp at h2; exact h2.2
    | cons y ys =>
      have hty : t = y := by
        have := congrArg List.head? h2
        simpa using this
      have hmem : t ∈ body := by rw [h1, hty]; simp
      exact absurd ht (hp t hmem).1
  · cases c with
    | nil => simp at h2; exact h2.2
    | cons y ys =>
      have hlen := congrArg List.length h2
      simp at hlen

/-! ### The value table as a fold of the body lines -/

theorem stepsOf_concat : ∀ (ls : List bodyLine) (tbl : String → Option value) (l : bodyLine),
    stepsOf tbl (ls ++ [l]) = stepsOf tbl ls ++
      [(l.kind, l.key, valueOf (applyLine (foldLines tbl ls) l) l.key)] := by
  intro ls
  induction ls with
  | nil => intro tbl l; rfl
  | cons a ls ih =>
    intro tbl l
    show _ :: stepsOf (applyLine tbl a) (ls ++ [l]) = _
    rw [ih]
    rfl

theorem foldLines_concat (ls : List bodyLine) (tbl : String → Option value) (l : bodyLine) :
    foldLines tbl (ls ++ [l]) = applyLine (foldLines tbl ls) l := by
  simp [foldLines, List.foldl_append]

theorem kind_of_action (t : EventType) (h : isAction t) (k : String) (v : Int) (d : Bool) :
    (Event.mk t k v d).kind = t ∧ (Event.mk (t ||| EventFinal) k v d).kind = t := by
  rcases h with h | h | h | h <;> subst h <;> simp only [Event.kind] <;> decide

theorem kind_curLine (p : AOFParser) (h : isAction p.curEvent) : p.curLine.kind = p.curEvent := by
  unfold AOFParser.curLine
  rcases h with h | h | h | h <;> rw [h] <;> rfl

theorem key_curLine (p : AOFParser) : p.curLine.key = p.curKey := by
  unfold AOFParser.curLine
  repeat' split
  all_goals rfl

/-- A successful `switch` of `aofEmitBodyEvent` leaves the table the specification's
`applyLine` gives for the line in the registers. -/
theorem aofApplyEvent_applyLine {p q : AOFParser} (ha : isAction p.curEvent)
    (h : aofApplyEvent p = Except.ok q) : q.values = applyLine p.values p.curLine := by
  unfold aofApplyEvent at h
  unfold AOFParser.curLine
  by_cases h1 : p.curEvent = EventCreate
  · rw [if_pos h1] at h
    rw [if_pos h1]
    split at h
    · split at h
      · cases h
      · cases h; rfl
    · cases h; rfl
  · rw [if_neg h1] at h
    rw [if_neg h1]
    by_cases h2 : p.curEvent = EventSet
    · rw [if_pos h2] at h
      rw [if_pos h2]
      split at h
      · cases h
      · cases h; rfl
    · rw [if_neg h2] at h
      rw [if_neg h2]
      by_cases h3 : p.curEvent = EventModify
      · rw [if_pos h3] at h
        rw [if_pos h3]
        split at h
        · cases h
        · rename_i v hv
          cases h
          simp [applyLine, valueOf, hv]
      · rw [if_neg h3] at h
        rw [if_neg h3]
        have h4 : p.curEvent = EventDelete := by
          rcases ha with hc | hc | hc | hc
          · exact absurd hc h1
          · exact hc
          · exact absurd hc h3
          · exact absurd hc h2
        rw [if_pos h4] at h
        split at h
        · cases h
        · rename_i v hv
          split at h
          · cases h
          · cases h
            simp [applyLine, valueOf, hv]

theorem mutations_of_addsOther {a b : List Event} (h : AddsOther a b) :
    mutations b = mutations a := by
  obtain ⟨added, hb, hn⟩ := h
  rw [hb, mutations_append, mutations_of_none added hn, List.append_nil]

theorem values_aofBodyNextLine (p : AOFParser) : (aofBodyNextLine p).1.values = p.values := by
  rcases aofBodyNextLine_cases p with ⟨_, heq⟩ | ⟨_, _, heq⟩ | ⟨t, ts, _, _, hc4⟩
  · rw [heq]; rfl
  · rw [heq]; rfl
  · rcases hc4 with ⟨_, _, heq⟩ | ⟨_, heq⟩ | ⟨_, _, heq⟩ | ⟨_, _, heq⟩
    · rw [heq]; rfl
    · rw [heq]
    · rw [heq]; rfl
    · rw [heq]
      obtain ⟨msg, hmsg⟩ := unexpected_eq_error
        ({ p with curBodyLine := p.curBodyLine + 1, toks := ts } : AOFParser) t.typ
        [tokenEOL, tokenEOF]
      rw [hmsg]; rfl

theorem inHeader_same {p q : AOFParser} (hp : InHeader p) (hq : InHeader q) :
    q.values = p.values ∧ mutations q.events = mutations p.events := by
  refine ⟨funext fun k => ?_, ?_⟩
  · rw [hp.values, hq.values]
  · rw [mutations_of_none _ hp.events, mutations_of_none _ hq.events]

/-- Every state function but `aofEmitBodyEvent` leaves the value table and the
mutation events as they are. -/
theorem quiet_parseStep (c : AOFParser × Option parserStateFunc) (hinv : Inv c)
    (hs : c.2 ≠ some .aofEmitBodyEvent) :
    (parseStep c).1.values = c.1.values ∧
      mutations (parseStep c).1.events = mutations c.1.events := by
  obtain ⟨p, st⟩ := c
  cases st with
  | none => exact ⟨rfl, rfl⟩
  | some s =>
    cases s with
    | aofHeaderTotal => exact inHeader_same hinv (inHeader_aofHeaderTotal p hinv)
    | aofHeader => exact inHeader_same hinv (inHeader_aofHeader p hinv)
    | aofBodyEvent =>
      exact ⟨(bodyFrame_aofBodyEvent p).values,
        mutations_of_addsOther (bodyFrame_aofBodyEvent p).events.other⟩
    | aofBodyKey =>
      exact ⟨(bodyFrame_aofBodyKey p).values,
        mutations_of_addsOther (bodyFrame_aofBodyKey p).events.other⟩
    | aofBodyValue =>
      exact ⟨(bodyFrame_aofBodyValue p).values,
        mutations_of_addsOther (bodyFrame_aofBodyValue p).events.other⟩
    | aofBodyModifyOperator =>
      exact ⟨(bodyFrame_aofBodyModifyOperator p).values,
        mutations_of_addsOther (bodyFrame_aofBodyModifyOperator p).events.other⟩
    | aofEmitBodyEvent => exact absurd rfl hs
    | aofBodyNextLine =>
      exact ⟨values_aofBodyNextLine p, mutations_of_addsOther (adds_aofBodyNextLine p)⟩

/-- The two outcomes of `aofEmitBodyEvent`: the run ends and nothing changes but for
an error event, or the line in the registers is applied as the specification's
`applyLine` says and its mutation event carries the key's new state. -/
theorem fold_aofEmitBodyEvent (p : AOFParser) (ha : isAction p.curEvent) :
    ((aofEmitBodyEvent p).2 = none ∧ (aofEmitBodyEvent p).1.values = p.values ∧
      mutations (aofEmitBodyEvent p).1.events = mutations p.events) ∨
    ((aofEmitBodyEvent p).2 = some .aofBodyNextLine ∧
      (aofEmitBodyEvent p).1.values = applyLine p.values p.curLine ∧
      ∃ ev, (aofEmitBodyEvent p).1.events = p.events ++ [ev] ∧ ev.isMutation = true ∧
        ev.step = (p.curLine.kind, p.curLine.key,
          valueOf (applyLine p.values p.curLine) p.curLine.key)) := by
  unfold aofEmitBodyEvent
  split
  · exact Or.inl ⟨rfl, rfl, mutations_of_addsOther (adds_error p _)⟩
  · split
    · exact Or.inl ⟨rfl, rfl, mutations_of_addsOther (adds_error p _)⟩
    · rename_i q hq
      have hv := aofApplyEvent_applyLine ha hq
      have hk := aofApplyEvent_keeps hq
      rw [hv] at hk
      subst hk
      refine Or.inr ⟨rfl, rfl, _, rfl, ?_, ?_⟩
      · dsimp only
        split
        · exact (isAction_flags _ ha _ _ _).2.1
        · exact (isAction_flags _ ha _ _ _).1
      · rw [kind_curLine p ha, key_curLine]
        unfold Event.step
        dsimp only
        split
        · rw [(kind_of_action _ ha _ _ _).2]
        · rw [(kind_of_action _ ha _ _ _).1]

theorem fold_Parse (rd : List Char) (e : readEnd) : ∀ n : Nat,
    (Parse rd e n).1.values = foldLines (fun _ => none) (linesApplied rd e n) ∧
      (mutations (Parse rd e n).1.events).map Event.step =
        stepsOf (fun _ => none) (linesApplied rd e n) := by
  intro n
  induction n with
  | zero => exact ⟨rfl, rfl⟩
  | succ n ih =>
    have hinv := inv_Parse rd e n
    by_cases hs : (Parse rd e n).2 = some .aofEmitBodyEvent
    · have hc : Parse rd e n = ((Parse rd e n).1, some .aofEmitBodyEvent) := Prod.ext rfl hs
      have hstep : Parse rd e (n + 1) = aofEmitBodyEvent (Parse rd e n).1 := by
        rw [Parse_succ, hc]; rfl
      have ha : isAction (Parse rd e n).1.curEvent := by
        rw [hc] at hinv
        exact (show Sound (Parse rd e n).1 ∧
          ((mutations (Parse rd e n).1.events).length : Int) = (Parse rd e n).1.curBodyLine ∧
          isAction (Parse rd e n).1.curEvent from hinv).2.2
      rcases fold_aofEmitBodyEvent (Parse rd e n).1 ha with
        ⟨hst, hv, hm⟩ | ⟨hst, hv, ev, hev, hmut, hstp⟩
      · have hl : linesApplied rd e (n + 1) = linesApplied rd e n := by
          rw [linesApplied, if_neg]
          rw [hstep, hst]
          exact fun hh => by cases hh.2
        rw [hl, hstep, hv, hm]
        exact ih
      · have hl : linesApplied rd e (n + 1) =
            linesApplied rd e n ++ [(Parse rd e n).1.curLine] := by
          rw [linesApplied, if_pos]
          rw [hstep, hst]
          exact ⟨hs, rfl⟩
        rw [hl, hstep, hv, hev, foldLines_concat, stepsOf_concat, ← ih.1, mutations_append,
          List.map_append, ih.2]
        refine ⟨rfl, ?_⟩
        congr 1
        simp [mutations, hmut, hstp]
    · have hl : linesApplied rd e (n + 1) = linesApplied rd e n := by
        rw [linesApplied, if_neg]
        exact fun hh => hs hh.1
      have hq := quiet_parseStep (Parse rd e n) hinv hs
      rw [hl, Parse_succ, hq.1, hq.2]
      exact ih

/-! ### The validator does not see `tokenSpace` tokens -/

theorem nextNonSpaceLoop_dropSpaces : ∀ l : List token,
    nextNonSpaceLoop (dropSpaces l) =
      (nextNonSpaceLoop l).map (fun x => (x.1, dropSpaces x.2)) := by
  intro l
  induction l with
  | nil => rfl
  | cons a l ih =>
    by_cases h : a.typ = tokenSpace
    · have h1 : dropSpaces (a :: l) = dropSpaces l := by simp [dropSpaces, h]
      have h2 : nextNonSpaceLoop (a :: l) = nextNonSpaceLoop l := by
        simp [nextNonSpaceLoop, h]
      rw [h1, h2, ih]
    · have h1 : dropSpaces (a :: l) = a :: dropSpaces l := by simp [dropSpaces, h]
      have h2 : nextNonSpaceLoop (a :: l) = some (a, l) := by simp [nextNonSpaceLoop, h]
      rw [h1, h2]
      simp [nextNonSpaceLoop, h]

theorem unexpected_noSpaces (p : AOFParser) (a : tokenType) (l : List tokenType) :
    p.noSpaces.unexpected a l = (p.unexpected a l).noSpaces := by
  unfold AOFParser.unexpected
  split <;> rfl

theorem expect_noSpaces (p : AOFParser) (typ : tokenType) :
    p.noSpaces.expect typ = (p.expect typ).map (fun x => (x.1, x.2.noSpaces)) := by
  rw [expect_eq, expect_eq]
  show Option.map _ (nextNonSpaceLoop (dropSpaces p.toks)) = _
  rw [nextNonSpaceLoop_dropSpaces]
  cases nextNonSpaceLoop p.toks with
  | none => rfl
  | some x =>
    simp only [Option.map_some']
    congr 2
    split
    · exact unexpected_noSpaces ({ p with toks := x.2 }) _ _
    · rfl

theorem expectOneOf_noSpaces (p : AOFParser) (l : List tokenType) :
    p.noSpaces.expectOneOf l = (p.expectOneOf l).map (fun x => (x.1, x.2.noSpaces)) := by
  rw [expectOneOf_eq, expectOneOf_eq]
  show Option.map _ (nextNonSpaceLoop (dropSpaces p.toks)) = _
  rw [nextNonSpaceLoop_dropSpaces]
  cases nextNonSpaceLoop p.toks with
  | none => rfl
  | some x =>
    simp only [Option.map_some']
    congr 2
    split
    · rfl
    · exact unexpected_noSpaces ({ p with toks := x.2 }) _ _

theorem noSpaces_aofBodyEvent (p : AOFParser) :
    aofBodyEvent p.noSpaces = ((aofBodyEvent p).1.noSpaces, (aofBodyEvent p).2) := by
  unfold aofBodyEvent
  rw [expect_noSpaces]
  cases p.expect tokenString with
  | none => rfl
  | some x =>
    simp only [Option.map_some', AOFParser.noSpaces]
    split_ifs <;> rfl

theorem noSpaces_aofBodyKey (p : AOFParser) :
    aofBodyKey p.noSpaces = ((aofBodyKey p).1.noSpaces, (aofBodyKey p).2) := by
  unfold aofBodyKey
  rw [expectOneOf_noSpaces]
  cases p.expectOneOf [tokenString, tokenNumber] with
  | none => rfl
  | some x =>
    simp only [Option.map_some', AOFParser.noSpaces]
    split_ifs <;> rfl

theorem noSpaces_aofBodyValue (p : AOFParser) :
    aofBodyValue p.noSpaces = ((aofBodyValue p).1.noSpaces, (aofBodyValue p).2) := by
  unfold aofBodyValue
  rw [expect_noSpaces]
  cases p.expect tokenNumber with
  | none => rfl
  | some x =>
    simp only [Option.map_some', AOFParser.noSpaces]
    split_ifs <;> rfl

theorem noSpaces_aofBodyModifyOperator (p : AOFParser) :
    aofBodyModifyOperator p.noSpaces =
      ((aofBodyModifyOperator p).1.noSpaces, (aofBodyModifyOperator p).2) := by
  unfold aofBodyModifyOperator
  rw [expect_noSpaces]
  cases p.expect tokenNumber with
  | none => rfl
  | some x =>
    simp only [Option.map_some', AOFParser.noSpaces]
    split_ifs <;> rfl

theorem noSpaces_aofBodyNextLine (p : AOFParser) :
    aofBodyNextLine p.noSpaces = ((aofBodyNextLine p).1.noSpaces, (aofBodyNextLine p).2) := by
  have hq : ({ p.noSpaces with curBodyLine := p.noSpaces.curBodyLine + 1 } : AOFParser) =
      ({ p with curBodyLine := p.curBodyLine + 1 } : AOFParser).noSpaces := rfl
  unfold aofBodyNextLine
  dsimp only
  rw [hq, expectOneOf_noSpaces]
  cases ({ p with curBodyLine := p.curBodyLine + 1 } : AOFParser).expectOneOf
      [tokenEOL, tokenEOF] with
  | none => simp only [Option.map_none', AOFParser.noSpaces]; split_ifs <;> rfl
  | some x =>
    simp only [Option.map_some', AOFParser.noSpaces]
    split_ifs <;> rfl

theorem noSpaces_aofApplyEvent (p : AOFParser) :
    aofApplyEvent p.noSpaces = (aofApplyEvent p).map AOFParser.noSpaces := by
  unfold aofApplyEvent
  simp only [AOFParser.noSpaces]
  split_ifs
  · cases p.values p.curKey with
    | none => rfl
    | some v => dsimp only; split_ifs <;> rfl
  · cases p.values p.curKey <;> rfl
  · cases p.values p.curKey <;> rfl
  · cases p.values p.curKey with
    | none => rfl
    | some v => dsimp only; split_ifs <;> rfl
  · rfl

theorem noSpaces_aofEmitBodyEvent (p : AOFParser) :
    aofEmitBodyEvent p.noSpaces =
      ((aofEmitBodyEvent p).1.noSpaces, (aofEmitBodyEvent p).2) := by
  unfold aofEmitBodyEvent
  rw [noSpaces_aofApplyEvent]
  have hh : p.noSpaces.headers p.noSpaces.curKey = p.headers p.curKey := rfl
  rw [hh]
  cases p.headers p.curKey with
  | none => rfl
  | some w =>
    dsimp only
    cases aofApplyEvent p with
    | error msg => rfl
    | ok q => rfl

theorem noSpaces_aofHeaderTotal (p : AOFParser) :
    aofHeaderTotal p.noSpaces = ((aofHeaderTotal p).1.noSpaces, (aofHeaderTotal p).2) := by
  unfold aofHeaderTotal
  rw [expect_noSpaces]
  cases p.expect tokenNumber with
  | none => rfl
  | some x =>
    obtain ⟨tok, p1⟩ := x
    simp only [Option.map_some']
    by_cases h1 : tok.typ ≠ tokenNumber
    · rw [if_pos h1, if_pos h1]
    · rw [if_neg h1, if_neg h1]
      dsimp only
      by_cases h2 : (ParseInt tok.val 64).1 ≤ 0
      · rw [if_pos h2, if_pos h2]; rfl
      · rw [if_neg h2, if_neg h2]
        have hq : ({ p1.noSpaces with headerTotal := (ParseInt tok.val 64).1 } : AOFParser) =
            ({ p1 with headerTotal := (ParseInt tok.val 64).1 } : AOFParser).noSpaces := rfl
        rw [hq, expect_noSpaces]
        cases ({ p1 with headerTotal := (ParseInt tok.val 64).1 } : AOFParser).expect tokenEOL with
        | none => rfl
        | some y => rfl

theorem noSpaces_aofHeaderLoop (n : Nat) : ∀ p : AOFParser,
    aofHeaderLoop n p.noSpaces = ((aofHeaderLoop n p).1.noSpaces, (aofHeaderLoop n p).2) := by
  induction n with
  | zero => intro p; rfl
  | succ n ih =>
    intro p
    unfold aofHeaderLoop
    rw [expectOneOf_noSpaces]
    cases p.expectOneOf [tokenString, tokenNumber] with
    | none => rfl
    | some x =>
      obtain ⟨key, p1⟩ := x
      simp only [Option.map_some']
      by_cases h1 : key.typ ≠ tokenString ∧ key.typ ≠ tokenNumber
      · rw [if_pos h1, if_pos h1]
      · rw [if_neg h1, if_neg h1, expect_noSpaces]
        cases p1.expect tokenNumber with
        | none => rfl
        | some y =>
          obtain ⟨raw, p2⟩ := y
          simp only [Option.map_some']
          by_cases h2 : raw.typ ≠ tokenNumber
          · rw [if_pos h2, if_pos h2]
          · rw [if_neg h2, if_neg h2]
            have hq : ({ p2.noSpaces with
                headers := mapSet p2.noSpaces.headers key.val (ParseInt raw.val 32).1,
                lastValidLine := if (ParseInt raw.val 32).1 > p2.noSpaces.lastValidLine
                  then (ParseInt raw.val 32).1 else p2.noSpaces.lastValidLine } : AOFParser) =
                ({ p2 with
                  headers := mapSet p2.headers key.val (ParseInt raw.val 32).1,
                  lastValidLine := if (ParseInt raw.val 32).1 > p2.lastValidLine
                    then (ParseInt raw.val 32).1 else p2.lastValidLine } : AOFParser).noSpaces :=
              rfl
            rw [hq, expect_noSpaces]
            cases ({ p2 with
                  headers := mapSet p2.headers key.val (ParseInt raw.val 32).1,
                  lastValidLine := if (ParseInt raw.val 32).1 > p2.lastValidLine
                    then (ParseInt raw.val 32).1 else p2.lastValidLine } : AOFParser).expect
                tokenEOL with
            | none => rfl
            | some z =>
              obtain ⟨w, p5⟩ := z
              simp only [Option.map_some']
              exact ih { p5 with curHeaderLine := p5.curHeaderLine + 1 }

theorem noSpaces_aofHeader (p : AOFParser) :
    aofHeader p.noSpaces = ((aofHeader p).1.noSpaces, (aofHeader p).2) := by
  unfold aofHeader
  have hh : p.noSpaces.headerTotal = p.headerTotal := rfl
  rw [hh, noSpaces_aofHeaderLoop]
  rcases hl : aofHeaderLoop p.headerTotal.toNat p with ⟨p1, b⟩
  cases b <;> rfl

/-- One iteration of the loop of `Parse` on the validator without its `tokenSpace`
tokens is the iteration on the validator with them, less those tokens. -/
theorem noSpaces_parseStep (c : AOFParser × Option parserStateFunc) :
    parseStep (c.1.noSpaces, c.2) = ((parseStep c).1.noSpaces, (parseStep c).2) := by
  obtain ⟨p, st⟩ := c
  cases st with
  | none => rfl
  | some s =>
    cases s with
    | aofHeaderTotal => exact noSpaces_aofHeaderTotal p
    | aofHeader => exact noSpaces_aofHeader p
    | aofBodyEvent => exact noSpaces_aofBodyEvent p
    | aofBodyKey => exact noSpaces_aofBodyKey p
    | aofBodyValue => exact noSpaces_aofBodyValue p
    | aofBodyModifyOperator => exact noSpaces_aofBodyModifyOperator p
    | aofEmitBodyEvent => exact noSpaces_aofEmitBodyEvent p
    | aofBodyNextLine => exact noSpaces_aofBodyNextLine p

theorem noSpaces_parseSteps (n : Nat) (c : AOFParser × Option parserStateFunc) :
    parseSteps n (c.1.noSpaces, c.2) = ((parseSteps n c).1.noSpaces, (parseSteps n c).2) := by
  induction n with
  | zero => rfl
  | succ n ih =>
    rw [parseSteps_succ, ih, parseSteps_succ]
    exact noSpaces_parseStep (parseSteps n c)

/-- Two runs on inputs whose tokens differ in `tokenSpace` tokens only are in the same
state after any number of iterations, but for the `tokenSpace` tokens yet to be read. -/
theorem Parse_noSpaces (rd1 rd2 : List Char) (e : readEnd)
    (h : dropSpaces (lexer.run rd1 e) = dropSpaces (lexer.run rd2 e)) (n : Nat) :
    (Parse rd1 e n).1.noSpaces = (Parse rd2 e n).1.noSpaces ∧
      (Parse rd1 e n).2 = (Parse rd2 e n).2 := by
  have h0 : ((start rd1 e).1.noSpaces, (start rd1 e).2) =
      ((start rd2 e).1.noSpaces, (start rd2 e).2) := by
    show (({ NewAOFParser (lexer.run rd1 e) with
        toks := dropSpaces (lexer.run rd1 e) } : AOFParser), _) = _
    rw [h]
    rfl
  have h1 := noSpaces_parseSteps n (start rd1 e)
  have h2 := noSpaces_parseSteps n (start rd2 e)
  rw [h0, h2] at h1
  exact ⟨(congrArg Prod.fst h1).symm, (congrArg Prod.snd h1).symm⟩

/-! ### The scanner's output without its `tokenSpace` tokens -/

theorem dropSpaces_append (l1 l2 : List token) :
    dropSpaces (l1 ++ l2) = dropSpaces l1 ++ dropSpaces l2 := by
  simp [dropSpaces]

theorem dropSpaces_error (e : readEnd) : dropSpaces (lexer.error e) = lexer.error e := by
  cases e <;> rfl

theorem dropSpaces_flush (buf : List Char) :
    dropSpaces (if buf.length > 0 then lexer.emitValue (String.mk buf) else []) =
      flushText buf := by
  unfold flushText
  split
  · unfold lexer.emitValue
    split <;> rfl
  · rfl

theorem dropSpaces_spaces (n : Nat) :
    dropSpaces (if n > 0 then [(⟨tokenSpace, ""⟩ : token)] else []) = [] := by
  split <;> rfl

theorem dropSpaces_newline (c : Char) :
    dropSpaces (if (c == '\n') = true then [(⟨tokenEOL, ""⟩ : token)] else []) = lineEnd c := by
  unfold lineEnd
  split <;> rfl

theorem flushText_nil : flushText [] = [] := rfl

theorem space_not_eol (c : Char) (h : isSpace c = true) : isEOL c = false := by
  simp only [isSpace, isEOL, Bool.or_eq_true, beq_iff_eq] at h ⊢
  rcases h with h | h <;> subst h <;> rfl

theorem lineEnd_space (c : Char) (h : isSpace c = true) : lineEnd c = [] := by
  simp only [isSpace, Bool.or_eq_true, beq_iff_eq] at h
  rcases h with h | h <;> subst h <;> rfl

/-- Without the `tokenSpace` tokens, what the scanner emits from a state depends on
the state through its text buffer only. -/
theorem dropSpaces_scan_buffer (e : readEnd) : ∀ (rd : List Char) (m : mode),
    dropSpaces (scan e rd m) = dropSpaces (scan e rd (mode.str m.buffer)) := by
  intro rd
  induction rd with
  | nil =>
    intro m
    cases m with
    | str buf => rfl
    | spc n =>
      simp only [scan, mode.buffer, dropSpaces_append, dropSpaces_spaces, dropSpaces_flush,
        flushText_nil]
    | eol =>
      simp only [scan, mode.buffer, dropSpaces_append, dropSpaces_flush, flushText_nil,
        List.nil_append]
  | cons c cs ih =>
    intro m
    cases m with
    | str buf => rfl
    | spc n =>
      show dropSpaces (scan e (c :: cs) (mode.spc n)) = dropSpaces (scan e (c :: cs) (mode.str []))
      rw [scan, scan]
      by_cases hs : isSpace c = true
      · have ht : ¬ (!isSpace c && !isEOL c) = true := by simp [hs]
        rw [if_pos hs, if_neg ht, if_pos hs, dropSpaces_append, dropSpaces_flush, flushText_nil,
          List.nil_append, ih (mode.spc (n + 1)), ih (mode.spc 1)]
        rfl
      · rw [if_neg hs, dropSpaces_append, dropSpaces_spaces, List.nil_append]
        by_cases he : isEOL c = true
        · have ht : ¬ (!isSpace c && !isEOL c) = true := by simp [he]
          rw [if_pos he, if_neg ht, if_neg hs]
          rfl
        · have ht : (!isSpace c && !isEOL c) = true := by simp [hs, he]
          rw [if_neg he, if_pos ht]
          rfl
    | eol =>
      show dropSpaces (scan e (c :: cs) mode.eol) = dropSpaces (scan e (c :: cs) (mode.str []))
      rw [scan, scan]
      by_cases he : isEOL c = true
      · have ht : ¬ (!isSpace c && !isEOL c) = true := by simp [he]
        have hs : ¬ isSpace c = true := by
          intro hs; rw [space_not_eol c hs] at he; cases he
        rw [if_pos he, if_neg ht, if_neg hs]
        rfl
      · rw [if_neg he]
        by_cases hs : isSpace c = true
        · have ht : ¬ (!isSpace c && !isEOL c) = true := by simp [hs]
          rw [if_pos hs, if_neg ht, if_pos hs, dropSpaces_append, dropSpaces_flush,
            flushText_nil, List.nil_append]
        · have ht : (!isSpace c && !isEOL c) = true := by simp [hs, he]
          rw [if_neg hs, if_pos ht]
          rfl

theorem dropSpaces_scan_nil (e : readEnd) (buf : List Char) :
    dropSpaces (scan e [] (mode.str buf)) = flushText buf ++ lexer.error e := by
  rw [scan, dropSpaces_append, dropSpaces_flush, dropSpaces_error]

/-- A separator ends the text run: the buffer is emitted, a line feed gives its
`tokenEOL`, and the scanner goes on with an empty buffer. -/
theorem dropSpaces_scan_separator (e : readEnd) (c : Char) (cs buf : List Char)
    (h : isSeparator c = true) :
    dropSpaces (scan e (c :: cs) (mode.str buf)) =
      flushText buf ++ (lineEnd c ++ dropSpaces (scan e cs (mode.str []))) := by
  rw [isSeparator_eq] at h
  have ht : ¬ (!isSpace c && !isEOL c) = true := by
    cases h1 : isSpace c <;> cases h2 : isEOL c <;> simp_all
  rw [scan, if_neg ht, dropSpaces_append, dropSpaces_flush]
  congr 1
  by_cases hs : isSpace c = true
  · rw [if_pos hs, lineEnd_space c hs, List.nil_append, dropSpaces_scan_buffer e cs (mode.spc 1)]
    rfl
  · rw [if_neg hs, dropSpaces_append, dropSpaces_newline, dropSpaces_scan_buffer e cs mode.eol]
    rfl

theorem dropSpaces_scan_text (e : readEnd) (c : Char) (cs buf : List Char)
    (h : isSeparator c = false) :
    dropSpaces (scan e (c :: cs) (mode.str buf)) =
      dropSpaces (scan e cs (mode.str (buf ++ [c]))) := by
  rw [isSeparator_eq] at h
  have ht : (!isSpace c && !isEOL c) = true := by
    cases h1 : isSpace c <;> cases h2 : isEOL c <;> simp_all
  rw [scan, if_pos ht]

/-- Scanning a prefix of the input: what it emits and the buffer it leaves do not
depend on what follows; the buffer is empty after a separator. -/
theorem dropSpaces_scan_prefix (e : readEnd) : ∀ (pre buf : List Char),
    ∃ out buf1, (∀ rest, dropSpaces (scan e (pre ++ rest) (mode.str buf)) =
        out ++ dropSpaces (scan e rest (mode.str buf1))) ∧
      (pre = [] → buf1 = buf) ∧
      (∀ pre1 c, pre = pre1 ++ [c] → isSeparator c = true → buf1 = []) := by
  intro pre
  induction pre with
  | nil =>
    intro buf
    refine ⟨[], buf, fun rest => rfl, fun _ => rfl, ?_⟩
    intro pre1 c h
    simp at h
  | cons a cs ih =>
    intro buf
    by_cases hsep : isSeparator a = true
    · obtain ⟨out, buf1, h1, h2, h3⟩ := ih []
      refine ⟨flushText buf ++ (lineEnd a ++ out), buf1, ?_, (fun h => by cases h), ?_⟩
      · intro rest
        rw [List.cons_append, dropSpaces_scan_separator e a _ buf hsep, h1]
        simp only [List.append_assoc]
      · intro pre1 c h hc
        cases pre1 with
        | nil =>
          simp only [List.nil_append, List.cons.injEq] at h
          exact h2 h.2
        | cons b pre2 =>
          simp only [List.cons_append, List.cons.injEq] at h
          exact h3 pre2 c h.2 hc
    · have hsep1 : isSeparator a = false := by simpa using hsep
      obtain ⟨out, buf1, h1, h2, h3⟩ := ih (buf ++ [a])
      refine ⟨out, buf1, ?_, (fun h => by cases h), ?_⟩
      · intro rest
        rw [List.cons_append, dropSpaces_scan_text e a _ buf hsep1, h1]
      · intro pre1 c h hc
        cases pre1 with
        | nil =>
          simp only [List.nil_append, List.cons.injEq] at h
          rw [h.1] at hsep
          exact absurd hc hsep
        | cons b pre2 =>
          simp only [List.cons_append, List.cons.injEq] at h
          exact h3 pre2 c h.2 hc

/-- A run of separators that give no token (spaces, tabs, carriage returns) ends the
text run and leaves an empty buffer. -/
theorem dropSpaces_scan_run (e : readEnd) : ∀ (ws : List Char), ws ≠ [] →
    (∀ c ∈ ws, isSeparator c = true ∧ c ≠ '\n') → ∀ (post buf : List Char),
    dropSpaces (scan e (ws ++ post) (mode.str buf)) =
      flushText buf ++ dropSpaces (scan e post (mode.str [])) := by
  intro ws
  induction ws with
  | nil => intro h; exact absurd rfl h
  | cons c ws ih =>
    intro _ hws post buf
    have hc := hws c (List.mem_cons_self _ _)
    have hl : lineEnd c = [] := by
      unfold lineEnd
      have : ¬ (c == '\n') = true := by simpa using hc.2
      rw [if_neg this]
    rw [List.cons_append, dropSpaces_scan_separator e c _ buf hc.1, hl, List.nil_append]
    by_cases hn : ws = []
    · subst hn; rfl
    · rw [ih hn (fun x hx => hws x (List.mem_cons_of_mem _ hx)) post [], flushText_nil,
        List.nil_append]

/-- At the edge of a text run an empty piece of input behaves like a run of spaces. -/
theorem dropSpaces_scan_edge (e : readEnd) (post buf : List Char)
    (h : buf = [] ∨ post = [] ∨ ∃ c post1, post = c :: post1 ∧ isSeparator c = true) :
    dropSpaces (scan e post (mode.str buf)) =
      flushText buf ++ dropSpaces (scan e post (mode.str [])) := by
  rcases h with h | h | ⟨c, post1, h, hc⟩
  · subst h; rfl
  · subst h
    rw [dropSpaces_scan_nil, dropSpaces_scan_nil, flushText_nil, List.nil_append]
  · subst h
    rw [dropSpaces_scan_separator e c _ buf hc, dropSpaces_scan_separator e c _ [] hc,
      flushText_nil, List.nil_append]

/-- Two inputs that differ in one run of separators giving no token, where both runs
are non-empty or the place is not between two text characters, give the same tokens
but for `tokenSpace` tokens. -/
theorem dropSpaces_run_edit (e : readEnd) (pre ws ws1 post : List Char)
    (hws : ∀ c ∈ ws, isSeparator c = true ∧ c ≠ '\n')
    (hws1 : ∀ c ∈ ws1, isSeparator c = true ∧ c ≠ '\n')
    (hcase : (ws ≠ [] ∧ ws1 ≠ []) ∨ pre = [] ∨
      (∃ pre1 c, pre = pre1 ++ [c] ∧ isSeparator c = true) ∨ post = [] ∨
      (∃ c post1, post = c :: post1 ∧ isSeparator c = true)) :
    dropSpaces (lexer.run (pre ++ ws ++ post) e) =
      dropSpaces (lexer.run (pre ++ ws1 ++ post) e) := by
  obtain ⟨out, buf1, h1, h2, h3⟩ := dropSpaces_scan_prefix e pre []
  rw [lexer_run_eq_scan, lexer_run_eq_scan, List.append_assoc, List.append_assoc, h1, h1]
  congr 1
  have key : ∀ w : List Char, (∀ c ∈ w, isSeparator c = true ∧ c ≠ '\n') →
      (w ≠ [] ∨ buf1 = [] ∨ post = [] ∨ ∃ c post1, post = c :: post1 ∧ isSeparator c = true) →
      dropSpaces (scan e (w ++ post) (mode.str buf1)) =
        flushText buf1 ++ dropSpaces (scan e post (mode.str [])) := by
    intro w hw hor
    by_cases hn : w = []
    · subst hn
      rcases hor with hor | hor
      · exact absurd rfl hor
      · exact dropSpaces_scan_edge e post buf1 hor
    · exact dropSpaces_scan_run e w hn hw post buf1
  rcases hcase with ⟨hn, hn1⟩ | hpre | ⟨pre1, c, hpre, hc⟩ | hpost | hpost
  · rw [key ws hws (Or.inl hn), key ws1 hws1 (Or.inl hn1)]
  · rw [key ws hws (Or.inr (Or.inl (h2 hpre))), key ws1 hws1 (Or.inr (Or.inl (h2 hpre)))]
  · rw [key ws hws (Or.inr (Or.inl (h3 pre1 c hpre hc))),
      key ws1 hws1 (Or.inr (Or.inl (h3 pre1 c hpre hc)))]
  · rw [key ws hws (Or.inr (Or.inr (Or.inl hpost))),
      key ws1 hws1 (Or.inr (Or.inr (Or.inl hpost)))]
  · rw [key ws hws (Or.inr (Or.inr (Or.inr hpost))),
      key ws1 hws1 (Or.inr (Or.inr (Or.inr hpost)))]

theorem separator_of_space (c : Char) (h : isSpace c = true) :
    isSeparator c = true ∧ c ≠ '\n' := by
  simp only [isSpace, Bool.or_eq_true, beq_iff_eq] at h
  rcases h with h | h <;> subst h <;> exact ⟨rfl, by decide⟩

/-! ### Carriage returns -/

theorem dropCR_cr (cs : List Char) : dropCR ('\r' :: cs) = dropCR cs := rfl

theorem dropCR_cons (c : Char) (cs : List Char) (h : c ≠ '\r') :
    dropCR (c :: cs) = c :: dropCR cs := by
  simp [dropCR, h]

theorem crSafe_cr (cs : List Char) (p s : Bool) : crSafe ('\r' :: cs) p s = crSafe cs p true := by
  simp [crSafe]

theorem crSafe_separator (c : Char) (cs : List Char) (p s : Bool) (h : c ≠ '\r')
    (hsep : isSeparator c = true) : crSafe (c :: cs) p s = crSafe cs false false := by
  simp [crSafe, h, hsep]

theorem crSafe_text (c : Char) (cs : List Char) (p s : Bool) (h : c ≠ '\r')
    (hsep : isSeparator c = false) :
    crSafe (c :: cs) p s = (!(p && s) && crSafe cs true false) := by
  simp [crSafe, h, hsep]

/-- The scanner on an input and on the input without its carriage returns, in the
three situations `crSafe` tells apart: inside a text run, after carriage returns that
follow a text run (the scanner has emitted the text, the one on the input without them
still holds it), and after a separator. -/
theorem dropSpaces_scan_dropCR (e : readEnd) : ∀ rd : List Char,
    (∀ buf, crSafe rd true false = true →
      dropSpaces (scan e rd (mode.str buf)) = dropSpaces (scan e (dropCR rd) (mode.str buf))) ∧
    (∀ buf, crSafe rd true true = true →
      flushText buf ++ dropSpaces (scan e rd (mode.str [])) =
        dropSpaces (scan e (dropCR rd) (mode.str buf))) ∧
    (∀ b, crSafe rd false b = true →
      dropSpaces (scan e rd (mode.str [])) = dropSpaces (scan e (dropCR rd) (mode.str []))) := by
  intro rd
  induction rd with
  | nil =>
    refine ⟨fun _ _ => rfl, fun buf _ => ?_, fun _ _ => rfl⟩
    show flushText buf ++ dropSpaces (scan e [] (mode.str [])) =
      dropSpaces (scan e [] (mode.str buf))
    rw [dropSpaces_scan_nil, dropSpaces_scan_nil, flushText_nil, List.nil_append]
  | cons c cs ih =>
    obtain ⟨ih1, ih2, ih3⟩ := ih
    by_cases hcr : c = '\r'
    · subst hcr
      have hsep : isSeparator '\r' = true := rfl
      have hl : lineEnd '\r' = [] := rfl
      refine ⟨fun buf h => ?_, fun buf h => ?_, fun b h => ?_⟩
      · rw [crSafe_cr] at h
        rw [dropCR_cr, dropSpaces_scan_separator e _ _ buf hsep, hl, List.nil_append]
        exact ih2 buf h
      · rw [crSafe_cr] at h
        rw [dropCR_cr, dropSpaces_scan_separator e _ _ [] hsep, hl, List.nil_append,
          flushText_nil, List.nil_append]
        exact ih2 buf h
      · rw [crSafe_cr] at h
        rw [dropCR_cr, dropSpaces_scan_separator e _ _ [] hsep, hl, List.nil_append,
          flushText_nil, List.nil_append]
        exact ih3 true h
    · by_cases hsep : isSeparator c = true
      · refine ⟨fun buf h => ?_, fun buf h => ?_, fun b h => ?_⟩
        · rw [crSafe_separator c cs _ _ hcr hsep] at h
          rw [dropCR_cons c cs hcr, dropSpaces_scan_separator e c _ buf hsep,
            dropSpaces_scan_separator e c _ buf hsep, ih3 false h]
        · rw [crSafe_separator c cs _ _ hcr hsep] at h
          rw [dropCR_cons c cs hcr, dropSpaces_scan_separator e c _ [] hsep,
            dropSpaces_scan_separator e c _ buf hsep, ih3 false h, flushText_nil,
            List.nil_append]
        · rw [crSafe_separator c cs _ _ hcr hsep] at h
          rw [dropCR_cons c cs hcr, dropSpaces_scan_separator e c _ [] hsep,
            dropSpaces_scan_separator e c _ [] hsep, ih3 false h]
      · have hsep1 : isSeparator c = false := by simpa using hsep
        refine ⟨fun buf h => ?_, fun buf h => ?_, fun b h => ?_⟩
        · rw [crSafe_text c cs _ _ hcr hsep1] at h
          simp only [Bool.and_false, Bool.not_false, Bool.true_and] at h
          rw [dropCR_cons c cs hcr, dropSpaces_scan_text e c _ buf hsep1,
            dropSpaces_scan_text e c _ buf hsep1]
          exact ih1 _ h
        · rw [crSafe_text c cs _ _ hcr hsep1] at h
          simp at h
        · rw [crSafe_text c cs _ _ hcr hsep1] at h
          simp only [Bool.false_and, Bool.not_false, Bool.true_and] at h
          rw [dropCR_cons c cs hcr, dropSpaces_scan_text e c _ [] hsep1,
            dropSpaces_scan_text e c _ [] hsep1]
          exact ih1 _ h

theorem dropSpaces_run_dropCR (rd : List Char) (e : readEnd)
    (h : crSafe rd false false = true) :
    dropSpaces (lexer.run rd e) = dropSpaces (lexer.run (dropCR rd) e) := by
  rw [lexer_run_eq_scan, lexer_run_eq_scan]
  exact (dropSpaces_scan_dropCR e rd).2.2 false h

/-- Two runs on inputs whose tokens differ in `tokenSpace` tokens only have the same
event stream, stored error message and state after any number of iterations. -/
theorem Parse_same_run (rd1 rd2 : List Char) (e : readEnd)
    (h : dropSpaces (lexer.run rd1 e) = dropSpaces (lexer.run rd2 e)) (n : Nat) :
    (Parse rd1 e n).1.events = (Parse rd2 e n).1.events ∧
      (Parse rd1 e n).1.err = (Parse rd2 e n).1.err ∧
      (Parse rd1 e n).2 = (Parse rd2 e n).2 := by
  obtain ⟨h1, h2⟩ := Parse_noSpaces rd1 rd2 e h n
  have he : (Parse rd1 e n).1.noSpaces.events = (Parse rd2 e n).1.noSpaces.events := by rw [h1]
  have hr : (Parse rd1 e n).1.noSpaces.err = (Parse rd2 e n).1.noSpaces.err := by rw [h1]
  exact ⟨he, hr, h2⟩

/-! ### The scanner terminates -/

theorem stateAfter_succ (e : readEnd) (n : Nat) (s : stateFunc) (rd : List Char) :
    lexer.stateAfter e (n + 1) (some s) rd =
      lexer.stateAfter e n (s.call e rd).next (s.call e rd).rest := rfl

theorem stateAfter_none (e : readEnd) (n : Nat) (rd : List Char) :
    lexer.stateAfter e n none rd = none := by
  cases n <;> rfl

/-- After a call of a state function on `rd`, `2 * rd.length` further calls (one more
after `lexSpace` and `lexEOL`, which may hand the rune they stopped at to `lexString`)
bring the loop of `lexer.run` to `nil`. -/
theorem lex_stops (e : readEnd) : ∀ (rd : List Char),
    (∀ buf n, 2 * rd.length ≤ n →
      lexer.stateAfter e n (lexString e rd buf).next (lexString e rd buf).rest = none) ∧
    (∀ k n, 2 * rd.length + 1 ≤ n →
      lexer.stateAfter e n (lexSpace e rd k).next (lexSpace e rd k).rest = none) ∧
    (∀ acc n, 2 * rd.length + 1 ≤ n →
      lexer.stateAfter e n (lexEOL e rd acc).next (lexEOL e rd acc).rest = none) := by
  intro rd
  induction rd with
  | nil =>
    refine ⟨?_, ?_, ?_⟩
    · intro buf n _
      simp [lexString, stateAfter_none]
    · intro k n _
      simp [lexSpace, stateAfter_none]
    · intro acc n _
      simp [lexEOL, stateAfter_none]
  | cons c cs ih =>
    obtain ⟨ih1, ih2, ih3⟩ := ih
    have h1 : ∀ buf n, 2 * (c :: cs).length ≤ n →
        lexer.stateAfter e n (lexString e (c :: cs) buf).next
          (lexString e (c :: cs) buf).rest = none := by
      intro buf n hn
      simp only [List.length_cons] at hn
      obtain ⟨m, rfl⟩ : ∃ m, n = m + 1 := ⟨n - 1, by omega⟩
      by_cases ht : (!isSpace c && !isEOL c) = true
      · rw [lexString, if_pos ht]
        exact ih1 _ _ (by omega)
      · rw [lexString, if_neg ht]
        dsimp only
        by_cases hs : isSpace c = true
        · rw [if_pos hs, stateAfter_succ]
          have : stateFunc.lexSpace.call e (c :: cs) = lexSpace e cs 1 := by
            simp [stateFunc.call, lexSpace, hs]
          rw [this]
          exact ih2 1 m (by omega)
        · rw [if_neg hs, stateAfter_succ]
          have he : isEOL c = true := by
            cases h1 : isSpace c <;> cases h2 : isEOL c <;> simp_all
          by_cases hn : (c == '\n') = true
          · have : stateFunc.lexEOL.call e (c :: cs) = lexEOL e cs [⟨tokenEOL, ""⟩] := by
              simp [stateFunc.call, lexEOL, he, hn]
            rw [this]
            exact ih3 _ m (by omega)
          · have : stateFunc.lexEOL.call e (c :: cs) = lexEOL e cs [] := by
              simp [stateFunc.call, lexEOL, he, hn]
            rw [this]
            exact ih3 _ m (by omega)
    refine ⟨h1, ?_, ?_⟩
    · intro k n hn
      simp only [List.length_cons] at hn
      obtain ⟨m, rfl⟩ : ∃ m, n = m + 1 := ⟨n - 1, by omega⟩
      by_cases hs : isSpace c = true
      · rw [lexSpace, if_pos hs]
        exact ih2 _ _ (by omega)
      · rw [lexSpace, if_neg hs]
        dsimp only
        rw [stateAfter_succ]
        have hcall : stateFunc.lexString.call e (c :: cs) = lexString e (c :: cs) [] := rfl
        rw [hcall]
        exact h1 [] m (by simp only [List.length_cons]; omega)
    · intro acc n hn
      simp only [List.length_cons] at hn
      obtain ⟨m, rfl⟩ : ∃ m, n = m + 1 := ⟨n - 1, by omega⟩
      by_cases he : isEOL c = true
      · rw [lexEOL, if_pos he]
        by_cases hnl : (c == '\n') = true
        · rw [if_pos hnl]
          exact ih3 _ _ (by omega)
        · rw [if_neg hnl]
          exact ih3 _ _ (by omega)
      · rw [lexEOL, if_neg he]
        dsimp only
        rw [stateAfter_succ]
        have hcall : stateFunc.lexString.call e (c :: cs) = lexString e (c :: cs) [] := rfl
        rw [hcall]
        exact h1 [] m (by simp only [List.length_cons]; omega)

/-- With `2 * length + 1` iterations or more, the loop of `lexer.run` is over and has
emitted the tokens of `lexer.run`. -/
theorem lexer_run_stops (rd : List Char) (e : readEnd) (k : Nat) :
    lexer.stateAfter e (2 * rd.length + 1 + k) (some stateFunc.lexString) rd = none ∧
      lexer.runLoop e (2 * rd.length + 1 + k) (some stateFunc.lexString) rd = lexer.run rd e := by
  have hk : 2 * rd.length + 1 + k = (2 * rd.length + k) + 1 := by omega
  rw [hk, stateAfter_succ, runLoop_succ, lexer_run_eq_scan]
  exact ⟨(lex_stops e rd).1 [] _ (by omega), (lex_scan e rd).1 [] _ (by omega)⟩

theorem ends_prepend_flush (e : readEnd) (fin a l : List token)
    (ha : ∀ t ∈ a, t.typ ≠ tokenEOF ∧ t.typ ≠ tokenError)
    (hl : ∃ body, l = body ++ (fin ++ lexer.error e) ∧
      ∀ t ∈ body, t.typ ≠ tokenEOF ∧ t.typ ≠ tokenError) :
    ∃ body, a ++ l = body ++ (fin ++ lexer.error e) ∧
      ∀ t ∈ body, t.typ ≠ tokenEOF ∧ t.typ ≠ tokenError := by
  obtain ⟨body, hb, hp⟩ := hl
  refine ⟨a ++ body, by rw [hb, List.append_assoc], ?_⟩
  intro t ht
  rcases List.mem_append.1 ht with h | h
  · exact ha t h
  · exact hp t h

theorem bufferAtEnd_separator (c : Char) (cs buf : List Char) (h : isSeparator c = true) :
    bufferAtEnd (c :: cs) buf = bufferAtEnd cs [] := by
  rw [bufferAtEnd, if_pos h]

theorem bufferAtEnd_text (c : Char) (cs buf : List Char) (h : isSeparator c = false) :
    bufferAtEnd (c :: cs) buf = bufferAtEnd cs (buf ++ [c]) := by
  rw [bufferAtEnd, if_neg (by simp [h])]

/-- The scanner's output ends with the text token of the buffer left when the input
ends, if there is one, and then the one token `lexer.error` emits. -/
theorem scan_ends_flush (e : readEnd) : ∀ (rd : List Char) (m : mode),
    ∃ body, scan e rd m = body ++ (flushText (bufferAtEnd rd m.buffer) ++ lexer.error e) ∧
      ∀ t ∈ body, t.typ ≠ tokenEOF ∧ t.typ ≠ tokenError := by
  intro rd
  induction rd with
  | nil =>
    intro m
    cases m with
    | str buf => exact ⟨[], rfl, fun _ h => by cases h⟩
    | spc n =>
      rw [scan]
      exact ends_prepend_flush e _ _ _ (plain_spaces n) ⟨[], rfl, fun _ h => by cases h⟩
    | eol => exact ⟨[], rfl, fun _ h => by cases h⟩
  | cons c cs ih =>
    intro m
    have hsep := isSeparator_eq c
    cases m with
    | str buf =>
      rw [scan]
      by_cases ht : (!isSpace c && !isEOL c) = true
      · have hns : isSeparator c = false := by
          rw [hsep]
          cases h1 : isSpace c <;> cases h2 : isEOL c <;> simp_all
        rw [if_pos ht]
        show ∃ body, _ = body ++ (flushText (bufferAtEnd (c :: cs) buf) ++ _) ∧ _
        rw [bufferAtEnd_text c cs buf hns]
        exact ih (mode.str (buf ++ [c]))
      · have hs : isSeparator c = true := by
          rw [hsep]
          cases h1 : isSpace c <;> cases h2 : isEOL c <;> simp_all
        rw [if_neg ht]
        show ∃ body, _ = body ++ (flushText (bufferAtEnd (c :: cs) buf) ++ _) ∧ _
        rw [bufferAtEnd_separator c cs buf hs]
        refine ends_prepend_flush e _ _ _ (plain_flush buf) ?_
        split
        · exact ih (mode.spc 1)
        · exact ends_prepend_flush e _ _ _ (plain_newline c) (ih mode.eol)
    | spc n =>
      rw [scan]
      show ∃ body, _ = body ++ (flushText (bufferAtEnd (c :: cs) []) ++ _) ∧ _
      by_cases hsp : isSpace c = true
      · have hs : isSeparator c = true := by rw [hsep, hsp]; rfl
        rw [if_pos hsp, bufferAtEnd_separator c cs [] hs]
        exact ih (mode.spc (n + 1))
      · rw [if_neg hsp]
        by_cases he : isEOL c = true
        · have hs : isSeparator c = true := by rw [hsep, he]; simp
          rw [if_pos he, bufferAtEnd_separator c cs [] hs]
          exact ends_prepend_flush e _ _ _ (plain_spaces n)
            (ends_prepend_flush e _ _ _ (plain_newline c) (ih mode.eol))
        · have hns : isSeparator c = false := by
            rw [hsep]
            cases h1 : isSpace c <;> cases h2 : isEOL c <;> simp_all
          rw [if_neg he, bufferAtEnd_text c cs [] hns]
          exact ends_prepend_flush e _ _ _ (plain_spaces n) (ih (mode.str [c]))
    | eol =>
      rw [scan]
      show ∃ body, _ = body ++ (flushText (bufferAtEnd (c :: cs) []) ++ _) ∧ _
      by_cases he : isEOL c = true
      · have hs : isSeparator c = true := by rw [hsep, he]; simp
        rw [if_pos he, bufferAtEnd_separator c cs [] hs]
        exact ends_prepend_flush e _ _ _ (plain_newline c) (ih mode.eol)
      · rw [if_neg he]
        by_cases hsp : isSpace c = true
        · have hs : isSeparator c = true := by rw [hsep, hsp]; rfl
          rw [if_pos hsp, bufferAtEnd_separator c cs [] hs]
          exact ih (mode.spc 1)
        · have hns : isSeparator c = false := by
            rw [hsep]
            cases h1 : isSpace c <;> cases h2 : isEOL c <;> simp_all
          rw [if_neg hsp, bufferAtEnd_text c cs [] hns]
          exact ih (mode.str [c])

theorem flushText_eq (buf : List Char) :
    flushText buf = if buf.length > 0 then [textToken buf] else [] := by
  unfold flushText
  rw [emitValue_eq_textToken]

theorem plain_flushText (buf : List Char) :
    ∀ t ∈ flushText buf, t.typ ≠ tokenEOF ∧ t.typ ≠ tokenError :=
  plain_flush buf

/-! ### The header: `lastValidLine` and the header mapping -/

/-- The loop of `aofHeader` leaves the header mapping and `lastValidLine` its header
lines give, adds error events only, and has read `n` lines when it runs to its end. -/
theorem headerDecls_aofHeaderLoop (n : Nat) : ∀ p : AOFParser,
    (aofHeaderLoop n p).1.headers = headerTable p.headers (headerDeclsLoop n p) ∧
      (aofHeaderLoop n p).1.lastValidLine = maxLine p.lastValidLine (headerDeclsLoop n p) ∧
      AddsErrors p.events (aofHeaderLoop n p).1.events ∧
      ((aofHeaderLoop n p).2 = true → (headerDeclsLoop n p).length = n) := by
  induction n with
  | zero => intro p; exact ⟨rfl, rfl, addsErrors_self _, fun _ => rfl⟩
  | succ n ih =>
    intro p
    unfold aofHeaderLoop headerDeclsLoop
    cases he1 : p.expectOneOf [tokenString, tokenNumber] with
    | none => exact ⟨rfl, rfl, addsErrors_self _, fun h => by cases h⟩
    | some x =>
      obtain ⟨key, p1⟩ := x
      have hx1 := ext_expectOneOf he1
      dsimp only
      by_cases h1 : key.typ ≠ tokenString ∧ key.typ ≠ tokenNumber
      · rw [if_pos h1, if_pos h1]
        exact ⟨hx1.headers, hx1.lastValidLine, hx1.addsErrors, fun h => by cases h⟩
      · rw [if_neg h1, if_neg h1]
        cases he2 : p1.expect tokenNumber with
        | none =>
          exact ⟨hx1.headers, hx1.lastValidLine, hx1.addsErrors, fun h => by cases h⟩
        | some y =>
          obtain ⟨raw, p2⟩ := y
          have hx2 := ext_expect he2
          dsimp only
          by_cases h2 : raw.typ ≠ tokenNumber
          · rw [if_pos h2, if_pos h2]
            exact ⟨hx2.headers.trans hx1.headers, hx2.lastValidLine.trans hx1.lastValidLine,
              hx1.addsErrors.chain hx2.addsErrors, fun h => by cases h⟩
          · rw [if_neg h2, if_neg h2]
            have hev2 : AddsErrors p.events p2.events := hx1.addsErrors.chain hx2.addsErrors
            have hh2 : p2.headers = p.headers := hx2.headers.trans hx1.headers
            have hl2 : p2.lastValidLine = p.lastValidLine :=
              hx2.lastValidLine.trans hx1.lastValidLine
            cases he5 : ({ p2 with
                  headers := mapSet p2.headers key.val (ParseInt raw.val 32).1,
                  lastValidLine := if (ParseInt raw.val 32).1 > p2.lastValidLine
                    then (ParseInt raw.val 32).1 else p2.lastValidLine } : AOFParser).expect
                tokenEOL with
            | none =>
              refine ⟨?_, ?_, hev2, fun h => by cases h⟩
              · show mapSet p2.headers key.val (ParseInt raw.val 32).1 = _
                rw [hh2]; rfl
              · show (if (ParseInt raw.val 32).1 > p2.lastValidLine
                  then (ParseInt raw.val 32).1 else p2.lastValidLine) = _
                rw [hl2]; rfl
            | some z =>
              obtain ⟨w, p5⟩ := z
              have hx5 := ext_expect he5
              obtain ⟨i1, i2, i3, i4⟩ := ih { p5 with curHeaderLine := p5.curHeaderLine + 1 }
              dsimp only
              refine ⟨?_, ?_, ?_, ?_⟩
              · rw [i1]
                show headerTable p5.headers _ = _
                rw [hx5.headers]
                show headerTable (mapSet p2.headers key.val (ParseInt raw.val 32).1) _ = _
                rw [hh2]; rfl
              · rw [i2]
                show maxLine p5.lastValidLine _ = _
                rw [hx5.lastValidLine]
                show maxLine (if (ParseInt raw.val 32).1 > p2.lastValidLine
                  then (ParseInt raw.val 32).1 else p2.lastValidLine) _ = _
                rw [hl2]; rfl
              · exact (hev2.chain hx5.addsErrors).chain i3
              · intro h
                show (_ :: _).length = n + 1
                rw [List.length_cons, i4 h]

theorem noHeader_of_addsErrors {a b : List Event} (h : AddsErrors a b)
    (ha : newEvent EventHeader ∉ a) : newEvent EventHeader ∉ b := by
  obtain ⟨added, hb, hadd⟩ := h
  rw [hb]
  intro hmem
  rcases List.mem_append.1 hmem with h1 | h1
  · exact ha h1
  · exact absurd (hadd _ h1) (by decide)

theorem noHeader_emit_completed {evs : List Event} (ha : newEvent EventHeader ∉ evs) :
    newEvent EventHeader ∉ evs ++ [newEvent EventCompleted] := by
  intro hmem
  rcases List.mem_append.1 hmem with h1 | h1
  · exact ha h1
  · exact absurd (List.mem_singleton.1 h1) (by decide)

/-- The state function `aofHeaderTotal` leaves the header mapping and `lastValidLine`
alone, emits no `HeaderParsed`, and goes on to `aofHeader` or ends the run. -/
theorem header_aofHeaderTotal (p : AOFParser) :
    (aofHeaderTotal p).1.headers = p.headers ∧
      (aofHeaderTotal p).1.lastValidLine = p.lastValidLine ∧
      ((aofHeaderTotal p).2 = none ∨ (aofHeaderTotal p).2 = some .aofHeader) ∧
      (newEvent EventHeader ∉ p.events → newEvent EventHeader ∉ (aofHeaderTotal p).1.events) := by
  unfold aofHeaderTotal
  split
  · exact ⟨rfl, rfl, Or.inl rfl, fun h => h⟩
  · rename_i tok p1 he
    have hx := ext_expect he
    split
    · exact ⟨hx.headers, hx.lastValidLine, Or.inl rfl, noHeader_of_addsErrors hx.addsErrors⟩
    · dsimp only
      split
      · exact ⟨hx.headers, hx.lastValidLine, Or.inl rfl,
          fun h => noHeader_emit_completed (noHeader_of_addsErrors hx.addsErrors h)⟩
      · split
        · exact ⟨hx.headers, hx.lastValidLine, Or.inl rfl,
            noHeader_of_addsErrors hx.addsErrors⟩
        · rename_i x p3 he3
          have hx3 := ext_expect he3
          exact ⟨hx3.headers.trans hx.headers, hx3.lastValidLine.trans hx.lastValidLine,
            Or.inr rfl,
            fun h => noHeader_of_addsErrors hx3.addsErrors
              (noHeader_of_addsErrors hx.addsErrors h)⟩

/-- The state functions of the body leave the header mapping and `lastValidLine` as
they are, and none of them goes back to a header state. -/
theorem frozen_parseStep (c : AOFParser × Option parserStateFunc)
    (h1 : c.2 ≠ some .aofHeaderTotal) (h2 : c.2 ≠ some .aofHeader) :
    (parseStep c).1.headers = c.1.headers ∧
      (parseStep c).1.lastValidLine = c.1.lastValidLine ∧
      (parseStep c).2 ≠ some .aofHeaderTotal ∧ (parseStep c).2 ≠ some .aofHeader := by
  obtain ⟨p, st⟩ := c
  cases st with
  | none => exact ⟨rfl, rfl, h1, h2⟩
  | some s =>
    cases s with
    | aofHeaderTotal => exact absurd rfl h1
    | aofHeader => exact absurd rfl h2
    | aofBodyEvent =>
      refine ⟨(bodyFrame_aofBodyEvent p).headers, (bodyFrame_aofBodyEvent p).lastValidLine, ?_, ?_⟩ <;>
        · show (aofBodyEvent p).2 ≠ _
          rcases next_aofBodyEvent p with h | h <;> rw [h] <;> simp
    | aofBodyKey =>
      refine ⟨(bodyFrame_aofBodyKey p).headers, (bodyFrame_aofBodyKey p).lastValidLine, ?_, ?_⟩ <;>
        · show (aofBodyKey p).2 ≠ _
          rcases next_aofBodyKey p with h | h | h | h <;> rw [h] <;> simp
    | aofBodyValue =>
      refine ⟨(bodyFrame_aofBodyValue p).headers, (bodyFrame_aofBodyValue p).lastValidLine, ?_, ?_⟩ <;>
        · show (aofBodyValue p).2 ≠ _
          rcases next_aofBodyValue p with h | h <;> rw [h] <;> simp
    | aofBodyModifyOperator =>
      refine ⟨(bodyFrame_aofBodyModifyOperator p).headers,
        (bodyFrame_aofBodyModifyOperator p).lastValidLine, ?_, ?_⟩ <;>
        · show (aofBodyModifyOperator p).2 ≠ _
          rcases next_aofBodyModifyOperator p with h | h <;> rw [h] <;> simp
    | aofEmitBodyEvent =>
      show (aofEmitBodyEvent p).1.headers = p.headers ∧ (aofEmitBodyEvent p).1.lastValidLine = _ ∧
        (aofEmitBodyEvent p).2 ≠ _ ∧ (aofEmitBodyEvent p).2 ≠ _
      unfold aofEmitBodyEvent
      split
      · exact ⟨rfl, rfl, by simp, by simp⟩
      · split
        · exact ⟨rfl, rfl, by simp, by simp⟩
        · rename_i q hq
          have hk := aofApplyEvent_keeps hq
          generalize q.values = vals at hk
          subst hk
          exact ⟨rfl, rfl, by simp, by simp⟩
    | aofBodyNextLine =>
      show (aofBodyNextLine p).1.headers = p.headers ∧ (aofBodyNextLine p).1.lastValidLine = _ ∧
        (aofBodyNextLine p).2 ≠ _ ∧ (aofBodyNextLine p).2 ≠ _
      rcases aofBodyNextLine_cases p with ⟨_, heq⟩ | ⟨_, _, heq⟩ | ⟨t, ts, _, _, hc4⟩
      · rw [heq]; exact ⟨rfl, rfl, by simp, by simp⟩
      · rw [heq]; exact ⟨rfl, rfl, by simp [AOFParser.block], by simp [AOFParser.block]⟩
      · rcases hc4 with ⟨_, _, heq⟩ | ⟨_, heq⟩ | ⟨_, _, heq⟩ | ⟨_, _, heq⟩
        · rw [heq]; exact ⟨rfl, rfl, by simp, by simp⟩
        · rw [heq]; exact ⟨rfl, rfl, by simp, by simp⟩
        · rw [heq]; exact ⟨rfl, rfl, by simp, by simp⟩
        · rw [heq]
          obtain ⟨msg, hmsg⟩ := unexpected_eq_error
            ({ p with curBodyLine := p.curBodyLine + 1, toks := ts } : AOFParser) t.typ
            [tokenEOL, tokenEOF]
          rw [hmsg]
          exact ⟨rfl, rfl, by simp, by simp⟩

theorem frozen_parseSteps (m : Nat) (c : AOFParser × Option parserStateFunc)
    (h1 : c.2 ≠ some .aofHeaderTotal) (h2 : c.2 ≠ some .aofHeader) :
    (parseSteps m c).1.headers = c.1.headers ∧
      (parseSteps m c).1.lastValidLine = c.1.lastValidLine ∧
      (parseSteps m c).2 ≠ some .aofHeaderTotal ∧ (parseSteps m c).2 ≠ some .aofHeader := by
  induction m with
  | zero => exact ⟨rfl, rfl, h1, h2⟩
  | succ m ih =>
    obtain ⟨i1, i2, i3, i4⟩ := ih
    obtain ⟨f1, f2, f3, f4⟩ := frozen_parseStep (parseSteps m c) i3 i4
    exact ⟨f1.trans i1, f2.trans i2, f3, f4⟩

/-- When `HeaderParsed` has been emitted, the header mapping and `lastValidLine` are
those the header lines give, and there are as many header lines as the header count
says. -/
theorem header_Parse (rd : List Char) (e : readEnd) (n : Nat)
    (h : newEvent EventHeader ∈ (Parse rd e n).1.events) :
    (Parse rd e n).1.headers = headerTable (fun _ => none) (headerDecls rd e) ∧
      (Parse rd e n).1.lastValidLine = maxLine 0 (headerDecls rd e) ∧
      (headerDecls rd e).length = (Parse rd e 1).1.headerTotal.toNat ∧
      0 < (Parse rd e 1).1.headerTotal := by
  have h0 : newEvent EventHeader ∉ (Parse rd e 0).1.events := fun hh => by cases hh
  obtain ⟨a1, a2, a3, a4⟩ := header_aofHeaderTotal (Parse rd e 0).1
  have hstep1 : Parse rd e 1 = aofHeaderTotal (Parse rd e 0).1 := rfl
  have h1 : newEvent EventHeader ∉ (Parse rd e 1).1.events := by rw [hstep1]; exact a4 h0
  have hh1 : (Parse rd e 1).1.headers = fun _ => none := by rw [hstep1, a1]; rfl
  have hl1 : (Parse rd e 1).1.lastValidLine = 0 := by rw [hstep1, a2]; rfl
  cases n with
  | zero => exact absurd h h0
  | succ n =>
    have hn : Parse rd e (n + 1) = parseSteps n (Parse rd e 1) := by
      rw [Nat.add_comm]; exact Parse_add rd e 1 n
    rw [← hstep1] at a3
    rcases a3 with hs | hs
    · have hc : Parse rd e 1 = ((Parse rd e 1).1, none) := Prod.ext rfl hs
      rw [hn, hc, parseSteps_halt] at h
      exact absurd h h1
    · have hc : Parse rd e 1 = ((Parse rd e 1).1, some .aofHeader) := Prod.ext rfl hs
      have hpos : 0 < (Parse rd e 1).1.headerTotal := by
        have hph := (phase_Parse rd e 1).2.2.2
        rw [hc] at hph
        exact (show NoEnd (Parse rd e 1).1 ∧ 0 < (Parse rd e 1).1.headerTotal from hph).2
      cases n with
      | zero => exact absurd h h1
      | succ n =>
        have hn2 : Parse rd e (n + 1 + 1) = parseSteps n (aofHeader (Parse rd e 1).1) := by
          rw [show n + 1 + 1 = 2 + n by omega, Parse_add rd e 2 n]
          have : Parse rd e 2 = parseStep (Parse rd e 1) := rfl
          rw [this, hc]
          rfl
        obtain ⟨l1, l2, l3, l4⟩ := headerDecls_aofHeaderLoop (Parse rd e 1).1.headerTotal.toNat
          (Parse rd e 1).1
        rw [hn2] at h ⊢
        unfold aofHeader at h ⊢
        rcases hl : aofHeaderLoop (Parse rd e 1).1.headerTotal.toNat (Parse rd e 1).1 with ⟨q, b⟩
        rw [hl] at h l1 l2 l3 l4
        cases b with
        | false =>
          simp only [parseSteps_halt] at h
          exact absurd h (noHeader_of_addsErrors l3 h1)
        | true =>
          simp only at h ⊢
          obtain ⟨f1, f2, _, _⟩ := frozen_parseSteps n
            (q.emit (newEvent EventHeader), some .aofBodyEvent) (by simp) (by simp)
          rw [f1, f2]
          refine ⟨?_, ?_, l4 rfl, hpos⟩
          · show q.headers = _
            rw [l1, hh1]; rfl
          · show q.lastValidLine = _
            rw [l2, hl1]; rfl

theorem maxLine_cons (m : Int) (d : String × Int) (l : List (String × Int)) :
    maxLine m (d :: l) = maxLine (if d.2 > m then d.2 else m) l := rfl

theorem maxLine_ge_init : ∀ (l : List (String × Int)) (m : Int), m ≤ maxLine m l := by
  intro l
  induction l with
  | nil => intro m; exact le_refl _
  | cons d l ih =>
    intro m
    rw [maxLine_cons]
    by_cases hd : d.2 > m
    · rw [if_pos hd]
      have := ih d.2
      omega
    · rw [if_neg hd]
      exact ih m

theorem maxLine_ge : ∀ (l : List (String × Int)) (m : Int), ∀ d ∈ l, d.2 ≤ maxLine m l := by
  intro l
  induction l with
  | nil => intro m d hd; cases hd
  | cons x l ih =>
    intro m d hd
    rw [maxLine_cons]
    rcases List.mem_cons.1 hd with h | h
    · subst h
      by_cases hd : d.2 > m
      · rw [if_pos hd]
        exact maxLine_ge_init l d.2
      · rw [if_neg hd]
        have := maxLine_ge_init l m
        omega
    · exact ih _ d h

theorem maxLine_mem : ∀ (l : List (String × Int)) (m : Int),
    maxLine m l = m ∨ ∃ d ∈ l, d.2 = maxLine m l := by
  intro l
  induction l with
  | nil => intro m; exact Or.inl rfl
  | cons x l ih =>
    intro m
    rw [maxLine_cons]
    rcases ih (if x.2 > m then x.2 else m) with h | ⟨d, hd, h⟩
    · rw [h]
      split
      · exact Or.inr ⟨x, List.mem_cons_self _ _, rfl⟩
      · exact Or.inl rfl
    · exact Or.inr ⟨d, List.mem_cons_of_mem _ hd, h⟩

theorem headerTable_cons (h : String → Option Int) (d : String × Int)
    (l : List (String × Int)) :
    headerTable h (d :: l) = headerTable (mapSet h d.1 d.2) l := rfl

theorem headerTable_mem : ∀ (l : List (String × Int)) (h : String → Option Int) (k : String)
    (v : Int), headerTable h l k = some v → (k, v) ∈ l ∨ h k = some v := by
  intro l
  induction l with
  | nil => intro h k v hv; exact Or.inr hv
  | cons d l ih =>
    intro h k v hv
    rw [headerTable_cons] at hv
    rcases ih _ k v hv with h1 | h1
    · exact Or.inl (List.mem_cons_of_mem _ h1)
    · unfold mapSet at h1
      split at h1
      · rename_i hk
        cases h1
        subst hk
        exact Or.inl (List.mem_cons_self _ _)
      · exact Or.inr h1

theorem headerTable_other : ∀ (l : List (String × Int)) (h : String → Option Int) (k : String),
    k ∉ l.map Prod.fst → headerTable h l k = h k := by
  intro l
  induction l with
  | nil => intro h k _; rfl
  | cons d l ih =>
    intro h k hk
    simp only [List.map_cons, List.mem_cons, not_or] at hk
    rw [headerTable_cons, ih _ k hk.2]
    simp [mapSet, hk.1]

theorem headerTable_nodup : ∀ (l : List (String × Int)) (h : String → Option Int),
    (l.map Prod.fst).Nodup → ∀ d ∈ l, headerTable h l d.1 = some d.2 := by
  intro l
  induction l with
  | nil => intro h _ d hd; cases hd
  | cons x l ih =>
    intro h hnd d hd
    simp only [List.map_cons, List.nodup_cons] at hnd
    rw [headerTable_cons]
    rcases List.mem_cons.1 hd with hx | hx
    · subst hx
      rw [headerTable_other l _ d.1 hnd.1]
      simp [mapSet]
    · exact ih _ hnd.2 d hx

/-! ### The line number of an error message -/

theorem errorCount_append (a b : List Event) :
    errorCount (a ++ b) = errorCount a + errorCount b := by
  simp [errorCount, List.countP_append]

theorem errorCount_error (p : AOFParser) (msg : String) :
    errorCount (p.error msg).events = errorCount p.events + 1 := by
  show errorCount (p.events ++ [_]) = _
  rw [errorCount_append]
  rfl

theorem errorCount_emit (p : AOFParser) (ev : Event) (h : ev.Typ ≠ EventError) :
    errorCount (p.emit ev).events = errorCount p.events := by
  show errorCount (p.events ++ [ev]) = _
  rw [errorCount_append]
  simp [errorCount, h]

theorem errorCount_addsErrors {a b : List Event} (h : AddsErrors a b) :
    errorCount a ≤ errorCount b ∧ (errorCount b = errorCount a → b = a) := by
  obtain ⟨added, hb, hadd⟩ := h
  rw [hb, errorCount_append]
  refine ⟨Nat.le_add_right _ _, fun heq => ?_⟩
  cases added with
  | nil => simp
  | cons x l =>
    have hx := hadd x (List.mem_cons_self _ _)
    have : errorCount (x :: l) = errorCount l + 1 := by
      simp [errorCount, hx]
    omega

theorem countEOL_of_spaces (sp : List token) (h : ∀ s ∈ sp, s.typ = tokenSpace) :
    countEOL sp = 0 := by
  induction sp with
  | nil => rfl
  | cons a l ih =>
    have ha := h a (List.mem_cons_self _ _)
    have hl := ih (fun s hs => h s (List.mem_cons_of_mem _ hs))
    simp only [countEOL] at hl ⊢
    rw [List.countP_cons, hl, ha]
    rfl

theorem countEOL_one (t : token) (h : t.typ ≠ tokenEOL) : countEOL [t] = 0 := by
  simp [countEOL, h]

/-- The tokens before the one a state function reads next hold the `tokenEOL` tokens
the line counters count. -/
theorem consumed_read {toks0 : List token} {p : AOFParser} {t : token} {ts : List token}
    (hC : Consumed toks0 p) (hn : nextNonSpaceLoop p.toks = some (t, ts)) :
    ∃ before, toks0 = before ++ t :: ts ∧ t.typ ≠ tokenSpace ∧
      (countEOL before : Int) = p.curHeaderLine + p.curBodyLine := by
  obtain ⟨before, hb, hc⟩ := hC
  obtain ⟨sp, hsp, hall, hne⟩ := nextNonSpaceLoop_split _ _ _ hn
  refine ⟨before ++ sp, by rw [hb, hsp, List.append_assoc], hne, ?_⟩
  rw [countEOL_append, countEOL_of_spaces sp hall, Nat.add_zero]
  exact hc

/-- That a call of `p.error` stores a message with the line number the tokens give. -/
theorem errorAt_error (toks0 : List token) (p : AOFParser) (before : List token) (t : token)
    (msg : String) (d : Int) (hs : toks0 = before ++ t :: p.toks) (ht : t.typ ≠ tokenSpace)
    (hl : (countEOL before : Int) + d = p.curHeaderLine + p.curBodyLine) :
    ErrorAt toks0 d (p.error msg) := by
  refine ⟨before, t, msg, hs, ht, ?_⟩
  show some (p.errorText msg) = _
  unfold AOFParser.errorText
  have : p.curHeaderLine + p.curBodyLine + 1 = (countEOL before : Int) + 1 + d := by omega
  rw [this]

theorem ErrorAt.sameMessage {toks0 : List token} {d : Int} {q r : AOFParser}
    (h : ErrorAt toks0 d q) (ht : r.toks = q.toks) (he : r.err = q.err) : ErrorAt toks0 d r := by
  obtain ⟨before, t, msg, h1, h2, h3⟩ := h
  exact ⟨before, t, msg, by rw [ht]; exact h1, h2, by rw [he]; exact h3⟩

theorem readStep_aofBodyEvent (p : AOFParser) : ReadStep p (aofBodyEvent p) := by
  cases hn : nextNonSpaceLoop p.toks with
  | none => exact Or.inl ⟨hn, by simp [aofBodyEvent, expect_eq, hn]⟩
  | some x =>
    obtain ⟨t, ts⟩ := x
    refine Or.inr ⟨t, ts, hn, ?_⟩
    by_cases ht : t.typ = tokenString
    · have hne : t.typ ≠ tokenEOL := by rw [ht]; decide
      simp only [aofBodyEvent, expect_eq, hn, Option.map_some', ht, ne_eq, not_true_eq_false,
        if_false]
      split_ifs
      · exact Or.inr ⟨rfl, rfl, rfl, rfl, by first | exact hne | simp, by simp⟩
      · exact Or.inr ⟨rfl, rfl, rfl, rfl, by first | exact hne | simp, by simp⟩
      · exact Or.inr ⟨rfl, rfl, rfl, rfl, by first | exact hne | simp, by simp⟩
      · exact Or.inr ⟨rfl, rfl, rfl, rfl, by first | exact hne | simp, by simp⟩
      · exact Or.inl ⟨_, rfl⟩
    · left
      obtain ⟨msg, hmsg⟩ := unexpected_eq_error ({ p with toks := ts } : AOFParser) t.typ
        [tokenString]
      refine ⟨msg, ?_⟩
      simp [aofBodyEvent, expect_eq, hn, ht, hmsg]

theorem readStep_aofBodyKey (p : AOFParser) : ReadStep p (aofBodyKey p) := by
  cases hn : nextNonSpaceLoop p.toks with
  | none => exact Or.inl ⟨hn, by simp [aofBodyKey, expectOneOf_eq, hn]⟩
  | some x =>
    obtain ⟨t, ts⟩ := x
    refine Or.inr ⟨t, ts, hn, ?_⟩
    by_cases ht : t.typ = tokenString ∨ t.typ = tokenNumber
    · have hne : t.typ ≠ tokenEOL := by rcases ht with h | h <;> rw [h] <;> decide
      have hmem : t.typ ∈ [tokenString, tokenNumber] := by simpa using ht
      have hnot : ¬ (t.typ ≠ tokenString ∧ t.typ ≠ tokenNumber) := by
        intro h; rcases ht with h1 | h1
        · exact h.1 h1
        · exact h.2 h1
      right
      simp only [aofBodyKey, expectOneOf_eq, hn, Option.map_some', hmem, if_true, if_neg hnot]
      split_ifs <;> exact ⟨rfl, rfl, rfl, rfl, hne, by simp⟩
    · left
      have hmem : ¬ t.typ ∈ [tokenString, tokenNumber] := by simpa using ht
      have hyes : t.typ ≠ tokenString ∧ t.typ ≠ tokenNumber := by
        constructor <;> intro h <;> exact ht (by simp [h])
      obtain ⟨msg, hmsg⟩ := unexpected_eq_error ({ p with toks := ts } : AOFParser) t.typ
        [tokenString, tokenNumber]
      refine ⟨msg, ?_⟩
      simp only [aofBodyKey, expectOneOf_eq, hn, Option.map_some', if_neg hmem, if_pos hyes, hmsg]

theorem readStep_aofBodyValue (p : AOFParser) : ReadStep p (aofBodyValue p) := by
  cases hn : nextNonSpaceLoop p.toks with
  | none => exact Or.inl ⟨hn, by simp [aofBodyValue, expect_eq, hn]⟩
  | some x =>
    obtain ⟨t, ts⟩ := x
    refine Or.inr ⟨t, ts, hn, ?_⟩
    by_cases ht : t.typ = tokenNumber
    · have hne : t.typ ≠ tokenEOL := by rw [ht]; decide
      right
      simp [aofBodyValue, expect_eq, hn, ht]
    · left
      obtain ⟨msg, hmsg⟩ := unexpected_eq_error ({ p with toks := ts } : AOFParser) t.typ
        [tokenNumber]
      refine ⟨msg, ?_⟩
      simp [aofBodyValue, expect_eq, hn, ht, hmsg]

theorem readStep_aofBodyModifyOperator (p : AOFParser) :
    ReadStep p (aofBodyModifyOperator p) := by
  cases hn : nextNonSpaceLoop p.toks with
  | none => exact Or.inl ⟨hn, by simp [aofBodyModifyOperator, expect_eq, hn]⟩
  | some x =>
    obtain ⟨t, ts⟩ := x
    refine Or.inr ⟨t, ts, hn, ?_⟩
    by_cases ht : t.typ = tokenNumber
    · have hne : t.typ ≠ tokenEOL := by rw [ht]; decide
      simp only [aofBodyModifyOperator, expect_eq, hn, Option.map_some', ht, ne_eq,
        not_true_eq_false, if_false]
      split_ifs
      · exact Or.inl ⟨_, rfl⟩
      · exact Or.inr ⟨rfl, rfl, rfl, rfl, by first | exact hne | simp, by simp⟩
    · left
      obtain ⟨msg, hmsg⟩ := unexpected_eq_error ({ p with toks := ts } : AOFParser) t.typ
        [tokenNumber]
      refine ⟨msg, ?_⟩
      simp [aofBodyModifyOperator, expect_eq, hn, ht, hmsg]

theorem lineInv_of_both {toks0 : List token} {q : AOFParser} (h1 : Consumed toks0 q)
    (h2 : ConsumedLine toks0 q) : ∀ s : Option parserStateFunc, LineInv toks0 (q, s) := by
  intro s
  rcases s with _ | s
  · exact True.intro
  · cases s <;> first | exact h1 | exact h2

/-- The invariant after a token was read and the counters were moved by the line
feeds it stands for. -/
theorem consumed_next {toks0 : List token} {p : AOFParser} {t : token} {ts : List token}
    (hC : Consumed toks0 p) (hn : nextNonSpaceLoop p.toks = some (t, ts)) (q : AOFParser)
    (hq : q.toks = ts)
    (hl : q.curHeaderLine + q.curBodyLine =
      p.curHeaderLine + p.curBodyLine + (countEOL [t] : Int)) : Consumed toks0 q := by
  obtain ⟨before, hb, _, hc⟩ := consumed_read hC hn
  refine ⟨before ++ [t], by rw [hq, hb]; simp, ?_⟩
  rw [countEOL_append, hl]
  push_cast
  omega

theorem lineStep_block (toks0 : List token) (d : Int) (inv : Prop) (p q : AOFParser)
    (hq : q.events = p.events) : LineStep toks0 d inv p q.block := by
  refine ⟨Nat.le_of_eq (congrArg errorCount hq.symm), fun _ => ⟨fun _ => True.intro, ?_⟩⟩
  intro _ _ hb
  simp [AOFParser.block] at hb

theorem lineStep_completed (toks0 : List token) (d : Int) (inv : Prop) (p q : AOFParser)
    (hq : q.events = p.events) :
    LineStep toks0 d inv p (q.emit (newEvent EventCompleted), none) := by
  have hc : errorCount (q.emit (newEvent EventCompleted)).events = errorCount p.events := by
    rw [errorCount_emit _ _ (by decide), hq]
  refine ⟨Nat.le_of_eq hc.symm, fun _ => ⟨fun _ => True.intro, ?_⟩⟩
  intro he _ _
  rw [hc] at he
  omega

theorem lineStep_error (toks0 : List token) (d : Int) (inv : Prop) (p q : AOFParser)
    (msg : String) (hq : q.events = p.events) (h : inv → ErrorAt toks0 d (q.error msg)) :
    LineStep toks0 d inv p (q.error msg, none) := by
  have hc : errorCount (q.error msg).events = errorCount p.events + 1 := by
    rw [errorCount_error, hq]
  exact ⟨by rw [hc]; exact Nat.le_succ _, fun hi => ⟨fun _ => True.intro, fun _ _ _ => h hi⟩⟩

theorem lineStep_read (toks0 : List token) (p : AOFParser)
    (r : AOFParser × Option parserStateFunc) (hr : ReadStep p r) :
    LineStep toks0 0 (Consumed toks0 p) p r := by
  rcases hr with ⟨_, rfl⟩ | ⟨t, ts, hn, ⟨msg, rfl⟩ | ⟨h1, h2, h3, h4, h5, h6⟩⟩
  · exact lineStep_block toks0 0 _ p p rfl
  · refine lineStep_error toks0 0 _ p _ msg rfl (fun hC => ?_)
    obtain ⟨before, hb, hsp, hc⟩ := consumed_read hC hn
    exact errorAt_error toks0 _ before t msg 0 hb hsp (by rw [Int.add_zero]; exact hc)
  · obtain ⟨q, s⟩ := r
    dsimp only at h1 h2 h3 h4 h6
    refine ⟨Nat.le_of_eq (congrArg errorCount h2.symm), fun hC => ⟨fun _ => ?_, ?_⟩⟩
    · obtain ⟨before, hb, hsp, hc⟩ := consumed_read hC hn
      apply lineInv_of_both
      · exact consumed_next hC hn q h1 (by rw [h3, h4, countEOL_one t h5]; simp)
      · exact ⟨before, t, by rw [h1]; exact hb, h5, hsp, by rw [h3, h4]; exact hc⟩
    · intro _ hs _
      exact absurd hs h6

/-- What `expect` comes to when it returns: the token is the one asked for and the
validator has moved past it, or an error was reported on it. -/
theorem line_expect (toks0 : List token) {p p1 : AOFParser} {typ : tokenType} {t : token}
    (he : p.expect typ = some (t, p1)) :
    (t.typ = typ ∧ p1.events = p.events ∧
        (Consumed toks0 p → ∀ q : AOFParser, q.toks = p1.toks →
          q.curHeaderLine + q.curBodyLine =
            p.curHeaderLine + p.curBodyLine + (countEOL [t] : Int) → Consumed toks0 q)) ∨
      (t.typ ≠ typ ∧ errorCount p1.events = errorCount p.events + 1 ∧
        p1.blocked = p.blocked ∧ (Consumed toks0 p → ErrorAt toks0 0 p1)) := by
  rw [expect_eq] at he
  cases hn : nextNonSpaceLoop p.toks with
  | none => rw [hn] at he; cases he
  | some x =>
    rw [hn] at he
    simp only [Option.map_some', Option.some.injEq, Prod.mk.injEq] at he
    obtain ⟨rfl, rfl⟩ := he
    by_cases h : x.1.typ = typ
    · left
      rw [if_neg (fun hc => hc h)]
      exact ⟨h, rfl, fun hC q hq hl => consumed_next hC hn q hq hl⟩
    · right
      rw [if_pos h]
      obtain ⟨msg, hmsg⟩ := unexpected_eq_error ({ p with toks := x.2 } : AOFParser) x.1.typ
        [typ]
      rw [hmsg]
      refine ⟨h, errorCount_error _ _, rfl, fun hC => ?_⟩
      obtain ⟨before, hb, hsp, hc⟩ := consumed_read hC hn
      exact errorAt_error toks0 _ before x.1 msg 0 hb hsp (by rw [Int.add_zero]; exact hc)

theorem line_expectOneOf (toks0 : List token) {p p1 : AOFParser} {l : List tokenType}
    {t : token} (he : p.expectOneOf l = some (t, p1)) :
    (t.typ ∈ l ∧ p1.events = p.events ∧
        (Consumed toks0 p → ∀ q : AOFParser, q.toks = p1.toks →
          q.curHeaderLine + q.curBodyLine =
            p.curHeaderLine + p.curBodyLine + (countEOL [t] : Int) → Consumed toks0 q)) ∨
      (t.typ ∉ l ∧ errorCount p1.events = errorCount p.events + 1 ∧
        p1.blocked = p.blocked ∧ (Consumed toks0 p → ErrorAt toks0 0 p1)) := by
  rw [expectOneOf_eq] at he
  cases hn : nextNonSpaceLoop p.toks with
  | none => rw [hn] at he; cases he
  | some x =>
    rw [hn] at he
    simp only [Option.map_some', Option.some.injEq, Prod.mk.injEq] at he
    obtain ⟨rfl, rfl⟩ := he
    by_cases h : x.1.typ ∈ l
    · left
      rw [if_pos h]
      exact ⟨h, rfl, fun hC q hq hl => consumed_next hC hn q hq hl⟩
    · right
      rw [if_neg h]
      obtain ⟨msg, hmsg⟩ := unexpected_eq_error ({ p with toks := x.2 } : AOFParser) x.1.typ l
      rw [hmsg]
      refine ⟨h, errorCount_error _ _, rfl, fun hC => ?_⟩
      obtain ⟨before, hb, hsp, hc⟩ := consumed_read hC hn
      exact errorAt_error toks0 _ before x.1 msg 0 hb hsp (by rw [Int.add_zero]; exact hc)

theorem lineStep_aofEmitBodyEvent (toks0 : List token) (p : AOFParser) :
    LineStep toks0 0 (ConsumedLine toks0 p) p (aofEmitBodyEvent p) := by
  have herr : ∀ msg, LineStep toks0 0 (ConsumedLine toks0 p) p (p.error msg, none) := by
    intro msg
    refine lineStep_error toks0 0 _ p p msg rfl (fun hC => ?_)
    obtain ⟨before, t, hb, _, hsp, hc⟩ := hC
    exact errorAt_error toks0 p before t msg 0 hb hsp (by rw [Int.add_zero]; exact hc)
  unfold aofEmitBodyEvent
  split
  · exact herr _
  · cases hk : aofApplyEvent p with
    | error msg => exact herr msg
    | ok p1 =>
      have hkeep := aofApplyEvent_keeps hk
      have hev : p1.events = p.events := by rw [hkeep]
      have htk : p1.toks = p.toks := by rw [hkeep]
      have hhl : p1.curHeaderLine = p.curHeaderLine := by rw [hkeep]
      have hbl : p1.curBodyLine = p.curBodyLine := by rw [hkeep]
      dsimp only
      refine ⟨?_, fun hC => ⟨fun _ => ?_, fun _ hs _ => by cases hs⟩⟩
      · show errorCount p.events ≤ errorCount (p1.events ++ [_])
        rw [errorCount_append, hev]
        exact Nat.le_add_right _ _
      · obtain ⟨before, t, hb, hne, _, hc⟩ := hC
        show Consumed toks0 _
        refine ⟨before ++ [t], ?_, ?_⟩
        · show toks0 = (before ++ [t]) ++ p1.toks
          rw [htk, hb]; simp
        · show ((countEOL (before ++ [t]) : Nat) : Int) = p1.curHeaderLine + p1.curBodyLine
          rw [countEOL_append, countEOL_one t hne, hhl, hbl, Nat.add_zero]
          exact hc

theorem lineStep_aofBodyNextLine (toks0 : List token) (p : AOFParser) :
    LineStep toks0 1 (Consumed toks0 p) p (aofBodyNextLine p) := by
  rcases aofBodyNextLine_cases p with ⟨_, h⟩ | ⟨_, _, h⟩ |
    ⟨t, ts, _, hn, ⟨_, _, h⟩ | ⟨heol, h⟩ | ⟨_, _, h⟩ | ⟨_, _, h⟩⟩
  · rw [h]; exact lineStep_completed toks0 1 _ p _ rfl
  · rw [h]; exact lineStep_block toks0 1 _ p _ rfl
  · rw [h]
    refine lineStep_error toks0 1 _ p _ _ rfl (fun hC => ?_)
    obtain ⟨before, hb, hsp, hc⟩ := consumed_read hC hn
    refine errorAt_error toks0 _ before t _ 1 hb hsp ?_
    show (countEOL before : Int) + 1 = p.curHeaderLine + (p.curBodyLine + 1)
    omega
  · rw [h]
    refine ⟨Nat.le_refl _, fun hC => ⟨fun _ => ?_, fun _ hs _ => by cases hs⟩⟩
    show Consumed toks0 _
    refine consumed_next hC hn _ rfl ?_
    have h1 : countEOL [t] = 1 := by simp [countEOL, heol]
    rw [h1]
    show p.curHeaderLine + (p.curBodyLine + 1) = p.curHeaderLine + p.curBodyLine + ((1 : Nat) : Int)
    push_cast
    omega
  · rw [h]; exact lineStep_completed toks0 1 _ p _ rfl
  · rw [h]
    obtain ⟨msg, hmsg⟩ := unexpected_eq_error
      ({ p with curBodyLine := p.curBodyLine + 1, toks := ts } : AOFParser) t.typ
      [tokenEOL, tokenEOF]
    rw [hmsg]
    have hc : errorCount ((({ p with curBodyLine := p.curBodyLine + 1, toks := ts } :
        AOFParser).error msg).emit (newEvent EventCompleted)).events =
        errorCount p.events + 1 := by
      rw [errorCount_emit _ _ (by decide), errorCount_error]
    refine ⟨by rw [hc]; exact Nat.le_succ _, fun hC => ⟨fun _ => True.intro, fun _ _ _ => ?_⟩⟩
    obtain ⟨before, hb, hsp, hcnt⟩ := consumed_read hC hn
    have hE : ErrorAt toks0 1
        (({ p with curBodyLine := p.curBodyLine + 1, toks := ts } : AOFParser).error msg) := by
      refine errorAt_error toks0 _ before t msg 1 hb hsp ?_
      show (countEOL before : Int) + 1 = p.curHeaderLine + (p.curBodyLine + 1)
      omega
    exact hE.sameMessage rfl rfl

/-- The loop of `aofHeader` and the line numbers: the number of error events does not
go down; a loop body that returned `nil` without blocking has emitted one; and started
where the counters count the `tokenEOL` tokens read, the loop either runs to its end
without an error and keeps them so, or its only error is reported with the line number
the tokens give. -/
theorem line_aofHeaderLoop (toks0 : List token) (n : Nat) : ∀ (p : AOFParser) (k : Nat),
    errorCount p.events = k →
    k ≤ errorCount (aofHeaderLoop n p).1.events ∧
      ((aofHeaderLoop n p).2 = false → (aofHeaderLoop n p).1.blocked = false →
        k < errorCount (aofHeaderLoop n p).1.events) ∧
      (Consumed toks0 p →
        (errorCount (aofHeaderLoop n p).1.events = k → (aofHeaderLoop n p).2 = true →
          Consumed toks0 (aofHeaderLoop n p).1) ∧
        (errorCount (aofHeaderLoop n p).1.events = k + 1 → (aofHeaderLoop n p).2 = false →
          (aofHeaderLoop n p).1.blocked = false → ErrorAt toks0 0 (aofHeaderLoop n p).1)) := by
  induction n with
  | zero =>
    intro p k hk
    exact ⟨Nat.le_of_eq hk.symm, (fun h => by cases h), fun hC =>
      ⟨(fun _ _ => hC), fun _ h => by cases h⟩⟩
  | succ n ih =>
    intro p k hk
    unfold aofHeaderLoop
    cases he1 : p.expectOneOf [tokenString, tokenNumber] with
    | none =>
      dsimp only
      refine ⟨Nat.le_of_eq hk.symm, (fun _ hb => ?_), fun _ =>
        ⟨(fun _ h => by cases h), fun _ _ hb => ?_⟩⟩
      · simp [AOFParser.block] at hb
      · simp [AOFParser.block] at hb
    | some x =>
      obtain ⟨key, p1⟩ := x
      have hx1 := ext_expectOneOf he1
      dsimp only
      rcases line_expectOneOf toks0 he1 with
        ⟨hin, hev1, hc1⟩ | ⟨hnin, hcnt1, _, herr1⟩
      · have h1 : ¬ (key.typ ≠ tokenString ∧ key.typ ≠ tokenNumber) := by
          intro hc
          rcases List.mem_cons.1 hin with h | h
          · exact hc.1 h
          · exact hc.2 (List.mem_singleton.1 h)
        have hkne : key.typ ≠ tokenEOL := by
          intro hc
          rw [hc] at hin
          exact absurd hin (by decide)
        have e1 : errorCount p1.events = k := by rw [hev1, hk]
        have hC1 : Consumed toks0 p → Consumed toks0 p1 := fun hC =>
          hc1 hC p1 rfl (by
            rw [hx1.curHeaderLine, hx1.curBodyLine, countEOL_one key hkne]; simp)
        rw [if_neg h1]
        cases he2 : p1.expect tokenNumber with
        | none =>
          dsimp only
          refine ⟨Nat.le_of_eq e1.symm, (fun _ hb => ?_), fun _ =>
            ⟨(fun _ h => by cases h), fun _ _ hb => ?_⟩⟩
          · simp [AOFParser.block] at hb
          · simp [AOFParser.block] at hb
        | some y =>
          obtain ⟨raw, p2⟩ := y
          have hx2 := ext_expect he2
          dsimp only
          rcases line_expect toks0 he2 with
            ⟨hr, hev2, hc2⟩ | ⟨hnr, hcnt2, _, herr2⟩
          · have e2 : errorCount p2.events = k := by rw [hev2, e1]
            have hrne : raw.typ ≠ tokenEOL := by rw [hr]; decide
            rw [if_neg (fun hc => hc hr)]
            cases he5 : ({ p2 with
                  headers := mapSet p2.headers key.val (ParseInt raw.val 32).1,
                  lastValidLine := if (ParseInt raw.val 32).1 > p2.lastValidLine
                    then (ParseInt raw.val 32).1 else p2.lastValidLine } : AOFParser).expect
                tokenEOL with
            | none =>
              dsimp only
              refine ⟨Nat.le_of_eq e2.symm, (fun _ hb => ?_), fun _ =>
                ⟨(fun _ h => by cases h), fun _ _ hb => ?_⟩⟩
              · simp [AOFParser.block] at hb
              · simp [AOFParser.block] at hb
            | some z =>
              obtain ⟨w, p5⟩ := z
              have hx5 := ext_expect he5
              dsimp only
              have hC4 : Consumed toks0 p → Consumed toks0 ({ p2 with
                  headers := mapSet p2.headers key.val (ParseInt raw.val 32).1,
                  lastValidLine := if (ParseInt raw.val 32).1 > p2.lastValidLine
                    then (ParseInt raw.val 32).1 else p2.lastValidLine } : AOFParser) :=
                fun hC => hc2 (hC1 hC) _ rfl (by
                  show p2.curHeaderLine + p2.curBodyLine = _
                  rw [hx2.curHeaderLine, hx2.curBodyLine, countEOL_one raw hrne]; simp)
              rcases line_expect toks0 he5 with
                ⟨hw, hev5, hc5⟩ | ⟨_, hcnt5, _, _⟩
              · have e5 : errorCount
                    ({ p5 with curHeaderLine := p5.curHeaderLine + 1 } : AOFParser).events = k := by
                  show errorCount p5.events = k
                  rw [hev5]
                  exact e2
                obtain ⟨i1, i2, i3⟩ := ih _ k e5
                refine ⟨i1, i2, fun hC => i3 (hc5 (hC4 hC) _ rfl ?_)⟩
                have h1 : countEOL [w] = 1 := by simp [countEOL, hw]
                rw [h1]
                show p5.curHeaderLine + 1 + p5.curBodyLine =
                  p2.curHeaderLine + p2.curBodyLine + ((1 : Nat) : Int)
                rw [hx5.curHeaderLine, hx5.curBodyLine]
                show p2.curHeaderLine + 1 + p2.curBodyLine = _
                push_cast
                omega
              · have e5 : errorCount
                    ({ p5 with curHeaderLine := p5.curHeaderLine + 1 } : AOFParser).events =
                      k + 1 := by
                  show errorCount p5.events = k + 1
                  rw [hcnt5]
                  show errorCount p2.events + 1 = k + 1
                  rw [e2]
                obtain ⟨i1, i2, _⟩ := ih _ (k + 1) e5
                exact ⟨Nat.le_of_succ_le i1, (fun hb hbl => Nat.lt_of_succ_lt (i2 hb hbl)),
                  fun _ => ⟨(fun he _ =>
                      absurd (Nat.lt_of_lt_of_eq (Nat.lt_of_succ_le i1) he) (Nat.lt_irrefl k)),
                    fun he hb hbl =>
                      absurd (Nat.lt_of_lt_of_eq (i2 hb hbl) he) (Nat.lt_irrefl _)⟩⟩
          · have e2 : errorCount p2.events = k + 1 := by rw [hcnt2, e1]
            rw [if_pos hnr]
            exact ⟨(by rw [e2]; exact Nat.le_succ _), (fun _ _ => by rw [e2]; exact Nat.lt_succ_self _),
              fun hC => ⟨(fun he h => by cases h), fun _ _ _ => herr2 (hC1 hC)⟩⟩
      · have h1 : key.typ ≠ tokenString ∧ key.typ ≠ tokenNumber := by
          constructor <;> intro hc <;> exact hnin (by rw [hc]; decide)
        have e1 : errorCount p1.events = k + 1 := by rw [hcnt1, hk]
        rw [if_pos h1]
        exact ⟨(by rw [e1]; exact Nat.le_succ _), (fun _ _ => by rw [e1]; exact Nat.lt_succ_self _),
          fun hC => ⟨(fun he h => by cases h), fun _ _ _ => herr1 hC⟩⟩

theorem lineStep_aofHeader (toks0 : List token) (p : AOFParser) :
    LineStep toks0 0 (Consumed toks0 p) p (aofHeader p) := by
  obtain ⟨i1, i2, i3⟩ := line_aofHeaderLoop toks0 p.headerTotal.toNat p _ rfl
  unfold aofHeader
  cases hl : aofHeaderLoop p.headerTotal.toNat p with
  | mk p1 b =>
    rw [hl] at i1 i2 i3
    cases b with
    | false =>
      dsimp only at i1 i2 i3 ⊢
      exact ⟨i1, fun hC => ⟨(fun _ => True.intro), fun he _ hb => (i3 hC).2 he rfl hb⟩⟩
    | true =>
      dsimp only at i1 i2 i3 ⊢
      have hc : errorCount (p1.emit (newEvent EventHeader)).events = errorCount p1.events :=
        errorCount_emit _ _ (by decide)
      refine ⟨(by rw [hc]; exact i1), fun hC => ⟨(fun he => ?_), fun _ hs => by cases hs⟩⟩
      rw [hc] at he
      obtain ⟨before, hb, hcnt⟩ := (i3 hC).1 he rfl
      exact ⟨before, hb, hcnt⟩

theorem lineStep_aofHeaderTotal (toks0 : List token) (p : AOFParser) :
    LineStep toks0 0 (Consumed toks0 p) p (aofHeaderTotal p) := by
  unfold aofHeaderTotal
  cases he1 : p.expect tokenNumber with
  | none => exact lineStep_block toks0 0 _ p p rfl
  | some x =>
    obtain ⟨tok, p1⟩ := x
    have hx1 := ext_expect he1
    dsimp only
    rcases line_expect toks0 he1 with ⟨ht, hev1, hc1⟩ | ⟨hnt, hcnt1, _, herr1⟩
    · have htne : tok.typ ≠ tokenEOL := by rw [ht]; decide
      rw [if_neg (fun hc => hc ht)]
      split
      · exact lineStep_completed toks0 0 _ p _ hev1
      · cases he2 : ({ p1 with headerTotal := (ParseInt tok.val 64).1 } : AOFParser).expect
            tokenEOL with
        | none => exact lineStep_block toks0 0 _ p _ hev1
        | some y =>
          obtain ⟨w, p3⟩ := y
          have hx3 := ext_expect he2
          dsimp only
          have hC2 : Consumed toks0 p →
              Consumed toks0 ({ p1 with headerTotal := (ParseInt tok.val 64).1 } : AOFParser) :=
            fun hC => hc1 hC _ rfl (by
              show p1.curHeaderLine + p1.curBodyLine = _
              rw [hx1.curHeaderLine, hx1.curBodyLine, countEOL_one tok htne]; simp)
          rcases line_expect toks0 he2 with ⟨hw, hev3, hc3⟩ | ⟨_, hcnt3, _, _⟩
          · have e3 : p3.events = p.events := by rw [hev3]; exact hev1
            refine ⟨Nat.le_of_eq (congrArg errorCount e3.symm), fun hC =>
              ⟨(fun _ => ?_), fun _ hs _ => by cases hs⟩⟩
            show Consumed toks0 _
            refine hc3 (hC2 hC) _ rfl ?_
            have h1 : countEOL [w] = 1 := by simp [countEOL, hw]
            rw [h1]
            show p3.curHeaderLine + 1 + p3.curBodyLine =
              p1.curHeaderLine + p1.curBodyLine + ((1 : Nat) : Int)
            rw [hx3.curHeaderLine, hx3.curBodyLine]
            show p1.curHeaderLine + 1 + p1.curBodyLine = _
            push_cast
            omega
          · have e3 : errorCount p3.events = errorCount p.events + 1 := by
              rw [hcnt3]
              show errorCount p1.events + 1 = _
              rw [hev1]
            refine ⟨?_, fun _ => ⟨(fun he => ?_), fun _ hs _ => by cases hs⟩⟩
            · show errorCount p.events ≤ errorCount p3.events
              rw [e3]; exact Nat.le_succ _
            · have he1 : errorCount p3.events = errorCount p.events := he
              rw [e3] at he1
              exact absurd he1 (Nat.succ_ne_self _)
    · rw [if_pos hnt]
      refine ⟨(by rw [hcnt1]; exact Nat.le_succ _), fun hC =>
        ⟨(fun _ => True.intro), fun _ _ _ => herr1 hC⟩⟩

/-- A call of any state function and the line numbers; the errors `aofBodyNextLine`
reports carry a line number one higher, the body-line counter having been moved
already. -/
theorem lineStep_call (toks0 : List token) (s : parserStateFunc) (p : AOFParser) :
    LineStep toks0 (if s = parserStateFunc.aofBodyNextLine then 1 else 0)
      (LineInv toks0 (p, some s)) p (s.call p) := by
  cases s
  · exact lineStep_aofHeaderTotal toks0 p
  · exact lineStep_aofHeader toks0 p
  · exact lineStep_read toks0 p _ (readStep_aofBodyEvent p)
  · exact lineStep_read toks0 p _ (readStep_aofBodyKey p)
  · exact lineStep_read toks0 p _ (readStep_aofBodyValue p)
  · exact lineStep_read toks0 p _ (readStep_aofBodyModifyOperator p)
  · exact lineStep_aofEmitBodyEvent toks0 p
  · exact lineStep_aofBodyNextLine toks0 p

/-- As long as no error event was emitted, the line counters of the validator count
the `tokenEOL` tokens it has read. -/
theorem line_Parse (rd : List Char) (e : readEnd) : ∀ n : Nat,
    errorCount (Parse rd e n).1.events = 0 → LineInv (lexer.run rd e) (Parse rd e n) := by
  intro n
  induction n with
  | zero =>
    intro _
    exact ⟨[], rfl, rfl⟩
  | succ n ih =>
    intro h
    rw [Parse_succ] at h ⊢
    cases hc : Parse rd e n with
    | mk p s =>
      rw [hc] at h ih
      cases s with
      | none => exact True.intro
      | some s =>
        obtain ⟨h1, h2⟩ := lineStep_call (lexer.run rd e) s p
        have h3 : errorCount (s.call p).1.events = 0 := h
        have h4 : errorCount p.events = 0 := by omega
        exact (h2 (ih h4)).1 (by rw [h3, h4])

/-! ### The characters that precede a token -/

theorem split_append {α : Type} {X rest before post : List α} {t : α}
    (h : X ++ rest = before ++ t :: post) :
    (∃ b, before = X ++ b ∧ rest = b ++ t :: post) ∨ ∃ c, X = before ++ t :: c := by
  rcases List.append_eq_append_iff.1 h with ⟨a, h1, h2⟩ | ⟨c, h1, h2⟩
  · exact Or.inl ⟨a, h1, h2⟩
  · cases c with
    | nil =>
      refine Or.inl ⟨[], ?_, ?_⟩
      · rw [h1, List.append_nil, List.append_nil]
      · rw [List.nil_append] at h2 ⊢
        exact h2.symm
    | cons x c =>
      rw [List.cons_append] at h2
      injection h2 with h3 h4
      exact Or.inr ⟨c, by rw [h1, h3]⟩

theorem short_split {l before c : List token} {t : token} (hl : l.length ≤ 1)
    (h : l = before ++ t :: c) : before = [] ∧ l = [t] := by
  subst h
  cases before with
  | nil =>
    cases c with
    | nil => exact ⟨rfl, rfl⟩
    | cons x c =>
      simp only [List.nil_append, List.length_cons] at hl
      omega
  | cons x bs =>
    simp only [List.cons_append, List.length_cons, List.length_append] at hl
    omega

theorem flushText_short (buf : List Char) : (flushText buf).length ≤ 1 := by
  unfold flushText
  split
  · unfold lexer.emitValue
    split <;> exact Nat.le_refl _
  · exact Nat.zero_le _

theorem flushText_ne (buf : List Char) (h : flushText buf ≠ []) : buf ≠ [] := by
  intro hb
  subst hb
  exact h rfl

theorem lineEnd_short (c : Char) : (lineEnd c).length ≤ 1 := by
  unfold lineEnd
  split
  · exact Nat.le_refl _
  · exact Nat.zero_le _

theorem spaces_split (n : Nat) {before c : List token} {t : token}
    (h : (if n > 0 then [(⟨tokenSpace, ""⟩ : token)] else []) = before ++ t :: c) :
    t.typ = tokenSpace := by
  have hl : (if n > 0 then [(⟨tokenSpace, ""⟩ : token)] else []).length ≤ 1 := by
    split
    · exact Nat.le_refl _
    · exact Nat.zero_le _
  have h2 := (short_split hl h).2
  split at h2
  · injection h2 with h3 _
    rw [← h3]
  · cases h2

theorem error_split (e : readEnd) {b post : List token} {t : token}
    (h : lexer.error e = b ++ t :: post) : b = [] := by
  have hl : (lexer.error e).length ≤ 1 := by cases e <;> exact Nat.le_refl _
  exact (short_split hl h).1

theorem scan_str_text (e : readEnd) (c : Char) (cs buf : List Char)
    (h : (!isSpace c && !isEOL c) = true) :
    scan e (c :: cs) (mode.str buf) = scan e cs (mode.str (buf ++ [c])) := by
  rw [scan, if_pos h]

theorem scan_str_space (e : readEnd) (c : Char) (cs buf : List Char)
    (h : ¬ (!isSpace c && !isEOL c) = true) (hs : isSpace c = true) :
    scan e (c :: cs) (mode.str buf) = flushText buf ++ scan e cs (mode.spc 1) := by
  rw [scan, if_neg h, if_pos hs]
  rfl

theorem scan_str_eol (e : readEnd) (c : Char) (cs buf : List Char)
    (h : ¬ (!isSpace c && !isEOL c) = true) (hs : ¬ isSpace c = true) :
    scan e (c :: cs) (mode.str buf) = flushText buf ++ (lineEnd c ++ scan e cs mode.eol) := by
  rw [scan, if_neg h, if_neg hs]
  rfl

theorem scan_spc_space (e : readEnd) (c : Char) (cs : List Char) (n : Nat)
    (hs : isSpace c = true) :
    scan e (c :: cs) (mode.spc n) = scan e cs (mode.spc (n + 1)) := by
  rw [scan, if_pos hs]

theorem scan_spc_eol (e : readEnd) (c : Char) (cs : List Char) (n : Nat)
    (hs : ¬ isSpace c = true) (he : isEOL c = true) :
    scan e (c :: cs) (mode.spc n) =
      (if n > 0 then [(⟨tokenSpace, ""⟩ : token)] else []) ++
        (lineEnd c ++ scan e cs mode.eol) := by
  rw [scan, if_neg hs, if_pos he]
  rfl

theorem scan_spc_text (e : readEnd) (c : Char) (cs : List Char) (n : Nat)
    (hs : ¬ isSpace c = true) (he : ¬ isEOL c = true) :
    scan e (c :: cs) (mode.spc n) =
      (if n > 0 then [(⟨tokenSpace, ""⟩ : token)] else []) ++ scan e cs (mode.str [c]) := by
  rw [scan, if_neg hs, if_neg he]

theorem scan_eol_eol (e : readEnd) (c : Char) (cs : List Char) (he : isEOL c = true) :
    scan e (c :: cs) mode.eol = lineEnd c ++ scan e cs mode.eol := by
  rw [scan, if_pos he]
  rfl

theorem scan_eol_space (e : readEnd) (c : Char) (cs : List Char) (he : ¬ isEOL c = true)
    (hs : isSpace c = true) : scan e (c :: cs) mode.eol = scan e cs (mode.spc 1) := by
  rw [scan, if_neg he, if_pos hs]

theorem scan_eol_text (e : readEnd) (c : Char) (cs : List Char) (he : ¬ isEOL c = true)
    (hs : ¬ isSpace c = true) : scan e (c :: cs) mode.eol = scan e cs (mode.str [c]) := by
  rw [scan, if_neg he, if_neg hs]

theorem scannedBefore_nil (rd : List Char) (m : mode) (before : List token)
    (h : scan readEnd.EOF [] m = before ++ [⟨tokenEOF, ""⟩]) : ScannedBefore rd m before :=
  ⟨[], rd, rfl, h⟩

theorem scannedBefore_cons (c : Char) (cs : List Char) (m m1 : mode) (X b : List token)
    (hstep : ∀ rd1, scan readEnd.EOF (c :: rd1) m = X ++ scan readEnd.EOF rd1 m1)
    (h : ScannedBefore cs m1 b) : ScannedBefore (c :: cs) m (X ++ b) := by
  obtain ⟨rd1, rd2, h1, h2⟩ := h
  exact ⟨c :: rd1, rd2, by rw [h1]; rfl, by rw [hstep, h2, List.append_assoc]⟩

theorem scannedBefore_same (c : Char) (cs : List Char) (m m1 : mode) (b : List token)
    (hstep : ∀ rd1, scan readEnd.EOF (c :: rd1) m = scan readEnd.EOF rd1 m1)
    (h : ScannedBefore cs m1 b) : ScannedBefore (c :: cs) m b :=
  scannedBefore_cons c cs m m1 [] b hstep h

/-- The tokens the scanner emits before a token that is no `tokenSpace` are what it
emits on a prefix of the input, unless the token is the first one and holds text
buffered before. -/
theorem scan_before (e : readEnd) : ∀ (rd : List Char) (m : mode) (before : List token)
    (t : token) (post : List token), scan e rd m = before ++ t :: post →
    t.typ ≠ tokenSpace → (before = [] ∧ m.buffer ≠ []) ∨ ScannedBefore rd m before := by
  intro rd
  induction rd with
  | nil =>
    intro m before t post h ht
    cases m with
    | str buf =>
      rw [scan] at h
      rcases split_append h with ⟨b, h1, h2⟩ | ⟨c, h1⟩
      · right
        rw [h1, error_split e h2, List.append_nil]
        exact scannedBefore_nil _ _ _ rfl
      · left
        have h3 := short_split (flushText_short buf) h1
        exact ⟨h3.1, flushText_ne buf (by rw [h3.2]; exact List.cons_ne_nil _ _)⟩
    | spc n =>
      rw [scan] at h
      rcases split_append h with ⟨b, h1, h2⟩ | ⟨c, h1⟩
      · right
        rw [h1, error_split e h2, List.append_nil]
        exact scannedBefore_nil _ _ _ rfl
      · exact absurd (spaces_split n h1) ht
    | eol =>
      rw [scan] at h
      right
      rw [error_split e h]
      exact scannedBefore_nil _ _ _ rfl
  | cons c cs ih =>
    intro m before t post h ht
    cases m with
    | str buf =>
      by_cases htx : (!isSpace c && !isEOL c) = true
      · rw [scan_str_text e c cs buf htx] at h
        rcases ih _ _ _ _ h ht with ⟨hb, _⟩ | hsb
        · by_cases hbuf : buf = []
          · right
            rw [hb, hbuf]
            exact scannedBefore_nil _ _ _ rfl
          · exact Or.inl ⟨hb, hbuf⟩
        · exact Or.inr (scannedBefore_same c cs _ _ _
            (fun rd1 => scan_str_text readEnd.EOF c rd1 buf htx) hsb)
      · by_cases hs : isSpace c = true
        · rw [scan_str_space e c cs buf htx hs] at h
          rcases split_append h with ⟨b, h1, h2⟩ | ⟨c1, h1⟩
          · rcases ih _ _ _ _ h2 ht with ⟨_, hne⟩ | hsb
            · exact absurd rfl hne
            · right
              rw [h1]
              exact scannedBefore_cons c cs _ _ _ b
                (fun rd1 => scan_str_space readEnd.EOF c rd1 buf htx hs) hsb
          · left
            have h3 := short_split (flushText_short buf) h1
            exact ⟨h3.1, flushText_ne buf (by rw [h3.2]; exact List.cons_ne_nil _ _)⟩
        · rw [scan_str_eol e c cs buf htx hs] at h
          rcases split_append h with ⟨b, h1, h2⟩ | ⟨c1, h1⟩
          · rcases split_append h2 with ⟨b1, h3, h4⟩ | ⟨c2, h3⟩
            · rcases ih _ _ _ _ h4 ht with ⟨_, hne⟩ | hsb
              · exact absurd rfl hne
              · right
                rw [h1, h3, ← List.append_assoc]
                exact scannedBefore_cons c cs _ _ _ b1
                  (fun rd1 => by
                    rw [scan_str_eol readEnd.EOF c rd1 buf htx hs, List.append_assoc]) hsb
            · right
              rw [h1, (short_split (lineEnd_short c) h3).1, List.append_nil]
              exact scannedBefore_nil _ _ _ rfl
          · left
            have h3 := short_split (flushText_short buf) h1
            exact ⟨h3.1, flushText_ne buf (by rw [h3.2]; exact List.cons_ne_nil _ _)⟩
    | spc n =>
      by_cases hs : isSpace c = true
      · rw [scan_spc_space e c cs n hs] at h
        rcases ih _ _ _ _ h ht with ⟨_, hne⟩ | hsb
        · exact absurd rfl hne
        · exact Or.inr (scannedBefore_same c cs _ _ _
            (fun rd1 => scan_spc_space readEnd.EOF c rd1 n hs) hsb)
      · by_cases he : isEOL c = true
        · rw [scan_spc_eol e c cs n hs he] at h
          rcases split_append h with ⟨b, h1, h2⟩ | ⟨c1, h1⟩
          · rcases split_append h2 with ⟨b1, h3, h4⟩ | ⟨c2, h3⟩
            · rcases ih _ _ _ _ h4 ht with ⟨_, hne⟩ | hsb
              · exact absurd rfl hne
              · right
                rw [h1, h3, ← List.append_assoc]
                exact scannedBefore_cons c cs _ _ _ b1
                  (fun rd1 => by
                    rw [scan_spc_eol readEnd.EOF c rd1 n hs he, List.append_assoc]) hsb
            · right
              rw [h1, (short_split (lineEnd_short c) h3).1, List.append_nil]
              exact scannedBefore_nil _ _ _ rfl
          · exact absurd (spaces_split n h1) ht
        · rw [scan_spc_text e c cs n hs he] at h
          rcases split_append h with ⟨b, h1, h2⟩ | ⟨c1, h1⟩
          · rcases ih _ _ _ _ h2 ht with ⟨hb, _⟩ | hsb
            · right
              rw [h1, hb, List.append_nil]
              exact scannedBefore_nil _ _ _ rfl
            · right
              rw [h1]
              exact scannedBefore_cons c cs _ _ _ b
                (fun rd1 => scan_spc_text readEnd.EOF c rd1 n hs he) hsb
          · exact absurd (spaces_split n h1) ht
    | eol =>
      by_cases he : isEOL c = true
      · rw [scan_eol_eol e c cs he] at h
        rcases split_append h with ⟨b, h1, h2⟩ | ⟨c1, h1⟩
        · rcases ih _ _ _ _ h2 ht with ⟨_, hne⟩ | hsb
          · exact absurd rfl hne
          · right
            rw [h1]
            exact scannedBefore_cons c cs _ _ _ b
              (fun rd1 => scan_eol_eol readEnd.EOF c rd1 he) hsb
        · right
          rw [(short_split (lineEnd_short c) h1).1]
          exact scannedBefore_nil _ _ _ rfl
      · by_cases hs : isSpace c = true
        · rw [scan_eol_space e c cs he hs] at h
          rcases ih _ _ _ _ h ht with ⟨_, hne⟩ | hsb
          · exact absurd rfl hne
          · exact Or.inr (scannedBefore_same c cs _ _ _
              (fun rd1 => scan_eol_space readEnd.EOF c rd1 he hs) hsb)
        · rw [scan_eol_text e c cs he hs] at h
          rcases ih _ _ _ _ h ht with ⟨hb, _⟩ | hsb
          · right
            rw [hb]
            exact scannedBefore_nil _ _ _ rfl
          · exact Or.inr (scannedBefore_same c cs _ _ _
              (fun rd1 => scan_eol_text readEnd.EOF c rd1 he hs) hsb)

/-- The tokens before a token of the scanner's output that is no `tokenSpace` are the
scanner's output on a prefix of the input, and hold one `tokenEOL` for each line feed
of that prefix. -/
theorem run_before (rd : List Char) (e : readEnd) (before post : List token) (t : token)
    (h : lexer.run rd e = before ++ t :: post) (ht : t.typ ≠ tokenSpace) :
    ∃ rd1 rd2, rd = rd1 ++ rd2 ∧ lexer.run rd1 readEnd.EOF = before ++ [⟨tokenEOF, ""⟩] ∧
      countEOL before = rd1.count '\n' := by
  rw [lexer_run_eq_scan] at h
  rcases scan_before e rd _ before t post h ht with ⟨_, hne⟩ | ⟨rd1, rd2, h1, h2⟩
  · exact absurd rfl hne
  · refine ⟨rd1, rd2, h1, by rw [lexer_run_eq_scan]; exact h2, ?_⟩
    have h3 := countEOL_scan readEnd.EOF rd1 (mode.str [])
    rw [h2, countEOL_append] at h3
    exact h3

/-! ## The repository's tests on the embedding -/

/-- The cases of `TestLexerTokens` and `TestLexerWithValues`. -/
theorem lexer_tests :
    (lexer.run "".data readEnd.EOF).map (fun t => t.typ) = [tokenEOF] ∧
      (lexer.run "   \t   ".data readEnd.EOF).map (fun t => t.typ) = [tokenSpace, tokenEOF] ∧
      (lexer.run "\n\r\n\r\n\r".data readEnd.EOF).map (fun t => t.typ) =
        [tokenEOL, tokenEOL, tokenEOL, tokenEOF] ∧
      (lexer.run "0\nkey1\t1234\n".data readEnd.EOF).map (fun t => t.typ) =
        [tokenNumber, tokenEOL, tokenString, tokenSpace, tokenNumber, tokenEOL, tokenEOF] ∧
      (lexer.run "MODIFY key2   +   4\n            ".data readEnd.EOF).map (fun t => t.typ) =
        [tokenString, tokenSpace, tokenString, tokenSpace, tokenString, tokenSpace, tokenNumber,
          tokenEOL, tokenSpace, tokenEOF] ∧
      lexer.run "MODIFY key2 +4\n".data readEnd.EOF =
        [⟨tokenString, "MODIFY"⟩, ⟨tokenSpace, ""⟩, ⟨tokenString, "key2"⟩, ⟨tokenSpace, ""⟩,
          ⟨tokenNumber, "+4"⟩, ⟨tokenEOL, ""⟩, ⟨tokenEOF, ""⟩] := by
  decide

set_option maxRecDepth 100000 in
/-- Cases of `TestParser` that end with an error: the events and the text of `p.err`. -/
theorem parser_error_tests :
    (Parse "".data readEnd.EOF 5).1.err =
        some "ERROR at line 1: Unexpected token: tokenEOF, expected tokenNumber" ∧
      (Parse "\n\t\t\t".data readEnd.EOF 5).1.err =
        some "ERROR at line 1: Unexpected token: tokenEOL, expected tokenNumber" ∧
      (Parse "1\n\n".data readEnd.EOF 5).1.err = some
        "ERROR at line 2: Unexpected token: tokenEOL, expected one of [tokenString tokenNumber]" ∧
      (Parse "1\nkey1 ABC\n".data readEnd.EOF 5).1.err =
        some "ERROR at line 2: Unexpected token: tokenString, expected tokenNumber" ∧
      (Parse "1\nkey1 0\nACTION X Y Z\n".data readEnd.EOF 5).1.err =
        some "ERROR at line 3: Unknown action: ACTION" ∧
      (Parse "1\nkey1 1\nCREATE KeyUnknown 1000\n".data readEnd.EOF 9).1.err =
        some "ERROR at line 3: Key \'KeyUnknown\' was not defined in the header" ∧
      (Parse "1\n1234 1\nCREATE 1234 1000\n\n".data readEnd.EOF 9).1.err =
        some "ERROR at line 4: Unexpected token: tokenEOL, expected tokenString" ∧
      (Parse "1\nkeyX 10\nCREATE keyX 1".data readEnd.EOF 9).1.err =
        some "ERROR at line 4: Unexpected EOF, expected at least 10 line(s)" ∧
      (Parse "1\nkeyX 10\nCREATE keyX 1".data readEnd.EOF 9).1.events =
        [newEvent EventHeader, ⟨EventCreate, "keyX", 1, false⟩, ⟨EventError, "keyX", 1, false⟩] := by
  decide

set_option maxRecDepth 100000 in
/-- Cases of `TestParser` that complete. -/
theorem parser_completed_tests :
    (Parse "0".data readEnd.EOF 5).1.events = [newEvent EventCompleted] ∧
      (Parse "1\n1234 0\nCREATE 1234 1000\n".data readEnd.EOF 9).1.events =
        [newEvent EventHeader, ⟨EventCreate ||| EventFinal, "1234", 1000, false⟩,
          newEvent EventCompleted] ∧
      (Parse fiveKeysLog readEnd.EOF 60).1.events =
        [newEvent EventHeader, ⟨EventCreate, "key1", 1000, false⟩,
          ⟨EventModify ||| EventFinal, "key1", 1001, false⟩,
          ⟨EventCreate ||| EventFinal, "key2", 2000, false⟩,
          ⟨EventCreate ||| EventFinal, "key3", 3000, false⟩,
          ⟨EventCreate, "key4", 4000, false⟩, ⟨EventSet, "key4", 4500, false⟩,
          ⟨EventDelete ||| EventFinal, "key4", 4500, true⟩,
          ⟨EventCreate, "key5", 5000, false⟩, ⟨EventModify, "key5", 5001, false⟩,
          ⟨EventModify, "key5", 5002, false⟩, ⟨EventModify ||| EventFinal, "key5", 5001, false⟩,
          newEvent EventCompleted] ∧
      (Parse fiveKeysLog readEnd.EOF 60).2 = none := by
  decide

/-! ## The claims -/

/-- C1: every mutation event of the stream was emitted by `aofEmitBodyEvent` at a
moment when the body-line counter `curBodyLine` equalled the number of mutation
events (body lines) before it, so 0 for the first body line and one more per line,
and it carries the final flag if and only if the header value of its key equals
that counter. -/
theorem C1_final_flag_iff_counter (rd : List Char) (e : readEnd) (n : Nat)
    (pre post : List Event) (ev : Event)
    (hsplit : (Parse rd e n).1.events = pre ++ ev :: post) (hmut : ev.isMutation = true) :
    ∃ m, m < n ∧ (Parse rd e m).2 = some .aofEmitBodyEvent ∧ (Parse rd e m).1.events = pre ∧
      (Parse rd e (m + 1)).1.events = pre ++ [ev] ∧ ev.Key = (Parse rd e m).1.curKey ∧
      (Parse rd e m).1.curBodyLine = ((mutations pre).length : Int) ∧
      (ev.isFinal = true ↔
        headerOf (Parse rd e m).1.headers ev.Key = (Parse rd e m).1.curBodyLine) :=
  emitted_at rd e n pre post ev hsplit hmut

theorem C1_final_flag_iff_counter_witness :
    (Parse "1\nk 1\nCREATE k 5\nSET k 6\n".data readEnd.EOF 20).1.events =
        [newEvent EventHeader, ⟨EventCreate, "k", 5, false⟩] ++
          ⟨EventSet ||| EventFinal, "k", 6, false⟩ :: [newEvent EventCompleted] ∧
      (Event.mk (EventSet ||| EventFinal) "k" 6 false).isMutation = true ∧
      ∃ m, m < 20 ∧
        (Parse "1\nk 1\nCREATE k 5\nSET k 6\n".data readEnd.EOF m).2 =
          some .aofEmitBodyEvent ∧
        (Parse "1\nk 1\nCREATE k 5\nSET k 6\n".data readEnd.EOF m).1.events =
          [newEvent EventHeader, ⟨EventCreate, "k", 5, false⟩] ∧
        (Parse "1\nk 1\nCREATE k 5\nSET k 6\n".data readEnd.EOF (m + 1)).1.events =
          [newEvent EventHeader, ⟨EventCreate, "k", 5, false⟩] ++
            [⟨EventSet ||| EventFinal, "k", 6, false⟩] ∧
        (Event.mk (EventSet ||| EventFinal) "k" 6 false).Key =
          (Parse "1\nk 1\nCREATE k 5\nSET k 6\n".data readEnd.EOF m).1.curKey ∧
        (Parse "1\nk 1\nCREATE k 5\nSET k 6\n".data readEnd.EOF m).1.curBodyLine =
          ((mutations [newEvent EventHeader, ⟨EventCreate, "k", 5, false⟩]).length : Int) ∧
        ((Event.mk (EventSet ||| EventFinal) "k" 6 false).isFinal = true ↔
          headerOf (Parse "1\nk 1\nCREATE k 5\nSET k 6\n".data readEnd.EOF m).1.headers
              (Event.mk (EventSet ||| EventFinal) "k" 6 false).Key =
            (Parse "1\nk 1\nCREATE k 5\nSET k 6\n".data readEnd.EOF m).1.curBodyLine) :=
  ⟨by decide, by decide,
    C1_final_flag_iff_counter "1\nk 1\nCREATE k 5\nSET k 6\n".data readEnd.EOF 20
      [newEvent EventHeader, ⟨EventCreate, "k", 5, false⟩] [newEvent EventCompleted]
      ⟨EventSet ||| EventFinal, "k", 6, false⟩ (by decide) (by decide)⟩

/-- C3: for every input, two mutation events at different places of the emitted
stream that both carry the final flag have different keys: no key has more than one
final-flagged mutation event. -/
theorem C3_at_most_one_final_per_key (rd : List Char) (e : readEnd) (n : Nat)
    (pre mid post : List Event) (e1 e2 : Event)
    (hsplit : (Parse rd e n).1.events = pre ++ e1 :: (mid ++ e2 :: post))
    (h1m : e1.isMutation = true) (h1f : e1.isFinal = true)
    (h2m : e2.isMutation = true) (h2f : e2.isFinal = true) : e1.Key ≠ e2.Key := by
  have hfin := (inv_Parse rd e n).givesSound.fin
  have f1 := (hfin pre e1 (mid ++ e2 :: post) hsplit h1m).1 h1f
  have f2 := (hfin (pre ++ e1 :: mid) e2 post (by rw [hsplit]; simp) h2m).1 h2f
  intro hk
  rw [hk, f2, mutations_append] at f1
  have hcons : mutations (e1 :: mid) = e1 :: mutations mid := by simp [mutations, h1m]
  rw [hcons] at f1
  simp only [List.length_append, List.length_cons, Nat.cast_add, Nat.cast_one] at f1
  omega

theorem C3_at_most_one_final_per_key_witness :
    (Parse twoKeysLog readEnd.EOF 20).1.events =
        [newEvent EventHeader] ++ ⟨EventCreate ||| EventFinal, "a", 1, false⟩ ::
          ([] ++ ⟨EventCreate ||| EventFinal, "b", 2, false⟩ :: [newEvent EventCompleted]) ∧
      (Event.mk (EventCreate ||| EventFinal) "a" 1 false).isMutation = true ∧
      (Event.mk (EventCreate ||| EventFinal) "a" 1 false).isFinal = true ∧
      (Event.mk (EventCreate ||| EventFinal) "b" 2 false).isMutation = true ∧
      (Event.mk (EventCreate ||| EventFinal) "b" 2 false).isFinal = true ∧
      (Event.mk (EventCreate ||| EventFinal) "a" 1 false).Key ≠
        (Event.mk (EventCreate ||| EventFinal) "b" 2 false).Key :=
  ⟨by decide, by decide, by decide, by decide, by decide,
    C3_at_most_one_final_per_key twoKeysLog readEnd.EOF 20 [newEvent EventHeader] []
      [newEvent EventCompleted] ⟨EventCreate ||| EventFinal, "a", 1, false⟩
      ⟨EventCreate ||| EventFinal, "b", 2, false⟩ (by decide) (by decide) (by decide)
      (by decide) (by decide)⟩

/-- C4, as stated, fails: on `brokenPromiseLog` the final-flagged event of key `a`
(body line 0) is followed by a further mutation event for `a` (body line 1), and the
run completes without an error. -/
theorem C4_counterexample :
    (Parse brokenPromiseLog readEnd.EOF 20).1.events =
        [newEvent EventHeader, ⟨EventCreate ||| EventFinal, "a", 1, false⟩,
          ⟨EventSet, "a", 2, false⟩, newEvent EventCompleted] ∧
      (Event.mk (EventCreate ||| EventFinal) "a" 1 false).isFinal = true ∧
      (Event.mk (EventCreate ||| EventFinal) "a" 1 false).isMutation = true ∧
      (Event.mk EventSet "a" 2 false).isMutation = true ∧
      (Parse brokenPromiseLog readEnd.EOF 20).1.err = none ∧
      (Parse brokenPromiseLog readEnd.EOF 20).2 = none := by
  decide

/-- C4 (amended): for every input, a mutation event for key `k` that comes after the
final-flagged event of `k` is not final-flagged itself, and it belongs to a body line
past the header value of `k`; the validator does not reject it. -/
theorem C4_later_mutation_not_final (rd : List Char) (e : readEnd) (n : Nat)
    (pre mid post : List Event) (e1 e2 : Event)
    (hsplit : (Parse rd e n).1.events = pre ++ e1 :: (mid ++ e2 :: post))
    (h1m : e1.isMutation = true) (h1f : e1.isFinal = true)
    (h2m : e2.isMutation = true) (hk : e2.Key = e1.Key) :
    e2.isFinal = false ∧
      headerOf (Parse rd e n).1.headers e2.Key < ((mutations (pre ++ e1 :: mid)).length : Int) := by
  have hfin := (inv_Parse rd e n).givesSound.fin
  have f1 := (hfin pre e1 (mid ++ e2 :: post) hsplit h1m).1 h1f
  have f2 := hfin (pre ++ e1 :: mid) e2 post (by rw [hsplit]; simp) h2m
  have hcons : mutations (e1 :: mid) = e1 :: mutations mid := by simp [mutations, h1m]
  have hlt : headerOf (Parse rd e n).1.headers e2.Key <
      ((mutations (pre ++ e1 :: mid)).length : Int) := by
    rw [hk, f1, mutations_append, hcons]
    simp only [List.length_append, List.length_cons, Nat.cast_add, Nat.cast_one]
    omega
  refine ⟨?_, hlt⟩
  cases hf : e2.isFinal with
  | false => rfl
  | true =>
    have := f2.1 hf
    omega

theorem C4_later_mutation_not_final_witness :
    (Parse brokenPromiseLog readEnd.EOF 20).1.events =
        [newEvent EventHeader] ++ ⟨EventCreate ||| EventFinal, "a", 1, false⟩ ::
          ([] ++ ⟨EventSet, "a", 2, false⟩ :: [newEvent EventCompleted]) ∧
      (Event.mk (EventCreate ||| EventFinal) "a" 1 false).isMutation = true ∧
      (Event.mk (EventCreate ||| EventFinal) "a" 1 false).isFinal = true ∧
      (Event.mk EventSet "a" 2 false).isMutation = true ∧
      (Event.mk EventSet "a" 2 false).Key = (Event.mk (EventCreate ||| EventFinal) "a" 1 false).Key ∧
      ((Event.mk EventSet "a" 2 false).isFinal = false ∧
        headerOf (Parse brokenPromiseLog readEnd.EOF 20).1.headers (Event.mk EventSet "a" 2 false).Key <
          ((mutations ([newEvent EventHeader] ++
            ⟨EventCreate ||| EventFinal, "a", 1, false⟩ :: [])).length : Int)) :=
  ⟨by decide, by decide, by decide, by decide, by decide,
    C4_later_mutation_not_final brokenPromiseLog readEnd.EOF 20 [newEvent EventHeader] []
      [newEvent EventCompleted] ⟨EventCreate ||| EventFinal, "a", 1, false⟩
      ⟨EventSet, "a", 2, false⟩ (by decide) (by decide) (by decide) (by decide) (by decide)⟩

/-- C2, as stated, fails: `brokenPromiseLog` has a positive header count, its run ends
with `Completed` and emits no `ParseError`, its header declares key `b` (last mutation
line 1), and yet no final-flagged mutation event for `b` is emitted. -/
theorem C2_counterexample :
    0 < (Parse brokenPromiseLog readEnd.EOF 20).1.headerTotal ∧
      (Parse brokenPromiseLog readEnd.EOF 20).2 = none ∧
      (Parse brokenPromiseLog readEnd.EOF 20).1.events.getLast? = some (newEvent EventCompleted) ∧
      (Parse brokenPromiseLog readEnd.EOF 20).1.events.all (fun x => x.Typ != EventError) = true ∧
      (Parse brokenPromiseLog readEnd.EOF 20).1.headers "b" = some 1 ∧
      finalEvents (Parse brokenPromiseLog readEnd.EOF 20).1.events "b" = [] := by
  decide

/-- C2 (amended): for every input, well-formed ones included, and every key `k` the
header declares with last mutation line `line`: if the body line with index `line`
(counted from 0) is a mutation of `k`, then `k` has exactly one final-flagged mutation
event, and it is the event of that body line. -/
theorem C2_one_final_event_when_promise_kept (rd : List Char) (e : readEnd) (n : Nat)
    (k : String) (line : Nat) (ev : Event)
    (hdecl : (Parse rd e n).1.headers k = some (line : Int))
    (hline : (mutations (Parse rd e n).1.events)[line]? = some ev) (hkey : ev.Key = k) :
    finalEvents (Parse rd e n).1.events k = [ev] := by
  have hfin := (inv_Parse rd e n).givesSound.fin
  have hhdr : headerOf (Parse rd e n).1.headers k = (line : Int) := by
    simp [headerOf, hdecl]
  obtain ⟨pre, post, hsplit, hlen, hmut⟩ := mutations_getElem?_split _ line ev hline
  have hevf : ev.isFinal = true := by
    apply (hfin pre ev post hsplit hmut).2
    rw [hkey, hhdr, hlen]
  have hpre : finalEvents pre k = [] := by
    simp only [finalEvents, List.filter_eq_nil_iff]
    intro x hx hp
    simp only [Bool.and_eq_true, beq_iff_eq] at hp
    obtain ⟨⟨hxm, hxf⟩, hxk⟩ := hp
    obtain ⟨a, b, hab⟩ := List.append_of_mem hx
    have f := (hfin a x (b ++ ev :: post) (by rw [hsplit, hab]; simp) hxm).1 hxf
    rw [hxk, hhdr, ← hlen, hab, mutations_append] at f
    have hcons : mutations (x :: b) = x :: mutations b := by simp [mutations, hxm]
    rw [hcons] at f
    simp only [List.length_append, List.length_cons, Nat.cast_add, Nat.cast_one] at f
    omega
  have hpost : finalEvents post k = [] := by
    simp only [finalEvents, List.filter_eq_nil_iff]
    intro x hx hp
    simp only [Bool.and_eq_true, beq_iff_eq] at hp
    obtain ⟨⟨hxm, hxf⟩, hxk⟩ := hp
    obtain ⟨a, b, hab⟩ := List.append_of_mem hx
    have f := (hfin (pre ++ ev :: a) x b (by rw [hsplit, hab]; simp) hxm).1 hxf
    rw [hxk, hhdr, ← hlen, mutations_append] at f
    have hcons : mutations (ev :: a) = ev :: mutations a := by simp [mutations, hmut]
    rw [hcons] at f
    simp only [List.length_append, List.length_cons, Nat.cast_add, Nat.cast_one] at f
    omega
  have hev : finalEvents [ev] k = [ev] := by
    simp [finalEvents, hmut, hevf, hkey]
  have happ : ∀ l1 l2 : List Event, finalEvents (l1 ++ l2) k = finalEvents l1 k ++ finalEvents l2 k :=
    fun l1 l2 => by simp [finalEvents]
  have hcons : pre ++ ev :: post = pre ++ ([ev] ++ post) := by simp
  rw [hsplit, hcons, happ, happ, hpre, hpost, hev]
  rfl

theorem C2_one_final_event_when_promise_kept_witness :
    0 < (Parse twoKeysLog readEnd.EOF 20).1.headerTotal ∧
      (Parse twoKeysLog readEnd.EOF 20).1.events.getLast? = some (newEvent EventCompleted) ∧
      (Parse twoKeysLog readEnd.EOF 20).1.events.all (fun x => x.Typ != EventError) = true ∧
      (Parse twoKeysLog readEnd.EOF 20).1.headers "b" = some ((1 : Nat) : Int) ∧
      (mutations (Parse twoKeysLog readEnd.EOF 20).1.events)[1]? =
        some ⟨EventCreate ||| EventFinal, "b", 2, false⟩ ∧
      (Event.mk (EventCreate ||| EventFinal) "b" 2 false).Key = "b" ∧
      finalEvents (Parse twoKeysLog readEnd.EOF 20).1.events "b" =
        [⟨EventCreate ||| EventFinal, "b", 2, false⟩] :=
  ⟨by decide, by decide, by decide, by decide, by decide, by decide,
    C2_one_final_event_when_promise_kept twoKeysLog readEnd.EOF 20 "b" 1
      ⟨EventCreate ||| EventFinal, "b", 2, false⟩ (by decide) (by decide) (by decide)⟩

/-- C5: when the first non-whitespace token of the input is a number whose value is
not positive, whatever follows it, the run is over after the first state function:
the event stream is exactly `[Completed]`, no error is recorded, and the tokens after
the count are left unread. -/
theorem C5_nonpositive_count_completes (rd : List Char) (e : readEnd) (tok : token)
    (rest : List token) (n : Nat)
    (hfirst : nextNonSpaceLoop (lexer.run rd e) = some (tok, rest))
    (hnum : tok.typ = tokenNumber) (hval : (ParseInt tok.val 64).1 ≤ 0) (hn : 1 ≤ n) :
    (Parse rd e n).1.events = [newEvent EventCompleted] ∧ (Parse rd e n).2 = none ∧
      (Parse rd e n).1.err = none ∧ (Parse rd e n).1.toks = rest ∧
      (Parse rd e n).1.blocked = false := by
  obtain ⟨m, rfl⟩ : ∃ m, n = 1 + m := ⟨n - 1, by omega⟩
  have h1 : Parse rd e 1 = aofHeaderTotal (NewAOFParser (lexer.run rd e)) := rfl
  have h2 : aofHeaderTotal (NewAOFParser (lexer.run rd e)) =
      (({ NewAOFParser rest with headerTotal := (ParseInt tok.val 64).1 } : AOFParser).emit
        (newEvent EventCompleted), none) := by
    simp [aofHeaderTotal, AOFParser.expect, AOFParser.nextNonSpace, NewAOFParser, hfirst, hnum,
      hval]
  rw [Parse_add, h1, h2, parseSteps_halt]
  exact ⟨rfl, rfl, rfl, rfl, rfl⟩

theorem C5_nonpositive_count_completes_witness :
    nextNonSpaceLoop (lexer.run " -3 junk\nmore 1".data readEnd.EOF) =
        some (⟨tokenNumber, "-3"⟩,
          [⟨tokenSpace, ""⟩, ⟨tokenString, "junk"⟩, ⟨tokenEOL, ""⟩, ⟨tokenString, "more"⟩,
            ⟨tokenSpace, ""⟩, ⟨tokenNumber, "1"⟩, ⟨tokenEOF, ""⟩]) ∧
      (token.mk tokenNumber "-3").typ = tokenNumber ∧
      (ParseInt (token.mk tokenNumber "-3").val 64).1 ≤ 0 ∧ 1 ≤ 1 ∧
      ((Parse " -3 junk\nmore 1".data readEnd.EOF 1).1.events = [newEvent EventCompleted] ∧
        (Parse " -3 junk\nmore 1".data readEnd.EOF 1).2 = none ∧
        (Parse " -3 junk\nmore 1".data readEnd.EOF 1).1.err = none ∧
        (Parse " -3 junk\nmore 1".data readEnd.EOF 1).1.toks =
          [⟨tokenSpace, ""⟩, ⟨tokenString, "junk"⟩, ⟨tokenEOL, ""⟩, ⟨tokenString, "more"⟩,
            ⟨tokenSpace, ""⟩, ⟨tokenNumber, "1"⟩, ⟨tokenEOF, ""⟩] ∧
        (Parse " -3 junk\nmore 1".data readEnd.EOF 1).1.blocked = false) :=
  ⟨by decide, by decide, by decide, by decide,
    C5_nonpositive_count_completes " -3 junk\nmore 1".data readEnd.EOF ⟨tokenNumber, "-3"⟩
      [⟨tokenSpace, ""⟩, ⟨tokenString, "junk"⟩, ⟨tokenEOL, ""⟩, ⟨tokenString, "more"⟩,
        ⟨tokenSpace, ""⟩, ⟨tokenNumber, "1"⟩, ⟨tokenEOF, ""⟩] 1 (by decide) (by decide)
      (by decide) (by decide)⟩

/-- C6: when the validator is about to read a body line and the tokens ahead spell
`CREATE k v` (`v` the integer the operand numeral denotes) for a header-declared key
`k`, then (a) if `k` has no entry in the value table or its entry is deleted, the line
emits a Create event with value `v` and `deleted = false`, stores `(v, false)` for `k`
and goes on to the next line; (b) if `k` has an entry that is not deleted, the line
emits no Create event, leaves the value table as it was, and the run ends (state
`nil`) with the error event and the message "Key 'k' has already been created". -/
theorem C6_create (rd : List Char) (e : readEnd) (n : Nat) (p : AOFParser)
    (a kt vt : token) (t1 t2 t3 : List token) (v : Int)
    (hp : Parse rd e n = (p, some .aofBodyEvent))
    (h1 : nextNonSpaceLoop p.toks = some (a, t1)) (ha : a.typ = tokenString)
    (hu : ToUpper a.val = "CREATE") (h2 : nextNonSpaceLoop t1 = some (kt, t2))
    (hk : kt.typ = tokenString ∨ kt.typ = tokenNumber)
    (h3 : nextNonSpaceLoop t2 = some (vt, t3)) (hv : vt.typ = tokenNumber)
    (hval : integerValue vt.val = some v)
    (hdecl : p.headers kt.val ≠ none) :
    ((p.values kt.val = none ∨ ∃ w, p.values kt.val = some w ∧ w.deleted = true) →
      (Parse rd e (n + 4)).2 = some .aofBodyNextLine ∧
      (Parse rd e (n + 4)).1.events = p.events ++
        [⟨if headerOf p.headers kt.val = p.curBodyLine then EventCreate ||| EventFinal
          else EventCreate, kt.val, v, false⟩] ∧
      (Parse rd e (n + 4)).1.values = mapSet p.values kt.val ⟨v, false⟩ ∧
      (Parse rd e (n + 4)).1.err = p.err) ∧
    (∀ w, p.values kt.val = some w → w.deleted = false →
      (Parse rd e (n + 4)).2 = none ∧
      (Parse rd e (n + 4)).1.events = p.events ++ [⟨EventError, kt.val, v, false⟩] ∧
      (Parse rd e (n + 4)).1.values = p.values ∧
      (Parse rd e (n + 4)).1.err =
        some (p.errorText ("Key \'" ++ kt.val ++ "\' has already been created"))) := by
  have hv2 : (ParseInt vt.val 64).1 = v := by
    have hmem : vt ∈ (Parse rd e n).1.toks := by
      rw [hp]
      exact (nextNonSpaceLoop_mem _ _ _ h1).2 _
        ((nextNonSpaceLoop_mem _ _ _ h2).2 _ (nextNonSpaceLoop_mem _ _ _ h3).1)
    have hok := ParseInt_ok _ (numberOK_Parse rd e n vt hmem hv)
    rw [hval] at hok
    exact (Option.some.inj hok).symm
  subst hv2
  have h4 : Parse rd e (n + 4) = aofEmitBodyEvent
      { p with toks := t3, curEvent := EventCreate, curKey := kt.val,
               curValue := (ParseInt vt.val 64).1 } := by
    rw [show n + 4 = n + 3 + 1 from rfl, Parse_succ, Parse_add, hp,
      line_create p a kt vt t1 t2 t3 h1 ha hu h2 hk h3 hv]
    rfl
  obtain ⟨x, hx⟩ := Option.ne_none_iff_exists'.1 hdecl
  rw [h4]
  constructor
  · rintro (hnone | ⟨w, hw, hdel⟩)
    · simp [aofEmitBodyEvent, aofApplyEvent, hx, hnone, AOFParser.emit, valueOf, mapSet, headerOf]
    · simp [aofEmitBodyEvent, aofApplyEvent, hx, hw, hdel, AOFParser.emit, valueOf, mapSet,
        headerOf]
  · intro w hw hdel
    simp [aofEmitBodyEvent, aofApplyEvent, hx, hw, hdel, AOFParser.emit, AOFParser.error,
      AOFParser.errorText, valueOf]

theorem C6_create_witness :
    Parse createTwiceLog readEnd.EOF 7 =
        ((Parse createTwiceLog readEnd.EOF 7).1, some .aofBodyEvent) ∧
      nextNonSpaceLoop (Parse createTwiceLog readEnd.EOF 7).1.toks =
        some (⟨tokenString, "CREATE"⟩, [⟨tokenSpace, ""⟩, ⟨tokenString, "k"⟩, ⟨tokenSpace, ""⟩,
          ⟨tokenNumber, "2"⟩, ⟨tokenEOL, ""⟩, ⟨tokenEOF, ""⟩]) ∧
      nextNonSpaceLoop [⟨tokenSpace, ""⟩, ⟨tokenString, "k"⟩, ⟨tokenSpace, ""⟩,
          ⟨tokenNumber, "2"⟩, ⟨tokenEOL, ""⟩, ⟨tokenEOF, ""⟩] =
        some (⟨tokenString, "k"⟩, [⟨tokenSpace, ""⟩, ⟨tokenNumber, "2"⟩, ⟨tokenEOL, ""⟩,
          ⟨tokenEOF, ""⟩]) ∧
      nextNonSpaceLoop [⟨tokenSpace, ""⟩, ⟨tokenNumber, "2"⟩, ⟨tokenEOL, ""⟩, ⟨tokenEOF, ""⟩] =
        some (⟨tokenNumber, "2"⟩, [⟨tokenEOL, ""⟩, ⟨tokenEOF, ""⟩]) ∧
      integerValue "2" = some 2 ∧
      (Parse createTwiceLog readEnd.EOF 7).1.headers "k" ≠ none ∧
      (Parse createTwiceLog readEnd.EOF 7).1.values "k" = some ⟨1, false⟩ ∧
      ((Parse createTwiceLog readEnd.EOF (7 + 4)).2 = none ∧
        (Parse createTwiceLog readEnd.EOF (7 + 4)).1.events =
          (Parse createTwiceLog readEnd.EOF 7).1.events ++
            [⟨EventError, "k", 2, false⟩] ∧
        (Parse createTwiceLog readEnd.EOF (7 + 4)).1.values =
          (Parse createTwiceLog readEnd.EOF 7).1.values ∧
        (Parse createTwiceLog readEnd.EOF (7 + 4)).1.err =
          some ((Parse createTwiceLog readEnd.EOF 7).1.errorText
            ("Key \'" ++ "k" ++ "\' has already been created"))) :=
  ⟨Prod.ext rfl (by decide), by decide, by decide, by decide, by decide, by decide, by decide,
    (C6_create createTwiceLog readEnd.EOF 7 (Parse createTwiceLog readEnd.EOF 7).1
      ⟨tokenString, "CREATE"⟩ ⟨tokenString, "k"⟩ ⟨tokenNumber, "2"⟩
      [⟨tokenSpace, ""⟩, ⟨tokenString, "k"⟩, ⟨tokenSpace, ""⟩, ⟨tokenNumber, "2"⟩,
        ⟨tokenEOL, ""⟩, ⟨tokenEOF, ""⟩]
      [⟨tokenSpace, ""⟩, ⟨tokenNumber, "2"⟩, ⟨tokenEOL, ""⟩, ⟨tokenEOF, ""⟩]
      [⟨tokenEOL, ""⟩, ⟨tokenEOF, ""⟩] 2
      (Prod.ext rfl (by decide)) (by decide) (by decide) (by decide) (by decide)
      (by decide) (by decide) (by decide) (by decide) (by decide)).2 ⟨1, false⟩ (by decide)
      (by decide)⟩

/-- The two branches of C6 on the logs of the test suite: a second `CREATE` of a live
key ends the run with the error at line 4; a `CREATE` after a `DELETE` succeeds and
clears the deleted flag. -/
theorem create_examples :
    (Parse createTwiceLog readEnd.EOF 11).1.events =
        [newEvent EventHeader, ⟨EventCreate, "k", 1, false⟩, ⟨EventError, "k", 2, false⟩] ∧
      (Parse createTwiceLog readEnd.EOF 11).1.err =
        some "ERROR at line 4: Key \'k\' has already been created" ∧
      (Parse createTwiceLog readEnd.EOF 11).2 = none ∧
      (Parse recreateLog readEnd.EOF 20).1.events =
        [newEvent EventHeader, ⟨EventCreate, "keyX", 1, false⟩,
          ⟨EventDelete, "keyX", 1, true⟩, ⟨EventCreate ||| EventFinal, "keyX", 1000, false⟩,
          newEvent EventCompleted] ∧
      (Parse recreateLog readEnd.EOF 20).1.values "keyX" = some ⟨1000, false⟩ := by
  decide

/-- C7: when the validator is about to read a body line and the tokens ahead spell
`DELETE k`, `SET k v` or `MODIFY k +d` / `MODIFY k -d` for a header-declared key `k`
that has no entry in the value table (never created), the line emits no mutation
event: the stream gains one error event, the value table is unchanged (still no entry
for `k`), and the run ends (state `nil`) with the message "Key 'k' was not created"
prefixed by the line number of that body line (`curHeaderLine + curBodyLine + 1`,
where `curBodyLine` is the number of body lines before this one). -/
theorem C7_not_created (rd : List Char) (e : readEnd) (n : Nat) (p : AOFParser)
    (a kt vt : token) (t1 t2 t3 : List token)
    (hp : Parse rd e n = (p, some .aofBodyEvent))
    (h1 : nextNonSpaceLoop p.toks = some (a, t1)) (ha : a.typ = tokenString)
    (h2 : nextNonSpaceLoop t1 = some (kt, t2))
    (hk : kt.typ = tokenString ∨ kt.typ = tokenNumber)
    (hdecl : p.headers kt.val ≠ none) (hnew : p.values kt.val = none)
    (hline : ToUpper a.val = "DELETE" ∨
      (nextNonSpaceLoop t2 = some (vt, t3) ∧ vt.typ = tokenNumber ∧
        (ToUpper a.val = "SET" ∨ (ToUpper a.val = "MODIFY" ∧
          (HasPrefix vt.val '+' = true ∨ HasPrefix vt.val '-' = true))))) :
    (Parse rd e (n + 4)).2 = none ∧
      (∃ x, (Parse rd e (n + 4)).1.events = p.events ++ [⟨EventError, kt.val, x, false⟩]) ∧
      (Parse rd e (n + 4)).1.values = p.values ∧
      (Parse rd e (n + 4)).1.values kt.val = none ∧
      (Parse rd e (n + 4)).1.err =
        some (p.errorText ("Key \'" ++ kt.val ++ "\' was not created")) ∧
      p.curBodyLine = ((mutations p.events).length : Int) := by
  obtain ⟨x, hx⟩ := Option.ne_none_iff_exists'.1 hdecl
  have hcount : p.curBodyLine = ((mutations p.events).length : Int) := by
    have hi := inv_Parse rd e n
    rw [hp] at hi
    exact (show Sound p ∧ ((mutations p.events).length : Int) = p.curBodyLine from hi).2.symm
  have main : (Parse rd e (n + 4)).2 = none ∧
      (∃ x, (Parse rd e (n + 4)).1.events = p.events ++ [⟨EventError, kt.val, x, false⟩]) ∧
      (Parse rd e (n + 4)).1.values = p.values ∧
      (Parse rd e (n + 4)).1.values kt.val = none ∧
      (Parse rd e (n + 4)).1.err =
        some (p.errorText ("Key \'" ++ kt.val ++ "\' was not created")) := by
    rcases hline with hu | ⟨h3, hv, hu | ⟨hu, hs⟩⟩
    · have h4 : Parse rd e (n + 4) = parseStep (aofEmitBodyEvent
          { p with toks := t2, curEvent := EventDelete, curKey := kt.val }) := by
        rw [Parse_add, hp, parseSteps_four, line_delete p a kt t1 t2 h1 ha hu h2 hk]
        rfl
      rw [h4]
      simp [aofEmitBodyEvent, aofApplyEvent, hx, hnew, AOFParser.emit, AOFParser.error,
        AOFParser.errorText, valueOf, parseStep, EventDelete, EventCreate, EventSet, EventModify]
    · have h4 : Parse rd e (n + 4) = aofEmitBodyEvent
          { p with toks := t3, curEvent := EventSet, curKey := kt.val,
                   curValue := (ParseInt vt.val 64).1 } := by
        rw [show n + 4 = n + 3 + 1 from rfl, Parse_succ, Parse_add, hp,
          line_set p a kt vt t1 t2 t3 h1 ha hu h2 hk h3 hv]
        rfl
      rw [h4]
      simp [aofEmitBodyEvent, aofApplyEvent, hx, hnew, AOFParser.emit, AOFParser.error,
        AOFParser.errorText, valueOf, EventDelete, EventCreate, EventSet, EventModify]
    · have h4 : Parse rd e (n + 4) = aofEmitBodyEvent
          { p with toks := t3, curEvent := EventModify, curKey := kt.val,
                   curDelta := (ParseInt vt.val 64).1 } := by
        rw [show n + 4 = n + 3 + 1 from rfl, Parse_succ, Parse_add, hp,
          line_modify p a kt vt t1 t2 t3 h1 ha hu h2 hk h3 hv hs]
        rfl
      rw [h4]
      simp [aofEmitBodyEvent, aofApplyEvent, hx, hnew, AOFParser.emit, AOFParser.error,
        AOFParser.errorText, valueOf, EventDelete, EventCreate, EventSet, EventModify]
  exact ⟨main.1, main.2.1, main.2.2.1, main.2.2.2.1, main.2.2.2.2, hcount⟩

theorem C7_not_created_witness :
    Parse modifyFirstLog readEnd.EOF 2 =
        ((Parse modifyFirstLog readEnd.EOF 2).1, some .aofBodyEvent) ∧
      nextNonSpaceLoop (Parse modifyFirstLog readEnd.EOF 2).1.toks =
        some (⟨tokenString, "MODIFY"⟩, [⟨tokenSpace, ""⟩, ⟨tokenString, "keyX"⟩,
          ⟨tokenSpace, ""⟩, ⟨tokenNumber, "+2"⟩, ⟨tokenEOL, ""⟩, ⟨tokenEOF, ""⟩]) ∧
      nextNonSpaceLoop [⟨tokenSpace, ""⟩, ⟨tokenString, "keyX"⟩, ⟨tokenSpace, ""⟩,
          ⟨tokenNumber, "+2"⟩, ⟨tokenEOL, ""⟩, ⟨tokenEOF, ""⟩] =
        some (⟨tokenString, "keyX"⟩, [⟨tokenSpace, ""⟩, ⟨tokenNumber, "+2"⟩, ⟨tokenEOL, ""⟩,
          ⟨tokenEOF, ""⟩]) ∧
      (Parse modifyFirstLog readEnd.EOF 2).1.headers "keyX" ≠ none ∧
      (Parse modifyFirstLog readEnd.EOF 2).1.values "keyX" = none ∧
      (ToUpper "MODIFY" = "DELETE" ∨
        (nextNonSpaceLoop [⟨tokenSpace, ""⟩, ⟨tokenNumber, "+2"⟩, ⟨tokenEOL, ""⟩,
            ⟨tokenEOF, ""⟩] = some (⟨tokenNumber, "+2"⟩, [⟨tokenEOL, ""⟩, ⟨tokenEOF, ""⟩]) ∧
          (token.mk tokenNumber "+2").typ = tokenNumber ∧
          (ToUpper "MODIFY" = "SET" ∨ (ToUpper "MODIFY" = "MODIFY" ∧
            (HasPrefix "+2" '+' = true ∨ HasPrefix "+2" '-' = true))))) ∧
      ((Parse modifyFirstLog readEnd.EOF (2 + 4)).2 = none ∧
        (∃ x, (Parse modifyFirstLog readEnd.EOF (2 + 4)).1.events =
          (Parse modifyFirstLog readEnd.EOF 2).1.events ++ [⟨EventError, "keyX", x, false⟩]) ∧
        (Parse modifyFirstLog readEnd.EOF (2 + 4)).1.values =
          (Parse modifyFirstLog readEnd.EOF 2).1.values ∧
        (Parse modifyFirstLog readEnd.EOF (2 + 4)).1.values "keyX" = none ∧
        (Parse modifyFirstLog readEnd.EOF (2 + 4)).1.err =
          some ((Parse modifyFirstLog readEnd.EOF 2).1.errorText
            ("Key \'" ++ "keyX" ++ "\' was not created")) ∧
        (Parse modifyFirstLog readEnd.EOF 2).1.curBodyLine =
          ((mutations (Parse modifyFirstLog readEnd.EOF 2).1.events).length : Int)) :=
  ⟨Prod.ext rfl (by decide), by decide, by decide, by decide, by decide, by decide,
    C7_not_created modifyFirstLog readEnd.EOF 2 (Parse modifyFirstLog readEnd.EOF 2).1
      ⟨tokenString, "MODIFY"⟩ ⟨tokenString, "keyX"⟩ ⟨tokenNumber, "+2"⟩
      [⟨tokenSpace, ""⟩, ⟨tokenString, "keyX"⟩, ⟨tokenSpace, ""⟩, ⟨tokenNumber, "+2"⟩,
        ⟨tokenEOL, ""⟩, ⟨tokenEOF, ""⟩]
      [⟨tokenSpace, ""⟩, ⟨tokenNumber, "+2"⟩, ⟨tokenEOL, ""⟩, ⟨tokenEOF, ""⟩]
      [⟨tokenEOL, ""⟩, ⟨tokenEOF, ""⟩]
      (Prod.ext rfl (by decide)) (by decide) (by decide) (by decide) (by decide)
      (by decide) (by decide) (by decide)⟩

/-- The three tests of the suite for C7: `MODIFY`, `DELETE` and `SET` of a key that
was never created end the run at line 3 with "Key 'keyX' was not created". -/
theorem not_created_examples :
    (Parse modifyFirstLog readEnd.EOF 6).1.events =
        [newEvent EventHeader, ⟨EventError, "keyX", 0, false⟩] ∧
      (Parse modifyFirstLog readEnd.EOF 6).1.err =
        some "ERROR at line 3: Key \'keyX\' was not created" ∧
      (Parse "1\nkeyX 0\nDELETE keyX\n".data readEnd.EOF 6).1.events =
        [newEvent EventHeader, ⟨EventError, "keyX", 0, false⟩] ∧
      (Parse "1\nkeyX 0\nDELETE keyX\n".data readEnd.EOF 6).1.err =
        some "ERROR at line 3: Key \'keyX\' was not created" ∧
      (Parse "1\nkeyX 0\nSET keyX 2\n".data readEnd.EOF 6).1.events =
        [newEvent EventHeader, ⟨EventError, "keyX", 2, false⟩] ∧
      (Parse "1\nkeyX 0\nSET keyX 2\n".data readEnd.EOF 6).1.err =
        some "ERROR at line 3: Key \'keyX\' was not created" := by
  decide

/-- C8 (the code at the failing inputs): after `CREATE keyX 1`, `DELETE keyX`, the
line `MODIFY keyX +1` is accepted, it emits a final-flagged Modify event with value 2
and `deleted = true`, and the run completes without an error; likewise `SET keyX +1`
is accepted and emits a final-flagged Set event that clears the deleted flag.  The
test suite expects `[Header, Create, Delete, Error]` and the message
"ERROR at line 5: Key 'keyX' was not created" for both. -/
theorem C8_deleted_key_is_still_mutated :
    (Parse modifyDeletedLog readEnd.EOF 20).1.events =
        [newEvent EventHeader, ⟨EventCreate, "keyX", 1, false⟩,
          ⟨EventDelete, "keyX", 1, true⟩, ⟨EventModify ||| EventFinal, "keyX", 2, true⟩,
          newEvent EventCompleted] ∧
      (Parse modifyDeletedLog readEnd.EOF 20).1.err = none ∧
      (Parse modifyDeletedLog readEnd.EOF 20).2 = none ∧
      (Parse setDeletedLog readEnd.EOF 20).1.events =
        [newEvent EventHeader, ⟨EventCreate, "keyX", 1, false⟩,
          ⟨EventDelete, "keyX", 1, true⟩, ⟨EventSet ||| EventFinal, "keyX", 1, false⟩,
          newEvent EventCompleted] ∧
      (Parse setDeletedLog readEnd.EOF 20).1.err = none ∧
      (Parse setDeletedLog readEnd.EOF 20).2 = none := by
  decide

/-- C9: when the validator is about to read a body line and the tokens ahead spell
`DELETE k` for a key `k` with an entry `w` in the value table, then (a) if `w` is
deleted, the line emits no Delete event: the stream gains the error event, which
carries key `k` and `Deleted = true`, the value table is unchanged, and the run ends
(state `nil`) with the message "Key 'k' has been deleted"; (b) if `w` is not deleted,
the line emits a Delete event with the stored value and `deleted = true`, stores
`(w.val, true)` for `k`, and goes on to the next line. -/
theorem C9_delete (rd : List Char) (e : readEnd) (n : Nat) (p : AOFParser)
    (a kt : token) (t1 t2 : List token) (w : value)
    (hp : Parse rd e n = (p, some .aofBodyEvent))
    (h1 : nextNonSpaceLoop p.toks = some (a, t1)) (ha : a.typ = tokenString)
    (hu : ToUpper a.val = "DELETE") (h2 : nextNonSpaceLoop t1 = some (kt, t2))
    (hk : kt.typ = tokenString ∨ kt.typ = tokenNumber)
    (hw : p.values kt.val = some w) :
    (w.deleted = true →
      (Parse rd e (n + 3)).2 = none ∧
      (Parse rd e (n + 3)).1.events = p.events ++ [⟨EventError, kt.val, p.curValue, true⟩] ∧
      (Parse rd e (n + 3)).1.values = p.values ∧
      (Parse rd e (n + 3)).1.err =
        some (p.errorText ("Key \'" ++ kt.val ++ "\' has been deleted"))) ∧
    (w.deleted = false →
      (Parse rd e (n + 3)).2 = some .aofBodyNextLine ∧
      (Parse rd e (n + 3)).1.events = p.events ++
        [⟨if headerOf p.headers kt.val = p.curBodyLine then EventDelete ||| EventFinal
          else EventDelete, kt.val, w.val, true⟩] ∧
      (Parse rd e (n + 3)).1.values = mapSet p.values kt.val ⟨w.val, true⟩ ∧
      (Parse rd e (n + 3)).1.err = p.err) := by
  have hdecl : p.headers kt.val ≠ none := by
    have hs := (inv_Parse rd e n).givesSound
    rw [hp] at hs
    exact hs.declared kt.val (by rw [hw]; simp)
  obtain ⟨x, hx⟩ := Option.ne_none_iff_exists'.1 hdecl
  have h4 : Parse rd e (n + 3) = aofEmitBodyEvent
      { p with toks := t2, curEvent := EventDelete, curKey := kt.val } := by
    rw [Parse_add, hp, parseSteps_three, line_delete p a kt t1 t2 h1 ha hu h2 hk]
    rfl
  rw [h4]
  constructor
  · intro hdel
    simp [aofEmitBodyEvent, aofApplyEvent, hx, hw, hdel, AOFParser.emit, AOFParser.error,
      AOFParser.errorText, valueOf, EventDelete, EventCreate, EventSet, EventModify]
  · intro hdel
    simp [aofEmitBodyEvent, aofApplyEvent, hx, hw, hdel, AOFParser.emit, valueOf, mapSet,
      headerOf, EventDelete, EventCreate, EventSet, EventModify]

theorem C9_delete_witness :
    Parse deleteTwiceLog readEnd.EOF 11 =
        ((Parse deleteTwiceLog readEnd.EOF 11).1, some .aofBodyEvent) ∧
      nextNonSpaceLoop (Parse deleteTwiceLog readEnd.EOF 11).1.toks =
        some (⟨tokenString, "DELETE"⟩, [⟨tokenSpace, ""⟩, ⟨tokenString, "keyX"⟩,
          ⟨tokenEOL, ""⟩, ⟨tokenEOF, ""⟩]) ∧
      nextNonSpaceLoop [⟨tokenSpace, ""⟩, ⟨tokenString, "keyX"⟩, ⟨tokenEOL, ""⟩,
          ⟨tokenEOF, ""⟩] =
        some (⟨tokenString, "keyX"⟩, [⟨tokenEOL, ""⟩, ⟨tokenEOF, ""⟩]) ∧
      (Parse deleteTwiceLog readEnd.EOF 11).1.values "keyX" = some ⟨1, true⟩ ∧
      ((Parse deleteTwiceLog readEnd.EOF (11 + 3)).2 = none ∧
        (Parse deleteTwiceLog readEnd.EOF (11 + 3)).1.events =
          (Parse deleteTwiceLog readEnd.EOF 11).1.events ++
            [⟨EventError, "keyX", (Parse deleteTwiceLog readEnd.EOF 11).1.curValue, true⟩] ∧
        (Parse deleteTwiceLog readEnd.EOF (11 + 3)).1.values =
          (Parse deleteTwiceLog readEnd.EOF 11).1.values ∧
        (Parse deleteTwiceLog readEnd.EOF (11 + 3)).1.err =
          some ((Parse deleteTwiceLog readEnd.EOF 11).1.errorText
            ("Key \'" ++ "keyX" ++ "\' has been deleted"))) :=
  ⟨Prod.ext rfl (by decide), by decide, by decide, by decide,
    (C9_delete deleteTwiceLog readEnd.EOF 11 (Parse deleteTwiceLog readEnd.EOF 11).1
      ⟨tokenString, "DELETE"⟩ ⟨tokenString, "keyX"⟩
      [⟨tokenSpace, ""⟩, ⟨tokenString, "keyX"⟩, ⟨tokenEOL, ""⟩, ⟨tokenEOF, ""⟩]
      [⟨tokenEOL, ""⟩, ⟨tokenEOF, ""⟩] ⟨1, true⟩
      (Prod.ext rfl (by decide)) (by decide) (by decide) (by decide) (by decide)
      (by decide) (by decide)).1 (by decide)⟩

/-- The test of the suite for C9, and the successful first `DELETE` in it. -/
theorem delete_examples :
    (Parse deleteTwiceLog readEnd.EOF 14).1.events =
        [newEvent EventHeader, ⟨EventCreate, "keyX", 1, false⟩,
          ⟨EventDelete, "keyX", 1, true⟩, ⟨EventError, "keyX", 1, true⟩] ∧
      (Parse deleteTwiceLog readEnd.EOF 14).1.err =
        some "ERROR at line 5: Key \'keyX\' has been deleted" ∧
      (Parse deleteTwiceLog readEnd.EOF 14).2 = none ∧
      (Parse deleteTwiceLog readEnd.EOF 14).1.values "keyX" = some ⟨1, true⟩ := by
  decide

/-- C10: when the validator is about to read a body line and the tokens ahead spell
`MODIFY k t` with `t` a number token, then (a) if the text of `t` begins with neither
`+` nor `-`, whatever the state of `k`, no Modify event is emitted: the stream gains
the error event, the value table is unchanged, and the run ends (state `nil`) with the
message "Unknown MODIFY operator: t"; (b) if the text begins with `+` or `-`, the
validator goes on to `aofEmitBodyEvent` with `curDelta` the value `strconv.ParseInt`
gives for `t`, which is the integer the signed decimal numeral `t` denotes, and for a
declared key that is present and not deleted the Modify event and the stored value
are the old value plus that delta (in 64-bit arithmetic). -/
theorem C10_modify_operand (rd : List Char) (e : readEnd) (n : Nat) (p : AOFParser)
    (a kt vt : token) (t1 t2 t3 : List token)
    (hp : Parse rd e n = (p, some .aofBodyEvent))
    (h1 : nextNonSpaceLoop p.toks = some (a, t1)) (ha : a.typ = tokenString)
    (hu : ToUpper a.val = "MODIFY") (h2 : nextNonSpaceLoop t1 = some (kt, t2))
    (hk : kt.typ = tokenString ∨ kt.typ = tokenNumber)
    (h3 : nextNonSpaceLoop t2 = some (vt, t3)) (hv : vt.typ = tokenNumber) :
    (HasPrefix vt.val '+' = false → HasPrefix vt.val '-' = false →
      (Parse rd e (n + 3)).2 = none ∧
      (Parse rd e (n + 3)).1.events = p.events ++
        [⟨EventError, kt.val, p.curValue, (valueOf p.values kt.val).deleted⟩] ∧
      (Parse rd e (n + 3)).1.values = p.values ∧
      (Parse rd e (n + 3)).1.err =
        some (p.errorText ("Unknown MODIFY operator: " ++ vt.val))) ∧
    (HasPrefix vt.val '+' = true ∨ HasPrefix vt.val '-' = true →
      (Parse rd e (n + 3)).2 = some .aofEmitBodyEvent ∧
      (Parse rd e (n + 3)).1.curDelta = (ParseInt vt.val 64).1 ∧
      integerValue vt.val = some (Parse rd e (n + 3)).1.curDelta ∧
      (Parse rd e (n + 3)).1.events = p.events ∧
      ∀ w, p.headers kt.val ≠ none → p.values kt.val = some w → w.deleted = false →
        (Parse rd e (n + 4)).2 = some .aofBodyNextLine ∧
        (Parse rd e (n + 4)).1.events = p.events ++
          [⟨if headerOf p.headers kt.val = p.curBodyLine then EventModify ||| EventFinal
            else EventModify, kt.val, wrapInt (w.val + (ParseInt vt.val 64).1), false⟩] ∧
        (Parse rd e (n + 4)).1.values =
          mapSet p.values kt.val ⟨wrapInt (w.val + (ParseInt vt.val 64).1), false⟩) := by
  constructor
  · intro hplus hminus
    have h4 : Parse rd e (n + 3) =
        (({ p with toks := t3, curEvent := EventModify, curKey := kt.val } : AOFParser).error
          ("Unknown MODIFY operator: " ++ vt.val), none) := by
      rw [Parse_add, hp, parseSteps_three, line_modify_key p a kt t1 t2 h1 ha hu h2 hk,
        parseStep_some]
      simp only [parserStateFunc.call]
      rw [aofBodyModifyOperator_unsigned _ vt t3 h3 hv hplus hminus]
    rw [h4]
    simp [AOFParser.error, AOFParser.emit, AOFParser.errorText]
  · intro hs
    have h4 : Parse rd e (n + 3) =
        ({ p with toks := t3, curEvent := EventModify, curKey := kt.val,
                  curDelta := (ParseInt vt.val 64).1 }, some .aofEmitBodyEvent) := by
      rw [Parse_add, hp, line_modify p a kt vt t1 t2 t3 h1 ha hu h2 hk h3 hv hs]
    have hok : (ParseInt vt.val 64).2 = NumError.ok := by
      have hmem : vt ∈ (Parse rd e n).1.toks := by
        rw [hp]
        exact (nextNonSpaceLoop_mem _ _ _ h1).2 _
          ((nextNonSpaceLoop_mem _ _ _ h2).2 _ (nextNonSpaceLoop_mem _ _ _ h3).1)
      exact numberOK_Parse rd e n vt hmem hv
    refine ⟨by rw [h4], by rw [h4], by rw [h4]; exact ParseInt_ok _ hok, by rw [h4], ?_⟩
    intro w hdecl hw hdel
    obtain ⟨x, hx⟩ := Option.ne_none_iff_exists'.1 hdecl
    have h5 : Parse rd e (n + 4) = aofEmitBodyEvent
        { p with toks := t3, curEvent := EventModify, curKey := kt.val,
                 curDelta := (ParseInt vt.val 64).1 } := by
      rw [show n + 4 = n + 3 + 1 from rfl, Parse_succ, h4]
      rfl
    rw [h5]
    simp [aofEmitBodyEvent, aofApplyEvent, hx, hw, hdel, AOFParser.emit, valueOf, mapSet,
      headerOf, EventDelete, EventCreate, EventSet, EventModify]

theorem C10_modify_operand_witness :
    Parse unsignedModifyLog readEnd.EOF 2 =
        ((Parse unsignedModifyLog readEnd.EOF 2).1, some .aofBodyEvent) ∧
      nextNonSpaceLoop (Parse unsignedModifyLog readEnd.EOF 2).1.toks =
        some (⟨tokenString, "MODIFY"⟩, [⟨tokenSpace, ""⟩, ⟨tokenString, "keyX"⟩,
          ⟨tokenSpace, ""⟩, ⟨tokenNumber, "2"⟩, ⟨tokenEOL, ""⟩, ⟨tokenEOF, ""⟩]) ∧
      nextNonSpaceLoop [⟨tokenSpace, ""⟩, ⟨tokenString, "keyX"⟩, ⟨tokenSpace, ""⟩,
          ⟨tokenNumber, "2"⟩, ⟨tokenEOL, ""⟩, ⟨tokenEOF, ""⟩] =
        some (⟨tokenString, "keyX"⟩, [⟨tokenSpace, ""⟩, ⟨tokenNumber, "2"⟩, ⟨tokenEOL, ""⟩,
          ⟨tokenEOF, ""⟩]) ∧
      nextNonSpaceLoop [⟨tokenSpace, ""⟩, ⟨tokenNumber, "2"⟩, ⟨tokenEOL, ""⟩, ⟨tokenEOF, ""⟩] =
        some (⟨tokenNumber, "2"⟩, [⟨tokenEOL, ""⟩, ⟨tokenEOF, ""⟩]) ∧
      HasPrefix "2" '+' = false ∧ HasPrefix "2" '-' = false ∧
      ((Parse unsignedModifyLog readEnd.EOF (2 + 3)).2 = none ∧
        (Parse unsignedModifyLog readEnd.EOF (2 + 3)).1.events =
          (Parse unsignedModifyLog readEnd.EOF 2).1.events ++
            [⟨EventError, "keyX", (Parse unsignedModifyLog readEnd.EOF 2).1.curValue,
              (valueOf (Parse unsignedModifyLog readEnd.EOF 2).1.values "keyX").deleted⟩] ∧
        (Parse unsignedModifyLog readEnd.EOF (2 + 3)).1.values =
          (Parse unsignedModifyLog readEnd.EOF 2).1.values ∧
        (Parse unsignedModifyLog readEnd.EOF (2 + 3)).1.err =
          some ((Parse unsignedModifyLog readEnd.EOF 2).1.errorText
            ("Unknown MODIFY operator: " ++ "2"))) :=
  ⟨Prod.ext rfl (by decide), by decide, by decide, by decide, by decide, by decide,
    (C10_modify_operand unsignedModifyLog readEnd.EOF 2
      (Parse unsignedModifyLog readEnd.EOF 2).1
      ⟨tokenString, "MODIFY"⟩ ⟨tokenString, "keyX"⟩ ⟨tokenNumber, "2"⟩
      [⟨tokenSpace, ""⟩, ⟨tokenString, "keyX"⟩, ⟨tokenSpace, ""⟩, ⟨tokenNumber, "2"⟩,
        ⟨tokenEOL, ""⟩, ⟨tokenEOF, ""⟩]
      [⟨tokenSpace, ""⟩, ⟨tokenNumber, "2"⟩, ⟨tokenEOL, ""⟩, ⟨tokenEOF, ""⟩]
      [⟨tokenEOL, ""⟩, ⟨tokenEOF, ""⟩]
      (Prod.ext rfl (by decide)) (by decide) (by decide) (by decide) (by decide)
      (by decide) (by decide) (by decide)).1 (by decide) (by decide)⟩

/-- The test of the suite for C10, and a signed operand applied to a live key. -/
theorem modify_examples :
    (Parse unsignedModifyLog readEnd.EOF 5).1.events =
        [newEvent EventHeader, ⟨EventError, "keyX", 0, false⟩] ∧
      (Parse unsignedModifyLog readEnd.EOF 5).1.err =
        some "ERROR at line 3: Unknown MODIFY operator: 2" ∧
      (Parse "1\nk 1\nCREATE k 10\nMODIFY k -3\n".data readEnd.EOF 20).1.events =
        [newEvent EventHeader, ⟨EventCreate, "k", 10, false⟩,
          ⟨EventModify ||| EventFinal, "k", 7, false⟩, newEvent EventCompleted] := by
  decide

/-- C19: for every input, whichever way the read ends, the number of `tokenEOL`
tokens the scanner emits is the number of line-feed characters of the input;
carriage returns add none. -/
theorem C19_one_LineEnd_per_line_feed (rd : List Char) (e : readEnd) :
    countEOL (lexer.run rd e) = rd.count '\n' := by
  rw [lexer_run_eq_scan]
  exact countEOL_scan e rd (mode.str [])

/-- The example of C19: three line feeds among carriage returns give three
`tokenEOL` tokens, then `tokenEOF`. -/
theorem line_end_example :
    lexer.run "\n\r\n\r\n\r".data readEnd.EOF =
        [⟨tokenEOL, ""⟩, ⟨tokenEOL, ""⟩, ⟨tokenEOL, ""⟩, ⟨tokenEOF, ""⟩] ∧
      countEOL (lexer.run "\n\r\n\r\n\r".data readEnd.EOF) = 3 := by
  decide

/-- C20: for every input, whichever way the read ends, the text tokens the scanner
emits are, in order, one token per maximal run of characters that are not space, tab,
carriage return or line feed; the token's value is the run verbatim and its kind is
`tokenNumber` exactly when the run is a base-10 signed 64-bit numeral (optional `+` or
`-`, then digits, value within the int64 range), `tokenString` otherwise. -/
theorem C20_text_runs_become_text_tokens (rd : List Char) (e : readEnd) :
    textTokens (lexer.run rd e) = (textRuns rd []).map textToken := by
  rw [lexer_run_eq_scan]
  exact textTokens_scan e rd (mode.str [])

/-- The examples of C20: `+4` is a number token with value text `+4`, a lone `+` is a
string token; a numeral one past the int64 range is a string token. -/
theorem text_token_examples :
    textToken "+4".data = ⟨tokenNumber, "+4"⟩ ∧ textToken "+".data = ⟨tokenString, "+"⟩ ∧
      lexer.run "MODIFY key2   +   4".data readEnd.EOF =
        [⟨tokenString, "MODIFY"⟩, ⟨tokenSpace, ""⟩, ⟨tokenString, "key2"⟩, ⟨tokenSpace, ""⟩,
          ⟨tokenString, "+"⟩, ⟨tokenSpace, ""⟩, ⟨tokenNumber, "4"⟩, ⟨tokenEOF, ""⟩] ∧
      textToken "-9223372036854775808".data = ⟨tokenNumber, "-9223372036854775808"⟩ ∧
      textToken "9223372036854775808".data = ⟨tokenString, "9223372036854775808"⟩ ∧
      textRuns "a b\r\n+4\t".data [] = ["a".data, "b".data, "+4".data] := by
  decide

/-- C16, as stated, fails: on `firstLineFinalLog` (a case of `TestParser`) the header
declares key `1234` with value 0, not 1, and the mutation event of the first body line
(n = 1) carries the final flag. -/
theorem C16_counterexample :
    (Parse firstLineFinalLog readEnd.EOF 20).1.events =
        [newEvent EventHeader, ⟨EventCreate ||| EventFinal, "1234", 1000, false⟩,
          newEvent EventCompleted] ∧
      (mutations (Parse firstLineFinalLog readEnd.EOF 20).1.events)[1 - 1]? =
        some ⟨EventCreate ||| EventFinal, "1234", 1000, false⟩ ∧
      (Event.mk (EventCreate ||| EventFinal) "1234" 1000 false).isFinal = true ∧
      (Parse firstLineFinalLog readEnd.EOF 20).1.headers "1234" = some 0 ∧
      (Parse firstLineFinalLog readEnd.EOF 20).1.headers "1234" ≠ some 1 := by
  decide

/-- C16 (amended): the header value counts body lines from 0: for every input and every
`k ≥ 1`, the mutation event produced by the `k`-th body line (`k = 1` for the first
one) carries the final flag if and only if the header declares the event's key with the
value `k - 1`. -/
theorem C16_final_flag_counts_from_zero (rd : List Char) (e : readEnd) (n : Nat) (k : Nat)
    (ev : Event) (hk : 1 ≤ k)
    (hline : (mutations (Parse rd e n).1.events)[k - 1]? = some ev) :
    ev.isFinal = true ↔ (Parse rd e n).1.headers ev.Key = some ((k : Int) - 1) := by
  obtain ⟨pre, post, hsplit, hlen, hmut⟩ := mutations_getElem?_split _ (k - 1) ev hline
  have hfin := (inv_Parse rd e n).givesSound.fin pre ev post hsplit hmut
  have hmem : ev ∈ (Parse rd e n).1.events := by rw [hsplit]; simp
  have hdecl := (phase_Parse rd e n).1 ev hmem hmut
  obtain ⟨v, hv⟩ := Option.ne_none_iff_exists'.1 hdecl
  have hhdr : headerOf (Parse rd e n).1.headers ev.Key = v := by simp [headerOf, hv]
  rw [hhdr, hlen] at hfin
  rw [hfin, hv]
  constructor
  · intro h; rw [h]; congr 1; omega
  · intro h; have := Option.some.inj h; omega

theorem C16_final_flag_counts_from_zero_witness :
    1 ≤ 2 ∧
      (mutations (Parse "1\nk 1\nCREATE k 5\nSET k 6\n".data readEnd.EOF 20).1.events)[2 - 1]? =
        some ⟨EventSet ||| EventFinal, "k", 6, false⟩ ∧
      ((Event.mk (EventSet ||| EventFinal) "k" 6 false).isFinal = true ↔
        (Parse "1\nk 1\nCREATE k 5\nSET k 6\n".data readEnd.EOF 20).1.headers
            (Event.mk (EventSet ||| EventFinal) "k" 6 false).Key = some (((2 : Nat) : Int) - 1)) :=
  ⟨by decide, by decide,
    C16_final_flag_counts_from_zero "1\nk 1\nCREATE k 5\nSET k 6\n".data readEnd.EOF 20 2
      ⟨EventSet ||| EventFinal, "k", 6, false⟩ (by decide) (by decide)⟩

/-- C14, as stated, fails: on `firstLineFinalLog` (a case of `TestParser`) the header
count is positive, the only header value is 0 (so the largest one is 0), the run ends
with `Completed`, and one body line is consumed: one mutation event stands between
`HeaderParsed` and `Completed`. -/
theorem C14_counterexample :
    0 < (Parse firstLineFinalLog readEnd.EOF 20).1.headerTotal ∧
      (Parse firstLineFinalLog readEnd.EOF 20).1.headers "1234" = some 0 ∧
      (Parse firstLineFinalLog readEnd.EOF 20).1.lastValidLine = 0 ∧
      (Parse firstLineFinalLog readEnd.EOF 20).2 = none ∧
      (Parse firstLineFinalLog readEnd.EOF 20).1.events =
        [newEvent EventHeader, ⟨EventCreate ||| EventFinal, "1234", 1000, false⟩,
          newEvent EventCompleted] ∧
      (mutations (Parse firstLineFinalLog readEnd.EOF 20).1.events).length = 1 := by
  decide

/-- C14 (amended): for every input with a positive header count whose run ends with
`Completed`, without an error event and before the end of the input is read, the number
of mutation events (body lines consumed) is `lastValidLine + 1`, one more than the
largest value read in the header: `lastValidLine` is not negative and no value of the
header table exceeds it. -/
theorem C14_completed_run_reads_one_past_max (rd : List Char) (e : readEnd) (n : Nat)
    (hpos : 0 < (Parse rd e n).1.headerTotal)
    (hend : (Parse rd e n).1.events.getLast? = some (newEvent EventCompleted))
    (hok : ∀ ev ∈ (Parse rd e n).1.events, ev.Typ ≠ EventError)
    (hrest : (Parse rd e n).1.toks ≠ []) :
    ((mutations (Parse rd e n).1.events).length : Int) = (Parse rd e n).1.lastValidLine + 1 ∧
      (Parse rd e n).2 = none ∧ 0 ≤ (Parse rd e n).1.lastValidLine ∧
      ∀ k v, (Parse rd e n).1.headers k = some v → v ≤ (Parse rd e n).1.lastValidLine := by
  have hph := phase_Parse rd e n
  have hmem : newEvent EventCompleted ∈ (Parse rd e n).1.events :=
    List.mem_of_getLast?_eq_some hend
  obtain ⟨_, hb, hs, hst⟩ := hph
  have hnot : ¬ NoEnd (Parse rd e n).1 := fun hne => hne _ hmem rfl
  cases hstate : (Parse rd e n).2 with
  | some s =>
    rw [hstate] at hst
    cases s
    · exact absurd hst hnot
    · exact absurd hst.1 hnot
    all_goals exact absurd (show InBody (Parse rd e n).1 from hst).1 hnot
  | none =>
    rw [hstate] at hst
    rcases (show Halted (lexer.run rd e) (Parse rd e n).1 from hst) with
      h | h | ⟨ev, hev, hty⟩ | h | ⟨pre, t, hpre, ht⟩
    · omega
    · exact absurd h hnot
    · exact absurd hty (hok ev hev)
    · exact ⟨h, rfl, hb.1, hb.2⟩
    · exact absurd (eof_is_last rd e pre _ t hpre ht) hrest

theorem C14_completed_run_reads_one_past_max_witness :
    0 < (Parse firstLineFinalLog readEnd.EOF 20).1.headerTotal ∧
      (Parse firstLineFinalLog readEnd.EOF 20).1.events.getLast? =
        some (newEvent EventCompleted) ∧
      (Parse firstLineFinalLog readEnd.EOF 20).1.events.all (fun x => x.Typ != EventError) =
        true ∧
      (Parse firstLineFinalLog readEnd.EOF 20).1.toks = [⟨tokenEOL, ""⟩, ⟨tokenEOF, ""⟩] ∧
      (((mutations (Parse firstLineFinalLog readEnd.EOF 20).1.events).length : Int) =
          (Parse firstLineFinalLog readEnd.EOF 20).1.lastValidLine + 1 ∧
        (Parse firstLineFinalLog readEnd.EOF 20).2 = none ∧
        0 ≤ (Parse firstLineFinalLog readEnd.EOF 20).1.lastValidLine ∧
        ∀ k v, (Parse firstLineFinalLog readEnd.EOF 20).1.headers k = some v →
          v ≤ (Parse firstLineFinalLog readEnd.EOF 20).1.lastValidLine) :=
  ⟨by decide, by decide, by decide, by decide,
    C14_completed_run_reads_one_past_max firstLineFinalLog readEnd.EOF 20 (by decide)
      (by decide) (by decide) (by decide)⟩

/-- C15: for every input, at every moment of the run, every mutation event's key is a
key of the header table; and when the validator is about to read a body line and the
tokens ahead spell `DELETE k`, `CREATE k v`, `SET k v` or `MODIFY k +d` / `MODIFY k -d`
for a key `k` the header does not declare, the line emits no mutation event: the stream
gains one error event, the value table is unchanged, and the run ends (state `nil`)
with the message "Key 'k' was not defined in the header". -/
theorem C15_undeclared_key (rd : List Char) (e : readEnd) (n : Nat) (p : AOFParser)
    (a kt vt : token) (t1 t2 t3 : List token)
    (hp : Parse rd e n = (p, some .aofBodyEvent))
    (h1 : nextNonSpaceLoop p.toks = some (a, t1)) (ha : a.typ = tokenString)
    (h2 : nextNonSpaceLoop t1 = some (kt, t2))
    (hk : kt.typ = tokenString ∨ kt.typ = tokenNumber)
    (hundecl : p.headers kt.val = none)
    (hline : ToUpper a.val = "DELETE" ∨
      (nextNonSpaceLoop t2 = some (vt, t3) ∧ vt.typ = tokenNumber ∧
        (ToUpper a.val = "CREATE" ∨ ToUpper a.val = "SET" ∨ (ToUpper a.val = "MODIFY" ∧
          (HasPrefix vt.val '+' = true ∨ HasPrefix vt.val '-' = true))))) :
    (∀ m ev, ev ∈ (Parse rd e m).1.events → ev.isMutation = true →
      (Parse rd e m).1.headers ev.Key ≠ none) ∧
    (Parse rd e (n + 4)).2 = none ∧
      (∃ x, (Parse rd e (n + 4)).1.events = p.events ++ [⟨EventError, kt.val, x, false⟩]) ∧
      (Parse rd e (n + 4)).1.values = p.values ∧
      (Parse rd e (n + 4)).1.err =
        some (p.errorText ("Key \'" ++ kt.val ++ "\' was not defined in the header")) := by
  refine ⟨fun m ev hev hm => (phase_Parse rd e m).1 ev hev hm, ?_⟩
  have hnew : p.values kt.val = none := by
    have hi := (inv_Parse rd e n).givesSound
    rw [hp] at hi
    by_contra hc
    exact hi.declared kt.val hc hundecl
  rcases hline with hu | ⟨h3, hv, hu | hu | ⟨hu, hs⟩⟩
  · have h4 : Parse rd e (n + 4) = parseStep (aofEmitBodyEvent
        { p with toks := t2, curEvent := EventDelete, curKey := kt.val }) := by
      rw [Parse_add, hp, parseSteps_four, line_delete p a kt t1 t2 h1 ha hu h2 hk]
      rfl
    rw [h4]
    simp [aofEmitBodyEvent, hundecl, hnew, AOFParser.emit, AOFParser.error,
      AOFParser.errorText, valueOf, parseStep]
  · have h4 : Parse rd e (n + 4) = aofEmitBodyEvent
        { p with toks := t3, curEvent := EventCreate, curKey := kt.val,
                 curValue := (ParseInt vt.val 64).1 } := by
      rw [show n + 4 = n + 3 + 1 from rfl, Parse_succ, Parse_add, hp,
        line_create p a kt vt t1 t2 t3 h1 ha hu h2 hk h3 hv]
      rfl
    rw [h4]
    simp [aofEmitBodyEvent, hundecl, hnew, AOFParser.emit, AOFParser.error,
      AOFParser.errorText, valueOf]
  · have h4 : Parse rd e (n + 4) = aofEmitBodyEvent
        { p with toks := t3, curEvent := EventSet, curKey := kt.val,
                 curValue := (ParseInt vt.val 64).1 } := by
      rw [show n + 4 = n + 3 + 1 from rfl, Parse_succ, Parse_add, hp,
        line_set p a kt vt t1 t2 t3 h1 ha hu h2 hk h3 hv]
      rfl
    rw [h4]
    simp [aofEmitBodyEvent, hundecl, hnew, AOFParser.emit, AOFParser.error,
      AOFParser.errorText, valueOf]
  · have h4 : Parse rd e (n + 4) = aofEmitBodyEvent
        { p with toks := t3, curEvent := EventModify, curKey := kt.val,
                 curDelta := (ParseInt vt.val 64).1 } := by
      rw [show n + 4 = n + 3 + 1 from rfl, Parse_succ, Parse_add, hp,
        line_modify p a kt vt t1 t2 t3 h1 ha hu h2 hk h3 hv hs]
      rfl
    rw [h4]
    simp [aofEmitBodyEvent, hundecl, hnew, AOFParser.emit, AOFParser.error,
      AOFParser.errorText, valueOf]

theorem C15_undeclared_key_witness :
    Parse undeclaredKeyLog readEnd.EOF 2 =
        ((Parse undeclaredKeyLog readEnd.EOF 2).1, some .aofBodyEvent) ∧
      nextNonSpaceLoop (Parse undeclaredKeyLog readEnd.EOF 2).1.toks =
        some (⟨tokenString, "CREATE"⟩, [⟨tokenSpace, ""⟩, ⟨tokenString, "KeyUnknown"⟩,
          ⟨tokenSpace, ""⟩, ⟨tokenNumber, "1000"⟩, ⟨tokenEOL, ""⟩, ⟨tokenEOF, ""⟩]) ∧
      nextNonSpaceLoop [⟨tokenSpace, ""⟩, ⟨tokenString, "KeyUnknown"⟩, ⟨tokenSpace, ""⟩,
          ⟨tokenNumber, "1000"⟩, ⟨tokenEOL, ""⟩, ⟨tokenEOF, ""⟩] =
        some (⟨tokenString, "KeyUnknown"⟩, [⟨tokenSpace, ""⟩, ⟨tokenNumber, "1000"⟩,
          ⟨tokenEOL, ""⟩, ⟨tokenEOF, ""⟩]) ∧
      (Parse undeclaredKeyLog readEnd.EOF 2).1.headers "KeyUnknown" = none ∧
      (Parse undeclaredKeyLog readEnd.EOF (2 + 4)).1.events =
        [newEvent EventHeader, ⟨EventError, "KeyUnknown", 1000, false⟩] ∧
      (Parse undeclaredKeyLog readEnd.EOF (2 + 4)).1.err =
        some "ERROR at line 3: Key \'KeyUnknown\' was not defined in the header" ∧
      ((∀ m ev, ev ∈ (Parse undeclaredKeyLog readEnd.EOF m).1.events → ev.isMutation = true →
          (Parse undeclaredKeyLog readEnd.EOF m).1.headers ev.Key ≠ none) ∧
        (Parse undeclaredKeyLog readEnd.EOF (2 + 4)).2 = none ∧
        (∃ x, (Parse undeclaredKeyLog readEnd.EOF (2 + 4)).1.events =
          (Parse undeclaredKeyLog readEnd.EOF 2).1.events ++
            [⟨EventError, "KeyUnknown", x, false⟩]) ∧
        (Parse undeclaredKeyLog readEnd.EOF (2 + 4)).1.values =
          (Parse undeclaredKeyLog readEnd.EOF 2).1.values ∧
        (Parse undeclaredKeyLog readEnd.EOF (2 + 4)).1.err =
          some ((Parse undeclaredKeyLog readEnd.EOF 2).1.errorText
            ("Key \'" ++ "KeyUnknown" ++ "\' was not defined in the header"))) :=
  ⟨Prod.ext rfl (by decide), by decide, by decide, by decide, by decide, by decide,
    C15_undeclared_key undeclaredKeyLog readEnd.EOF 2 (Parse undeclaredKeyLog readEnd.EOF 2).1
      ⟨tokenString, "CREATE"⟩ ⟨tokenString, "KeyUnknown"⟩ ⟨tokenNumber, "1000"⟩
      [⟨tokenSpace, ""⟩, ⟨tokenString, "KeyUnknown"⟩, ⟨tokenSpace, ""⟩, ⟨tokenNumber, "1000"⟩,
        ⟨tokenEOL, ""⟩, ⟨tokenEOF, ""⟩]
      [⟨tokenSpace, ""⟩, ⟨tokenNumber, "1000"⟩, ⟨tokenEOL, ""⟩, ⟨tokenEOF, ""⟩]
      [⟨tokenEOL, ""⟩, ⟨tokenEOF, ""⟩]
      (Prod.ext rfl (by decide)) (by decide) (by decide) (by decide) (by decide) (by decide)
      (Or.inr ⟨by decide, by decide, Or.inl (by decide)⟩)⟩

/-- C12 (the code at the failing inputs): with every event taken by the consumer,
`"1 junk"` (no line terminator after the header count) gives two error events,
`"1\nk 1 junk\nCREATE k 1\n"` (none after a header entry) gives an error event followed
by `HeaderParsed` and a second error event, and `"1\nk 1\nCREATE k 1 junk\nSET k 2\n"`
(none after a body line's operand) gives an error event followed by `Completed`; the
stored message is that of the last error. -/
theorem C12_events_after_parse_error :
    (Parse "1 junk".data readEnd.EOF 20).2 = none ∧
      (Parse "1 junk".data readEnd.EOF 20).1.events =
        [newEvent EventError, newEvent EventError] ∧
      (Parse "1 junk".data readEnd.EOF 1).1.err =
        some "ERROR at line 1: Unexpected token: tokenString, expected tokenEOL" ∧
      (Parse "1 junk".data readEnd.EOF 20).1.err =
        some "ERROR at line 2: Unexpected token: tokenEOF, expected one of [tokenString tokenNumber]" ∧
      (Parse "1\nk 1 junk\nCREATE k 1\n".data readEnd.EOF 20).2 = none ∧
      (Parse "1\nk 1 junk\nCREATE k 1\n".data readEnd.EOF 20).1.events =
        [newEvent EventError, newEvent EventHeader, newEvent EventError] ∧
      (Parse "1\nk 1\nCREATE k 1 junk\nSET k 2\n".data readEnd.EOF 20).2 = none ∧
      (Parse "1\nk 1\nCREATE k 1 junk\nSET k 2\n".data readEnd.EOF 20).1.events =
        [newEvent EventHeader, ⟨EventCreate, "k", 1, false⟩, ⟨EventError, "k", 1, false⟩,
          newEvent EventCompleted] := by
  decide

/-- C13, as stated, fails: on `shortBodyLog` (largest header value 10, one body line,
ended by a line terminator) the run ends with an error event, but the message is the
unexpected-token one, not the premature-end-of-input one. -/
theorem C13_counterexample :
    (Parse shortBodyLog readEnd.EOF 20).2 = none ∧
      (Parse shortBodyLog readEnd.EOF 20).1.lastValidLine = 10 ∧
      (Parse shortBodyLog readEnd.EOF 20).1.events =
        [newEvent EventHeader, ⟨EventCreate, "keyX", 1, false⟩,
          ⟨EventError, "keyX", 1, false⟩] ∧
      (Parse shortBodyLog readEnd.EOF 20).1.err =
        some "ERROR at line 4: Unexpected token: tokenEOF, expected tokenString" ∧
      (Parse shortBodyLog readEnd.EOF 20).1.err ≠
        some "ERROR at line 4: Unexpected EOF, expected at least 10 line(s)" := by
  decide

/-- C13 (amended): let the validator have emitted the event of a body line, `k` body
lines so far, and let `L` be `lastValidLine`.  (a) If the input ends there, without a
line terminator, and `k < L`, the run ends (state `nil`) with one more event, an error
event, no `Completed`, and the message "Unexpected EOF, expected at least n line(s)"
with `n = L + 1 - k`.  (b) If a line terminator and then the end of the input follow,
and `k ≤ L`, the run ends with one more event, an error event, no `Completed`, and the
message "Unexpected token: tokenEOF, expected tokenString".  Both messages carry the
line number `curHeaderLine + k + 1`. -/
theorem C13_input_ends_early (rd : List Char) (e : readEnd) (n : Nat) (p : AOFParser)
    (t : token) (ts : List token)
    (hp : Parse rd e n = (p, some .aofBodyNextLine))
    (h1 : nextNonSpaceLoop p.toks = some (t, ts)) :
    (t.typ = tokenEOF → ((mutations p.events).length : Int) < p.lastValidLine →
      (Parse rd e (n + 1)).2 = none ∧
      (Parse rd e (n + 1)).1.events =
        p.events ++ [⟨EventError, p.curKey, p.curValue, (valueOf p.values p.curKey).deleted⟩] ∧
      (∀ ev ∈ (Parse rd e (n + 1)).1.events, ev.Typ ≠ EventCompleted) ∧
      (Parse rd e (n + 1)).1.err =
        some ("ERROR at line " ++
          fmtInt (p.curHeaderLine + ((mutations p.events).length : Int) + 1) ++
          ": " ++ ("Unexpected EOF, expected at least " ++
          fmtInt (p.lastValidLine + 1 - ((mutations p.events).length : Int)) ++ " line(s)"))) ∧
    (t.typ = tokenEOL → ∀ t2 ts2, nextNonSpaceLoop ts = some (t2, ts2) → t2.typ = tokenEOF →
      ((mutations p.events).length : Int) ≤ p.lastValidLine →
      (Parse rd e (n + 2)).2 = none ∧
      (Parse rd e (n + 2)).1.events =
        p.events ++ [⟨EventError, p.curKey, p.curValue, (valueOf p.values p.curKey).deleted⟩] ∧
      (∀ ev ∈ (Parse rd e (n + 2)).1.events, ev.Typ ≠ EventCompleted) ∧
      (Parse rd e (n + 2)).1.err =
        some ("ERROR at line " ++
          fmtInt (p.curHeaderLine + ((mutations p.events).length : Int) + 1) ++
          ": " ++ "Unexpected token: tokenEOF, expected tokenString")) := by
  have hc : ((mutations p.events).length : Int) = p.curBodyLine + 1 := by
    have hi := inv_Parse rd e n
    rw [hp] at hi
    exact (show Sound p ∧ ((mutations p.events).length : Int) = p.curBodyLine + 1 from hi).2
  have hne : NoEnd p := by
    have hph := (phase_Parse rd e n).2.2.2
    rw [hp] at hph
    exact (show InBody p from hph).1
  have hnoend : ∀ ev ∈ p.events ++
      [(⟨EventError, p.curKey, p.curValue, (valueOf p.values p.curKey).deleted⟩ : Event)],
      ev.Typ ≠ EventCompleted := by
    intro ev hev
    rcases List.mem_append.1 hev with h | h
    · exact hne ev h
    · rw [List.mem_singleton.1 h]
      exact fun hcontra => absurd (show EventError = EventCompleted from hcontra) (by decide)
  constructor
  · intro heof hlt
    have hlt1 : p.curBodyLine + 1 < p.lastValidLine := by omega
    have hle : p.curBodyLine + 1 ≤ p.lastValidLine := by omega
    have h4 : Parse rd e (n + 1) =
        (({ p with curBodyLine := p.curBodyLine + 1, toks := ts } : AOFParser).error
          ("Unexpected EOF, expected at least " ++
            fmtInt (p.lastValidLine - (p.curBodyLine + 1) + 1) ++ " line(s)"), none) := by
      rw [Parse_succ, hp, parseStep_some]
      simp [parserStateFunc.call, aofBodyNextLine, hle, expectOneOf_eq, h1, heof, hlt1]
    have hl1 : p.lastValidLine + 1 - ((mutations p.events).length : Int) =
        p.lastValidLine - (p.curBodyLine + 1) + 1 := by omega
    have hl2 : p.curHeaderLine + ((mutations p.events).length : Int) + 1 =
        p.curHeaderLine + (p.curBodyLine + 1) + 1 := by omega
    rw [h4, hl1, hl2]
    exact ⟨rfl, rfl, hnoend, rfl⟩
  · intro heol t2 ts2 h2 heof hle0
    have hle : p.curBodyLine + 1 ≤ p.lastValidLine := by omega
    have h3 : Parse rd e (n + 1) =
        ({ p with curBodyLine := p.curBodyLine + 1, toks := ts }, some .aofBodyEvent) := by
      rw [Parse_succ, hp, parseStep_some]
      simp [parserStateFunc.call, aofBodyNextLine, hle, expectOneOf_eq, h1, heol]
    have h4 : Parse rd e (n + 2) =
        (({ p with curBodyLine := p.curBodyLine + 1, toks := ts2 } : AOFParser).error
          ("Unexpected token: " ++ tokenEOF.String ++ ", expected " ++ tokenString.String),
          none) := by
      rw [show n + 2 = n + 1 + 1 from rfl, Parse_succ, h3, parseStep_some]
      simp [parserStateFunc.call, aofBodyEvent, expect_eq, h2, heof, AOFParser.unexpected]
    have hl2 : p.curHeaderLine + ((mutations p.events).length : Int) + 1 =
        p.curHeaderLine + (p.curBodyLine + 1) + 1 := by omega
    rw [h4, hl2]
    exact ⟨rfl, rfl, hnoend, rfl⟩

theorem C13_input_ends_early_witness :
    Parse shortBodyNoEOLLog readEnd.EOF 6 =
        ((Parse shortBodyNoEOLLog readEnd.EOF 6).1, some .aofBodyNextLine) ∧
      nextNonSpaceLoop (Parse shortBodyNoEOLLog readEnd.EOF 6).1.toks =
        some (⟨tokenEOF, ""⟩, []) ∧
      (token.mk tokenEOF "").typ = tokenEOF ∧
      ((mutations (Parse shortBodyNoEOLLog readEnd.EOF 6).1.events).length : Int) <
        (Parse shortBodyNoEOLLog readEnd.EOF 6).1.lastValidLine ∧
      (Parse shortBodyNoEOLLog readEnd.EOF (6 + 1)).1.err =
        some "ERROR at line 4: Unexpected EOF, expected at least 10 line(s)" ∧
      ((Parse shortBodyNoEOLLog readEnd.EOF (6 + 1)).2 = none ∧
        (Parse shortBodyNoEOLLog readEnd.EOF (6 + 1)).1.events =
          (Parse shortBodyNoEOLLog readEnd.EOF 6).1.events ++
            [⟨EventError, (Parse shortBodyNoEOLLog readEnd.EOF 6).1.curKey,
              (Parse shortBodyNoEOLLog readEnd.EOF 6).1.curValue,
              (valueOf (Parse shortBodyNoEOLLog readEnd.EOF 6).1.values
                (Parse shortBodyNoEOLLog readEnd.EOF 6).1.curKey).deleted⟩] ∧
        (∀ ev ∈ (Parse shortBodyNoEOLLog readEnd.EOF (6 + 1)).1.events,
          ev.Typ ≠ EventCompleted) ∧
        (Parse shortBodyNoEOLLog readEnd.EOF (6 + 1)).1.err =
          some ("ERROR at line " ++
            fmtInt ((Parse shortBodyNoEOLLog readEnd.EOF 6).1.curHeaderLine +
              ((mutations (Parse shortBodyNoEOLLog readEnd.EOF 6).1.events).length : Int) + 1) ++
            ": " ++ ("Unexpected EOF, expected at least " ++
            fmtInt ((Parse shortBodyNoEOLLog readEnd.EOF 6).1.lastValidLine + 1 -
              ((mutations (Parse shortBodyNoEOLLog readEnd.EOF 6).1.events).length : Int)) ++
            " line(s)"))) :=
  ⟨Prod.ext rfl (by decide), by decide, by decide, by decide, by decide,
    (C13_input_ends_early shortBodyNoEOLLog readEnd.EOF 6
      (Parse shortBodyNoEOLLog readEnd.EOF 6).1 ⟨tokenEOF, ""⟩ []
      (Prod.ext rfl (by decide)) (by decide)).1 (by decide) (by decide)⟩

/-- C11: for every input, at every moment of the run, the mutation events emitted so
far are, in order, the steps of the left fold of the body lines applied so far over an
empty key table: the k-th mutation event has the kind and the key of the k-th body
line and carries the state (value, deleted flag) of that key after the line is applied
to the table left by the lines before it, where Create and Set store the operand with
`deleted = false`, Modify adds the delta to the previous value (64-bit) and Delete
keeps the previous value with `deleted = true`; and the validator's value table is the
result of that fold. -/
theorem C11_events_are_fold_steps (rd : List Char) (e : readEnd) (n : Nat) :
    (mutations (Parse rd e n).1.events).map Event.step =
        stepsOf (fun _ => none) (linesApplied rd e n) ∧
      (Parse rd e n).1.values = foldLines (fun _ => none) (linesApplied rd e n) :=
  ⟨(fold_Parse rd e n).2, (fold_Parse rd e n).1⟩

set_option maxRecDepth 100000 in
/-- The body lines of the last case of `TestParser` as the validator applies them, and
the steps of their fold. -/
theorem fold_example :
    linesApplied fiveKeysLog readEnd.EOF 60 =
        [bodyLine.Create "key1" 1000, bodyLine.Modify "key1" 1, bodyLine.Create "key2" 2000,
          bodyLine.Create "key3" 3000, bodyLine.Create "key4" 4000, bodyLine.Set "key4" 4500,
          bodyLine.Delete "key4", bodyLine.Create "key5" 5000, bodyLine.Modify "key5" 1,
          bodyLine.Modify "key5" 1, bodyLine.Modify "key5" (-1)] ∧
      stepsOf (fun _ => none) (linesApplied fiveKeysLog readEnd.EOF 60) =
        [(EventCreate, "key1", ⟨1000, false⟩), (EventModify, "key1", ⟨1001, false⟩),
          (EventCreate, "key2", ⟨2000, false⟩), (EventCreate, "key3", ⟨3000, false⟩),
          (EventCreate, "key4", ⟨4000, false⟩), (EventSet, "key4", ⟨4500, false⟩),
          (EventDelete, "key4", ⟨4500, true⟩), (EventCreate, "key5", ⟨5000, false⟩),
          (EventModify, "key5", ⟨5001, false⟩), (EventModify, "key5", ⟨5002, false⟩),
          (EventModify, "key5", ⟨5001, false⟩)] := by
  decide

/-- C17, as stated, fails: on `crInsideLog` the carriage return splits the operand
`1\r2` into the two tokens `1` and `2`, and the Create event carries the value 1;
without the carriage return the operand is `12` and the event carries 12. -/
theorem C17_counterexample :
    dropCR crInsideLog = "1\nk 0\nCREATE k 12\n".data ∧
      (Parse crInsideLog readEnd.EOF 20).1.events =
        [newEvent EventHeader, ⟨EventCreate ||| EventFinal, "k", 1, false⟩,
          newEvent EventCompleted] ∧
      (Parse (dropCR crInsideLog) readEnd.EOF 20).1.events =
        [newEvent EventHeader, ⟨EventCreate ||| EventFinal, "k", 12, false⟩,
          newEvent EventCompleted] ∧
      (Parse crInsideLog readEnd.EOF 20).1.events ≠
        (Parse (dropCR crInsideLog) readEnd.EOF 20).1.events := by
  decide

/-- C17 (amended): a carriage return gives no token but ends a text run.  For every
input in which no run of carriage returns stands between two text characters (each run
has the start or the end of the input, a space, a tab or a line feed on at least one
side), deleting all carriage returns leaves the validator's run unchanged: after any
number of iterations the event stream, the stored error message and the state are the
same. -/
theorem C17_carriage_returns_outside_text (rd : List Char) (e : readEnd) (n : Nat)
    (h : crSafe rd false false = true) :
    (Parse rd e n).1.events = (Parse (dropCR rd) e n).1.events ∧
      (Parse rd e n).1.err = (Parse (dropCR rd) e n).1.err ∧
      (Parse rd e n).2 = (Parse (dropCR rd) e n).2 := by
  exact Parse_same_run rd (dropCR rd) e (dropSpaces_run_dropCR rd e h) n

theorem C17_carriage_returns_outside_text_witness :
    crSafe crlfLog false false = true ∧
      dropCR crlfLog = "1\nk 0\nCREATE k 1\n".data ∧
      (Parse crlfLog readEnd.EOF 20).1.events =
        [newEvent EventHeader, ⟨EventCreate ||| EventFinal, "k", 1, false⟩,
          newEvent EventCompleted] ∧
      ((Parse crlfLog readEnd.EOF 20).1.events = (Parse (dropCR crlfLog) readEnd.EOF 20).1.events ∧
        (Parse crlfLog readEnd.EOF 20).1.err = (Parse (dropCR crlfLog) readEnd.EOF 20).1.err ∧
        (Parse crlfLog readEnd.EOF 20).2 = (Parse (dropCR crlfLog) readEnd.EOF 20).2) :=
  ⟨by decide, by decide, by decide,
    C17_carriage_returns_outside_text crlfLog readEnd.EOF 20 (by decide)⟩

/-- C18: whitespace is only a separator.  Let two inputs differ in one run of spaces
and tabs, `pre ++ ws ++ post` and `pre ++ ws1 ++ post`, where either both runs are
non-empty (a run replaced by a run of another positive length, a single space for
one), or the place is not between two text characters: `pre` is empty or ends with a
space, tab, carriage return or line feed, or `post` is empty or begins with one (a run
inserted or removed at the start or the end of a line).  Then after any number of
iterations the validator's event stream, stored error message and state are the same
for both inputs. -/
theorem C18_whitespace_is_only_a_separator (e : readEnd) (pre ws ws1 post : List Char)
    (n : Nat) (hws : ∀ c ∈ ws, isSpace c = true) (hws1 : ∀ c ∈ ws1, isSpace c = true)
    (hcase : (ws ≠ [] ∧ ws1 ≠ []) ∨ pre = [] ∨
      (∃ pre1 c, pre = pre1 ++ [c] ∧ isSeparator c = true) ∨ post = [] ∨
      (∃ c post1, post = c :: post1 ∧ isSeparator c = true)) :
    (Parse (pre ++ ws ++ post) e n).1.events = (Parse (pre ++ ws1 ++ post) e n).1.events ∧
      (Parse (pre ++ ws ++ post) e n).1.err = (Parse (pre ++ ws1 ++ post) e n).1.err ∧
      (Parse (pre ++ ws ++ post) e n).2 = (Parse (pre ++ ws1 ++ post) e n).2 := by
  have hd := dropSpaces_run_edit e pre ws ws1 post
    (fun c hc => separator_of_space c (hws c hc))
    (fun c hc => separator_of_space c (hws1 c hc)) hcase
  exact Parse_same_run _ _ e hd n

theorem C18_whitespace_is_only_a_separator_witness :
    (∀ c ∈ " \t ".data, isSpace c = true) ∧ (∀ c ∈ ([] : List Char), isSpace c = true) ∧
      "1\nk 0".data = "1\nk ".data ++ ['0'] ∧
      "\nCREATE k 1\n".data = '\n' :: "CREATE k 1\n".data ∧ isSeparator '\n' = true ∧
      (Parse ("1\nk 0".data ++ " \t ".data ++ "\nCREATE k 1\n".data) readEnd.EOF 20).1.events =
        [newEvent EventHeader, ⟨EventCreate ||| EventFinal, "k", 1, false⟩,
          newEvent EventCompleted] ∧
      ((Parse ("1\nk 0".data ++ " \t ".data ++ "\nCREATE k 1\n".data) readEnd.EOF 20).1.events =
          (Parse ("1\nk 0".data ++ [] ++ "\nCREATE k 1\n".data) readEnd.EOF 20).1.events ∧
        (Parse ("1\nk 0".data ++ " \t ".data ++ "\nCREATE k 1\n".data) readEnd.EOF 20).1.err =
          (Parse ("1\nk 0".data ++ [] ++ "\nCREATE k 1\n".data) readEnd.EOF 20).1.err ∧
        (Parse ("1\nk 0".data ++ " \t ".data ++ "\nCREATE k 1\n".data) readEnd.EOF 20).2 =
          (Parse ("1\nk 0".data ++ [] ++ "\nCREATE k 1\n".data) readEnd.EOF 20).2) :=
  ⟨by decide, by decide, by decide, by decide, by decide, by decide,
    C18_whitespace_is_only_a_separator readEnd.EOF "1\nk 0".data " \t ".data []
      "\nCREATE k 1\n".data 20 (by decide) (by decide)
      (Or.inr (Or.inr (Or.inr (Or.inr ⟨'\n', "CREATE k 1\n".data, by decide, by decide⟩))))⟩

/-- C21: for every finite input read to `io.EOF`, the loop of `lexer.run` is over
(`l.state` is `nil`) after `2 * length + 1` iterations, and running it longer changes
nothing; the tokens emitted are a run of space, line-end and text tokens, then the text
token of the buffer left when the input ends (the characters after the last separator)
if that buffer is not empty, then one `tokenEOF`, which is the last token; no token
before it is `tokenEOF` or `tokenError`. -/
theorem C21_scanner_ends_with_one_EOF (rd : List Char) (k : Nat) :
    lexer.stateAfter readEnd.EOF (2 * rd.length + 1 + k) (some stateFunc.lexString) rd = none ∧
      lexer.runLoop readEnd.EOF (2 * rd.length + 1 + k) (some stateFunc.lexString) rd =
        lexer.run rd readEnd.EOF ∧
      ∃ body, lexer.run rd readEnd.EOF =
          body ++ (if (bufferAtEnd rd []).length > 0 then [textToken (bufferAtEnd rd [])]
            else []) ++ [⟨tokenEOF, ""⟩] ∧
        ∀ t ∈ body ++ (if (bufferAtEnd rd []).length > 0 then [textToken (bufferAtEnd rd [])]
            else []), t.typ ≠ tokenEOF ∧ t.typ ≠ tokenError := by
  refine ⟨(lexer_run_stops rd readEnd.EOF k).1, (lexer_run_stops rd readEnd.EOF k).2, ?_⟩
  obtain ⟨body, hb, hp⟩ := scan_ends_flush readEnd.EOF rd (mode.str [])
  rw [← flushText_eq]
  refine ⟨body, ?_, ?_⟩
  · rw [lexer_run_eq_scan, hb, List.append_assoc]
    rfl
  · intro t ht
    rcases List.mem_append.1 ht with h | h
    · exact hp t h
    · exact plain_flushText _ t h

/-- The scanner on inputs that end inside a text run, after a separator, and on the
empty input. -/
theorem scanner_end_examples :
    lexer.run "ab cd".data readEnd.EOF =
        [⟨tokenString, "ab"⟩, ⟨tokenSpace, ""⟩, ⟨tokenString, "cd"⟩, ⟨tokenEOF, ""⟩] ∧
      bufferAtEnd "ab cd".data [] = "cd".data ∧
      lexer.run "ab 12\n".data readEnd.EOF =
        [⟨tokenString, "ab"⟩, ⟨tokenSpace, ""⟩, ⟨tokenNumber, "12"⟩, ⟨tokenEOL, ""⟩,
          ⟨tokenEOF, ""⟩] ∧
      bufferAtEnd "ab 12\n".data [] = [] ∧
      lexer.run [] readEnd.EOF = [⟨tokenEOF, ""⟩] ∧
      lexer.stateAfter readEnd.EOF (2 * "ab cd".data.length + 1) (some stateFunc.lexString)
        "ab cd".data = none := by
  decide

/-- C24, as stated, fails: on `declaredTwiceLog` the header is parsed, its two lines
declare the key `a` with the non-negative values 5 and 1, the header mapping keeps the
later one only (its one entry is `a` with value 1, so the largest value over its
entries is 1), and `lastValidLine` is 5. -/
theorem C24_counterexample :
    newEvent EventHeader ∈ (Parse declaredTwiceLog readEnd.EOF 20).1.events ∧
      headerDecls declaredTwiceLog readEnd.EOF = [("a", 5), ("a", 1)] ∧
      (Parse declaredTwiceLog readEnd.EOF 20).1.headers "a" = some 1 ∧
      (∀ k v, (Parse declaredTwiceLog readEnd.EOF 20).1.headers k = some v → k = "a" ∧ v = 1) ∧
      (Parse declaredTwiceLog readEnd.EOF 20).1.lastValidLine = 5 := by
  have hmem : newEvent EventHeader ∈ (Parse declaredTwiceLog readEnd.EOF 20).1.events := by
    decide
  have hd : headerDecls declaredTwiceLog readEnd.EOF = [("a", 5), ("a", 1)] := by decide
  refine ⟨hmem, hd, by decide, ?_, by decide⟩
  intro k v hkv
  rw [(header_Parse declaredTwiceLog readEnd.EOF 20 hmem).1, hd] at hkv
  rcases headerTable_mem _ _ k v hkv with h | h
  · simp only [List.mem_cons, Prod.mk.injEq, List.mem_singleton, List.not_mem_nil,
      or_false] at h
    rcases h with ⟨hk, hv⟩ | ⟨hk, hv⟩
    · subst hk
      have h1 : (Parse declaredTwiceLog readEnd.EOF 20).1.headers "a" = some 1 := by decide
      rw [(header_Parse declaredTwiceLog readEnd.EOF 20 hmem).1, hd] at h1
      rw [h1] at hkv
      exact ⟨rfl, (Option.some.inj hkv).symm⟩
    · exact ⟨hk, hv⟩
  · cases h

/-- C24 (amended): for every input whose header is parsed (`HeaderParsed` is emitted),
`lastValidLine` is the largest value over the header lines read, each line counted,
also one whose key a later line declares again, and 0 if no value is larger; the header
mapping is the one these lines give, a key declared twice keeping its later value, and
there are as many lines as the positive header count says.  When no key is declared
twice and the declared values are not negative, `lastValidLine` is the largest value
over the entries of the header mapping. -/
theorem C24_lastValidLine_is_max_over_header_lines (rd : List Char) (e : readEnd) (n : Nat)
    (hhdr : newEvent EventHeader ∈ (Parse rd e n).1.events) :
    (Parse rd e n).1.lastValidLine = maxLine 0 (headerDecls rd e) ∧
      (Parse rd e n).1.headers = headerTable (fun _ => none) (headerDecls rd e) ∧
      (headerDecls rd e).length = (Parse rd e 1).1.headerTotal.toNat ∧
      0 < (Parse rd e 1).1.headerTotal ∧
      (∀ d ∈ headerDecls rd e, d.2 ≤ (Parse rd e n).1.lastValidLine) ∧
      (0 = (Parse rd e n).1.lastValidLine ∨
        ∃ d ∈ headerDecls rd e, d.2 = (Parse rd e n).1.lastValidLine) ∧
      (((headerDecls rd e).map Prod.fst).Nodup → (∀ d ∈ headerDecls rd e, 0 ≤ d.2) →
        (∀ k v, (Parse rd e n).1.headers k = some v → v ≤ (Parse rd e n).1.lastValidLine) ∧
        ∃ k, (Parse rd e n).1.headers k = some (Parse rd e n).1.lastValidLine) := by
  obtain ⟨h1, h2, h3, h4⟩ := header_Parse rd e n hhdr
  have hmem := maxLine_mem (headerDecls rd e) 0
  refine ⟨h2, h1, h3, h4, ?_, ?_, ?_⟩
  · rw [h2]; exact maxLine_ge _ 0
  · rw [h2]
    rcases hmem with h | h
    · exact Or.inl h.symm
    · exact Or.inr h
  · intro hnd hpos
    rw [h1, h2]
    constructor
    · intro k v hkv
      rcases headerTable_mem _ _ k v hkv with h | h
      · exact maxLine_ge _ 0 (k, v) h
      · cases h
    · have hne : headerDecls rd e ≠ [] := by
        intro hnil
        rw [hnil] at h3
        simp only [List.length_nil] at h3
        omega
      rcases hmem with h | ⟨d, hd, h⟩
      · obtain ⟨d, hd⟩ := List.exists_mem_of_ne_nil _ hne
        have hle := maxLine_ge _ 0 d hd
        have hge := hpos d hd
        refine ⟨d.1, ?_⟩
        rw [headerTable_nodup _ _ hnd d hd]
        congr 1
        omega
      · exact ⟨d.1, by rw [headerTable_nodup _ _ hnd d hd, h]⟩

/-- The amended C24 on `twoKeysLog`, whose header declares `a` with 0 and `b` with 1. -/
theorem C24_lastValidLine_is_max_over_header_lines_witness :
    newEvent EventHeader ∈ (Parse twoKeysLog readEnd.EOF 20).1.events ∧
      headerDecls twoKeysLog readEnd.EOF = [("a", 0), ("b", 1)] ∧
      ((headerDecls twoKeysLog readEnd.EOF).map Prod.fst).Nodup ∧
      (∀ d ∈ headerDecls twoKeysLog readEnd.EOF, 0 ≤ d.2) ∧
      (Parse twoKeysLog readEnd.EOF 20).1.lastValidLine = 1 ∧
      (Parse twoKeysLog readEnd.EOF 20).1.headers "b" = some 1 ∧
      ((Parse twoKeysLog readEnd.EOF 20).1.lastValidLine =
          maxLine 0 (headerDecls twoKeysLog readEnd.EOF) ∧
        (Parse twoKeysLog readEnd.EOF 20).1.headers =
          headerTable (fun _ => none) (headerDecls twoKeysLog readEnd.EOF) ∧
        (headerDecls twoKeysLog readEnd.EOF).length =
          (Parse twoKeysLog readEnd.EOF 1).1.headerTotal.toNat ∧
        0 < (Parse twoKeysLog readEnd.EOF 1).1.headerTotal ∧
        (∀ d ∈ headerDecls twoKeysLog readEnd.EOF,
          d.2 ≤ (Parse twoKeysLog readEnd.EOF 20).1.lastValidLine) ∧
        (0 = (Parse twoKeysLog readEnd.EOF 20).1.lastValidLine ∨
          ∃ d ∈ headerDecls twoKeysLog readEnd.EOF,
            d.2 = (Parse twoKeysLog readEnd.EOF 20).1.lastValidLine) ∧
        (((headerDecls twoKeysLog readEnd.EOF).map Prod.fst).Nodup →
          (∀ d ∈ headerDecls twoKeysLog readEnd.EOF, 0 ≤ d.2) →
          (∀ k v, (Parse twoKeysLog readEnd.EOF 20).1.headers k = some v →
            v ≤ (Parse twoKeysLog readEnd.EOF 20).1.lastValidLine) ∧
          ∃ k, (Parse twoKeysLog readEnd.EOF 20).1.headers k =
            some (Parse twoKeysLog readEnd.EOF 20).1.lastValidLine)) :=
  ⟨by decide, by decide, by decide, by decide, by decide, by decide,
    C24_lastValidLine_is_max_over_header_lines twoKeysLog readEnd.EOF 20 (by decide)⟩

/-- C22 (the code at the failing interleaving): let `Quit` be called while the
validator waits in `emit` for the caller to take an event.  The waiting `emit` cannot
send, takes its `quit` case and closes `p.events`; the caller's next `NextEvent` then
either receives the zero `Event` from the closed channel or panics closing it again,
and in neither case returns `EventQuit`.  If `NextEvent` runs first it returns
`EventQuit` and closes `p.events`, and the waiting `emit` panics.  On the scanner's
side `nextToken` returns `tokenQuit` and closes `l.tokens`, after which `lexer.emit`
may panic.  What holds: once `quit` is closed none of the four hand-offs blocks, and
`EventQuit` is neither `EventError` nor `EventCompleted`. -/
theorem C22_hand_offs_after_Quit :
    AOFParser.Quit ⟨false, false, false⟩ = result.returns () ⟨true, false, false⟩ ∧
      AOFParser.emitSelect ⟨true, false, false⟩ false =
        [result.returns false ⟨true, false, true⟩] ∧
      AOFParser.NextEvent ⟨true, false, true⟩ none =
        [result.returns ⟨0, "", 0, false⟩ ⟨true, false, true⟩, result.panics] ∧
      (∀ r ∈ AOFParser.NextEvent ⟨true, false, true⟩ none,
        ∀ c, r ≠ result.returns (newEvent EventQuit) c) ∧
      AOFParser.NextEvent ⟨true, false, false⟩ none =
        [result.returns (newEvent EventQuit) ⟨true, false, true⟩] ∧
      AOFParser.emitSelect ⟨true, false, true⟩ false = [result.panics, result.panics] ∧
      lexer.nextToken ⟨true, false, false⟩ none =
        [result.returns ⟨tokenQuit, ""⟩ ⟨true, true, false⟩] ∧
      lexer.emit ⟨true, true, false⟩ false = [result.panics, result.returns false ⟨true, true, false⟩] ∧
      lexer.nextToken ⟨true, true, false⟩ none =
        [result.panics, result.returns ⟨tokenError, ""⟩ ⟨true, true, false⟩] ∧
      (∀ a b r : Bool, result.blocks ∉ lexer.emit ⟨true, a, b⟩ r ∧
        result.blocks ∉ AOFParser.emitSelect ⟨true, a, b⟩ r ∧
        result.blocks ∉ lexer.nextToken ⟨true, a, b⟩ none ∧
        result.blocks ∉ AOFParser.NextEvent ⟨true, a, b⟩ none) ∧
      EventQuit ≠ EventError ∧ EventQuit ≠ EventCompleted := by
  refine ⟨rfl, rfl, rfl, ?_, rfl, rfl, rfl, rfl, rfl, by decide, by decide, by decide⟩
  intro r hr c hc
  subst hc
  revert hr
  cases c with
  | mk q t e => cases q <;> cases t <;> cases e <;> decide

set_option maxRecDepth 100000 in
/-- C23 fails as stated: on `"1\nk 1\nCREATE k 1 junk\n"` the run ends in
`aofBodyNextLine` with the message `ERROR at line 4: Unexpected token: tokenString,
expected one of [tokenEOL tokenEOF]`; the token read last is the text `junk`, the
tokens before it are those of the prefix `"1\nk 1\nCREATE k 1 "`, which holds two line
feeds: the token stands on line 3. -/
theorem C23_counterexample :
    (Parse trailingTextLog readEnd.EOF 6).2 = some parserStateFunc.aofBodyNextLine ∧
      (Parse trailingTextLog readEnd.EOF 7).2 = none ∧
      (Parse trailingTextLog readEnd.EOF 7).1.err =
        some "ERROR at line 4: Unexpected token: tokenString, expected one of [tokenEOL tokenEOF]" ∧
      trailingTextLog = "1\nk 1\nCREATE k 1 ".data ++ "junk\n".data ∧
      lexer.run trailingTextLog readEnd.EOF =
        [⟨tokenNumber, "1"⟩, ⟨tokenEOL, ""⟩, ⟨tokenString, "k"⟩, ⟨tokenSpace, ""⟩,
          ⟨tokenNumber, "1"⟩, ⟨tokenEOL, ""⟩, ⟨tokenString, "CREATE"⟩, ⟨tokenSpace, ""⟩,
          ⟨tokenString, "k"⟩, ⟨tokenSpace, ""⟩, ⟨tokenNumber, "1"⟩, ⟨tokenSpace, ""⟩] ++
          ⟨tokenString, "junk"⟩ :: (Parse trailingTextLog readEnd.EOF 7).1.toks ∧
      lexer.run "1\nk 1\nCREATE k 1 ".data readEnd.EOF =
        [⟨tokenNumber, "1"⟩, ⟨tokenEOL, ""⟩, ⟨tokenString, "k"⟩, ⟨tokenSpace, ""⟩,
          ⟨tokenNumber, "1"⟩, ⟨tokenEOL, ""⟩, ⟨tokenString, "CREATE"⟩, ⟨tokenSpace, ""⟩,
          ⟨tokenString, "k"⟩, ⟨tokenSpace, ""⟩, ⟨tokenNumber, "1"⟩, ⟨tokenSpace, ""⟩] ++
          [⟨tokenEOF, ""⟩] ∧
      1 + ("1\nk 1\nCREATE k 1 ".data).count '\n' = 3 := by
  decide

/-- C23 (amended): when the call of a state function emits the first error event of a
run and ends the loop of `Parse` without blocking, the input splits into the
characters scanned before the token the validator read last (scanned alone they give
the tokens before it) and the rest, and the stored message is `ERROR at line n: ...`
with `n` = 1 + the number of line feeds among the former; `n` is one more than that
when the state function is `aofBodyNextLine`, which has counted the body line before it
looks for its end. -/
theorem C23_error_line_counts_line_feeds (rd : List Char) (e : readEnd) (n : Nat)
    (s : parserStateFunc) (hs : (Parse rd e n).2 = some s)
    (h0 : errorCount (Parse rd e n).1.events = 0)
    (h1 : errorCount (Parse rd e (n + 1)).1.events = 1)
    (hh : (Parse rd e (n + 1)).2 = none)
    (hb : (Parse rd e (n + 1)).1.blocked = false) :
    ∃ (rd1 rd2 : List Char) (before : List token) (t : token) (msg : String),
      rd = rd1 ++ rd2 ∧ lexer.run rd1 readEnd.EOF = before ++ [⟨tokenEOF, ""⟩] ∧
        lexer.run rd e = before ++ t :: (Parse rd e (n + 1)).1.toks ∧ t.typ ≠ tokenSpace ∧
        (Parse rd e (n + 1)).1.err =
          some ("ERROR at line " ++
            fmtInt ((rd1.count '\n' : Int) +
              (if s = parserStateFunc.aofBodyNextLine then 2 else 1)) ++ ": " ++ msg) := by
  have hI := line_Parse rd e n h0
  rw [Parse_succ] at h1 hh hb ⊢
  cases hc : Parse rd e n with
  | mk p s1 =>
    rw [hc] at hs h0 h1 hh hb hI
    have hs1 : s1 = some s := hs
    subst hs1
    have h0p : errorCount p.events = 0 := h0
    obtain ⟨before, t, msg, hsplit, hsp, herr⟩ :=
      ((lineStep_call (lexer.run rd e) s p).2 hI).2 (by rw [h0p]; exact h1) hh hb
    obtain ⟨rd1, rd2, hrd, hrun, hcnt⟩ := run_before rd e before _ t hsplit hsp
    refine ⟨rd1, rd2, before, t, msg, hrd, hrun, hsplit, hsp, ?_⟩
    have hline : (countEOL before : Int) + 1 +
        (if s = parserStateFunc.aofBodyNextLine then 1 else 0) =
        (rd1.count '\n' : Int) + (if s = parserStateFunc.aofBodyNextLine then 2 else 1) := by
      rw [hcnt]
      split <;> omega
    rw [← hline]
    exact herr

set_option maxRecDepth 100000 in
/-- The amended C23 on `"1\nk 1\nCREATE k 1 junk\n"`, where `aofBodyNextLine` reports
the text after the operand. -/
theorem C23_error_line_counts_line_feeds_witness :
    (Parse trailingTextLog readEnd.EOF 6).2 = some parserStateFunc.aofBodyNextLine ∧
      errorCount (Parse trailingTextLog readEnd.EOF 6).1.events = 0 ∧
      errorCount (Parse trailingTextLog readEnd.EOF 7).1.events = 1 ∧
      (Parse trailingTextLog readEnd.EOF 7).2 = none ∧
      (Parse trailingTextLog readEnd.EOF 7).1.blocked = false ∧
      ∃ (rd1 rd2 : List Char) (before : List token) (t : token) (msg : String),
        trailingTextLog = rd1 ++ rd2 ∧
          lexer.run rd1 readEnd.EOF = before ++ [⟨tokenEOF, ""⟩] ∧
          lexer.run trailingTextLog readEnd.EOF =
            before ++ t :: (Parse trailingTextLog readEnd.EOF (6 + 1)).1.toks ∧
          t.typ ≠ tokenSpace ∧
          (Parse trailingTextLog readEnd.EOF (6 + 1)).1.err =
            some ("ERROR at line " ++
              fmtInt ((rd1.count '\n' : Int) +
                (if parserStateFunc.aofBodyNextLine = parserStateFunc.aofBodyNextLine
                  then 2 else 1)) ++ ": " ++ msg) :=
  ⟨by decide, by decide, by decide, by decide, by decide,
    C23_error_line_counts_line_feeds trailingTextLog readEnd.EOF 6
      parserStateFunc.aofBodyNextLine (by decide) (by decide) (by decide) (by decide)
      (by decide)⟩

end aof
